import Mathlib

/-!
# pasm: the pumpkin-cpu assembler (src/pasm.c), embedded and verified

The assembler keeps all of its state in C globals; the embedding passes them
explicitly as one record `Asm`.  Conventions of the embedding:

* Source text is `List Char`; a C string is the run of characters up to the
  first NUL.  `line[]` is kept as a buffer that survives from one `fgets` to the
  next, and words are offsets into it, as the pointers of `words[]` are.
* `int` holds 32 bits and `long` holds 32 bits (the source includes `conio.h`,
  a header of the Windows/DOS toolchains, where `long` is 32 bits wide); so
  `(int)strtol(..)` is the saturated value of `strtol`.
* Counters and addresses (`currentAddress`, `endAddress`, `wordCount`, ...) never
  become negative in the program and are `Nat`; values that can be negative
  (`dup`, immediate values, memory words, the entries of `buffer[]`) are `Int`.
* The plain `char` is signed (as for the compilers that have `conio.h`): the
  `int` value of a byte of 0x80 or more is negative.
* An array is a list; a read past its end gives the default (0 / NUL) and a
  store past its end is dropped.  C leaves both undefined.
* Every `printf` of an error is recorded, in order, in `log`.
-/

namespace Pasm

/-! ## Constants of the source -/

def MAX_MEMORY_SIZE : Nat := 4096
def MAX_LABEL_NAME_LENGTH : Nat := 64
def MAX_LABELS : Nat := 500
def MAX_IMMEDIATES : Nat := 500
def MAX_LINE_LENGTH : Nat := 256
def MAX_WORDS_ON_LINE : Nat := 5
def NUMBER_OF_INSTRUCTIONS : Nat := 16
def DB_DW_BUFFER_SIZE : Nat := 256
/-- The value of `sizeof(buffer)`: 256 elements of a 4-byte `int`. -/
def SIZEOF_BUFFER : Nat := 1024
/-- The largest `long` (32 bits). -/
def LONG_MAX : Nat := 2147483647

def instructions : List (List Char) :=
  ["LOAD", "STORE", "ADD", "SUB", "OR", "AND", "XOR", "ROR", "SWAP", "IN", "OUT",
   "BR", "BNC", "BNZ", "CALL", "RETURN"].map String.toList

/-! ## Characters and C strings -/

def NUL : Char := Char.ofNat 0
def QUOTE : Char := Char.ofNat 34
def NEWLINE : Char := Char.ofNat 10

/-- The `isspace` of the C locale: space, and the controls 9..13. -/
def isspace (c : Char) : Bool := c.toNat == 32 || (9 ≤ c.toNat && c.toNat ≤ 13)
def isdigit (c : Char) : Bool := 48 ≤ c.toNat && c.toNat ≤ 57
def isalpha (c : Char) : Bool :=
  (65 ≤ c.toNat && c.toNat ≤ 90) || (97 ≤ c.toNat && c.toNat ≤ 122)
def isalnum (c : Char) : Bool := isalpha c || isdigit c

/-- The C string that starts at the head of `l`: everything before the first NUL. -/
def cstr : List Char → List Char
  | [] => []
  | c :: cs => if c = NUL then [] else c :: cstr cs

/-- The C string at offset `p` of a buffer. -/
def cstrAt (buf : List Char) (p : Nat) : List Char := cstr (buf.drop p)

def strlen (l : List Char) : Nat := (cstr l).length

/-! ## strtol with base 0 -/

/-- Value of a character as a digit (any base up to 36), as `strtol` reads it. -/
def digitVal (c : Char) : Option Nat :=
  if 48 ≤ c.toNat ∧ c.toNat ≤ 57 then some (c.toNat - 48)
  else if 97 ≤ c.toNat ∧ c.toNat ≤ 122 then some (c.toNat - 87)
  else if 65 ≤ c.toNat ∧ c.toNat ≤ 90 then some (c.toNat - 55)
  else none

/-- Reads the longest run of digits of `base`; gives the number read so far and
how many characters were taken. -/
def scanDigits (base : Nat) : List Char → Nat → Nat → Nat × Nat
  | [], acc, n => (acc, n)
  | c :: cs, acc, n =>
    match digitVal c with
    | some d => if d < base then scanDigits base cs (acc * base + d) (n + 1) else (acc, n)
    | none => (acc, n)

def skipSpaces : List Char → Nat → List Char × Nat
  | [], n => ([], n)
  | c :: cs, n => if isspace c then skipSpaces cs (n + 1) else (c :: cs, n)

def isHexDigit (c : Char) : Bool :=
  match digitVal c with
  | some d => d < 16
  | none => false

/-- After blanks and sign: base and digits.  `0x`/`0X` followed by a hex digit
starts a hexadecimal number, another leading `0` an octal one. -/
def scanNumber (l : List Char) : Nat × Nat :=
  match l with
  | c0 :: cx :: ch :: rest =>
    if c0 = '0' ∧ (cx = 'x' ∨ cx = 'X') ∧ isHexDigit ch = true then
      scanDigits 16 (ch :: rest) 0 2
    else if c0 = '0' then scanDigits 8 l 0 0
    else scanDigits 10 l 0 0
  | c0 :: _ => if c0 = '0' then scanDigits 8 l 0 0 else scanDigits 10 l 0 0
  | [] => (0, 0)

/-- The call `strtol(s, &end, 0)`: the value, saturated to the range of `long`,
and `end - s`, the number of characters consumed (0 when there is no number). -/
def strtol (s : List Char) : Int × Nat :=
  let (l, k) := skipSpaces (cstr s) 0
  let (neg, l1, k1) :=
    match l with
    | c :: cs => if c = '-' then (true, cs, k + 1) else if c = '+' then (false, cs, k + 1)
                 else (false, l, k)
    | [] => (false, l, k)
  let (v, n) := scanNumber l1
  if n = 0 then (0, 0)
  else if neg then (if v ≤ LONG_MAX + 1 then -(v : Int) else -((LONG_MAX : Int) + 1), k1 + n)
  else (((min v LONG_MAX : Nat) : Int), k1 + n)

/-! ## The state -/

/-- The text of each error `printf` of the source. -/
inductive Msg
  | tooManyWords          -- "too many words"
  | noClosingQuote        -- "no closing \""
  | labelTooLong          -- "label too long"
  | reservedWord (w : List Char) -- "reserved word %s found in column 1"
  | labelDefined (w : List Char) -- "label %s already defined"
  | tooManyLabels         -- "too many labels"
  | orgExpectsValue       -- "ORG expects a single numeric value"
  | syntaxError           -- "syntax"
  | orgPrecedes           -- "ORG preceeds current address"
  | orgExceeds            -- "ORG exceeds memory size"
  | dupExceeds            -- "DUP exceeds maximum"
  | dbValueExceeds        -- "DB value exceeds 255"
  | nopParameters         -- "NOP does not take parameters"
  | dbExpects             -- "DB expects one or more values"
  | dbSingleByte          -- "can only duplicate a single byte"
  | dbTooMuch             -- "too much data for DB"
  | dbExceedsMemory       -- "DB exceeds remaining memory"
  | dwValueExceeds        -- "DW value exceeds 65536"
  | failedResolve         -- "failed to resolve label"
  | dwExpects             -- "DW expects one or more values"
  | dwSingleWord          -- "can only duplicate a single word"
  | dwTooMuch             -- "too much data for DW"
  | dwExceedsMemory       -- "DW exceeds remaining memory"
  | tooManyImmediates     -- "too many immediates"
  | operandNotValid       -- "operand not valid for RETURN instruction"
  | expectsOperand        -- "instruction expects an operand"
  deriving DecidableEq, Repr

/-- One line of error output: "Error line %d: ..." or "Error: Program too big
for memory". -/
inductive Out
  | err (lineNo : Nat) (m : Msg)
  | programTooBig
  deriving DecidableEq, Repr

structure label_t where
  name : List Char
  value : Nat
  deriving DecidableEq, Repr

structure immediate_t where
  value : Int
  address : Nat
  deriving DecidableEq, Repr

/-- The globals of pasm.c. -/
structure Asm where
  memorySize : Nat
  memoryImage : List Int
  currentAddress : Nat
  endAddress : Nat
  currentLine : Nat
  immediates : List immediate_t
  labels : List label_t
  errorCount : Nat
  line : List Char
  words : List Nat
  wordCount : Nat
  buffer : List Int
  bufferIndex : Nat
  dup : Int
  pass : Nat
  log : List Out
  deriving DecidableEq, Repr

/-- The globals as the C runtime initialises them (all zero), with the memory
size chosen by `main`. -/
def Asm.initial (memorySize : Nat) : Asm :=
  { memorySize := memorySize
    memoryImage := List.replicate MAX_MEMORY_SIZE 0
    currentAddress := 0
    endAddress := 0
    currentLine := 0
    immediates := []
    labels := []
    errorCount := 0
    line := List.replicate (MAX_LINE_LENGTH + 1) NUL
    words := List.replicate MAX_WORDS_ON_LINE 0
    wordCount := 0
    buffer := List.replicate DB_DW_BUFFER_SIZE 0
    bufferIndex := 0
    dup := 0
    pass := 0
    log := [] }

def Asm.numLabels (s : Asm) : Nat := s.labels.length
def Asm.numImmediates (s : Asm) : Nat := s.immediates.length

/-- The statement pair `printf("Error line %d: ...", currentLine); errorCount++;`. -/
def Asm.error (s : Asm) (m : Msg) : Asm :=
  { s with log := s.log ++ [Out.err s.currentLine m], errorCount := s.errorCount + 1 }

/-- A `printf("Error line %d: ...")` that is not followed by `errorCount++`. -/
def Asm.print (s : Asm) (m : Msg) : Asm :=
  { s with log := s.log ++ [Out.err s.currentLine m] }

/-- The string `words[k]`. -/
def Asm.word (s : Asm) (k : Nat) : List Char := cstrAt s.line (s.words.getD k 0)

/-- The character `line[i]`. -/
def Asm.at (s : Asm) (i : Nat) : Char := s.line.getD i NUL

/-- The store `memoryImage[a] = v`. -/
def Asm.store (s : Asm) (a : Nat) (v : Int) : Asm :=
  { s with memoryImage := s.memoryImage.set a v }

/-! ## splitLine -/

/-- The check after the loop of `splitLine`: are quotes still open? -/
def splitEnd (quote : Bool) (s : Asm) : Asm :=
  if quote then { s.error Msg.noClosingQuote with wordCount := 0 } else s

/-- The `for` loop of `splitLine` from index `i` on, `fuel` being
`lineLength - i`. -/
def splitLoop : Nat → Nat → Bool → Bool → Asm → Asm
  | 0, _, _, quote, s => splitEnd quote s
  | fuel + 1, i, nextWord, quote, s =>
    let c := s.at i
    if c = NUL ∨ c = ';' then splitEnd quote s
    else
      let quote := if c = QUOTE then !quote else quote
      if nextWord ∧ ¬ isspace c then
        let s := { s with words := s.words.set s.wordCount i, wordCount := s.wordCount + 1 }
        if s.wordCount > MAX_WORDS_ON_LINE then
          { s.error Msg.tooManyWords with wordCount := 0 }
        else splitLoop fuel (i + 1) false quote s
      else if ¬ nextWord ∧ isspace c ∧ ¬ quote then
        splitLoop fuel (i + 1) true quote { s with line := s.line.set i NUL }
      else splitLoop fuel (i + 1) nextWord quote s

def splitLine (s : Asm) : Asm :=
  splitLoop (strlen s.line) 0 true false { s with wordCount := 0 }

/-- What `fgets(line, sizeof(line), fp)` leaves in `line[]` after reading the
characters `chunk`: the characters, a NUL, and the old contents behind. -/
def fgetsInto (chunk : List Char) (s : Asm) : Asm :=
  { s with line := chunk ++ NUL :: s.line.drop (chunk.length + 1) }

/-! ## Instructions and labels -/

def getInstructionFrom : List (List Char) → Nat → List Char → Option Nat
  | [], _, _ => none
  | m :: ms, i, word => if m = cstr word then some i else getInstructionFrom ms (i + 1) word

/-- Opcode (0 to 15) of `word`, or `none` (the source's -1) if it is not an
instruction. -/
def getInstruction (word : List Char) : Option Nat := getInstructionFrom instructions 0 word

def findLabelIn : List label_t → List Char → Option Nat
  | [], _ => none
  | l :: ls, word => if l.name = cstr word then some l.value else findLabelIn ls word

/-- Value of the label `word`, or `none` (the source's -1) if it does not exist. -/
def findLabel (s : Asm) (word : List Char) : Option Nat := findLabelIn s.labels word

def isReserved (w : List Char) : Bool :=
  (getInstruction w).isSome || cstr w = "ORG".toList || cstr w = "DUP".toList ||
  cstr w = "DW".toList || cstr w = "DB".toList || cstr w = "NOP".toList

def addLabel (newLabel : List Char) (s : Asm) : Bool × Asm :=
  if strlen newLabel > MAX_LABEL_NAME_LENGTH then (false, s.print Msg.labelTooLong)
  else if isReserved newLabel then (false, s.print (Msg.reservedWord (cstr newLabel)))
  else if (findLabelIn s.labels newLabel).isSome then
    (false, s.print (Msg.labelDefined (cstr newLabel)))
  else if s.numLabels ≥ MAX_LABELS then (false, s.print Msg.tooManyLabels)
  else (true, { s with labels := s.labels ++ [label_t.mk (cstr newLabel) s.currentAddress] })

/-- The `for` loop of `firstWordLabel` from index `i` on, `fuel` being
`MAX_LABEL_NAME_LENGTH - i`. -/
def firstWordLabelLoop : Nat → Nat → Asm → Bool × Asm
  | 0, _, s => (false, s)
  | fuel + 1, i, s =>
    let c := s.at (s.words.getD 0 0 + i)
    if c = NUL then
      match addLabel (s.word 0) s with
      | (false, s1) => (false, { s1 with errorCount := s1.errorCount + 1, wordCount := 0 })
      | (true, s1) => (true, s1)
    else if ¬ isalnum c ∧ c ≠ '_' then (false, s)
    else firstWordLabelLoop fuel (i + 1) s

def firstWordLabel (s : Asm) : Bool × Asm :=
  if isalpha (s.at 0) then firstWordLabelLoop MAX_LABEL_NAME_LENGTH 0 s else (false, s)

/-! ## ORG, DUP, NOP -/

def parseORG (firstWord : Nat) (s : Asm) : Asm :=
  if s.wordCount ≠ firstWord + 2 ∨ ¬ isdigit ((s.word (firstWord + 1)).getD 0 NUL) then
    s.error Msg.orgExpectsValue
  else
    let (orgValue, n) := strtol (s.word (firstWord + 1))
    if (s.word (firstWord + 1)).getD n NUL ≠ NUL then s.error Msg.syntaxError
    else if orgValue < (s.currentAddress : Int) then s.error Msg.orgPrecedes
    else if orgValue ≥ (s.memorySize : Int) then s.error Msg.orgExceeds
    else { s with currentAddress := orgValue.toNat }

/-- The assignment `dup = d`. -/
def Asm.setDup (s : Asm) (d : Int) : Asm := { s with dup := d }

/-- The comparison `dup > sizeof(buffer)` converts `dup` to the unsigned
`size_t`, so a negative `dup` compares as a huge number. -/
def dupTooLarge (dup : Int) : Bool := dup < 0 || dup > (SIZEOF_BUFFER : Int)

def parseDUP (firstWord : Nat) (s : Asm) : Bool × Asm :=
  if s.wordCount = firstWord + 2 then (true, s.setDup 0)
  else if s.wordCount = firstWord + 4 ∧ s.word (firstWord + 2) = "DUP".toList then
    let (d, n) := strtol (s.word (firstWord + 3))
    if (s.word (firstWord + 3)).getD n NUL = NUL then
      if dupTooLarge d then (false, (s.setDup d).error Msg.dupExceeds) else (true, s.setDup d)
    else (false, (s.setDup d).error Msg.syntaxError)
  else (false, s.error Msg.syntaxError)

def parseNOP (firstWord : Nat) (s : Asm) : Asm :=
  if firstWord + 1 ≠ s.wordCount then s.error Msg.nopParameters
  else
    { s.store s.currentAddress ((0xB000 + s.currentAddress + 1 : Nat) : Int) with
      currentAddress := s.currentAddress + 1 }

/-! ## DB -/

/-- The statement `if(bufferIndex < DB_DW_BUFFER_SIZE) buffer[bufferIndex++] = v;`. -/
def pushByte (v : Int) (s : Asm) : Asm :=
  if s.bufferIndex < DB_DW_BUFFER_SIZE then
    { s with buffer := s.buffer.set s.bufferIndex v, bufferIndex := s.bufferIndex + 1 }
  else s

/-- The value `(int)*ptr` of a character of the source text, which stands for
the byte of its code.  The plain `char` is signed, as it is for the compilers
that have the header `conio.h`: a byte of 0x80 or more is a negative `int`. -/
def charCode (c : Char) : Int :=
  if c.toNat < 128 then (c.toNat : Int) else (c.toNat : Int) - 256

/-- The `do ... while(1)` of `parseDB2` that copies a string to the buffer;
entered with `ptr` at the opening quote, returns `ptr` at the character that
ended the copy.  Each turn moves `ptr` one cell on and stops at a NUL, so as
many turns as `line[]` has cells behind `ptr` are enough. -/
def dbCopyString : Nat → Nat → Asm → Nat × Asm
  | 0, ptr, s => (ptr + 1, s)
  | fuel + 1, ptr, s =>
    let ptr := ptr + 1
    let c := s.at ptr
    if c = NUL ∨ c = QUOTE then (ptr, s)
    else dbCopyString fuel ptr (pushByte (charCode c) s)

/-- The exit of `parseDB2` through "Error line %d: syntax". -/
def dbSyntaxError (s : Asm) : Asm :=
  { (s.print Msg.syntaxError) with bufferIndex := 0, errorCount := s.errorCount + 1 }

/-- The `if(*ptr = '\"')` part of the loop body of `parseDB2`: the assignment
stores a quote over `*ptr` and is always true.  The result is the state and,
when the loop is to `continue`, the new `ptr`. -/
def dbStringPart (ptr : Nat) (s : Asm) : Asm × Option Nat :=
  let s := { s with line := s.line.set ptr QUOTE }
  let (p, s) := dbCopyString s.line.length ptr s
  if s.at p = QUOTE then
    if s.at (p + 1) = ',' then (s, some (p + 2))
    else if s.at (p + 1) = NUL then (s, none)
    else (dbSyntaxError s, none)
  else (dbSyntaxError s, none)

/-- The `while(1)` loop of `parseDB2` with `ptr` at the start of an element.
Every turn that continues moves `ptr` at least one cell on. -/
def parseDB2Loop : Nat → Nat → Asm → Asm
  | 0, _, s => dbSyntaxError s
  | fuel + 1, ptr, s =>
    let viaString :=
      match dbStringPart ptr s with
      | (s1, some p) => parseDB2Loop fuel p s1
      | (s1, none) => s1
    if isdigit (s.at ptr) then
      let (value, n) := strtol (s.line.drop ptr)
      let e := s.at (ptr + n)
      if e = NUL ∨ e = ',' then
        if value < 256 then
          let s1 := pushByte value s
          if e = NUL then s1 else parseDB2Loop fuel (ptr + n + 1) s1
        else
          { (s.print Msg.dbValueExceeds) with bufferIndex := 0, errorCount := s.errorCount + 1 }
      else viaString
    else viaString

/-- The call `parseDB2(words[k])`; the value returned is `bufferIndex`. -/
def parseDB2 (k : Nat) (s : Asm) : Asm :=
  parseDB2Loop (s.line.length + 1) (s.words.getD k 0) { s with bufferIndex := 0 }

/-- The loop `for(i=1;i<dup;i++)` of `parseDB` and `parseDW`, `n` turns. -/
def dupLoop : Nat → Asm → Asm
  | 0, s => s
  | n + 1, s =>
    let s1 := if s.bufferIndex < DB_DW_BUFFER_SIZE then
        { s with buffer := s.buffer.set s.bufferIndex (s.buffer.getD 0 0) } else s
    dupLoop n { s1 with bufferIndex := s1.bufferIndex + 1 }

/-- The value `(hi << 8)|(lo)` of two `int`s; `hi << 8` is `hi * 256`, also for
a negative `hi`, and the bitwise or of a negative `int` is that of its two's
complement. -/
def packInts (hi lo : Int) : Int := Int.lor (hi * 256) lo

/-- The loop `for(i=0;i<bufferIndex;i+=2)` of `parseDB`, `n` turns from `i`. -/
def dbStoreLoop : Nat → Nat → Asm → Asm
  | 0, _, s => s
  | n + 1, i, s =>
    dbStoreLoop n (i + 2)
      { s.store s.currentAddress (packInts (s.buffer.getD i 0) (s.buffer.getD (i + 1) 0))
        with currentAddress := s.currentAddress + 1 }

/-- The padding of `parseDB`: `if(bufferIndex%2) buffer[bufferIndex++] = 0;`. -/
def padBuffer (s : Asm) : Asm :=
  if s.bufferIndex % 2 = 1 then
    { s with buffer := s.buffer.set s.bufferIndex 0, bufferIndex := s.bufferIndex + 1 }
  else s

/-- The part of `parseDB` and `parseDW` under `if(dup > 0)`, once the check
`bufferIndex > 1` has passed. -/
def duplicate (s : Asm) : Asm :=
  if s.dup > 0 then dupLoop (s.dup.toNat - 1) s else s

/-- The end of `parseDB`, from the check for data overflow on: the check, the
padding, the check that the data fit into memory, and the copy to the memory
image. -/
def dbEmit (s3 : Asm) : Asm :=
  if s3.bufferIndex > DB_DW_BUFFER_SIZE then s3.error Msg.dbTooMuch
  else
    let s4 := padBuffer s3
    if s4.currentAddress + s4.bufferIndex / 2 > s4.memorySize then
      s4.error Msg.dbExceedsMemory
    else dbStoreLoop (s4.bufferIndex / 2) 0 s4

def parseDB (firstWord : Nat) (s : Asm) : Asm :=
  if s.wordCount < firstWord + 2 then s.error Msg.dbExpects
  else
    match parseDUP firstWord s with
    | (false, s1) => s1
    | (true, s1) =>
      let s2 := parseDB2 (firstWord + 1) s1
      if s2.bufferIndex = 0 then s2
      else if s2.dup > 0 ∧ s2.bufferIndex > 1 then s2.error Msg.dbSingleByte
      else dbEmit (duplicate s2)

/-! ## DW -/

/-- The exit of `parseDB2`/`parseDW2` through an error message `m`:
`printf(..); bufferIndex = 0; errorCount++; break;`. -/
def bufferError (m : Msg) (s : Asm) : Asm :=
  { (s.print m) with bufferIndex := 0, errorCount := s.errorCount + 1 }

/-- The inner `while(1)` of `parseDW2` that copies a label to `string[]`, `fuel`
being `MAX_LABEL_NAME_LENGTH - stringIndex`.  Gives `string`, `ptr` and the
state; when the label is too long `string` is cleared and a NUL is stored at
`*ptr`. -/
def dwCopyLabel : Nat → Nat → List Char → Asm → List Char × Nat × Asm
  | 0, ptr, _, s => ([], ptr, { s with line := s.line.set ptr NUL })
  | fuel + 1, ptr, string, s =>
    let c := s.at ptr
    if c = NUL ∨ c = ',' then (string, ptr, s)
    else dwCopyLabel fuel (ptr + 1) (string ++ [c]) s

/-- The part of `parseDW2` that follows the copy of a label, under
`if(pass==1) .. else ..`: pass 1 counts the element, pass 2 resolves the label
(when there is room in the buffer) and stores its value.  The flag is false
when the label was not found ("failed to resolve label"). -/
def dwResolve (string : List Char) (s1 : Asm) : Asm × Bool :=
  if s1.pass = 1 then ({ s1 with bufferIndex := s1.bufferIndex + 1 }, true)
  else if s1.bufferIndex < DB_DW_BUFFER_SIZE then
    match findLabel s1 string with
    | none => (bufferError Msg.failedResolve s1, false)
    | some value =>
      ({ s1 with buffer := s1.buffer.set s1.bufferIndex (value : Int),
                 bufferIndex := s1.bufferIndex + 1 }, true)
  else ({ s1 with bufferIndex := s1.bufferIndex + 1 }, true)

/-- The check for more data on the line at the end of the label part of
`parseDW2`: finished at a NUL, else `ptr` moves past the comma. -/
def dwMore (p : Nat) (s : Asm) : Asm × Option Nat :=
  if s.at p = NUL then (s, none) else (s, some (p + 1))

/-- The `if(isalpha(*ptr))` part of the loop body of `parseDW2`.  The result is
the state and, when the loop is to `continue`, the new `ptr`. -/
def dwLabelPart (ptr : Nat) (s : Asm) : Asm × Option Nat :=
  match dwResolve (dwCopyLabel MAX_LABEL_NAME_LENGTH ptr [] s).1
      (dwCopyLabel MAX_LABEL_NAME_LENGTH ptr [] s).2.2 with
  | (s2, true) => dwMore (dwCopyLabel MAX_LABEL_NAME_LENGTH ptr [] s).2.1 s2
  | (s2, false) => (s2, none)

/-- The statements
`if(bufferIndex < DB_DW_BUFFER_SIZE) buffer[bufferIndex] = v; bufferIndex++;`
of `parseDW2`. -/
def pushWord (v : Int) (s : Asm) : Asm :=
  { s with
    buffer := if s.bufferIndex < DB_DW_BUFFER_SIZE then s.buffer.set s.bufferIndex v else s.buffer,
    bufferIndex := s.bufferIndex + 1 }

/-- The `while(1)` loop of `parseDW2` with `ptr` at the start of an element.
Every turn that continues moves `ptr` at least one cell on. -/
def parseDW2Loop : Nat → Nat → Asm → Asm
  | 0, _, s => bufferError Msg.syntaxError s
  | fuel + 1, ptr, s =>
    let viaLabel :=
      if isalpha (s.at ptr) then
        match dwLabelPart ptr s with
        | (s1, some p) => parseDW2Loop fuel p s1
        | (s1, none) => s1
      else bufferError Msg.syntaxError s
    if isdigit (s.at ptr) then
      let (value, n) := strtol (s.line.drop ptr)
      let e := s.at (ptr + n)
      if e = NUL ∨ e = ',' then
        if value < 65536 then
          let s2 := pushWord value s
          if e = NUL then s2 else parseDW2Loop fuel (ptr + n + 1) s2
        else bufferError Msg.dwValueExceeds s
      else viaLabel
    else viaLabel

/-- The call `parseDW2(words[k])`; the value returned is `bufferIndex`. -/
def parseDW2 (k : Nat) (s : Asm) : Asm :=
  parseDW2Loop (s.line.length + 1) (s.words.getD k 0) { s with bufferIndex := 0 }

/-- The loop `for(i=0;i<bufferIndex;i++)` of `parseDW`, `n` turns from `i`. -/
def dwStoreLoop : Nat → Nat → Asm → Asm
  | 0, _, s => s
  | n + 1, i, s =>
    dwStoreLoop n (i + 1)
      { s.store s.currentAddress (s.buffer.getD i 0)
        with currentAddress := s.currentAddress + 1 }

/-- The end of `parseDW`, from the check for data overflow on: the check, the
check that the data fit into memory, and the copy to the memory image. -/
def dwEmit (s3 : Asm) : Asm :=
  if s3.bufferIndex > DB_DW_BUFFER_SIZE then s3.error Msg.dwTooMuch
  else if s3.currentAddress + s3.bufferIndex > s3.memorySize then
    s3.error Msg.dwExceedsMemory
  else dwStoreLoop s3.bufferIndex 0 s3

def parseDW (firstWord : Nat) (s : Asm) : Asm :=
  if s.wordCount < firstWord + 2 then s.error Msg.dwExpects
  else
    match parseDUP firstWord s with
    | (false, s1) => s1
    | (true, s1) =>
      let s2 := parseDW2 (firstWord + 1) s1
      if s2.bufferIndex = 0 then s2
      else if s2.dup > 0 ∧ s2.bufferIndex > 1 then s2.error Msg.dwSingleWord
      else dwEmit (duplicate s2)

/-! ## Immediates and instructions -/

/-- The value of `getImmediateValue(operand, &value)`: `some value` when it
returns true. -/
def getImmediateValue (operand : List Char) : Option Int :=
  if strlen operand > 0 then
    let (value, n) := strtol operand
    if (cstr operand).getD n NUL = NUL then some value else none
  else none

def findImmediate : List immediate_t → Int → Option Nat
  | [], _ => none
  | i :: is, value => if i.value = value then some i.address else findImmediate is value

def resolveImmediate (value : Int) (s : Asm) : Nat × Asm :=
  match findImmediate s.immediates value with
  | some a => (a, s)
  | none =>
    if s.numImmediates ≥ MAX_IMMEDIATES then (0, s.error Msg.tooManyImmediates)
    else
      let s1 := { s with immediates := s.immediates ++ [immediate_t.mk value s.endAddress] }
      let s2 := if s1.endAddress < s1.memorySize then s1.store s1.endAddress value else s1
      (s2.endAddress, { s2 with endAddress := s2.endAddress + 1 })

/-- The body of `while(operandCount)` in `parseInstruction`, which runs once:
gives the new `instruction` and the state. -/
def parseOperand (instruction : Nat) (operand : List Char) (s : Asm) : Nat × Asm :=
  let viaLabel : Nat × Asm :=
    match findLabel s operand with
    | some value => (instruction ||| value, s)
    | none => (instruction, s.error Msg.syntaxError)
  let viaAt : Nat × Asm :=
    if operand.getD 0 NUL = '@' then
      match findLabel s (operand.drop 1) with
      | some value => let (a, s1) := resolveImmediate value s; (instruction ||| a, s1)
      | none => viaLabel
    else viaLabel
  if operand.getD 0 NUL = '#' then
    match getImmediateValue (operand.drop 1) with
    | some value => let (a, s1) := resolveImmediate value s; (instruction ||| a, s1)
    | none => viaAt
  else viaAt

def parseInstruction (instruction operandCount : Nat) (operand : List Char) (s : Asm) : Asm :=
  if instruction = 15 ∧ operandCount > 0 then s.error Msg.operandNotValid
  else if instruction ≠ 15 ∧ operandCount ≠ 1 then s.error Msg.expectsOperand
  else
    let instruction := instruction <<< 12
    let (instruction, s1) :=
      if operandCount ≠ 0 then parseOperand instruction operand s else (instruction, s)
    s1.store s1.currentAddress (instruction : Int)

/-! ## assembleLine and assemble -/

/-- The chain of tests on `words[thisWord]` at the head of the loop body of
`assembleLine`; `none` when the word is neither an instruction nor a directive. -/
def dispatch (thisWord : Nat) (s : Asm) : Option Asm :=
  match getInstruction (s.word thisWord) with
  | some instruction =>
    let s1 := if s.pass = 2 then
        parseInstruction instruction (s.wordCount - thisWord - 1) (s.word (thisWord + 1)) s
      else s
    some { s1 with currentAddress := s1.currentAddress + 1 }
  | none =>
    if s.word thisWord = "ORG".toList then some (parseORG thisWord s)
    else if s.word thisWord = "DB".toList then some (parseDB thisWord s)
    else if s.word thisWord = "DW".toList then some (parseDW thisWord s)
    else if s.word thisWord = "NOP".toList then some (parseNOP thisWord s)
    else none

/-- The second turn of the loop of `assembleLine`, with `thisWord = 1`. -/
def afterLabel (s : Asm) : Asm :=
  if s.wordCount > 1 then
    match dispatch 1 s with
    | some s1 => s1
    | none => s.error Msg.syntaxError
  else s

def assembleLine (s : Asm) : Asm :=
  match dispatch 0 s with
  | some s1 => s1
  | none =>
    let pass2 : Asm → Asm := fun s1 =>
      if s1.pass = 2 then
        if (findLabel s1 (s1.word 0)).isSome then afterLabel s1 else s1.error Msg.syntaxError
      else s1.error Msg.syntaxError
    if s.pass = 1 then
      match firstWordLabel s with
      | (true, s1) => afterLabel s1
      | (false, s1) => pass2 s1
    else pass2 s

/-- The successive results of `fgets(line, sizeof(line), fp)` on the text `src`:
each is a run of at most `MAX_LINE_LENGTH` characters that ends with the first
newline; `cur` holds, reversed, the characters of the run being read. -/
def fgetsAll : List Char → List Char → List (List Char)
  | [], cur => if cur = [] then [] else [cur.reverse]
  | c :: cs, cur =>
    if c = NEWLINE ∨ cur.length + 1 = MAX_LINE_LENGTH then (c :: cur).reverse :: fgetsAll cs []
    else fgetsAll cs (c :: cur)

/-- The body of `while(fgets(line,sizeof(line),fp))` in `assemble`. -/
def processLine (s : Asm) (chunk : List Char) : Asm :=
  let s1 := splitLine (fgetsInto chunk s)
  let s2 := if s1.wordCount > 0 then assembleLine s1 else s1
  { s2 with currentLine := s2.currentLine + 1 }

def runPass (s : Asm) (chunks : List (List Char)) : Asm := chunks.foldl processLine s

/-- The state at the start of the first pass. -/
def pass1Start (s : Asm) : Asm :=
  { s with labels := [], immediates := [], currentAddress := 0, errorCount := 0,
           currentLine := 1, pass := 1 }

/-- The state at the start of the second pass. -/
def pass2Start (s : Asm) : Asm :=
  { s with endAddress := s.currentAddress, currentLine := 1, currentAddress := 0,
           memoryImage := List.replicate MAX_MEMORY_SIZE 0, pass := 2 }

/-- The end of `assemble`: the check that the program fits. -/
def finish (s : Asm) : Asm :=
  if s.endAddress > s.memorySize then
    { s with log := s.log ++ [Out.programTooBig], errorCount := s.errorCount + 1 }
  else s

/-- The function `assemble` on a file of text `src`: the final state; the value
returned is `errorCount == 0`. -/
def assemble (src : List Char) (s : Asm) : Asm :=
  let chunks := fgetsAll src []
  let s1 := runPass (pass1Start s) chunks
  let s2 := if s1.errorCount = 0 then runPass (pass2Start s1) chunks else s1
  finish s2

/-! ## main -/

/-- The value of a comparison of C as an `int`: 1 for true and 0 for false. -/
def truth (b : Bool) : Int := if b then 1 else 0

/-- The test of `main` on the argument for the memory size, true when `main`
prints the usage and returns: `e` is the character `*endStrol` that `strtol`
stopped at and `memorySize` the value it read.  The test is
`*endStrol != 0 || memorySize & (memorySize-1) != 0 | memorySize < 32 || memorySize > 4096`
and in C `!=` and `<` bind tighter than `&`, which binds tighter than `|`, which
binds tighter than `||`. -/
def memSizeRefused (e : Char) (memorySize : Int) : Bool :=
  e ≠ NUL ||
    (Int.lor (Int.land memorySize (truth (memorySize - 1 ≠ 0))) (truth (memorySize < 32))) ≠ 0 ||
    memorySize > 4096

/-! ## Decimal literals -/

/-- The number a string of decimal digits denotes. -/
def decimalValue (w : List Char) : Nat := w.foldl (fun a c => a * 10 + (c.toNat - 48)) 0

/-- A decimal integer literal: a non-empty string of digits that does not
start with `0`, or the string `0` itself. -/
def isDecimalLiteral (w : List Char) : Bool :=
  w.all isdigit && (w == ['0'] || (w.head?.any (fun c => c != '0')))

/-! ## Sources used as examples -/

/-- The scenario "literal and label operands" of the specification. -/
def scenarioSource : List Char :=
  "START LOAD #10\n      STORE @START\n      RETURN\n".toList

/-- A `NOP` in the last word of a 4096-word memory. -/
def nopLastSource : List Char := " ORG 4095\n NOP\n".toList

/-- The line `LOAD X;c`: a comment that follows a word directly. -/
def commentLine : List Char := "LOAD X;c\n".toList

/-! ## Sequences of calls -/

/-- The calls `resolveImmediate(v)` for the values `vs`, one after the other. -/
def resolveAll (vs : List Int) (s : Asm) : Asm :=
  vs.foldl (fun t v => (resolveImmediate v t).2) s

/-- The state in pass 2, on a 32-word image with a code size of 3 words, after
the line ` LOAD #10` has been read and split. -/
def loadImmediateLine : Asm :=
  splitLine (fgetsInto " LOAD #10\n".toList { Asm.initial 32 with pass := 2, endAddress := 3 })

/-! ## Parts of the state -/

/-- The globals that the scanners of a `DB`/`DW` operand (`parseDB2`,
`parseDW2`) do not touch. -/
def Asm.frame (s : Asm) :
    Nat × List Int × Nat × Nat × Nat × List immediate_t × List label_t × List Nat × Nat ×
      Int × Nat :=
  (s.memorySize, s.memoryImage, s.currentAddress, s.endAddress, s.currentLine, s.immediates,
    s.labels, s.words, s.wordCount, s.dup, s.pass)

/-- The globals other than the memory image and `currentAddress`. -/
def Asm.noMem (s : Asm) : Asm := { s with memoryImage := [], currentAddress := 0 }

/-- The word that `parseDB` makes of two bytes: `(hi << 8) | lo`. -/
def packBytes (hi lo : Nat) : Nat := (hi <<< 8) ||| lo

/-- The state after the line ` DB "a\xE9"`, whose string holds the byte 0xE9,
has been read and split, on a 32-word image. -/
def dbHighCharLine : Asm :=
  splitLine (fgetsInto " DB \"a\xE9\"\n".toList (Asm.initial 32))

/-- The state after the line ` DW 7 DUP 5` has been read and split, on a 32-word
image. -/
def dwDupLine : Asm := splitLine (fgetsInto " DW 7 DUP 5\n".toList (Asm.initial 32))

/-! ## Relations between the states of the two passes -/

/-- The buffers `line[]` of two states have the same size and the same
characters below index `N`. -/
def agreeBelow (N : Nat) (a b : Asm) : Prop :=
  a.line.length = b.line.length ∧ ∀ i, i < N → a.at i = b.at i

/-- Two states have the same words: the same count, and the same offsets for
the words below the count. -/
def sameWords (a b : Asm) : Prop :=
  a.words.length = b.words.length ∧ a.wordCount = b.wordCount ∧
    ∀ k, k < a.wordCount → a.words.getD k 0 = b.words.getD k 0

/-- The buffer `line[]` holds only NULs from index `M` on. -/
def nulFrom (M : Nat) (s : Asm) : Prop := ∀ i, M ≤ i → s.at i = NUL

/-- The globals that `splitLine` does not touch. -/
def Asm.noSplit (s : Asm) : Asm :=
  { s with line := [], words := [], wordCount := 0, errorCount := 0, log := [] }

/-- The scan of an operand that starts at `p` stays below index `N` of `line[]`:
either the buffer ends there, or the cell `N - 1` holds a NUL, the cell before
it a NUL or a newline, and `p` lies before both. -/
def confined (N : Nat) (s : Asm) (p : Nat) : Prop :=
  s.line.length ≤ N ∨
    (p + 2 ≤ N ∧ s.at (N - 1) = NUL ∧ (s.at (N - 2) = NUL ∨ s.at (N - 2) = NEWLINE))

/-- The globals that no directive and no instruction changes (only the
declaration of a label and `splitLine` do): the memory size, the labels, the
words, the pass, the line number, and the size of `line[]`. -/
def Asm.fixed (s : Asm) : Nat × List label_t × List Nat × Nat × Nat × Nat × Nat :=
  (s.memorySize, s.labels, s.words, s.wordCount, s.pass, s.currentLine, s.line.length)

/-- The link between the state of pass 1 and the state of pass 2 while they
assemble the same line: buffers that agree below `N`, the same words, each in a
place where its scan is confined, the same `currentAddress` and memory size. -/
def linked (N : Nat) (a b : Asm) : Prop :=
  agreeBelow N a b ∧ sameWords a b ∧ a.currentAddress = b.currentAddress ∧
    a.memorySize = b.memorySize ∧ ∀ k, k < a.wordCount → confined N a (a.words.getD k 0)

/-- What a directive or instruction does to two linked states when pass 2
reports no error: buffers that still agree, the same new `currentAddress`, no
error in pass 1, and nothing changed in `line[]` from `N` on. -/
def advanced (N : Nat) (a b a1 b1 : Asm) : Prop :=
  agreeBelow N a1 b1 ∧ a1.currentAddress = b1.currentAddress ∧ a1.fixed = a.fixed ∧
    b1.fixed = b.fixed ∧ a1.errorCount = a.errorCount ∧
    ∀ i, N ≤ i → a1.at i = a.at i ∧ b1.at i = b.at i

/-- What a line does to the states of the two passes when neither reports an
error: buffers that still agree below `N`, and are unchanged from `N` on, the
same new `currentAddress`, the shape of the state kept, and at most one new
label in pass 1, whose value is the `currentAddress` before the line. -/
def followed (N : Nat) (a b a1 b1 : Asm) : Prop :=
  agreeBelow N a1 b1 ∧ a1.currentAddress = b1.currentAddress ∧
    a1.memorySize = a.memorySize ∧ b1.memorySize = b.memorySize ∧
    a1.pass = a.pass ∧ b1.pass = b.pass ∧
    a1.words.length = a.words.length ∧ b1.words.length = b.words.length ∧
    a1.line.length = a.line.length ∧
    (∀ i, N ≤ i → a1.at i = a.at i ∧ b1.at i = b.at i) ∧
    (a1.labels = a.labels ∨
      ∃ name, a1.labels = a.labels ++ [label_t.mk name a.currentAddress])

/-- What any step of a pass keeps: the shape of the state, the errors already
counted and, when it reports no error, the NULs of `line[]` from `M` on. -/
def kept (M : Nat) (s s1 : Asm) : Prop :=
  s1.memorySize = s.memorySize ∧ s1.pass = s.pass ∧ s1.words.length = s.words.length ∧
    s1.line.length = s.line.length ∧ s.errorCount ≤ s1.errorCount ∧
    (s1.errorCount = s.errorCount → nulFrom M s → nulFrom M s1)

/-- How far into `line[]` the calls of `fgets` on `chunks` write: the largest
length of a chunk, plus one for its NUL. -/
def reach : List (List Char) → Nat
  | [] => 0
  | c :: rest => max (c.length + 1) (reach rest)

/-- The shape of what `fgets` returns on a file: at most `MAX_LINE_LENGTH`
characters each time and, but for the last time, characters that end with a
newline or fill the buffer. -/
def chunked : List (List Char) → Prop
  | [] => True
  | c :: rest =>
    c.length ≤ MAX_LINE_LENGTH ∧
      (rest = [] ∨ c.length = MAX_LINE_LENGTH ∨
        (0 < c.length ∧ c.getD (c.length - 1) NUL = NEWLINE)) ∧
      chunked rest

/-- The lines, as `fgets` returns them, of the text `src`. -/
def linesOf (src : List Char) : List (List Char) := fgetsAll src []

/-- The state of pass 1 of `assemble` at the start of line `k` (counted from 0)
of `src`, from the initial state of the program. -/
def pass1At (src : List Char) (memorySize k : Nat) : Asm :=
  runPass (pass1Start (Asm.initial memorySize)) ((linesOf src).take k)

/-- The state at the end of pass 1. -/
def pass1End (src : List Char) (memorySize : Nat) : Asm :=
  runPass (pass1Start (Asm.initial memorySize)) (linesOf src)

/-- The state of pass 2 of `assemble` at the start of line `k` (counted from 0)
of `src`; pass 2 starts from the state pass 1 ended with. -/
def pass2At (src : List Char) (memorySize k : Nat) : Asm :=
  runPass (pass2Start (pass1End src memorySize)) ((linesOf src).take k)

/-- The state at the end of pass 2. -/
def pass2End (src : List Char) (memorySize : Nat) : Asm :=
  runPass (pass2Start (pass1End src memorySize)) (linesOf src)

/-- The pool of immediates of a state, for a pool that starts at address `E`:
the image has its full size and holds the memory, `endAddress` is the first
free slot, the immediate number `i` has address `E + i` and, when that address
is in the memory, the image holds its value there, and no value occurs twice. -/
def pooled (E : Nat) (s : Asm) : Prop :=
  s.memoryImage.length = MAX_MEMORY_SIZE ∧ s.memorySize ≤ MAX_MEMORY_SIZE ∧
    s.endAddress = E + s.numImmediates ∧
    (∀ i imm, s.immediates[i]? = some imm →
      imm.address = E + i ∧
        (E + i < s.memorySize → s.memoryImage.getD (E + i) 0 = imm.value)) ∧
    (s.immediates.map immediate_t.value).Nodup

/-- A step that only writes code or data: the pool and the sizes are kept,
`currentAddress` does not go back, and the image is unchanged from the new
`currentAddress` on. -/
def wroteBelow (s s1 : Asm) : Prop :=
  s1.memoryImage.length = s.memoryImage.length ∧ s1.memorySize = s.memorySize ∧
    s1.immediates = s.immediates ∧ s1.endAddress = s.endAddress ∧
    s.currentAddress ≤ s1.currentAddress ∧
    ∀ a, s1.currentAddress ≤ a → s1.memoryImage.getD a 0 = s.memoryImage.getD a 0

/-- A step of a pass, seen from the pool that starts at `E`: `currentAddress`
does not go back, the pool stays well formed as long as `currentAddress` stays
at or below `E`, and pass 1 creates no immediate. -/
def stepped (E : Nat) (s s1 : Asm) : Prop :=
  s.currentAddress ≤ s1.currentAddress ∧ s1.pass = s.pass ∧
    (pooled E s → s1.currentAddress ≤ E → pooled E s1) ∧
    (s.pass = 1 → s1.immediates = s.immediates)

/-! ## More sources used as examples -/

/-- The line ` DB "a;b"`: a `;` between an opening and a closing quote. -/
def quotedSemicolonLine : List Char :=
  " DB ".toList ++ [QUOTE, 'a', ';', 'b', QUOTE, NEWLINE]

/-- The line ` ADD Y;note`: two tokens, then a comment with no space before it. -/
def gluedCommentLine : List Char := " ADD Y;note\n".toList

/-- A line that is a name of `n` letters `A` in column 1. -/
def nameLine (n : Nat) : List Char := List.replicate n 'A' ++ [NEWLINE]

/-- The statement `DB 1 DUP 300`. -/
def dup300Source : List Char := " DB 1 DUP 300\n".toList

/-- The statement `DW 1 DUP 300`. -/
def dup300WordSource : List Char := " DW 1 DUP 300\n".toList

/-- The line `LOAD DB 1`, with `LOAD` in column 1. -/
def loadDbSource : List Char := "LOAD DB 1\n".toList

/-- The line `DUP DB 1`, with the reserved word `DUP` in column 1. -/
def dupDbSource : List Char := "DUP DB 1\n".toList

/-- The state in pass 2, on a 32-word image, after the line ` RETURN 5` has
been read and split. -/
def returnOperandLine : Asm :=
  splitLine (fgetsInto " RETURN 5\n".toList { Asm.initial 32 with pass := 2, endAddress := 3 })

/-- The state in pass 2, on a 32-word image, after the line `LOAD DB 1` has
been read and split. -/
def loadDbLine : Asm :=
  splitLine (fgetsInto loadDbSource { Asm.initial 32 with pass := 2, endAddress := 3 })

/-! ## Sequences of label declarations -/

/-- A declaration of the label `d.1` at the address `d.2`: the call
`addLabel(d.1)` made when `currentAddress` is `d.2`. -/
def declare (d : List Char × Nat) (s : Asm) : Asm :=
  (addLabel d.1 { s with currentAddress := d.2 }).2

/-- The declarations `ds`, one after the other. -/
def declareAll (ds : List (List Char × Nat)) (s : Asm) : Asm :=
  ds.foldl (fun t d => declare d t) s

/-! ## The end of the assembly -/

/-- From `s` to `s1`, `endAddress` has grown by the number of immediates
created. -/
def counted (s s1 : Asm) : Prop :=
  s1.endAddress + s.numImmediates = s.endAddress + s1.numImmediates

/-- The state when the passes of `assemble` are over, before the check that
the program fits: the end of pass 2, or of pass 1 when pass 1 found errors. -/
def passesEnd (src : List Char) (memorySize : Nat) : Asm :=
  if (pass1End src memorySize).errorCount = 0 then pass2End src memorySize
  else pass1End src memorySize

/-- The value that `assemble` returns, `errorCount == 0`. -/
def assembleResult (src : List Char) (s : Asm) : Bool := (assemble src s).errorCount == 0

/-- A source of two instructions with one immediate each, for a memory of 32
words and for one of 3 words. -/
def twoLoadsSource : List Char := " LOAD #1\n LOAD #2\n".toList

/-! ## Lists of `DW` elements -/

/-- An element of the operand of `DW`: a numeric literal or an identifier. -/
inductive DwItem
  | lit (w : List Char)
  | ident (w : List Char)
  deriving DecidableEq, Repr

/-- The characters of an element. -/
def DwItem.text : DwItem → List Char
  | DwItem.lit w => w
  | DwItem.ident w => w

/-- A well-formed element: a decimal literal of value below 65536, or an
identifier, which starts with a letter and holds neither a comma nor a NUL. -/
def DwItem.ok : DwItem → Bool
  | DwItem.lit w => isDecimalLiteral w && decide (decimalValue w < 65536)
  | DwItem.ident w => isalpha (w.getD 0 NUL) && w.all (fun c => c != NUL && c != ',')

/-- The value an element stands for, given the table of labels: the value of
the literal, or the address of the label, if the identifier is declared. -/
def DwItem.value (labels : List label_t) : DwItem → Option Nat
  | DwItem.lit w => some (decimalValue w)
  | DwItem.ident w => findLabelIn labels w

/-- The operand of `DW` for a list of elements: the elements, with a comma
between two of them. -/
def dwText : List DwItem → List Char
  | [] => []
  | [x] => x.text
  | x :: y :: rest => x.text ++ ',' :: dwText (y :: rest)

/-- Every name of the table of labels has from 1 to 63 characters, as the
names have that `firstWordLabel` declares. -/
def labelsOk (s : Asm) : Prop :=
  ∀ l ∈ s.labels, 0 < l.name.length ∧ l.name.length < MAX_LABEL_NAME_LENGTH

instance (s : Asm) : Decidable (labelsOk s) := by
  unfold labelsOk
  infer_instance

/-- The values `vs` put into `buffer[]` one after the other. -/
def pushWords (vs : List Nat) (s : Asm) : Asm := vs.foldl (fun t v => pushWord v t) s

/-- The state in pass 2, on a 32-word image with the labels `A` at 7 and `B`
at 9, after the line ` DW 5,A,300,B` has been read and split. -/
def dwListLine : Asm :=
  splitLine (fgetsInto " DW 5,A,300,B\n".toList
    { Asm.initial 32 with
      pass := 2
      currentAddress := 3
      labels := [label_t.mk "A".toList 7, label_t.mk "B".toList 9] })

/-- The elements of the operand `5,A,300,B`. -/
def dwListItems : List DwItem :=
  [DwItem.lit "5".toList, DwItem.ident "A".toList, DwItem.lit "300".toList,
    DwItem.ident "B".toList]

/-- The state in pass 2, on a 32-word image with the label `A` at 7, after the
line ` DW 5,A,300,B` has been read and split. -/
def dwMissingLine : Asm :=
  splitLine (fgetsInto " DW 5,A,300,B\n".toList
    { Asm.initial 32 with
      pass := 2
      currentAddress := 3
      labels := [label_t.mk "A".toList 7] })

/-! ## Sources and lines for the checks of ranges and of errors -/

/-- A program of one instruction followed by a label alone on the last line. -/
def labelAtEndSource : List Char := " RETURN\nEND\n".toList

/-- A program whose one instruction has an immediate operand above 65535. -/
def bigImmediateSource : List Char := " LOAD #70000\n".toList

/-- A program whose one instruction has a negative immediate operand. -/
def negativeImmediateSource : List Char := " LOAD #-1\n".toList

/-- A program that declares the label `A` on two lines. -/
def twiceDeclaredSource : List Char := "A\nA\n".toList

/-- A `DB` statement whose first and last elements are neither a number nor a
string that begins with a double quote. -/
def unquotedDbSource : List Char := " DB xhi\",5,y\"\n".toList

/-- A `DB` statement whose operand is the empty string. -/
def emptyStringDbSource : List Char := " DB \"\"\n".toList

/-- The value `m` is a power of two. -/
def isPowerOfTwo (m : Int) : Prop := ∃ n : Nat, m = 2 ^ n

/-- No label of the table has an address above `currentAddress`. -/
def labelsBelow (s : Asm) : Prop := ∀ l ∈ s.labels, l.value ≤ s.currentAddress

/-! ## Lists of `DB` elements -/

/-- A numeric literal, as `strtol` with base 0 reads it: it starts with a
digit, holds no NUL, and `strtol` reads it to its end. -/
def isNumeral (w : List Char) : Bool :=
  isdigit (w.getD 0 NUL) && w.all (fun c => c != NUL) && (strtol w).2 == w.length

/-- The value of a numeric literal. -/
def numeralValue (w : List Char) : Int := (strtol w).1

/-- An element of the operand of `DB`: a numeric literal, or a string, given by
the characters between its two double quotes. -/
inductive DbItem
  | num (w : List Char)
  | str (cs : List Char)
  deriving DecidableEq, Repr

/-- The characters of an element. -/
def DbItem.text : DbItem → List Char
  | DbItem.num w => w
  | DbItem.str cs => QUOTE :: (cs ++ [QUOTE])

/-- A valid element: a numeric literal of value below 256, or a string in
double quotes with neither a double quote nor a NUL between the two quotes. -/
def DbItem.ok : DbItem → Bool
  | DbItem.num w => isNumeral w && decide (numeralValue w < 256)
  | DbItem.str cs => cs.all (fun c => c != NUL && c != QUOTE)

/-- The text of a list of elements, each followed by a comma. -/
def dbLead : List DbItem → List Char
  | [] => []
  | x :: rest => x.text ++ ',' :: dbLead rest

/-- The state in pass 1, on a 32-word image, after the line
` DB 1,"ab",0x100,7` has been read and split. -/
def dbRangeLine : Asm :=
  splitLine (fgetsInto " DB 1,\"ab\",0x100,7\n".toList
    { Asm.initial 32 with
      pass := 1
      currentAddress := 3 })

/-! ## The addresses of the stores to the memory image

For each function of the source that assigns to `memoryImage[]`, or calls one
that does, the list of the indexes of the assignments `memoryImage[a] = ..`
that the call executes, in order.  Each definition follows the branches of the
function it stands for. -/

/-- The store `memoryImage[currentAddress] = 0xB000 + currentAddress + 1` of
`parseNOP`. -/
def parseNOPStores (firstWord : Nat) (s : Asm) : List Nat :=
  if firstWord + 1 ≠ s.wordCount then [] else [s.currentAddress]

/-- The stores `memoryImage[currentAddress++] = ..` of the loop at the end of
`parseDB` and of `parseDW`, `n` turns from `currentAddress = a`. -/
def storeLoopStores : Nat → Nat → List Nat
  | 0, _ => []
  | n + 1, a => a :: storeLoopStores n (a + 1)

/-- The stores of the end of `parseDB`. -/
def dbEmitStores (s3 : Asm) : List Nat :=
  if s3.bufferIndex > DB_DW_BUFFER_SIZE then []
  else
    let s4 := padBuffer s3
    if s4.currentAddress + s4.bufferIndex / 2 > s4.memorySize then []
    else storeLoopStores (s4.bufferIndex / 2) s4.currentAddress

/-- The stores of `parseDB`. -/
def parseDBStores (firstWord : Nat) (s : Asm) : List Nat :=
  if s.wordCount < firstWord + 2 then []
  else
    match parseDUP firstWord s with
    | (false, _) => []
    | (true, s1) =>
      let s2 := parseDB2 (firstWord + 1) s1
      if s2.bufferIndex = 0 then []
      else if s2.dup > 0 ∧ s2.bufferIndex > 1 then []
      else dbEmitStores (duplicate s2)

/-- The stores of the end of `parseDW`. -/
def dwEmitStores (s3 : Asm) : List Nat :=
  if s3.bufferIndex > DB_DW_BUFFER_SIZE then []
  else if s3.currentAddress + s3.bufferIndex > s3.memorySize then []
  else storeLoopStores s3.bufferIndex s3.currentAddress

/-- The stores of `parseDW`. -/
def parseDWStores (firstWord : Nat) (s : Asm) : List Nat :=
  if s.wordCount < firstWord + 2 then []
  else
    match parseDUP firstWord s with
    | (false, _) => []
    | (true, s1) =>
      let s2 := parseDW2 (firstWord + 1) s1
      if s2.bufferIndex = 0 then []
      else if s2.dup > 0 ∧ s2.bufferIndex > 1 then []
      else dwEmitStores (duplicate s2)

/-- The store `memoryImage[endAddress] = value` of `resolveImmediate`, under
`if(endAddress < memorySize)`. -/
def resolveImmediateStores (value : Int) (s : Asm) : List Nat :=
  match findImmediate s.immediates value with
  | some _ => []
  | none =>
    if s.numImmediates ≥ MAX_IMMEDIATES then []
    else if s.endAddress < s.memorySize then [s.endAddress] else []

/-- The stores of the calls `resolveImmediate(v)` for the values `vs`, one
after the other. -/
def resolveAllStores : List Int → Asm → List Nat
  | [], _ => []
  | v :: vs, s => resolveImmediateStores v s ++ resolveAllStores vs (resolveImmediate v s).2

/-- A pool of a 32-word memory whose `endAddress` has reached the end of the
memory: the next immediate has no word of the memory image. -/
def fullMemoryPool : Asm := { Asm.initial 32 with endAddress := 32 }

/-- The stores of the body of `while(operandCount)` in `parseInstruction`:
those of its calls of `resolveImmediate`. -/
def parseOperandStores (operand : List Char) (s : Asm) : List Nat :=
  let viaAt : List Nat :=
    if operand.getD 0 NUL = '@' then
      match findLabel s (operand.drop 1) with
      | some value => resolveImmediateStores value s
      | none => []
    else []
  if operand.getD 0 NUL = '#' then
    match getImmediateValue (operand.drop 1) with
    | some value => resolveImmediateStores value s
    | none => viaAt
  else viaAt

/-- The stores of `parseInstruction`: those of the operand, then
`memoryImage[currentAddress] = instruction`. -/
def parseInstructionStores (instruction operandCount : Nat) (operand : List Char) (s : Asm) :
    List Nat :=
  if instruction = 15 ∧ operandCount > 0 then []
  else if instruction ≠ 15 ∧ operandCount ≠ 1 then []
  else
    (if operandCount ≠ 0 then parseOperandStores operand s else []) ++
      [(if operandCount ≠ 0 then parseOperand (instruction <<< 12) operand s
        else (instruction <<< 12, s)).2.currentAddress]

/-- The stores of the chain of tests on `words[thisWord]` of `assembleLine`. -/
def dispatchStores (thisWord : Nat) (s : Asm) : List Nat :=
  match getInstruction (s.word thisWord) with
  | some instruction =>
    if s.pass = 2 then
      parseInstructionStores instruction (s.wordCount - thisWord - 1) (s.word (thisWord + 1)) s
    else []
  | none =>
    if s.word thisWord = "ORG".toList then []
    else if s.word thisWord = "DB".toList then parseDBStores thisWord s
    else if s.word thisWord = "DW".toList then parseDWStores thisWord s
    else if s.word thisWord = "NOP".toList then parseNOPStores thisWord s
    else []

/-- The stores of the second turn of the loop of `assembleLine`. -/
def afterLabelStores (s : Asm) : List Nat :=
  if s.wordCount > 1 then dispatchStores 1 s else []

/-- The stores of `assembleLine`. -/
def assembleLineStores (s : Asm) : List Nat :=
  match dispatch 0 s with
  | some _ => dispatchStores 0 s
  | none =>
    let pass2 : Asm → List Nat := fun s1 =>
      if s1.pass = 2 then
        if (findLabel s1 (s1.word 0)).isSome then afterLabelStores s1 else []
      else []
    if s.pass = 1 then
      match firstWordLabel s with
      | (true, s1) => afterLabelStores s1
      | (false, s1) => pass2 s1
    else pass2 s

/-- The stores of the body of `while(fgets(line,sizeof(line),fp))`. -/
def processLineStores (s : Asm) (chunk : List Char) : List Nat :=
  if (splitLine (fgetsInto chunk s)).wordCount > 0 then
    assembleLineStores (splitLine (fgetsInto chunk s))
  else []

/-- The stores of a pass over the lines `chunks`. -/
def runPassStores : Asm → List (List Char) → List Nat
  | _, [] => []
  | s, c :: rest => processLineStores s c ++ runPassStores (processLine s c) rest

/-- The stores of the two passes of `assemble`; the `memset` that clears the
whole array between the passes is not one of them. -/
def assembleStores (src : List Char) (s : Asm) : List Nat :=
  let chunks := fgetsAll src []
  let s1 := runPass (pass1Start s) chunks
  runPassStores (pass1Start s) chunks ++
    (if s1.errorCount = 0 then runPassStores (pass2Start s1) chunks else [])

/-- A program with a `NOP`, data of `DB` and of `DW`, a label, and two
instructions with an immediate each. -/
def mixedSource : List Char :=
  " NOP\n DB 1,2,3\nX DW 7,X\n LOAD #5\n STORE @X\n".toList

/-! # Theorems -/

/-! ## Concrete runs -/

set_option maxRecDepth 100000 in
/-- C1.  The scenario "literal and label operands": assembling `scenarioSource`
with `memorySize = 32` ends with no error, the words 0..4 of the memory image
are 0x0003, 0x1004, 0xF000, 10 and 0, every other word is 0, and the pool of
immediates has exactly two entries (10 at address 3 and 0 at address 4). -/
theorem scenario_literal_and_label :
    (assemble scenarioSource (Asm.initial 32)).errorCount = 0 ∧
    (assemble scenarioSource (Asm.initial 32)).log = [] ∧
    (assemble scenarioSource (Asm.initial 32)).memoryImage =
      [0x0003, 0x1004, 0xF000, 10, 0] ++ List.replicate 4091 0 ∧
    (assemble scenarioSource (Asm.initial 32)).immediates =
      [immediate_t.mk 10 3, immediate_t.mk 0 4] ∧
    (assemble scenarioSource (Asm.initial 32)).numImmediates = 2 := by
  decide!

set_option maxRecDepth 100000 in
/-- C9, the failing input.  With `memorySize = 4096` the source `nopLastSource`
assembles without error, and the `NOP` at address 4095 is the word
0xB000 + 4096 = 0xC000: its top four bits are 12 (the opcode of `BNC`), not 11
(`BR`), and it differs from 0xB000 OR 4096 = 0xB000. -/
theorem nop_at_last_address :
    (assemble nopLastSource (Asm.initial 4096)).errorCount = 0 ∧
    (assemble nopLastSource (Asm.initial 4096)).memoryImage.getD 4095 0 = 0xC000 ∧
    (0xC000 : Nat) >>> 12 = 12 ∧ (0xB000 : Nat) ||| (4095 + 1) = 0xB000 := by
  decide!

/-- C10, the failing input.  On the line `LOAD X;c` the tokenizer reports no
error and finds two words, `LOAD` and `X;c` followed by the newline: the second
word keeps the comment, because the loop stops at `;` without ending the word. -/
theorem comment_after_word_is_kept :
    (splitLine (fgetsInto commentLine (Asm.initial 32))).errorCount = 0 ∧
    (splitLine (fgetsInto commentLine (Asm.initial 32))).wordCount = 2 ∧
    (splitLine (fgetsInto commentLine (Asm.initial 32))).word 0 = "LOAD".toList ∧
    (splitLine (fgetsInto commentLine (Asm.initial 32))).word 1 = "X;c\n".toList := by
  decide

/-! ## Numbers: `strtol` on decimal literals; `ORG` -/

theorem cstr_of_no_nul (w : List Char) (h : ∀ c ∈ w, c ≠ NUL) : cstr w = w := by
  induction w with
  | nil => rfl
  | cons c cs ih =>
    have hc : c ≠ NUL := h c (List.mem_cons_self _ _)
    simp [cstr, hc, ih (fun d hd => h d (List.mem_cons_of_mem _ hd))]

theorem isdigit_ne_nul {c : Char} (h : isdigit c = true) : c ≠ NUL := by
  intro hc
  subst hc
  revert h
  decide

theorem digitVal_of_isdigit {c : Char} (h : isdigit c = true) :
    digitVal c = some (c.toNat - 48) := by
  simp only [isdigit, Bool.and_eq_true, decide_eq_true_eq] at h
  simp [digitVal, h]

theorem scanDigits_decimal (w : List Char) (h : ∀ c ∈ w, isdigit c = true) (acc n : Nat) :
    scanDigits 10 w acc n = (w.foldl (fun a c => a * 10 + (c.toNat - 48)) acc, n + w.length) := by
  induction w generalizing acc n with
  | nil => simp [scanDigits]
  | cons c cs ih =>
    have hc := h c (List.mem_cons_self _ _)
    have hd := digitVal_of_isdigit hc
    have hlt : c.toNat - 48 < 10 := by
      simp only [isdigit, Bool.and_eq_true, decide_eq_true_eq] at hc
      omega
    simp only [scanDigits, hd, hlt, if_true, List.foldl_cons, List.length_cons]
    rw [ih (fun d hd => h d (List.mem_cons_of_mem _ hd))]
    simp only [Prod.mk.injEq, true_and]
    omega

theorem skipSpaces_of_not_space (c : Char) (cs : List Char) (h : isspace c = false) (n : Nat) :
    skipSpaces (c :: cs) n = (c :: cs, n) := by
  simp [skipSpaces, h]

theorem isdigit_not_space {c : Char} (h : isdigit c = true) : isspace c = false := by
  simp only [isdigit, Bool.and_eq_true, decide_eq_true_eq] at h
  simp only [isspace, Bool.or_eq_false_iff, Bool.and_eq_false_iff, beq_eq_false_iff_ne,
    decide_eq_false_iff_not]
  omega

theorem char_ne_of_toNat_ne {c d : Char} (h : c.toNat ≠ d.toNat) : c ≠ d := by
  intro hcd
  exact h (by rw [hcd])

/-- On a decimal literal `strtol` reads every character and gives its value,
saturated at `LONG_MAX`. -/
theorem strtol_decimal (w : List Char) (hw : isDecimalLiteral w = true) :
    strtol w = (((min (decimalValue w) LONG_MAX : Nat) : Int), w.length) := by
  simp only [isDecimalLiteral, Bool.and_eq_true, List.all_eq_true, Bool.or_eq_true,
    beq_iff_eq] at hw
  obtain ⟨hd, hz⟩ := hw
  have hc : cstr w = w := cstr_of_no_nul w (fun c hc => isdigit_ne_nul (hd c hc))
  rcases hz with hz | hz
  · subst hz
    decide
  · cases w with
    | nil => simp at hz
    | cons c cs =>
      simp only [List.head?_cons, Option.any_some, bne_iff_ne, ne_eq] at hz
      have hcd := hd c (List.mem_cons_self _ _)
      have hns := isdigit_not_space hcd
      have hm : c ≠ '-' := by
        intro h; subst h; revert hcd; decide
      have hp : c ≠ '+' := by
        intro h; subst h; revert hcd; decide
      have hscan : scanNumber (c :: cs) = scanDigits 10 (c :: cs) 0 0 := by
        unfold scanNumber
        split <;> simp_all
      have hlen : ¬ ((c :: cs).length = 0) := by simp
      simp only [strtol, hc, skipSpaces_of_not_space c cs hns, hm, hp, if_false, hscan,
        scanDigits_decimal (c :: cs) hd, decimalValue, Nat.zero_add, hlen]
      simp

theorem getD_length_nul (w : List Char) : w.getD w.length NUL = NUL := by
  simp [List.getD]

theorem getInstruction_ORG : getInstruction "ORG".toList = none := by decide

/-- C6.  The statement `ORG w`, for a decimal literal `w` of value `v` as the
word after `ORG` (word `k + 1` of a line of `k + 2` words), in any state whose
counters are in the range of `int`: it sets `currentAddress` to `v` without an
error exactly when `currentAddress <= v < memorySize`; when `v < currentAddress`
it reports "ORG preceeds current address" (BackwardOrg), and when
`v >= currentAddress` and `v >= memorySize` it reports "ORG exceeds memory
size" (OrgOutOfRange); in both cases nothing but the error count and the log
changes, and the count grows by one. -/
theorem org_decimal_literal (s : Asm) (k : Nat) (w : List Char)
    (hw : isDecimalLiteral w = true) (hcount : s.wordCount = k + 2)
    (horg : s.word k = "ORG".toList) (hword : s.word (k + 1) = w)
    (hcur : s.currentAddress ≤ LONG_MAX) (hmem : s.memorySize ≤ LONG_MAX) :
    dispatch k s = some (parseORG k s) ∧
    (s.currentAddress ≤ decimalValue w ∧ decimalValue w < s.memorySize →
      parseORG k s = { s with currentAddress := decimalValue w }) ∧
    (decimalValue w < s.currentAddress → parseORG k s = s.error Msg.orgPrecedes) ∧
    (s.currentAddress ≤ decimalValue w ∧ s.memorySize ≤ decimalValue w →
      parseORG k s = s.error Msg.orgExceeds) ∧
    (((parseORG k s).currentAddress = decimalValue w ∧
        (parseORG k s).errorCount = s.errorCount) ↔
      (s.currentAddress ≤ decimalValue w ∧ decimalValue w < s.memorySize)) ∧
    (¬ (s.currentAddress ≤ decimalValue w ∧ decimalValue w < s.memorySize) →
      (parseORG k s).currentAddress = s.currentAddress ∧
      (parseORG k s).errorCount = s.errorCount + 1) := by
  have hdisp : dispatch k s = some (parseORG k s) := by
    unfold dispatch
    rw [horg, getInstruction_ORG]
    simp
  have hfirst : isdigit (w.getD 0 NUL) = true := by
    simp only [isDecimalLiteral, Bool.and_eq_true, List.all_eq_true] at hw
    cases w with
    | nil => simp at hw
    | cons c cs => exact hw.1 c (List.mem_cons_self _ _)
  have hstr := strtol_decimal w hw
  have hpre : ¬ (s.wordCount ≠ k + 2 ∨ ¬ isdigit ((s.word (k + 1)).getD 0 NUL) = true) := by
    rw [hword]
    rintro (h | h)
    · exact h hcount
    · exact h hfirst
  have hgen : parseORG k s =
      if ((min (decimalValue w) LONG_MAX : Nat) : Int) < (s.currentAddress : Int) then
        s.error Msg.orgPrecedes
      else if ((min (decimalValue w) LONG_MAX : Nat) : Int) ≥ (s.memorySize : Int) then
        s.error Msg.orgExceeds
      else { s with currentAddress := min (decimalValue w) LONG_MAX } := by
    unfold parseORG
    rw [if_neg hpre, hword]
    simp only [hstr, getD_length_nul, ne_eq, not_true_eq_false, if_false, Int.toNat_ofNat]
  have h1 : s.currentAddress ≤ decimalValue w ∧ decimalValue w < s.memorySize →
      parseORG k s = { s with currentAddress := decimalValue w } := by
    intro ⟨ha, hb⟩
    have hmin : min (decimalValue w) LONG_MAX = decimalValue w := by omega
    rw [hgen, hmin, if_neg (by omega), if_neg (by omega)]
  have h2 : decimalValue w < s.currentAddress → parseORG k s = s.error Msg.orgPrecedes := by
    intro ha
    rw [hgen, if_pos (by omega)]
  have h3 : s.currentAddress ≤ decimalValue w ∧ s.memorySize ≤ decimalValue w →
      parseORG k s = s.error Msg.orgExceeds := by
    intro ⟨ha, hb⟩
    rw [hgen, if_neg (by omega), if_pos (by omega)]
  have h5 : ¬ (s.currentAddress ≤ decimalValue w ∧ decimalValue w < s.memorySize) →
      (parseORG k s).currentAddress = s.currentAddress ∧
      (parseORG k s).errorCount = s.errorCount + 1 := by
    intro hn
    by_cases ha : decimalValue w < s.currentAddress
    · rw [h2 ha]; simp [Asm.error]
    · rw [h3 ⟨by omega, by omega⟩]; simp [Asm.error]
  refine ⟨hdisp, h1, h2, h3, ⟨?_, ?_⟩, h5⟩
  · intro ⟨ha, hb⟩
    by_contra hn
    have := (h5 hn).2
    omega
  · intro h
    rw [h1 h]
    simp

/-- Witness of C6: on a 4096-word image `ORG 4095` succeeds and `ORG 4096`
fails with "ORG exceeds memory size". -/
theorem org_decimal_literal_witness :
    parseORG 0 (splitLine (fgetsInto " ORG 4095\n".toList (Asm.initial 4096))) =
      { splitLine (fgetsInto " ORG 4095\n".toList (Asm.initial 4096)) with currentAddress := 4095 } ∧
    parseORG 0 (splitLine (fgetsInto " ORG 4096\n".toList (Asm.initial 4096))) =
      (splitLine (fgetsInto " ORG 4096\n".toList (Asm.initial 4096))).error Msg.orgExceeds :=
  ⟨(org_decimal_literal (splitLine (fgetsInto " ORG 4095\n".toList (Asm.initial 4096))) 0
      "4095".toList (by decide) (by decide) (by decide) (by decide) (by decide) (by decide)).2.1
      (by decide),
   (org_decimal_literal (splitLine (fgetsInto " ORG 4096\n".toList (Asm.initial 4096))) 0
      "4096".toList (by decide) (by decide) (by decide) (by decide) (by decide) (by decide)).2.2.2.1
      (by decide)⟩

/-! ## The pool of immediates -/

theorem findImmediate_append_of_some {l : List immediate_t} {v : Int} {a : Nat}
    (h : findImmediate l v = some a) (l2 : List immediate_t) :
    findImmediate (l ++ l2) v = some a := by
  induction l with
  | nil => simp [findImmediate] at h
  | cons i is ih =>
    simp only [findImmediate, List.cons_append] at h ⊢
    by_cases hi : i.value = v
    · simpa [hi] using h
    · simp only [hi, if_false] at h ⊢
      exact ih h

theorem findImmediate_append_of_none {l : List immediate_t} {v : Int}
    (h : findImmediate l v = none) (l2 : List immediate_t) :
    findImmediate (l ++ l2) v = findImmediate l2 v := by
  induction l with
  | nil => rfl
  | cons i is ih =>
    simp only [findImmediate, List.cons_append] at h ⊢
    by_cases hi : i.value = v
    · simp [hi] at h
    · simp only [hi, if_false] at h ⊢
      exact ih h

/-- The pool after `resolveImmediate`: the old pool, with at most one entry
appended. -/
theorem resolveImmediate_immediates (w : Int) (s : Asm) :
    (resolveImmediate w s).2.immediates = s.immediates ∨
    (resolveImmediate w s).2.immediates = s.immediates ++ [immediate_t.mk w s.endAddress] := by
  unfold resolveImmediate
  cases hf : findImmediate s.immediates w with
  | some a => simp
  | none =>
    by_cases hfull : s.numImmediates ≥ MAX_IMMEDIATES
    · simp [hfull, Asm.error]
    · right
      simp only [hfull, if_false]
      split <;> rfl

theorem resolveImmediate_keeps {s : Asm} {v : Int} {a : Nat}
    (h : findImmediate s.immediates v = some a) (w : Int) :
    findImmediate (resolveImmediate w s).2.immediates v = some a := by
  rcases resolveImmediate_immediates w s with h1 | h1
  · rw [h1]; exact h
  · rw [h1]; exact findImmediate_append_of_some h _

theorem resolveAll_keeps (ws : List Int) {s : Asm} {v : Int} {a : Nat}
    (h : findImmediate s.immediates v = some a) :
    findImmediate (resolveAll ws s).immediates v = some a := by
  induction ws generalizing s with
  | nil => exact h
  | cons w ws ih =>
    simp only [resolveAll, List.foldl_cons]
    exact ih (resolveImmediate_keeps h w)

theorem resolveImmediate_of_found {s : Asm} {v : Int} {a : Nat}
    (h : findImmediate s.immediates v = some a) : resolveImmediate v s = (a, s) := by
  simp [resolveImmediate, h]

/-- After a call of `resolveImmediate(v)` that found `v` or had room for it,
`v` is in the pool at the address the call returned. -/
theorem resolveImmediate_found_after (s : Asm) (v : Int)
    (h : (findImmediate s.immediates v).isSome = true ∨ s.numImmediates < MAX_IMMEDIATES) :
    findImmediate (resolveImmediate v s).2.immediates v = some (resolveImmediate v s).1 := by
  cases hf : findImmediate s.immediates v with
  | some a => rw [resolveImmediate_of_found hf]; exact hf
  | none =>
    have hroom : ¬ s.numImmediates ≥ MAX_IMMEDIATES := by
      rcases h with h | h
      · simp [hf] at h
      · omega
    unfold resolveImmediate
    simp only [hf, hroom, if_false]
    split <;> simp [findImmediate_append_of_none hf, findImmediate, Asm.store]

/-- The later call.  When `resolveImmediate(v)` has returned an address
(`v` was in the pool already, or the pool was below its capacity), then after
any further calls `resolveImmediate(w)`, for the values `ws`, a call
`resolveImmediate(v)` returns the same address and changes nothing: the pool,
`endAddress`, the error count and the memory image stay as they are. -/
theorem immediate_dedup (s : Asm) (v : Int) (ws : List Int)
    (h : (findImmediate s.immediates v).isSome = true ∨ s.numImmediates < MAX_IMMEDIATES) :
    resolveImmediate v (resolveAll ws (resolveImmediate v s).2) =
      ((resolveImmediate v s).1, resolveAll ws (resolveImmediate v s).2) :=
  resolveImmediate_of_found (resolveAll_keeps ws (resolveImmediate_found_after s v h))

/-- An example: in the empty pool of a 32-word image with `endAddress = 3`,
the value 5 is resolved, then 7, 5 and 9, then 5 again. -/
theorem immediate_dedup_witness :
    resolveImmediate 5 (resolveAll [7, 5, 9]
        (resolveImmediate 5 { Asm.initial 32 with endAddress := 3 }).2) =
      ((resolveImmediate 5 { Asm.initial 32 with endAddress := 3 }).1,
        resolveAll [7, 5, 9] (resolveImmediate 5 { Asm.initial 32 with endAddress := 3 }).2) :=
  immediate_dedup { Asm.initial 32 with endAddress := 3 } 5 [7, 5, 9] (by decide)

/-! ## Instruction encoding -/

theorem getInstruction_mnemonic :
    ∀ k, k < 16 → getInstruction (instructions.getD k []) = some k := by
  decide

/-- In pass 2 a line whose word `t` is the mnemonic of opcode `k` is handed to
`parseInstruction`, and `currentAddress` is advanced afterwards. -/
theorem dispatch_mnemonic (s : Asm) (t k : Nat) (hpass : s.pass = 2) (hk : k < 16)
    (hword : s.word t = instructions.getD k []) :
    dispatch t s = some
      { parseInstruction k (s.wordCount - t - 1) (s.word (t + 1)) s with
        currentAddress :=
          (parseInstruction k (s.wordCount - t - 1) (s.word (t + 1)) s).currentAddress + 1 } := by
  unfold dispatch
  rw [hword, getInstruction_mnemonic k hk]
  simp only [hpass, if_true]

theorem resolveImmediate_currentAddress (v : Int) (s : Asm) :
    (resolveImmediate v s).2.currentAddress = s.currentAddress := by
  unfold resolveImmediate
  cases findImmediate s.immediates v with
  | some a => rfl
  | none =>
    simp only []
    split
    · rfl
    · split <;> rfl

/-- C2.  Instruction encoding in pass 2.  Let word `t` of the line be the
mnemonic at position `k` of the list LOAD .. RETURN.  Then the line stores at
`currentAddress` the word `(k << 12) | a` and advances `currentAddress` by one,
where: for RETURN alone on the line `a = 0`; for one operand `#ds` with `ds`
parsing fully as the integer `v`, `a` is the address `resolveImmediate(v)`
gives; for one operand `@L` with `L` a declared label of address `x`, `a` is
the address `resolveImmediate(x)` gives; and for one operand that is a declared
label of address `x` and starts with neither `#` nor `@`, `a = x`. -/
theorem instruction_encoding (s : Asm) (t k : Nat) (hpass : s.pass = 2) (hk : k < 16)
    (hword : s.word t = instructions.getD k []) :
    (k = 15 → s.wordCount = t + 1 →
      dispatch t s = some { s.store s.currentAddress ((k <<< 12 : Nat) : Int) with
        currentAddress := s.currentAddress + 1 }) ∧
    (k ≠ 15 → s.wordCount = t + 2 → ∀ (ds : List Char) (v : Int),
      s.word (t + 1) = '#' :: ds → getImmediateValue ds = some v →
      dispatch t s = some
        { (resolveImmediate v s).2.store s.currentAddress
            (((k <<< 12) ||| (resolveImmediate v s).1 : Nat) : Int) with
          currentAddress := s.currentAddress + 1 }) ∧
    (k ≠ 15 → s.wordCount = t + 2 → ∀ (L : List Char) (x : Nat),
      s.word (t + 1) = '@' :: L → findLabel s L = some x →
      dispatch t s = some
        { (resolveImmediate x s).2.store s.currentAddress
            (((k <<< 12) ||| (resolveImmediate x s).1 : Nat) : Int) with
          currentAddress := s.currentAddress + 1 }) ∧
    (k ≠ 15 → s.wordCount = t + 2 → ∀ (L : List Char) (x : Nat),
      s.word (t + 1) = L → L.getD 0 NUL ≠ '#' → L.getD 0 NUL ≠ '@' → findLabel s L = some x →
      dispatch t s = some
        { s.store s.currentAddress (((k <<< 12) ||| x : Nat) : Int) with
          currentAddress := s.currentAddress + 1 }) := by
  have hd := dispatch_mnemonic s t k hpass hk hword
  refine ⟨?_, ?_, ?_, ?_⟩
  · intro h15 hc
    rw [hd]
    have h0 : s.wordCount - t - 1 = 0 := by omega
    simp [parseInstruction, h15, h0, Asm.store]
  · intro h15 hc ds v hop hv
    rw [hd]
    have h1 : s.wordCount - t - 1 = 1 := by omega
    have hcur := resolveImmediate_currentAddress v s
    generalize hr : resolveImmediate v s = r at hcur
    obtain ⟨a, s1⟩ := r
    simp only at hcur
    simp [parseInstruction, h15, h1, hop, parseOperand, hv, hr, Asm.store, hcur]
  · intro h15 hc L x hop hx
    rw [hd]
    have h1 : s.wordCount - t - 1 = 1 := by omega
    have hcur := resolveImmediate_currentAddress x s
    generalize hr : resolveImmediate (x : Int) s = r at hcur
    obtain ⟨a, s1⟩ := r
    simp only at hcur
    have hne : ('@' : Char) ≠ '#' := by decide
    simp [parseInstruction, h15, h1, hop, parseOperand, hx, hr, Asm.store, hcur, hne]
  · intro h15 hc L x hop h1' h2' hx
    rw [hd]
    have h1 : s.wordCount - t - 1 = 1 := by omega
    simp only [parseInstruction, h15, h1, hop, parseOperand, hx, Asm.store, h1', h2',
      false_and, if_false, ne_eq, not_false_eq_true, true_and, one_ne_zero, if_true]
    simp

/-- Witness of C2: the line ` LOAD #10` in pass 2 (opcode 0, operand `#10`). -/
theorem instruction_encoding_witness :
    dispatch 0 loadImmediateLine = some
      { (resolveImmediate 10 loadImmediateLine).2.store loadImmediateLine.currentAddress
          (((0 <<< 12) ||| (resolveImmediate 10 loadImmediateLine).1 : Nat) : Int) with
        currentAddress := loadImmediateLine.currentAddress + 1 } :=
  (instruction_encoding loadImmediateLine 0 0 (by decide) (by decide) (by decide)).2.1
    (by decide) (by decide) "10".toList 10 (by decide) (by decide)

/-! ## Lists as arrays -/

theorem getD_set_self {α : Type} (l : List α) (i : Nat) (v d : α) (h : i < l.length) :
    (l.set i v).getD i d = v := by
  simp [List.getElem?_set_self h]

theorem getD_set_ne {α : Type} (l : List α) (i j : Nat) (v d : α) (h : i ≠ j) :
    (l.set i v).getD j d = l.getD j d := by
  simp [List.getElem?_set_ne h]

theorem getD_set_zero {α : Type} (l : List α) (i : Nat) (d : α) :
    (l.set i d).getD i d = d := by
  by_cases h : i < l.length
  · exact getD_set_self l i d d h
  · rw [List.set_eq_of_length_le (by omega)]
    simp [List.getElem?_eq_none (show l.length ≤ i by omega)]

theorem packBytes_eq (hi lo : Nat) (h : lo < 256) : packBytes hi lo = hi * 256 + lo := by
  unfold packBytes
  rw [Nat.shiftLeft_eq, Nat.mul_comm]
  exact (Nat.mul_add_lt_is_or (i := 8) (by simpa using h) hi).symm

/-- The word of two `int`s that are not negative is that of `packBytes`. -/
theorem packInts_natCast (hi lo : Nat) : packInts (hi : Int) (lo : Int) = ((packBytes hi lo : Nat) : Int) := by
  unfold packInts packBytes
  rw [Nat.shiftLeft_eq]
  rfl

/-- The word of two bytes: `hi * 256 + lo`. -/
theorem packInts_bytes (hi lo : Int) (h0 : 0 ≤ hi) (h1 : 0 ≤ lo) (h2 : lo < 256) :
    packInts hi lo = hi * 256 + lo := by
  obtain ⟨a, rfl⟩ := Int.eq_ofNat_of_zero_le h0
  obtain ⟨b, rfl⟩ := Int.eq_ofNat_of_zero_le h1
  rw [packInts_natCast, packBytes_eq a b (by omega)]
  push_cast
  rfl

/-! ## The loops that copy the buffer to the memory image -/

theorem dbStoreLoop_spec (n i : Nat) (s : Asm) :
    (dbStoreLoop n i s).currentAddress = s.currentAddress + n ∧
    (dbStoreLoop n i s).noMem = s.noMem ∧
    (dbStoreLoop n i s).memoryImage.length = s.memoryImage.length ∧
    (∀ a, a < s.currentAddress ∨ s.currentAddress + n ≤ a →
      (dbStoreLoop n i s).memoryImage.getD a 0 = s.memoryImage.getD a 0) ∧
    (∀ j, j < n → s.currentAddress + j < s.memoryImage.length →
      (dbStoreLoop n i s).memoryImage.getD (s.currentAddress + j) 0 =
        packInts (s.buffer.getD (i + 2 * j) 0) (s.buffer.getD (i + 2 * j + 1) 0)) := by
  induction n generalizing i s with
  | zero =>
    refine ⟨rfl, rfl, rfl, fun a _ => rfl, fun j hj => absurd hj (Nat.not_lt_zero j)⟩
  | succ n ih =>
    obtain ⟨h1, h2, h3, h4, h5⟩ := ih (i + 2)
      { s.store s.currentAddress (packInts (s.buffer.getD i 0) (s.buffer.getD (i + 1) 0))
        with currentAddress := s.currentAddress + 1 }
    simp only [dbStoreLoop]
    refine ⟨?_, ?_, ?_, ?_, ?_⟩
    · rw [h1]; simp only []; omega
    · rw [h2]; rfl
    · rw [h3]; simp [Asm.store]
    · intro a ha
      rw [h4 a (by simp only []; omega)]
      simp only [Asm.store]
      exact getD_set_ne _ _ _ _ _ (by omega)
    · intro j hj hlt
      cases j with
      | zero =>
        rw [h4 _ (by simp only []; omega)]
        simp only [Asm.store, Nat.add_zero, Nat.mul_zero]
        rw [getD_set_self _ _ _ _ (by simpa using hlt)]
      | succ j =>
        have := h5 j (by omega) (by simp only [Asm.store, List.length_set]; omega)
        simp only [Asm.store] at this
        rw [show s.currentAddress + (j + 1) = s.currentAddress + 1 + j by omega,
          show i + 2 * (j + 1) = i + 2 + 2 * j by omega]
        exact this

theorem dwStoreLoop_spec (n i : Nat) (s : Asm) :
    (dwStoreLoop n i s).currentAddress = s.currentAddress + n ∧
    (dwStoreLoop n i s).noMem = s.noMem ∧
    (dwStoreLoop n i s).memoryImage.length = s.memoryImage.length ∧
    (∀ a, a < s.currentAddress ∨ s.currentAddress + n ≤ a →
      (dwStoreLoop n i s).memoryImage.getD a 0 = s.memoryImage.getD a 0) ∧
    (∀ j, j < n → s.currentAddress + j < s.memoryImage.length →
      (dwStoreLoop n i s).memoryImage.getD (s.currentAddress + j) 0 =
        s.buffer.getD (i + j) 0) := by
  induction n generalizing i s with
  | zero =>
    refine ⟨rfl, rfl, rfl, fun a _ => rfl, fun j hj => absurd hj (Nat.not_lt_zero j)⟩
  | succ n ih =>
    obtain ⟨h1, h2, h3, h4, h5⟩ := ih (i + 1)
      { s.store s.currentAddress (s.buffer.getD i 0)
        with currentAddress := s.currentAddress + 1 }
    simp only [dwStoreLoop]
    refine ⟨?_, ?_, ?_, ?_, ?_⟩
    · rw [h1]; simp only []; omega
    · rw [h2]; rfl
    · rw [h3]; simp [Asm.store]
    · intro a ha
      rw [h4 a (by simp only []; omega)]
      simp only [Asm.store]
      exact getD_set_ne _ _ _ _ _ (by omega)
    · intro j hj hlt
      cases j with
      | zero =>
        rw [h4 _ (by simp only []; omega)]
        simp only [Asm.store, Nat.add_zero]
        rw [getD_set_self _ _ _ _ (by simpa using hlt)]
      | succ j =>
        have := h5 j (by omega) (by simp only [Asm.store, List.length_set]; omega)
        simp only [Asm.store] at this
        rw [show s.currentAddress + (j + 1) = s.currentAddress + 1 + j by omega,
          show i + (j + 1) = i + 1 + j by omega]
        exact this

/-! ## The scanner of a `DB` operand: what it leaves alone -/

theorem pushByte_frame (v : Int) (s : Asm) : (pushByte v s).frame = s.frame := by
  unfold pushByte; split <;> rfl

theorem pushByte_errorCount (v : Int) (s : Asm) : (pushByte v s).errorCount = s.errorCount := by
  unfold pushByte; split <;> rfl

theorem pushByte_line (v : Int) (s : Asm) : (pushByte v s).line = s.line := by
  unfold pushByte; split <;> rfl

theorem dbCopyString_frame (fuel ptr : Nat) (s : Asm) :
    (dbCopyString fuel ptr s).2.frame = s.frame ∧
    (dbCopyString fuel ptr s).2.errorCount = s.errorCount ∧
    (dbCopyString fuel ptr s).2.line = s.line := by
  induction fuel generalizing ptr s with
  | zero => simp [dbCopyString]
  | succ n ih =>
    simp only [dbCopyString]
    split
    · simp
    · have := ih (ptr + 1) (pushByte (charCode (s.at (ptr + 1))) s)
      rw [pushByte_frame, pushByte_errorCount, pushByte_line] at this
      exact this

theorem dbSyntaxError_frame (s : Asm) : (dbSyntaxError s).frame = s.frame := rfl

theorem dbStringPart_frame (ptr : Nat) (s : Asm) :
    (dbStringPart ptr s).1.frame = s.frame := by
  unfold dbStringPart
  have h := (dbCopyString_frame (s.line.set ptr QUOTE).length ptr
    { s with line := s.line.set ptr QUOTE }).1
  simp only []
  generalize dbCopyString _ ptr _ = r at h ⊢
  obtain ⟨p, s1⟩ := r
  simp only at h ⊢
  split
  · split
    · exact h
    · split
      · exact h
      · rw [dbSyntaxError_frame]; exact h
  · rw [dbSyntaxError_frame]; exact h

theorem parseDB2Loop_frame (fuel ptr : Nat) (s : Asm) :
    (parseDB2Loop fuel ptr s).frame = s.frame := by
  induction fuel generalizing ptr s with
  | zero => rfl
  | succ n ih =>
    have hvia : (match dbStringPart ptr s with
        | (s1, some p) => parseDB2Loop n p s1
        | (s1, none) => s1).frame = s.frame := by
      have h := dbStringPart_frame ptr s
      generalize dbStringPart ptr s = r at h ⊢
      obtain ⟨s1, o⟩ := r
      cases o with
      | none => exact h
      | some p => simp only; rw [ih]; exact h
    simp only [parseDB2Loop]
    split
    · split
      · split
        · split
          · exact pushByte_frame _ _
          · rw [ih]; exact pushByte_frame _ _
        · rfl
      · exact hvia
    · exact hvia

/-- The scanner of a `DB` operand either reports no error, or reports one and
leaves `bufferIndex = 0`. -/
theorem dbStringPart_error (ptr : Nat) (s : Asm) :
    (dbStringPart ptr s).1.errorCount = s.errorCount ∨
    ((dbStringPart ptr s).1.errorCount = s.errorCount + 1 ∧
      (dbStringPart ptr s).1.bufferIndex = 0 ∧ (dbStringPart ptr s).2 = none) := by
  unfold dbStringPart
  have h := (dbCopyString_frame (s.line.set ptr QUOTE).length ptr
    { s with line := s.line.set ptr QUOTE }).2.1
  simp only []
  generalize dbCopyString _ ptr _ = r at h ⊢
  obtain ⟨p, s1⟩ := r
  simp only at h ⊢
  split
  · split
    · exact Or.inl h
    · split
      · exact Or.inl h
      · right; simp [dbSyntaxError, Asm.print, h]
  · right; simp [dbSyntaxError, Asm.print, h]

theorem parseDB2Loop_error (fuel ptr : Nat) (s : Asm) :
    (parseDB2Loop fuel ptr s).errorCount = s.errorCount ∨
    ((parseDB2Loop fuel ptr s).errorCount = s.errorCount + 1 ∧
      (parseDB2Loop fuel ptr s).bufferIndex = 0) := by
  induction fuel generalizing ptr s with
  | zero => right; simp [parseDB2Loop, dbSyntaxError, Asm.print]
  | succ n ih =>
    have hvia : (match dbStringPart ptr s with
        | (s1, some p) => parseDB2Loop n p s1
        | (s1, none) => s1).errorCount = s.errorCount ∨
        ((match dbStringPart ptr s with
        | (s1, some p) => parseDB2Loop n p s1
        | (s1, none) => s1).errorCount = s.errorCount + 1 ∧
         (match dbStringPart ptr s with
        | (s1, some p) => parseDB2Loop n p s1
        | (s1, none) => s1).bufferIndex = 0) := by
      have h := dbStringPart_error ptr s
      generalize dbStringPart ptr s = r at h ⊢
      obtain ⟨s1, o⟩ := r
      cases o with
      | none =>
        rcases h with h | ⟨h, h0, _⟩
        · exact Or.inl h
        · exact Or.inr ⟨h, h0⟩
      | some p =>
        simp only at h ⊢
        rcases h with h | ⟨_, _, h⟩
        · rcases ih p s1 with h1 | ⟨h1, h2⟩
          · left; rw [h1, h]
          · right; exact ⟨by rw [h1, h], h2⟩
        · simp at h
    simp only [parseDB2Loop]
    split
    · split
      · split
        · split
          · left; exact pushByte_errorCount _ _
          · rcases ih _ (pushByte _ s) with h1 | ⟨h1, h2⟩
            · left; rw [h1, pushByte_errorCount]
            · right; exact ⟨by rw [h1, pushByte_errorCount], h2⟩
        · right; simp [Asm.print]
      · exact hvia
    · exact hvia

/-! ## DB without DUP -/

theorem parseDUP_plain (t : Nat) (s : Asm) (h : s.wordCount = t + 2) :
    parseDUP t s = (true, s.setDup 0) := by
  simp [parseDUP, h]

theorem frame_fields {a b : Asm} (h : a.frame = b.frame) :
    a.memorySize = b.memorySize ∧ a.memoryImage = b.memoryImage ∧
    a.currentAddress = b.currentAddress ∧ a.dup = b.dup ∧ a.wordCount = b.wordCount ∧
    a.words = b.words ∧ a.labels = b.labels ∧ a.pass = b.pass ∧ a.endAddress = b.endAddress ∧
    a.immediates = b.immediates ∧ a.currentLine = b.currentLine := by
  simp only [Asm.frame, Prod.mk.injEq] at h
  obtain ⟨h1, h2, h3, h4, h5, h6, h7, h8, h9, h10, h11⟩ := h
  exact ⟨h1, h2, h3, h10, h9, h8, h7, h11, h4, h6, h5⟩

theorem parseDB2_frame (k : Nat) (s : Asm) : (parseDB2 k s).frame = s.frame := by
  unfold parseDB2
  rw [parseDB2Loop_frame]
  rfl

theorem parseDB2_error (k : Nat) (s : Asm) :
    (parseDB2 k s).errorCount = s.errorCount ∨
    ((parseDB2 k s).errorCount = s.errorCount + 1 ∧ (parseDB2 k s).bufferIndex = 0) := by
  unfold parseDB2
  exact parseDB2Loop_error _ _ _

theorem padBuffer_getD (s : Asm) (i : Nat) :
    (padBuffer s).buffer.getD i 0 =
      if s.bufferIndex % 2 = 1 ∧ i = s.bufferIndex then 0 else s.buffer.getD i 0 := by
  unfold padBuffer
  by_cases hodd : s.bufferIndex % 2 = 1
  · simp only [hodd, if_true, true_and]
    by_cases hi : i = s.bufferIndex
    · subst hi
      rw [if_pos rfl]
      exact getD_set_zero _ _ _
    · rw [getD_set_ne _ _ _ _ _ (fun h => hi h.symm), if_neg hi]
  · simp [hodd]

theorem padBuffer_fields (s : Asm) :
    (padBuffer s).currentAddress = s.currentAddress ∧
    (padBuffer s).memoryImage = s.memoryImage ∧
    (padBuffer s).errorCount = s.errorCount := by
  unfold padBuffer; split <;> exact ⟨rfl, rfl, rfl⟩

/-- The end of `parseDB` on a buffer of `n` bytes, `1 <= n <= 256`, each below
256, that fit into memory: no error, `ceil(n/2)` words stored from
`currentAddress` on, high byte first, the last one padded with a zero byte. -/
theorem dbEmit_spec (s3 : Asm) (n : Nat) (hn : s3.bufferIndex = n) (h1 : 1 ≤ n) (h256 : n ≤ 256)
    (hbytes : ∀ i, i < n → 0 ≤ s3.buffer.getD i 0 ∧ s3.buffer.getD i 0 < 256)
    (hfit : s3.currentAddress + (n + 1) / 2 ≤ s3.memorySize)
    (hmem : s3.memorySize ≤ s3.memoryImage.length) :
    (dbEmit s3).currentAddress = s3.currentAddress + (n + 1) / 2 ∧
    (dbEmit s3).errorCount = s3.errorCount ∧
    (∀ k, k < (n + 1) / 2 →
      (dbEmit s3).memoryImage.getD (s3.currentAddress + k) 0 =
        s3.buffer.getD (2 * k) 0 * 256 +
          (if 2 * k + 1 < n then s3.buffer.getD (2 * k + 1) 0 else 0)) ∧
    (∀ a, a < s3.currentAddress ∨ s3.currentAddress + (n + 1) / 2 ≤ a →
      (dbEmit s3).memoryImage.getD a 0 = s3.memoryImage.getD a 0) := by
  obtain ⟨p1, p2, p3⟩ := padBuffer_fields s3
  have hpm : (padBuffer s3).memorySize = s3.memorySize := by
    unfold padBuffer; split <;> rfl
  have hpb : (padBuffer s3).bufferIndex / 2 = (n + 1) / 2 := by
    unfold padBuffer; split
    · simp only [hn]
    · rw [hn]; omega
  have hp : dbEmit s3 = dbStoreLoop ((n + 1) / 2) 0 (padBuffer s3) := by
    unfold dbEmit
    rw [if_neg (by simp only [DB_DW_BUFFER_SIZE]; omega)]
    simp only []
    rw [if_neg (by rw [hpm, p1, hpb]; omega), hpb]
  rw [hp]
  obtain ⟨g1, g2, g3, g4, g5⟩ := dbStoreLoop_spec ((n + 1) / 2) 0 (padBuffer s3)
  rw [p1] at g1 g4 g5
  rw [p2] at g3 g4 g5
  refine ⟨g1, ?_, ?_, g4⟩
  · have := congrArg Asm.errorCount g2
    simp only [Asm.noMem] at this
    rw [this, p3]
  · intro k hk
    rw [g5 k hk (by omega), padBuffer_getD, padBuffer_getD, Nat.zero_add, hn,
      if_neg (by omega)]
    have hk0 := (hbytes (2 * k) (by omega)).1
    by_cases hlast : 2 * k + 1 < n
    · rw [if_neg (by omega), if_pos hlast]
      exact packInts_bytes _ _ hk0 (hbytes _ hlast).1 (hbytes _ hlast).2
    · rw [if_pos ⟨by omega, by omega⟩, if_neg hlast]
      exact packInts_bytes _ _ hk0 (Int.le_refl _) (by decide)

set_option maxRecDepth 100000 in
/-- A character of 0x80 or more in a string of `DB`.  On the line ` DB "a\xE9"`
the scan leaves 97 and -23 in the buffer, since `(int)*ptr` extends the sign of
the byte 0xE9, and `DB` stores the word `(97 << 8) | -23`, which is -23: the
entry -23 is not a byte, and the word is not `97 * 256 + 233`. -/
theorem db_high_char_is_negative :
    (parseDB2 1 (dbHighCharLine.setDup 0)).bufferIndex = 2 ∧
    (parseDB2 1 (dbHighCharLine.setDup 0)).buffer.take 2 = [97, -23] ∧
    (parseDB 0 dbHighCharLine).errorCount = 0 ∧
    (parseDB 0 dbHighCharLine).memoryImage.getD 0 0 = -23 := by
  decide!

/-! ## C strings in a buffer -/

theorem cstr_idem (l : List Char) : cstr (cstr l) = cstr l := by
  induction l with
  | nil => rfl
  | cons c cs ih =>
    by_cases h : c = NUL
    · simp [cstr, h]
    · simp [cstr, h, ih]

theorem strtol_cstr (l : List Char) : strtol (cstr l) = strtol l := by
  unfold strtol
  rw [cstr_idem]

/-- The character `(cstr m).length` places on in `m` is the NUL that ends the
string (or lies past the end of `m`). -/
theorem getD_cstr_length (m : List Char) : m.getD (cstr m).length NUL = NUL := by
  induction m with
  | nil => rfl
  | cons c cs ih =>
    by_cases h : c = NUL
    · simp [cstr, h]
    · simp only [cstr, h, if_false, List.length_cons]
      simpa using ih

theorem getD_cstr (m : List Char) (i : Nat) (h : i < (cstr m).length) :
    m.getD i NUL = (cstr m).getD i NUL := by
  induction m generalizing i with
  | nil => simp [cstr] at h
  | cons c cs ih =>
    by_cases hc : c = NUL
    · simp [cstr, hc] at h
    · simp only [cstr, hc, if_false, List.length_cons] at h ⊢
      cases i with
      | zero => simp
      | succ i => simpa using ih i (by omega)

theorem getD_drop (l : List Char) (p i : Nat) : (l.drop p).getD i NUL = l.getD (p + i) NUL := by
  simp [List.getElem?_drop]

/-- The characters of the word `words[k]`, read in `line[]`. -/
theorem at_word (s : Asm) (k i : Nat) (h : i < (s.word k).length) :
    s.at (s.words.getD k 0 + i) = (s.word k).getD i NUL := by
  unfold Asm.at Asm.word cstrAt at *
  rw [← getD_drop, getD_cstr _ _ h]

theorem at_word_end (s : Asm) (k : Nat) :
    s.at (s.words.getD k 0 + (s.word k).length) = NUL := by
  unfold Asm.at Asm.word cstrAt
  rw [← getD_drop, getD_cstr_length]

theorem strtol_word (s : Asm) (k : Nat) :
    strtol (s.line.drop (s.words.getD k 0)) = strtol (s.word k) := by
  unfold Asm.word cstrAt
  rw [strtol_cstr]

theorem decimal_head_isdigit (w : List Char) (hw : isDecimalLiteral w = true) :
    isdigit (w.getD 0 NUL) = true ∧ 0 < w.length := by
  simp only [isDecimalLiteral, Bool.and_eq_true, List.all_eq_true] at hw
  cases w with
  | nil => simp at hw
  | cons c cs => exact ⟨hw.1 c (List.mem_cons_self _ _), by simp⟩

/-! ## The scanners on a single decimal literal -/

/-- On a word that is a decimal literal of value below 256, `parseDB2` stores
that one byte. -/
theorem parseDB2_literal (s : Asm) (k : Nat) (w : List Char) (hw : isDecimalLiteral w = true)
    (hword : s.word k = w) (hv : decimalValue w < 256) :
    parseDB2 k s = pushByte (decimalValue w) { s with bufferIndex := 0 } := by
  obtain ⟨hd, hlen⟩ := decimal_head_isdigit w hw
  have h0 := at_word s k 0 (by rw [hword]; exact hlen)
  have he := at_word_end s k
  have hs := strtol_word s k
  rw [hword] at h0 he hs
  rw [strtol_decimal w hw] at hs
  rw [Nat.add_zero] at h0
  have hmin : min (decimalValue w) LONG_MAX = decimalValue w := by
    simp only [LONG_MAX]; omega
  unfold parseDB2
  simp only [parseDB2Loop, Asm.at] at h0 he ⊢
  simp only [h0, hd, if_true, hs, he, true_or, hmin, Int.toNat_ofNat]
  rw [if_pos (by exact_mod_cast hv)]

/-- On a word that is a decimal literal of value below 65536, `parseDW2` stores
that one word. -/
theorem parseDW2_literal (s : Asm) (k : Nat) (w : List Char) (hw : isDecimalLiteral w = true)
    (hword : s.word k = w) (hv : decimalValue w < 65536) :
    parseDW2 k s = { s with buffer := s.buffer.set 0 (decimalValue w), bufferIndex := 1 } := by
  obtain ⟨hd, hlen⟩ := decimal_head_isdigit w hw
  have h0 := at_word s k 0 (by rw [hword]; exact hlen)
  have he := at_word_end s k
  have hs := strtol_word s k
  rw [hword] at h0 he hs
  rw [strtol_decimal w hw] at hs
  rw [Nat.add_zero] at h0
  have hmin : min (decimalValue w) LONG_MAX = decimalValue w := by
    simp only [LONG_MAX]; omega
  unfold parseDW2
  simp only [parseDW2Loop, Asm.at] at h0 he ⊢
  simp only [h0, hd, if_true, hs, he, true_or, hmin, Int.toNat_ofNat]
  rw [if_pos (by exact_mod_cast hv)]
  simp [pushWord, DB_DW_BUFFER_SIZE]

/-! ## DUP -/

theorem dupLoop_spec (k : Nat) (s : Asm) (hb : 1 ≤ s.bufferIndex)
    (hroom : s.bufferIndex + k ≤ DB_DW_BUFFER_SIZE) (hlen : s.buffer.length = DB_DW_BUFFER_SIZE) :
    (dupLoop k s).bufferIndex = s.bufferIndex + k ∧
    (dupLoop k s).frame = s.frame ∧
    (dupLoop k s).errorCount = s.errorCount ∧
    (∀ i, (dupLoop k s).buffer.getD i 0 =
      if s.bufferIndex ≤ i ∧ i < s.bufferIndex + k then s.buffer.getD 0 0 else s.buffer.getD i 0) := by
  induction k generalizing s with
  | zero =>
    refine ⟨rfl, rfl, rfl, fun i => ?_⟩
    rw [if_neg (by omega)]
    rfl
  | succ k ih =>
    have hlt : s.bufferIndex < DB_DW_BUFFER_SIZE := by omega
    simp only [dupLoop, hlt, if_true]
    obtain ⟨h1, h2, h3, h4⟩ := ih
      { s with buffer := s.buffer.set s.bufferIndex (s.buffer.getD 0 0),
               bufferIndex := s.bufferIndex + 1 }
      (by simp only []; omega) (by simp only []; omega) (by simpa using hlen)
    refine ⟨?_, ?_, ?_, ?_⟩
    · rw [h1]; simp only []; omega
    · rw [h2]; rfl
    · rw [h3]
    · intro i
      rw [h4 i]
      simp only []
      rw [getD_set_ne _ _ _ _ _ (show s.bufferIndex ≠ 0 by omega)]
      by_cases hi : i = s.bufferIndex
      · subst hi
        rw [if_neg (by omega), if_pos (by omega)]
        exact getD_set_self _ _ _ _ (by omega)
      · rw [getD_set_ne _ _ _ _ _ (fun h => hi h.symm)]
        by_cases hr : s.bufferIndex + 1 ≤ i ∧ i < s.bufferIndex + 1 + k
        · rw [if_pos hr, if_pos (by omega)]
        · rw [if_neg hr, if_neg (by omega)]

/-- The DUP part of a line `.. DUP c` for a decimal literal `c` of value at
most 1024: `dup` becomes that value. -/
theorem parseDUP_count (t : Nat) (s : Asm) (c : List Char) (hc : isDecimalLiteral c = true)
    (hcount : s.wordCount = t + 4) (hdup : s.word (t + 2) = "DUP".toList)
    (hword : s.word (t + 3) = c) (hn : decimalValue c ≤ 1024) :
    parseDUP t s = (true, s.setDup (decimalValue c)) := by
  have hmin : min (decimalValue c) LONG_MAX = decimalValue c := by
    simp only [LONG_MAX]; omega
  unfold parseDUP
  rw [if_neg (by omega), if_pos ⟨hcount, hdup⟩, hword, strtol_decimal c hc]
  simp only [getD_length_nul, if_true, hmin]
  rw [if_neg]
  simp only [dupTooLarge, SIZEOF_BUFFER, Bool.or_eq_true, decide_eq_true_eq, not_or, not_lt]
  constructor
  · exact_mod_cast Nat.zero_le _
  · exact_mod_cast hn

theorem dwEmit_spec (s3 : Asm) (n : Nat) (hn : s3.bufferIndex = n) (h256 : n ≤ 256)
    (hfit : s3.currentAddress + n ≤ s3.memorySize)
    (hmem : s3.memorySize ≤ s3.memoryImage.length) :
    (dwEmit s3).currentAddress = s3.currentAddress + n ∧
    (dwEmit s3).errorCount = s3.errorCount ∧
    (∀ j, j < n →
      (dwEmit s3).memoryImage.getD (s3.currentAddress + j) 0 = s3.buffer.getD j 0) ∧
    (∀ a, a < s3.currentAddress ∨ s3.currentAddress + n ≤ a →
      (dwEmit s3).memoryImage.getD a 0 = s3.memoryImage.getD a 0) := by
  have hp : dwEmit s3 = dwStoreLoop n 0 s3 := by
    unfold dwEmit
    rw [if_neg (by simp only [DB_DW_BUFFER_SIZE]; omega), if_neg (by omega), hn]
  rw [hp]
  obtain ⟨g1, g2, g3, g4, g5⟩ := dwStoreLoop_spec n 0 s3
  refine ⟨g1, ?_, ?_, g4⟩
  · have := congrArg Asm.errorCount g2
    simpa only [Asm.noMem] using this
  · intro j hj
    rw [g5 j hj (by omega), Nat.zero_add]

/-- The buffer after the scan of a single literal of value `v` and the DUP part
with `dup = n`, `1 <= n <= 256`: `n` entries, all equal to `v`. -/
theorem duplicate_single (s1 : Asm) (v n : Nat) (hn1 : 1 ≤ n) (hn2 : n ≤ 256)
    (hdup : s1.dup = (n : Int)) (hlen : s1.buffer.length = DB_DW_BUFFER_SIZE) :
    (duplicate { s1 with buffer := s1.buffer.set 0 v, bufferIndex := 1 }).bufferIndex = n ∧
    (duplicate { s1 with buffer := s1.buffer.set 0 v, bufferIndex := 1 }).frame = s1.frame ∧
    (duplicate { s1 with buffer := s1.buffer.set 0 v, bufferIndex := 1 }).errorCount
      = s1.errorCount ∧
    (∀ i, i < n →
      (duplicate { s1 with buffer := s1.buffer.set 0 v, bufferIndex := 1 }).buffer.getD i 0 = v) := by
  have hpos : (n : Int) > 0 := by exact_mod_cast hn1
  have hd : duplicate { s1 with buffer := s1.buffer.set 0 v, bufferIndex := 1 } =
      dupLoop (n - 1) { s1 with buffer := s1.buffer.set 0 v, bufferIndex := 1 } := by
    simp only [duplicate, hdup, hpos, if_true, Int.toNat_ofNat]
  rw [hd]
  obtain ⟨h1, h2, h3, h4⟩ := dupLoop_spec (n - 1)
    { s1 with buffer := s1.buffer.set 0 v, bufferIndex := 1 } (by simp only []; omega)
    (by simp only [DB_DW_BUFFER_SIZE]; omega) (by simpa using hlen)
  refine ⟨by rw [h1]; simp only []; omega, by rw [h2]; rfl, by rw [h3], ?_⟩
  intro i hi
  rw [h4 i]
  simp only []
  have h0 : (s1.buffer.set 0 v).getD 0 0 = v :=
    getD_set_self _ _ _ _ (by rw [hlen]; simp [DB_DW_BUFFER_SIZE])
  by_cases hi0 : i = 0
  · subst hi0
    rw [if_neg (by omega), h0]
  · rw [if_pos (by omega), h0]

/-- C8.  DUP of a single value.  On a line `.. DW w DUP c` or `.. DB w DUP c`
where `w` and `c` are decimal literals of values `v` and `n`, `1 <= n <= 256`:
`DW` (for `v < 65536` and `currentAddress + n <= memorySize`) reports no error,
stores `n` words equal to `v` from `currentAddress` on, changes no other word and
advances `currentAddress` by `n`; `DB` (for `v < 256` and
`currentAddress + ceil(n/2) <= memorySize`) has `n` bytes equal to `v` in the
buffer before the padding, reports no error, stores the words `v * 256 + v`
(the last one `v * 256 + 0` when `n` is odd) and advances `currentAddress` by
`ceil(n/2)`. -/
theorem dup_single_value (s : Asm) (t : Nat) (w c : List Char)
    (hw : isDecimalLiteral w = true) (hc : isDecimalLiteral c = true)
    (hcount : s.wordCount = t + 4) (hword : s.word (t + 1) = w)
    (hdup : s.word (t + 2) = "DUP".toList) (hcnt : s.word (t + 3) = c)
    (hn1 : 1 ≤ decimalValue c) (hn2 : decimalValue c ≤ 256)
    (hlen : s.buffer.length = DB_DW_BUFFER_SIZE) (hmem : s.memorySize ≤ s.memoryImage.length) :
    (decimalValue w < 65536 → s.currentAddress + decimalValue c ≤ s.memorySize →
      (parseDW t s).currentAddress = s.currentAddress + decimalValue c ∧
      (parseDW t s).errorCount = s.errorCount ∧
      (∀ j, j < decimalValue c →
        (parseDW t s).memoryImage.getD (s.currentAddress + j) 0 = ((decimalValue w : Nat) : Int)) ∧
      (∀ a, a < s.currentAddress ∨ s.currentAddress + decimalValue c ≤ a →
        (parseDW t s).memoryImage.getD a 0 = s.memoryImage.getD a 0)) ∧
    (decimalValue w < 256 → s.currentAddress + (decimalValue c + 1) / 2 ≤ s.memorySize →
      (duplicate (parseDB2 (t + 1) (s.setDup (decimalValue c)))).bufferIndex = decimalValue c ∧
      (∀ i, i < decimalValue c →
        (duplicate (parseDB2 (t + 1) (s.setDup (decimalValue c)))).buffer.getD i 0
          = decimalValue w) ∧
      parseDB t s = dbEmit (duplicate (parseDB2 (t + 1) (s.setDup (decimalValue c)))) ∧
      (parseDB t s).currentAddress = s.currentAddress + (decimalValue c + 1) / 2 ∧
      (parseDB t s).errorCount = s.errorCount ∧
      (∀ k, k < (decimalValue c + 1) / 2 →
        (parseDB t s).memoryImage.getD (s.currentAddress + k) 0 =
          ((decimalValue w * 256 + (if 2 * k + 1 < decimalValue c then decimalValue w else 0)
            : Nat) : Int))) := by
  have hpd := parseDUP_count t s c hc hcount hdup hcnt (by omega)
  have hw1 : (s.setDup (decimalValue c)).word (t + 1) = w := hword
  obtain ⟨d1, d2, d3, d4⟩ := duplicate_single (s.setDup (decimalValue c)) (decimalValue w)
    (decimalValue c) hn1 hn2 rfl hlen
  obtain ⟨fm0, fimg0, fc0, -⟩ := frame_fields d2
  generalize hS : duplicate ({ s.setDup (decimalValue c) with
      buffer := (s.setDup (decimalValue c)).buffer.set 0 (decimalValue w),
      bufferIndex := 1 } : Asm) = S at d1 d2 d3 d4 fm0 fimg0 fc0
  have fm : S.memorySize = s.memorySize := fm0
  have fimg : S.memoryImage = s.memoryImage := fimg0
  have fc : S.currentAddress = s.currentAddress := fc0
  have d3 : S.errorCount = s.errorCount := d3
  constructor
  · intro hv hfit
    have hscan := parseDW2_literal (s.setDup (decimalValue c)) (t + 1) w hw hw1 hv
    have hp : parseDW t s = dwEmit S := by
      unfold parseDW
      rw [if_neg (by omega), hpd]
      simp only []
      rw [hscan, if_neg (by simp), if_neg (by simp), hS]
    rw [hp]
    obtain ⟨g1, g2, g3, g4⟩ := dwEmit_spec _ (decimalValue c) d1 hn2
      (by rw [fc, fm]; exact hfit) (by rw [fm, fimg]; exact hmem)
    rw [fc] at g1 g3 g4
    rw [fimg] at g4
    refine ⟨g1, by rw [g2, d3], ?_, g4⟩
    intro j hj
    rw [g3 j hj, d4 j hj]
  · intro hv hfit
    have hscan := parseDB2_literal (s.setDup (decimalValue c)) (t + 1) w hw hw1 hv
    have hpush : pushByte (decimalValue w) { s.setDup (decimalValue c) with bufferIndex := 0 } =
        { s.setDup (decimalValue c) with
          buffer := (s.setDup (decimalValue c)).buffer.set 0 (decimalValue w), bufferIndex := 1 } := by
      simp [pushByte, DB_DW_BUFFER_SIZE]
    rw [hpush] at hscan
    have hp : parseDB t s = dbEmit (duplicate (parseDB2 (t + 1) (s.setDup (decimalValue c)))) := by
      unfold parseDB
      rw [if_neg (by omega), hpd]
      simp only []
      rw [hscan, if_neg (by simp), if_neg (by simp)]
    rw [hp, hscan, hS]
    obtain ⟨g1, g2, g3, g4⟩ := dbEmit_spec _ (decimalValue c) d1 hn1 hn2
      (fun i hi => by rw [d4 i hi]; exact ⟨Int.natCast_nonneg _, by exact_mod_cast hv⟩)
      (by rw [fc, fm]; exact hfit) (by rw [fm, fimg]; exact hmem)
    rw [fc] at g1 g3
    refine ⟨d1, d4, rfl, g1, by rw [g2, d3], ?_⟩
    intro k hk
    rw [g3 k hk, d4 _ (by omega)]
    by_cases hlast : 2 * k + 1 < decimalValue c
    · rw [if_pos hlast, if_pos hlast, d4 _ hlast]
      push_cast
      rfl
    · rw [if_neg hlast, if_neg hlast]
      push_cast
      rfl

set_option maxRecDepth 100000 in
/-- Witness of C8: the line ` DW 7 DUP 5` stores five words equal to 7. -/
theorem dup_single_value_witness :
    (parseDW 0 dwDupLine).currentAddress = dwDupLine.currentAddress + decimalValue "5".toList ∧
    (parseDW 0 dwDupLine).errorCount = dwDupLine.errorCount ∧
    (∀ j, j < decimalValue "5".toList →
      (parseDW 0 dwDupLine).memoryImage.getD (dwDupLine.currentAddress + j) 0
        = ((decimalValue "7".toList : Nat) : Int)) ∧
    (∀ a, a < dwDupLine.currentAddress ∨ dwDupLine.currentAddress + decimalValue "5".toList ≤ a →
      (parseDW 0 dwDupLine).memoryImage.getD a 0 = dwDupLine.memoryImage.getD a 0) :=
  (dup_single_value dwDupLine 0 "7".toList "5".toList (by decide) (by decide) (by decide!)
    (by decide!) (by decide!) (by decide!) (by decide) (by decide) (by decide!) (by decide!)).1
    (by decide) (by decide!)

/-! ## The tokenizer: what it changes, and its run on two buffers that agree -/

theorem at_of_length_le (s : Asm) (i : Nat) (h : s.line.length ≤ i) : s.at i = NUL := by
  simp [Asm.at, List.getElem?_eq_none h]

theorem at_set_self (s : Asm) (i : Nat) (c : Char) (h : i < s.line.length) :
    ({ s with line := s.line.set i c } : Asm).at i = c := by
  simp only [Asm.at]
  exact getD_set_self _ _ _ _ h

theorem at_set_ne (s : Asm) (i j : Nat) (c : Char) (h : i ≠ j) :
    ({ s with line := s.line.set i c } : Asm).at j = s.at j := by
  simp only [Asm.at]
  exact getD_set_ne _ _ _ _ _ h

theorem at_set_nul (s : Asm) (i : Nat) : ({ s with line := s.line.set i NUL } : Asm).at i = NUL := by
  simp only [Asm.at]
  exact getD_set_zero _ _ _

/-- Reading in two buffers that agree below `N`: the same character at any
index below `N`, and at any index at all when the buffers end before `N`. -/
theorem agreeBelow.read {N : Nat} {a b : Asm} (h : agreeBelow N a b) (i : Nat)
    (hi : i < N ∨ a.line.length ≤ N) : a.at i = b.at i := by
  by_cases hlt : i < N
  · exact h.2 i hlt
  · have hl : a.line.length ≤ N := by
      rcases hi with hi | hi
      · exact absurd hi hlt
      · exact hi
    rw [at_of_length_le a i (by omega), at_of_length_le b i (by rw [← h.1]; omega)]

theorem agreeBelow.set {N : Nat} {a b : Asm} (h : agreeBelow N a b) (i : Nat) (c : Char) :
    agreeBelow N { a with line := a.line.set i c } { b with line := b.line.set i c } := by
  refine ⟨by simp [h.1], fun j hj => ?_⟩
  by_cases hij : i = j
  · subst hij
    by_cases hl : i < a.line.length
    · rw [at_set_self a i c hl, at_set_self b i c (by rw [← h.1]; exact hl)]
    · simp only [Asm.at]
      rw [List.set_eq_of_length_le (by omega), List.set_eq_of_length_le (by rw [← h.1]; omega)]
      exact h.2 i hj
  · rw [at_set_ne a i j c hij, at_set_ne b i j c hij]
    exact h.2 j hj

theorem splitEnd_effect (q : Bool) (s : Asm) :
    (splitEnd q s).noSplit = s.noSplit ∧ (splitEnd q s).line = s.line ∧
    (splitEnd q s).words = s.words ∧
    (s.errorCount ≤ (splitEnd q s).errorCount) ∧
    ((splitEnd q s).errorCount = s.errorCount → (splitEnd q s).wordCount = s.wordCount) := by
  unfold splitEnd
  split
  · refine ⟨rfl, rfl, rfl, by simp [Asm.error], ?_⟩
    intro h
    simp [Asm.error] at h
  · exact ⟨rfl, rfl, rfl, Nat.le_refl _, fun _ => rfl⟩

/-- What the loop of `splitLine` changes: words, the word count, errors, and
cells of `line[]` in the range it scans, which it can only set to NUL. -/
theorem splitLoop_effect (fuel i : Nat) (nw q : Bool) (s : Asm) :
    (splitLoop fuel i nw q s).noSplit = s.noSplit ∧
    (splitLoop fuel i nw q s).line.length = s.line.length ∧
    (splitLoop fuel i nw q s).words.length = s.words.length ∧
    s.errorCount ≤ (splitLoop fuel i nw q s).errorCount ∧
    (∀ j, (splitLoop fuel i nw q s).at j = s.at j ∨
      (i ≤ j ∧ j < i + fuel ∧ isspace (s.at j) = true ∧ (splitLoop fuel i nw q s).at j = NUL)) := by
  induction fuel generalizing i nw q s with
  | zero =>
    obtain ⟨h1, h2, h3, h4, _⟩ := splitEnd_effect q s
    simp only [splitLoop]
    exact ⟨h1, by rw [h2], by rw [h3], h4, fun j => Or.inl (by simp only [Asm.at, h2])⟩
  | succ n ih =>
    simp only [splitLoop]
    generalize (if s.at i = QUOTE then !q else q) = q' at *
    split
    · obtain ⟨h1, h2, h3, h4, _⟩ := splitEnd_effect q s
      exact ⟨h1, by rw [h2], by rw [h3], h4, fun j => Or.inl (by simp only [Asm.at, h2])⟩
    · split
      · split
        · refine ⟨rfl, rfl, by simp [Asm.error], by simp [Asm.error], fun j => Or.inl rfl⟩
        · obtain ⟨h1, h2, h3, h4, h5⟩ := ih (i + 1) false q'
            { s with words := s.words.set s.wordCount i, wordCount := s.wordCount + 1 }
          refine ⟨h1, h2, by rw [h3]; simp, h4, fun j => ?_⟩
          rcases h5 j with h | ⟨ha, hb, hc, hd⟩
          · exact Or.inl h
          · exact Or.inr ⟨by omega, by omega, hc, hd⟩
      · split
        · rename_i hsp
          obtain ⟨h1, h2, h3, h4, h5⟩ := ih (i + 1) true q'
            { s with line := s.line.set i NUL }
          refine ⟨h1, by rw [h2]; simp, h3, h4, fun j => ?_⟩
          by_cases hij : i = j
          · subst hij
            right
            refine ⟨Nat.le_refl _, by omega, by simpa using hsp.2.1, ?_⟩
            rcases h5 i with h | ⟨ha, _⟩
            · rw [h]; exact at_set_nul s i
            · omega
          · rcases h5 j with h | ⟨ha, hb, hc, hd⟩
            · left; rw [h]; exact at_set_ne s i j NUL hij
            · right
              rw [at_set_ne s i j NUL hij] at hc
              exact ⟨by omega, by omega, hc, hd⟩
        · obtain ⟨h1, h2, h3, h4, h5⟩ := ih (i + 1) nw q' s
          refine ⟨h1, h2, h3, h4, fun j => ?_⟩
          rcases h5 j with h | ⟨ha, hb, hc, hd⟩
          · exact Or.inl h
          · exact Or.inr ⟨by omega, by omega, hc, hd⟩
theorem sameWords.push {a b : Asm} (h : sameWords a b) (i : Nat) :
    sameWords { a with words := a.words.set a.wordCount i, wordCount := a.wordCount + 1 }
      { b with words := b.words.set b.wordCount i, wordCount := b.wordCount + 1 } := by
  obtain ⟨h1, h2, h3⟩ := h
  refine ⟨by simp [h1], by simp [h2], fun k hk => ?_⟩
  simp only at hk ⊢
  rw [← h2]
  by_cases hkc : a.wordCount = k
  · subst hkc
    by_cases hl : a.wordCount < a.words.length
    · rw [getD_set_self _ _ _ _ hl, getD_set_self _ _ _ _ (by rw [← h1]; exact hl)]
    · rw [List.set_eq_of_length_le (by omega), List.set_eq_of_length_le (by rw [← h1]; omega)]
      simp [List.getElem?_eq_none (show a.words.length ≤ a.wordCount by omega),
        List.getElem?_eq_none (show b.words.length ≤ a.wordCount by rw [← h1]; omega)]
  · rw [getD_set_ne _ _ _ _ _ hkc, getD_set_ne _ _ _ _ _ hkc]
    exact h3 k (by omega)

theorem splitEnd_lock (q : Bool) {N : Nat} {a b : Asm} (hl : agreeBelow N a b)
    (hw : sameWords a b) :
    agreeBelow N (splitEnd q a) (splitEnd q b) ∧ sameWords (splitEnd q a) (splitEnd q b) ∧
    (splitEnd q a).errorCount + b.errorCount = (splitEnd q b).errorCount + a.errorCount := by
  unfold splitEnd
  cases q with
  | false =>
    simp only [Bool.false_eq_true, if_false]
    exact ⟨hl, hw, Nat.add_comm _ _⟩
  | true =>
    refine ⟨hl, ⟨hw.1, rfl, fun k hk => absurd hk (Nat.not_lt_zero k)⟩, ?_⟩
    simp only [Asm.error, if_true]
    omega

/-- The loop of `splitLine` on two buffers that agree where it reads: the same
words, the same errors, and buffers that still agree. -/
theorem splitLoop_lock (fuel i : Nat) (nw q : Bool) (N : Nat) (a b : Asm)
    (hl : agreeBelow N a b) (hw : sameWords a b) (hN : i + fuel ≤ N ∨ a.line.length ≤ N) :
    agreeBelow N (splitLoop fuel i nw q a) (splitLoop fuel i nw q b) ∧
    sameWords (splitLoop fuel i nw q a) (splitLoop fuel i nw q b) ∧
    (splitLoop fuel i nw q a).errorCount + b.errorCount
      = (splitLoop fuel i nw q b).errorCount + a.errorCount := by
  induction fuel generalizing i nw q a b with
  | zero => simp only [splitLoop]; exact splitEnd_lock q hl hw
  | succ n ih =>
    have hr : a.at i = b.at i := hl.read i (by omega)
    have hcond : (b.wordCount + 1 > MAX_WORDS_ON_LINE) = (a.wordCount + 1 > MAX_WORDS_ON_LINE) := by
      rw [hw.2.1]
    simp only [splitLoop]
    rw [← hr]
    simp only [hcond]
    generalize (if a.at i = QUOTE then !q else q) = q' at *
    split
    · exact splitEnd_lock q hl hw
    · split
      · split
        · refine ⟨hl, ⟨by simp [Asm.error, hw.1], rfl,
            fun k hk => absurd hk (Nat.not_lt_zero k)⟩, ?_⟩
          simp only [Asm.error]
          omega
        · exact ih (i + 1) false q' _ _ hl (hw.push i) (by simp only []; omega)
      · split
        · exact ih (i + 1) true q' _ _ (hl.set i NUL) hw (by simp only [List.length_set]; omega)
        · exact ih (i + 1) nw q' a b hl hw (by omega)

/-! ## C strings in two buffers that agree -/

theorem cstr_congr (l1 l2 : List Char) (z : Nat)
    (h : ∀ i, i ≤ z → l1.getD i NUL = l2.getD i NUL) (hz : l1.getD z NUL = NUL) :
    cstr l1 = cstr l2 := by
  induction l1 generalizing l2 z with
  | nil =>
    cases l2 with
    | nil => rfl
    | cons d ds =>
      have h0 := h 0 (Nat.zero_le _)
      simp only [List.getD_eq_getElem?_getD, List.getElem?_nil, Option.getD_none,
        List.getElem?_cons_zero, Option.getD_some] at h0
      simp [cstr, ← h0]
  | cons c cs ih =>
    have h0 := h 0 (Nat.zero_le _)
    by_cases hc : c = NUL
    · subst hc
      cases l2 with
      | nil => simp [cstr]
      | cons d ds =>
        simp only [List.getD_eq_getElem?_getD, List.getElem?_cons_zero, Option.getD_some] at h0
        simp [cstr, ← h0]
    · cases l2 with
      | nil =>
        simp only [List.getD_eq_getElem?_getD, List.getElem?_cons_zero, Option.getD_some,
          List.getElem?_nil, Option.getD_none] at h0
        exact absurd h0 hc
      | cons d ds =>
        simp only [List.getD_eq_getElem?_getD, List.getElem?_cons_zero, Option.getD_some] at h0
        subst h0
        cases z with
        | zero =>
          simp only [List.getD_eq_getElem?_getD, List.getElem?_cons_zero, Option.getD_some] at hz
          exact absurd hz hc
        | succ z =>
          simp only [cstr, hc, if_false]
          congr 1
          apply ih ds z
          · intro i hi
            have := h (i + 1) (by omega)
            simpa using this
          · simpa using hz

theorem line_eq_of_agree {N : Nat} {a b : Asm} (h : agreeBelow N a b) (hN : a.line.length ≤ N) :
    a.line = b.line := by
  apply List.ext_getElem h.1
  intro i h1 h2
  have := h.2 i (by omega)
  simp only [Asm.at, List.getD_eq_getElem?_getD, List.getElem?_eq_getElem h1,
    List.getElem?_eq_getElem h2, Option.getD_some] at this
  exact this

/-- The C string at offset `p` is the same in two buffers that agree below `N`,
when it ends below `N` or the buffers do. -/
theorem agreeBelow.cstr_at {N : Nat} {a b : Asm} (h : agreeBelow N a b) (p : Nat)
    (hz : (∃ z, p ≤ z ∧ z < N ∧ a.at z = NUL) ∨ a.line.length ≤ N) :
    cstrAt a.line p = cstrAt b.line p := by
  rcases hz with ⟨z, hpz, hzN, hz⟩ | hN
  · unfold cstrAt
    apply cstr_congr _ _ (z - p)
    · intro i hi
      rw [getD_drop, getD_drop]
      exact h.2 _ (by omega)
    · rw [getD_drop, show p + (z - p) = z by omega]
      exact hz
  · rw [line_eq_of_agree h hN]

theorem splitLine_effect (s : Asm) :
    (splitLine s).noSplit = s.noSplit ∧
    (splitLine s).line.length = s.line.length ∧
    (splitLine s).words.length = s.words.length ∧
    s.errorCount ≤ (splitLine s).errorCount ∧
    (∀ j, (splitLine s).at j = s.at j ∨
      (j < strlen s.line ∧ isspace (s.at j) = true ∧ (splitLine s).at j = NUL)) := by
  obtain ⟨h1, h2, h3, h4, h5⟩ := splitLoop_effect (strlen s.line) 0 true false
    { s with wordCount := 0 }
  refine ⟨h1, h2, h3, h4, fun j => ?_⟩
  rcases h5 j with h | ⟨_, hb, hc, hd⟩
  · exact Or.inl h
  · exact Or.inr ⟨by simpa using hb, hc, hd⟩

theorem splitLine_lock (N : Nat) (a b : Asm) (hl : agreeBelow N a b)
    (hw : a.words.length = b.words.length)
    (hz : (∃ z, z < N ∧ a.at z = NUL) ∨ a.line.length ≤ N) :
    agreeBelow N (splitLine a) (splitLine b) ∧ sameWords (splitLine a) (splitLine b) ∧
    (splitLine a).errorCount + b.errorCount = (splitLine b).errorCount + a.errorCount := by
  have hs : strlen a.line = strlen b.line := by
    have := hl.cstr_at 0 (by
      rcases hz with ⟨z, h1, h2⟩ | h
      · exact Or.inl ⟨z, Nat.zero_le _, h1, h2⟩
      · exact Or.inr h)
    simp only [cstrAt, List.drop_zero] at this
    simp only [strlen, this]
  have hlen : 0 + strlen a.line ≤ N ∨ a.line.length ≤ N := by
    rcases hz with ⟨z, h1, h2⟩ | h
    · left
      by_contra hcon
      have hlt : z < (cstr a.line).length := by simp only [strlen] at hcon; omega
      have := getD_cstr a.line z hlt
      simp only [Asm.at] at h2
      rw [h2] at this
      have hmem : (cstr a.line).getD z NUL ∈ cstr a.line := by
        simp only [List.getD_eq_getElem?_getD, List.getElem?_eq_getElem hlt, Option.getD_some]
        exact List.getElem_mem _
      rw [← this] at hmem
      exact absurd hmem (by
        clear this hlt hcon hs
        generalize a.line = l
        induction l with
        | nil => simp [cstr]
        | cons c cs ih =>
          by_cases hc : c = NUL
          · simp [cstr, hc]
          · simp only [cstr, hc, if_false, List.mem_cons, not_or]
            exact ⟨fun h => hc h.symm, ih⟩)
    · exact Or.inr h
  unfold splitLine
  rw [← hs]
  exact splitLoop_lock (strlen a.line) 0 true false N _ _ hl
    ⟨hw, rfl, fun k hk => absurd hk (Nat.not_lt_zero k)⟩ hlen
/-! ## `strtol` reads no further than the string -/

theorem scanDigits_le (base : Nat) (l : List Char) (acc n : Nat) :
    (scanDigits base l acc n).2 ≤ n + l.length := by
  induction l generalizing acc n with
  | nil => simp [scanDigits]
  | cons c cs ih =>
    simp only [scanDigits, List.length_cons]
    split
    · split
      · exact le_trans (ih _ (n + 1)) (by omega)
      · simp only []; omega
    · simp only []; omega

theorem skipSpaces_le (l : List Char) (n : Nat) :
    (skipSpaces l n).2 + (skipSpaces l n).1.length = n + l.length := by
  induction l generalizing n with
  | nil => simp [skipSpaces]
  | cons c cs ih =>
    simp only [skipSpaces, List.length_cons]
    split
    · have := ih (n + 1)
      omega
    · simp

theorem scanNumber_le (l : List Char) : (scanNumber l).2 ≤ l.length := by
  unfold scanNumber
  split
  · split
    · exact le_trans (scanDigits_le _ _ _ _) (by simp only [List.length_cons]; omega)
    · split
      · exact le_trans (scanDigits_le _ _ _ _) (by simp only [List.length_cons]; omega)
      · exact le_trans (scanDigits_le _ _ _ _) (by simp only [List.length_cons]; omega)
  · split
    · exact le_trans (scanDigits_le _ _ _ _) (by simp only [List.length_cons]; omega)
    · exact le_trans (scanDigits_le _ _ _ _) (by simp only [List.length_cons]; omega)
  · simp

theorem strtol_le (s : List Char) : (strtol s).2 ≤ (cstr s).length := by
  unfold strtol
  have hsk := skipSpaces_le (cstr s) 0
  generalize skipSpaces (cstr s) 0 = r at hsk
  obtain ⟨l, k⟩ := r
  simp only at hsk ⊢
  cases l with
  | nil =>
    simp only [scanNumber, if_true]
    exact Nat.zero_le _
  | cons c cs =>
    simp only [List.length_cons] at hsk
    by_cases hm : c = '-'
    · simp only [hm, if_true]
      have := scanNumber_le cs
      generalize scanNumber cs = r2 at this
      obtain ⟨v, n⟩ := r2
      simp only at this ⊢
      split
      · exact Nat.zero_le _
      · simp only [if_true]; omega
    · by_cases hp : c = '+'
      · simp only [hp, if_true]
        have hne : ¬ ('+' : Char) = '-' := by decide
        simp only [hne, if_false]
        have := scanNumber_le cs
        generalize scanNumber cs = r2 at this
        obtain ⟨v, n⟩ := r2
        simp only at this ⊢
        split
        · exact Nat.zero_le _
        · simp only [Bool.false_eq_true, if_false]; omega
      · simp only [hm, hp, if_false]
        have := scanNumber_le (c :: cs)
        generalize scanNumber (c :: cs) = r2 at this
        obtain ⟨v, n⟩ := r2
        simp only [List.length_cons] at this ⊢
        split
        · exact Nat.zero_le _
        · simp only [Bool.false_eq_true, if_false]; omega

theorem nul_not_mem_cstr (l : List Char) : NUL ∉ cstr l := by
  induction l with
  | nil => simp [cstr]
  | cons c cs ih =>
    by_cases hc : c = NUL
    · simp [cstr, hc]
    · simp only [cstr, hc, if_false, List.mem_cons, not_or]
      exact ⟨fun h => hc h.symm, ih⟩

/-- A C string that starts at `p` ends at the first NUL: it is no longer than
the distance to any NUL at or after `p`. -/
theorem cstrAt_length_le (s : Asm) (p z : Nat) (hpz : p ≤ z) (hz : s.at z = NUL) :
    (cstrAt s.line p).length ≤ z - p := by
  by_contra hcon
  have hlt : z - p < (cstr (s.line.drop p)).length := by simp only [cstrAt] at hcon; omega
  have h1 := getD_cstr (s.line.drop p) (z - p) hlt
  rw [getD_drop, show p + (z - p) = z by omega] at h1
  simp only [Asm.at] at hz
  rw [hz] at h1
  have hmem : (cstr (s.line.drop p)).getD (z - p) NUL ∈ cstr (s.line.drop p) := by
    simp only [List.getD_eq_getElem?_getD, List.getElem?_eq_getElem hlt, Option.getD_some]
    exact List.getElem_mem _
  rw [← h1] at hmem
  exact nul_not_mem_cstr _ hmem
/-! ## The scanner of a `DB` operand on two buffers that agree -/

/-- One turn of the loop of `parseDB2`, with the two ways into the string part
merged. -/
theorem parseDB2Loop_succ (fuel p : Nat) (s : Asm) :
    parseDB2Loop (fuel + 1) p s =
      if isdigit (s.at p) = true ∧
          (s.at (p + (strtol (s.line.drop p)).2) = NUL ∨
            s.at (p + (strtol (s.line.drop p)).2) = ',') then
        if (strtol (s.line.drop p)).1 < 256 then
          if s.at (p + (strtol (s.line.drop p)).2) = NUL then
            pushByte (strtol (s.line.drop p)).1 s
          else parseDB2Loop fuel (p + (strtol (s.line.drop p)).2 + 1)
            (pushByte (strtol (s.line.drop p)).1 s)
        else { (s.print Msg.dbValueExceeds) with bufferIndex := 0, errorCount := s.errorCount + 1 }
      else
        match dbStringPart p s with
        | (s1, some q) => parseDB2Loop fuel q s1
        | (s1, none) => s1 := by
  simp only [parseDB2Loop]
  generalize strtol (s.line.drop p) = r
  obtain ⟨value, n⟩ := r
  by_cases hd : isdigit (s.at p) = true
  · by_cases he : s.at (p + n) = NUL ∨ s.at (p + n) = ','
    · simp only [hd, he, if_true, and_self]
    · simp only [hd, he, if_true, if_false, and_false]
      all_goals (rcases dbStringPart p s with ⟨s1, _ | q⟩ <;> rfl)
  · simp only [hd, if_false, false_and, Bool.false_eq_true]
    all_goals (rcases dbStringPart p s with ⟨s1, _ | q⟩ <;> rfl)

theorem pushByte_lock (v : Int) (N : Nat) (a b : Asm) (hl : agreeBelow N a b)
    (hbi : a.bufferIndex = b.bufferIndex) :
    agreeBelow N (pushByte v a) (pushByte v b) ∧
    (pushByte v a).bufferIndex = (pushByte v b).bufferIndex := by
  unfold pushByte
  rw [← hbi]
  split
  · exact ⟨hl, by simp only [hbi]⟩
  · exact ⟨hl, hbi⟩

theorem pushByte_at (v : Int) (s : Asm) (i : Nat) : (pushByte v s).at i = s.at i := by
  simp only [Asm.at, pushByte_line]

theorem dbCopyString_lock (fuel ptr N : Nat) (a b : Asm) (hl : agreeBelow N a b)
    (hbi : a.bufferIndex = b.bufferIndex)
    (hz : (∃ z, ptr < z ∧ z < N ∧ a.at z = NUL) ∨ a.line.length ≤ N) :
    (dbCopyString fuel ptr a).1 = (dbCopyString fuel ptr b).1 ∧
    (dbCopyString fuel ptr a).2.bufferIndex = (dbCopyString fuel ptr b).2.bufferIndex ∧
    ptr < (dbCopyString fuel ptr a).1 ∧
    (∀ z, ptr < z → a.at z = NUL → (dbCopyString fuel ptr a).1 ≤ z) := by
  induction fuel generalizing ptr a b with
  | zero => exact ⟨rfl, hbi, Nat.lt_succ_self _, fun z hz _ => hz⟩
  | succ n ih =>
    have hr : a.at (ptr + 1) = b.at (ptr + 1) := hl.read _ (by
      rcases hz with ⟨z, h1, h2, _⟩ | h
      · left; omega
      · exact Or.inr h)
    simp only [dbCopyString]
    rw [← hr]
    by_cases hstop : a.at (ptr + 1) = NUL ∨ a.at (ptr + 1) = QUOTE
    · rw [if_pos hstop, if_pos hstop]
      exact ⟨rfl, hbi, Nat.lt_succ_self _, fun z hz _ => hz⟩
    · rw [if_neg hstop, if_neg hstop]
      obtain ⟨l1, l2⟩ := pushByte_lock (charCode (a.at (ptr + 1))) N a b hl hbi
      obtain ⟨g1, g2, g3, g4⟩ := ih (ptr + 1) _ _ l1 l2 (by
        rcases hz with ⟨z, h1, h2, h3⟩ | h
        · left
          refine ⟨z, ?_, h2, by rw [pushByte_at]; exact h3⟩
          by_contra hcon
          have : z = ptr + 1 := by omega
          subst this
          exact hstop (Or.inl h3)
        · right; rw [pushByte_line]; exact h)
      refine ⟨g1, g2, by omega, fun z hz1 hz2 => ?_⟩
      apply g4 z _ (by rw [pushByte_at]; exact hz2)
      by_contra hcon
      have : z = ptr + 1 := by omega
      subst this
      exact hstop (Or.inl hz2)
theorem agreeBelow.same_line {N : Nat} {a b a1 b1 : Asm} (h : agreeBelow N a b)
    (ha : a1.line = a.line) (hb : b1.line = b.line) : agreeBelow N a1 b1 := by
  unfold agreeBelow Asm.at at *
  rw [ha, hb]
  exact h

theorem confined.same_cells {N p : Nat} {a a1 : Asm} (h : confined N a p) (ha : a1.line = a.line) :
    confined N a1 p := by
  unfold confined Asm.at at *
  rw [ha]
  exact h

theorem dbStringPart_eq (p : Nat) (s : Asm) :
    dbStringPart p s =
      if (dbCopyString (s.line.set p QUOTE).length p { s with line := s.line.set p QUOTE }).2.at
          (dbCopyString (s.line.set p QUOTE).length p { s with line := s.line.set p QUOTE }).1
          = QUOTE then
        if (dbCopyString (s.line.set p QUOTE).length p { s with line := s.line.set p QUOTE }).2.at
            ((dbCopyString (s.line.set p QUOTE).length p { s with line := s.line.set p QUOTE }).1
              + 1) = ',' then
          ((dbCopyString (s.line.set p QUOTE).length p { s with line := s.line.set p QUOTE }).2,
            some ((dbCopyString (s.line.set p QUOTE).length p
              { s with line := s.line.set p QUOTE }).1 + 2))
        else if (dbCopyString (s.line.set p QUOTE).length p
            { s with line := s.line.set p QUOTE }).2.at
            ((dbCopyString (s.line.set p QUOTE).length p { s with line := s.line.set p QUOTE }).1
              + 1) = NUL then
          ((dbCopyString (s.line.set p QUOTE).length p { s with line := s.line.set p QUOTE }).2,
            none)
        else (dbSyntaxError (dbCopyString (s.line.set p QUOTE).length p
            { s with line := s.line.set p QUOTE }).2, none)
      else (dbSyntaxError (dbCopyString (s.line.set p QUOTE).length p
          { s with line := s.line.set p QUOTE }).2, none) := by
  rfl

theorem dbStringPart_line (p : Nat) (s : Asm) :
    (dbStringPart p s).1.line = s.line.set p QUOTE := by
  have h := (dbCopyString_frame (s.line.set p QUOTE).length p
    { s with line := s.line.set p QUOTE }).2.2
  rw [dbStringPart_eq]
  generalize dbCopyString (s.line.set p QUOTE).length p { s with line := s.line.set p QUOTE } = r
    at h ⊢
  split
  · split
    · exact h
    · split
      · exact h
      · exact h
  · exact h

theorem dbStringPart_lock (p N : Nat) (a b : Asm) (hl : agreeBelow N a b)
    (hbi : a.bufferIndex = b.bufferIndex) (hc : confined N a p) :
    agreeBelow N (dbStringPart p a).1 (dbStringPart p b).1 ∧
    (dbStringPart p a).1.bufferIndex = (dbStringPart p b).1.bufferIndex ∧
    (dbStringPart p a).2 = (dbStringPart p b).2 ∧
    (dbStringPart p a).1.errorCount + b.errorCount
      = (dbStringPart p b).1.errorCount + a.errorCount ∧
    (∀ q, (dbStringPart p a).2 = some q → confined N (dbStringPart p a).1 q) := by
  have hagree : agreeBelow N (dbStringPart p a).1 (dbStringPart p b).1 :=
    (hl.set p QUOTE).same_line (dbStringPart_line p a) (dbStringPart_line p b)
  have hline := dbStringPart_line p a
  refine ⟨hagree, ?_⟩
  -- the states after the quote has been stored
  have hl0 := hl.set p QUOTE
  have hlen : (a.line.set p QUOTE).length = (b.line.set p QUOTE).length := by
    simp only [List.length_set]; exact hl.1
  have hz0 : (∃ z, p < z ∧ z < N ∧ ({ a with line := a.line.set p QUOTE } : Asm).at z = NUL) ∨
      ({ a with line := a.line.set p QUOTE } : Asm).line.length ≤ N := by
    rcases hc with h | ⟨h1, h2, _⟩
    · right; simpa using h
    · left
      refine ⟨N - 1, by omega, by omega, ?_⟩
      rw [at_set_ne a p (N - 1) QUOTE (by omega)]
      exact h2
  obtain ⟨c1, c2, c3, c4⟩ := dbCopyString_lock (a.line.set p QUOTE).length p N _ _ hl0 hbi hz0
  obtain ⟨fa1, fa2, fa3⟩ := dbCopyString_frame (a.line.set p QUOTE).length p
    { a with line := a.line.set p QUOTE }
  obtain ⟨fb1, fb2, fb3⟩ := dbCopyString_frame (b.line.set p QUOTE).length p
    { b with line := b.line.set p QUOTE }
  rw [dbStringPart_eq p a, dbStringPart_eq p b] at *
  rw [← hlen] at fb1 fb2 fb3 ⊢
  generalize dbCopyString (a.line.set p QUOTE).length p { a with line := a.line.set p QUOTE }
    = ra at *
  generalize dbCopyString (a.line.set p QUOTE).length p { b with line := b.line.set p QUOTE }
    = rb at *
  obtain ⟨qa, sa⟩ := ra
  obtain ⟨qb, sb⟩ := rb
  simp only at c1 c2 c3 c4 fa2 fa3 fb2 fb3 hline ⊢
  subst c1
  have hsab : agreeBelow N sa sb := hl0.same_line fa3 fb3
  have hmodeE : a.line.length ≤ N → sa.line.length ≤ N := by
    intro h; rw [fa3]; simpa using h
  -- where the copy stopped
  have hq : a.line.length ≤ N ∨ qa < N := by
    rcases hc with h | ⟨h1, h2, _⟩
    · exact Or.inl h
    · right
      have := c4 (N - 1) (by omega) (by rw [at_set_ne a p (N - 1) QUOTE (by omega)]; exact h2)
      omega
  have hr1 : sa.at qa = sb.at qa := hsab.read qa (by
    rcases hq with h | h
    · exact Or.inr (hmodeE h)
    · exact Or.inl h)
  rw [← hr1]
  by_cases h1 : sa.at qa = QUOTE
  · simp only [h1, if_true]
    -- the copy stopped at a quote: that is not the NUL in cell N - 1
    have hq2 : a.line.length ≤ N ∨ qa + 1 < N := by
      rcases hc with h | ⟨hc1, hc2, _⟩
      · exact Or.inl h
      · right
        have hle := c4 (N - 1) (by omega)
          (by rw [at_set_ne a p (N - 1) QUOTE (by omega)]; exact hc2)
        have hne : qa ≠ N - 1 := by
          intro heq
          have : sa.at (N - 1) = NUL := by
            simp only [Asm.at, fa3]
            have := at_set_ne a p (N - 1) QUOTE (by omega)
            simp only [Asm.at] at this
            rw [this]; exact hc2
          rw [heq, this] at h1
          exact absurd h1 (by decide)
        omega
    have hr2 : sa.at (qa + 1) = sb.at (qa + 1) := hsab.read _ (by
      rcases hq2 with h | h
      · exact Or.inr (hmodeE h)
      · exact Or.inl h)
    rw [← hr2]
    by_cases h2 : sa.at (qa + 1) = ','
    · simp only [h2, if_true]
      refine ⟨c2, by first | rfl | trivial, by rw [fa2, fb2]; exact Nat.add_comm _ _, ?_⟩
      intro q hqe
      simp only [Option.some.injEq] at hqe
      subst hqe
      rcases hc with h | ⟨hc1, hc2, hc3⟩
      · exact Or.inl (hmodeE h)
      · right
        have hle := c4 (N - 1) (by omega)
          (by rw [at_set_ne a p (N - 1) QUOTE (by omega)]; exact hc2)
        have hsaN1 : sa.at (N - 1) = NUL := by
          simp only [Asm.at, fa3]
          have := at_set_ne a p (N - 1) QUOTE (by omega)
          simp only [Asm.at] at this
          rw [this]; exact hc2
        have hne1 : qa + 1 ≠ N - 1 := by
          intro heq
          rw [heq, hsaN1] at h2
          exact absurd h2 (by decide)
        have hqlt : qa + 1 < N := by
          have hne : qa ≠ N - 1 := by
            intro heq
            rw [heq, hsaN1] at h1
            exact absurd h1 (by decide)
          omega
        -- the cell N - 2 still holds a NUL or a newline, so the comma is before it
        have hpne : p ≠ N - 2 := by
          intro heq
          have : qa ≤ p + 1 := by
            apply c4 (p + 1) (by omega)
            rw [at_set_ne a p (p + 1) QUOTE (by omega), heq, show N - 2 + 1 = N - 1 by omega]
            exact hc2
          omega
        have hsaN2 : sa.at (N - 2) = NUL ∨ sa.at (N - 2) = NEWLINE := by
          simp only [Asm.at, fa3]
          have := at_set_ne a p (N - 2) QUOTE hpne
          simp only [Asm.at] at this
          rw [this]; exact hc3
        have hne2 : qa + 1 ≠ N - 2 := by
          intro heq
          rw [heq] at h2
          rcases hsaN2 with h | h
          · rw [h] at h2; exact absurd h2 (by decide)
          · rw [h] at h2; exact absurd h2 (by decide)
        exact ⟨by omega, hsaN1, hsaN2⟩
    · simp only [h2, if_false]
      by_cases h3 : sa.at (qa + 1) = NUL
      · simp only [h3, if_true]
        exact ⟨c2, by first | rfl | trivial, by rw [fa2, fb2]; exact Nat.add_comm _ _, fun q hqe => by simp at hqe⟩
      · simp only [h3, if_false]
        refine ⟨by first | rfl | trivial, by first | rfl | trivial, ?_, fun q hqe => by simp at hqe⟩
        simp only [dbSyntaxError, fa2, fb2]
        omega
  · simp only [h1, if_false]
    refine ⟨by first | rfl | trivial, by first | rfl | trivial, ?_, fun q hqe => by simp at hqe⟩
    simp only [dbSyntaxError, fa2, fb2]
    omega
theorem confined.of_agree {N p : Nat} {a b : Asm} (hc : confined N a p) (hl : agreeBelow N a b) :
    confined N b p := by
  rcases hc with h | ⟨h1, h2, h3⟩
  · left; rw [← hl.1]; exact h
  · right
    refine ⟨h1, by rw [← hl.2 _ (by omega)]; exact h2, ?_⟩
    rw [← hl.2 _ (by omega)]; exact h3

theorem confined.set_tail {N p : Nat} {s : Asm} (hc : confined N s p) (c : Char) (i : Nat)
    (hi : N ≤ i) : ({ s with line := s.line.set p c } : Asm).at i = s.at i := by
  rcases hc with h | ⟨h1, _, _⟩
  · rw [at_of_length_le _ i (by simp only [List.length_set]; omega), at_of_length_le s i (by omega)]
  · exact at_set_ne s p i c (by omega)

theorem confined.nul {N p : Nat} {s : Asm} (hc : confined N s p) :
    (∃ z, p ≤ z ∧ z < N ∧ s.at z = NUL) ∨ s.line.length ≤ N := by
  rcases hc with h | ⟨h1, h2, _⟩
  · exact Or.inr h
  · exact Or.inl ⟨N - 1, by omega, by omega, h2⟩

/-- The number at `p`, read by `strtol`, ends before the end of a confined
scan. -/
theorem confined.strtol_end {N p : Nat} {s : Asm} (hc : confined N s p) :
    s.line.length ≤ N ∨ p + (strtol (s.line.drop p)).2 < N := by
  rcases hc with h | ⟨h1, h2, _⟩
  · exact Or.inl h
  · right
    have h3 := strtol_le (s.line.drop p)
    have h4 := cstrAt_length_le s p (N - 1) (by omega) h2
    simp only [cstrAt] at h4
    omega

theorem confined.after_comma {N p q : Nat} {s : Asm} (hc : confined N s p)
    (hq : s.line.length ≤ N ∨ q < N) (hcomma : s.at q = ',') : confined N s (q + 1) := by
  rcases hc with h | ⟨h1, h2, h3⟩
  · exact Or.inl h
  · right
    have hqN : q < N := by
      rcases hq with h | h
      · by_contra hcon
        rw [at_of_length_le s q (by omega)] at hcomma
        exact absurd hcomma (by decide)
      · exact h
    have hne1 : q ≠ N - 1 := by
      intro heq; rw [heq, h2] at hcomma; exact absurd hcomma (by decide)
    have hne2 : q ≠ N - 2 := by
      intro heq; rw [heq] at hcomma
      rcases h3 with h | h
      · rw [h] at hcomma; exact absurd hcomma (by decide)
      · rw [h] at hcomma; exact absurd hcomma (by decide)
    exact ⟨by omega, h2, h3⟩

/-- The scanner of a `DB` operand on two buffers that agree below `N`, when
the scan is confined: the same number of bytes, the same errors, buffers that
still agree, and cells from `N` on unchanged. -/
theorem parseDB2Loop_lock (fuel p N : Nat) (a b : Asm) (hl : agreeBelow N a b)
    (hbi : a.bufferIndex = b.bufferIndex) (hc : confined N a p) :
    agreeBelow N (parseDB2Loop fuel p a) (parseDB2Loop fuel p b) ∧
    (parseDB2Loop fuel p a).bufferIndex = (parseDB2Loop fuel p b).bufferIndex ∧
    (parseDB2Loop fuel p a).errorCount + b.errorCount
      = (parseDB2Loop fuel p b).errorCount + a.errorCount ∧
    (∀ i, N ≤ i → (parseDB2Loop fuel p a).at i = a.at i) := by
  induction fuel generalizing p a b with
  | zero =>
    refine ⟨hl, rfl, ?_, fun i _ => rfl⟩
    simp only [parseDB2Loop, dbSyntaxError]
    omega
  | succ n ih =>
    have hstr : strtol (a.line.drop p) = strtol (b.line.drop p) := by
      rw [← strtol_cstr (a.line.drop p), ← strtol_cstr (b.line.drop p)]
      have := hl.cstr_at p hc.nul
      simp only [cstrAt] at this
      rw [this]
    have hrp : a.at p = b.at p := hl.read p (by
      rcases hc with h | ⟨h1, _, _⟩
      · exact Or.inr h
      · left; omega)
    have hend := hc.strtol_end
    have hre : a.at (p + (strtol (a.line.drop p)).2) = b.at (p + (strtol (a.line.drop p)).2) :=
      hl.read _ (by
        rcases hend with h | h
        · exact Or.inr h
        · exact Or.inl h)
    rw [parseDB2Loop_succ n p a, parseDB2Loop_succ n p b, ← hstr, ← hrp, ← hre]
    by_cases hnum : isdigit (a.at p) = true ∧
        (a.at (p + (strtol (a.line.drop p)).2) = NUL ∨
          a.at (p + (strtol (a.line.drop p)).2) = ',')
    · rw [if_pos hnum, if_pos hnum]
      by_cases hv : (strtol (a.line.drop p)).1 < 256
      · rw [if_pos hv, if_pos hv]
        obtain ⟨l1, l2⟩ := pushByte_lock (strtol (a.line.drop p)).1 N a b hl hbi
        by_cases he : a.at (p + (strtol (a.line.drop p)).2) = NUL
        · rw [if_pos he, if_pos he]
          exact ⟨l1, l2, by rw [pushByte_errorCount, pushByte_errorCount]; exact Nat.add_comm _ _,
            fun i _ => pushByte_at _ _ _⟩
        · rw [if_neg he, if_neg he]
          have hcomma : a.at (p + (strtol (a.line.drop p)).2) = ',' := by
            rcases hnum.2 with h | h
            · exact absurd h he
            · exact h
          have hc' : confined N (pushByte (strtol (a.line.drop p)).1 a)
              (p + (strtol (a.line.drop p)).2 + 1) :=
            (hc.after_comma hend hcomma).same_cells (pushByte_line _ _)
          obtain ⟨g1, g2, g3, g4⟩ := ih _ _ _ l1 l2 hc'
          refine ⟨g1, g2, ?_, fun i hi => ?_⟩
          · rw [pushByte_errorCount, pushByte_errorCount] at g3; exact g3
          · rw [g4 i hi, pushByte_at]
      · rw [if_neg hv, if_neg hv]
        refine ⟨hl, rfl, ?_, fun i _ => rfl⟩
        simp only []
        omega
    · rw [if_neg hnum, if_neg hnum]
      obtain ⟨s1, s2, s3, s4, s5⟩ := dbStringPart_lock p N a b hl hbi hc
      have htail : ∀ i, N ≤ i → (dbStringPart p a).1.at i = a.at i := by
        intro i hi
        have := hc.set_tail QUOTE i hi
        simp only [Asm.at] at this ⊢
        rw [dbStringPart_line]
        exact this
      generalize dbStringPart p a = ra at *
      generalize dbStringPart p b = rb at *
      obtain ⟨sa, oa⟩ := ra
      obtain ⟨sb, ob⟩ := rb
      simp only at s1 s2 s3 s4 s5 htail
      subst s3
      cases oa with
      | none => exact ⟨s1, s2, s4, htail⟩
      | some q =>
        obtain ⟨g1, g2, g3, g4⟩ := ih q sa sb s1 s2 (s5 q rfl)
        have g3' : (parseDB2Loop n q sa).errorCount + b.errorCount
            = (parseDB2Loop n q sb).errorCount + a.errorCount := by omega
        refine ⟨g1, g2, g3', fun i hi => ?_⟩
        exact (g4 i hi).trans (htail i hi)
/-! ## The scanners leave NULs behind the text -/

theorem dbCopyString_gt (fuel ptr : Nat) (s : Asm) : ptr < (dbCopyString fuel ptr s).1 := by
  induction fuel generalizing ptr s with
  | zero => exact Nat.lt_succ_self _
  | succ n ih =>
    simp only [dbCopyString]
    split
    · exact Nat.lt_succ_self _
    · exact Nat.lt_trans (Nat.lt_succ_self _) (ih _ _)

theorem nulFrom.same_buffer {M : Nat} {s s1 : Asm} (h : nulFrom M s) (hs : s1.line = s.line) :
    nulFrom M s1 := by
  unfold nulFrom Asm.at at *
  rw [hs]
  exact h

/-- When the string part of `parseDB2` reports no error, the cell it stores the
quote into lies before the NULs that end the buffer. -/
theorem dbStringPart_nulFrom (p M : Nat) (s : Asm) (h : nulFrom M s)
    (hne : (dbStringPart p s).1.errorCount = s.errorCount) :
    nulFrom M (dbStringPart p s).1 := by
  have hline := dbStringPart_line p s
  have hgt := dbCopyString_gt (s.line.set p QUOTE).length p { s with line := s.line.set p QUOTE }
  obtain ⟨_, fe, fl⟩ := dbCopyString_frame (s.line.set p QUOTE).length p
    { s with line := s.line.set p QUOTE }
  rw [dbStringPart_eq] at hne
  generalize dbCopyString (s.line.set p QUOTE).length p { s with line := s.line.set p QUOTE }
    = r at *
  obtain ⟨q, s1⟩ := r
  simp only at hgt fe fl hne
  have hq : s1.at q = QUOTE := by
    by_contra hcon
    rw [if_neg hcon] at hne
    simp only [dbSyntaxError, fe] at hne
    omega
  have hpM : p < M := by
    by_contra hcon
    have : s1.at q = NUL := by
      simp only [Asm.at, fl]
      have h1 := at_set_ne s p q QUOTE (by omega)
      simp only [Asm.at] at h1
      rw [h1]
      exact h q (by omega)
    rw [this] at hq
    exact absurd hq (by decide)
  intro i hi
  simp only [Asm.at, hline]
  have h1 := at_set_ne s p i QUOTE (by omega)
  simp only [Asm.at] at h1
  rw [h1]
  exact h i hi

theorem parseDB2Loop_nulFrom (fuel p M : Nat) (s : Asm) (h : nulFrom M s)
    (hne : (parseDB2Loop fuel p s).errorCount = s.errorCount) :
    nulFrom M (parseDB2Loop fuel p s) := by
  induction fuel generalizing p s with
  | zero =>
    simp only [parseDB2Loop, dbSyntaxError] at hne
    omega
  | succ n ih =>
    rw [parseDB2Loop_succ] at hne ⊢
    split at hne
    · rw [if_pos (by assumption)]
      split at hne
      · rw [if_pos (by assumption)]
        split at hne
        · rw [if_pos (by assumption)]
          exact h.same_buffer (pushByte_line _ _)
        · rw [if_neg (by assumption)]
          rw [← pushByte_errorCount (strtol (s.line.drop p)).1 s] at hne
          exact ih _ _ (h.same_buffer (pushByte_line _ _)) hne
      · simp only [] at hne
        omega
    · rw [if_neg (by assumption)]
      have herr := dbStringPart_error p s
      have hnul := dbStringPart_nulFrom p M s h
      generalize dbStringPart p s = r at *
      obtain ⟨s1, o⟩ := r
      cases o with
      | none => exact hnul hne
      | some q =>
        simp only at hne herr hnul ⊢
        have hmono := parseDB2Loop_error n q s1
        have h1 : s1.errorCount = s.errorCount := by
          rcases herr with h | ⟨_, _, h⟩
          · exact h
          · simp at h
        exact ih q s1 (hnul h1) (by omega)
/-! ## The scanner of a `DW` operand -/

/-- What the copy of a label in `parseDW2` does to the state: nothing, or a NUL
stored into `line[]` where the copy stopped. -/
theorem dwCopyLabel_effect (fuel ptr : Nat) (string : List Char) (s : Asm) :
    ((dwCopyLabel fuel ptr string s).2.2 = s ∨
      (dwCopyLabel fuel ptr string s).2.2 =
        { s with line := s.line.set (dwCopyLabel fuel ptr string s).2.1 NUL }) ∧
    ptr ≤ (dwCopyLabel fuel ptr string s).2.1 ∧
    (∀ z, ptr ≤ z → s.at z = NUL → (dwCopyLabel fuel ptr string s).2.1 ≤ z) ∧
    ((dwCopyLabel fuel ptr string s).2.2.at (dwCopyLabel fuel ptr string s).2.1 = NUL ∨
      (dwCopyLabel fuel ptr string s).2.2.at (dwCopyLabel fuel ptr string s).2.1 = ',') := by
  induction fuel generalizing ptr string with
  | zero =>
    exact ⟨Or.inr rfl, Nat.le_refl _, fun z hz _ => hz, Or.inl (at_set_nul s ptr)⟩
  | succ n ih =>
    simp only [dwCopyLabel]
    split
    · rename_i hstop
      exact ⟨Or.inl rfl, Nat.le_refl _, fun z hz _ => hz, hstop⟩
    · rename_i hgo
      obtain ⟨h1, h2, h3, h4⟩ := ih (ptr + 1) (string ++ [s.at ptr])
      refine ⟨h1, by omega, fun z hz1 hz2 => ?_, h4⟩
      apply h3 z _ hz2
      by_contra hcon
      have : z = ptr := by omega
      subst this
      exact hgo (Or.inl hz2)

theorem dwCopyLabel_lock (fuel ptr N : Nat) (string : List Char) (a b : Asm)
    (hl : agreeBelow N a b)
    (hz : (∃ z, ptr ≤ z ∧ z < N ∧ a.at z = NUL) ∨ a.line.length ≤ N) :
    (dwCopyLabel fuel ptr string a).1 = (dwCopyLabel fuel ptr string b).1 ∧
    (dwCopyLabel fuel ptr string a).2.1 = (dwCopyLabel fuel ptr string b).2.1 ∧
    (((dwCopyLabel fuel ptr string a).2.2 = a ∧ (dwCopyLabel fuel ptr string b).2.2 = b) ∨
      ((dwCopyLabel fuel ptr string a).2.2 =
          { a with line := a.line.set (dwCopyLabel fuel ptr string a).2.1 NUL } ∧
        (dwCopyLabel fuel ptr string b).2.2 =
          { b with line := b.line.set (dwCopyLabel fuel ptr string a).2.1 NUL })) := by
  induction fuel generalizing ptr string with
  | zero =>
    exact ⟨rfl, rfl, Or.inr ⟨rfl, rfl⟩⟩
  | succ n ih =>
    have hr : a.at ptr = b.at ptr := hl.read ptr (by
      rcases hz with ⟨z, h1, h2, _⟩ | h
      · left; omega
      · exact Or.inr h)
    simp only [dwCopyLabel]
    rw [← hr]
    by_cases hstop : a.at ptr = NUL ∨ a.at ptr = ','
    · rw [if_pos hstop, if_pos hstop]
      exact ⟨rfl, rfl, Or.inl ⟨rfl, rfl⟩⟩
    · rw [if_neg hstop, if_neg hstop]
      apply ih (ptr + 1) (string ++ [a.at ptr])
      rcases hz with ⟨z, h1, h2, h3⟩ | h
      · left
        refine ⟨z, ?_, h2, h3⟩
        by_contra hcon
        have : z = ptr := by omega
        subst this
        exact hstop (Or.inl h3)
      · exact Or.inr h
theorem dwResolve_effect (string : List Char) (s : Asm) :
    (dwResolve string s).1.frame = s.frame ∧ (dwResolve string s).1.line = s.line ∧
    ((dwResolve string s).2 = true →
      (dwResolve string s).1.errorCount = s.errorCount ∧
      (dwResolve string s).1.bufferIndex = s.bufferIndex + 1) ∧
    ((dwResolve string s).2 = false →
      (dwResolve string s).1.errorCount = s.errorCount + 1 ∧
      (dwResolve string s).1.bufferIndex = 0) := by
  unfold dwResolve
  split
  · exact ⟨rfl, rfl, fun _ => ⟨rfl, rfl⟩, fun h => by simp at h⟩
  · split
    · cases findLabel s string with
      | none => exact ⟨rfl, rfl, fun h => by simp at h, fun _ => ⟨rfl, rfl⟩⟩
      | some v => exact ⟨rfl, rfl, fun _ => ⟨rfl, rfl⟩, fun h => by simp at h⟩
    · exact ⟨rfl, rfl, fun _ => ⟨rfl, rfl⟩, fun h => by simp at h⟩

theorem dwResolve_pass1 (string : List Char) (s : Asm) (h : s.pass = 1) :
    dwResolve string s = ({ s with bufferIndex := s.bufferIndex + 1 }, true) := by
  simp [dwResolve, h]

theorem dwMore_fst (p : Nat) (s : Asm) : (dwMore p s).1 = s := by
  unfold dwMore; split <;> rfl

theorem dwMore_snd (p : Nat) (s : Asm) :
    ((dwMore p s).2 = none ∧ s.at p = NUL) ∨ ((dwMore p s).2 = some (p + 1) ∧ s.at p ≠ NUL) := by
  unfold dwMore
  split
  · exact Or.inl ⟨rfl, by assumption⟩
  · exact Or.inr ⟨rfl, by assumption⟩

/-- What the label part of `parseDW2` changes: the buffer and its index, the
errors, and at most one cell of `line[]`, which it sets to NUL. -/
theorem dwLabelPart_effect (ptr : Nat) (s : Asm) :
    (dwLabelPart ptr s).1.frame = s.frame ∧
    ((dwLabelPart ptr s).1.line = s.line ∨
      (dwLabelPart ptr s).1.line
        = s.line.set (dwCopyLabel MAX_LABEL_NAME_LENGTH ptr [] s).2.1 NUL) ∧
    ((dwLabelPart ptr s).1.errorCount = s.errorCount ∨
      ((dwLabelPart ptr s).1.errorCount = s.errorCount + 1 ∧
        (dwLabelPart ptr s).1.bufferIndex = 0 ∧ (dwLabelPart ptr s).2 = none)) := by
  obtain ⟨c1, _, _, _⟩ := dwCopyLabel_effect MAX_LABEL_NAME_LENGTH ptr [] s
  obtain ⟨r1, r2, r3, r4⟩ := dwResolve_effect (dwCopyLabel MAX_LABEL_NAME_LENGTH ptr [] s).1
    (dwCopyLabel MAX_LABEL_NAME_LENGTH ptr [] s).2.2
  unfold dwLabelPart
  generalize dwResolve (dwCopyLabel MAX_LABEL_NAME_LENGTH ptr [] s).1
    (dwCopyLabel MAX_LABEL_NAME_LENGTH ptr [] s).2.2 = r at *
  obtain ⟨s2, ok⟩ := r
  have hfr : (dwCopyLabel MAX_LABEL_NAME_LENGTH ptr [] s).2.2.frame = s.frame := by
    rcases c1 with h | h <;> rw [h] <;> rfl
  have herr : (dwCopyLabel MAX_LABEL_NAME_LENGTH ptr [] s).2.2.errorCount = s.errorCount := by
    rcases c1 with h | h <;> rw [h]
  have hline : (dwCopyLabel MAX_LABEL_NAME_LENGTH ptr [] s).2.2.line = s.line ∨
      (dwCopyLabel MAX_LABEL_NAME_LENGTH ptr [] s).2.2.line
        = s.line.set (dwCopyLabel MAX_LABEL_NAME_LENGTH ptr [] s).2.1 NUL := by
    rcases c1 with h | h
    · left; rw [h]
    · right; rw [h]
  simp only at r1 r2 r3 r4
  cases ok with
  | true =>
    simp only [dwMore_fst]
    refine ⟨r1.trans hfr, by rw [r2]; exact hline, Or.inl ?_⟩
    rw [(r3 rfl).1, herr]
  | false =>
    refine ⟨r1.trans hfr, ?_, Or.inr ⟨?_, (r4 rfl).2, rfl⟩⟩
    · show s2.line = s.line ∨ _
      rw [r2]; exact hline
    · show s2.errorCount = _
      rw [(r4 rfl).1, herr]
/-- One turn of the loop of `parseDW2`, with the two ways into the label part
merged. -/
theorem parseDW2Loop_succ (fuel p : Nat) (s : Asm) :
    parseDW2Loop (fuel + 1) p s =
      if isdigit (s.at p) = true ∧
          (s.at (p + (strtol (s.line.drop p)).2) = NUL ∨
            s.at (p + (strtol (s.line.drop p)).2) = ',') then
        if (strtol (s.line.drop p)).1 < 65536 then
          if s.at (p + (strtol (s.line.drop p)).2) = NUL then
            pushWord (strtol (s.line.drop p)).1 s
          else parseDW2Loop fuel (p + (strtol (s.line.drop p)).2 + 1)
            (pushWord (strtol (s.line.drop p)).1 s)
        else bufferError Msg.dwValueExceeds s
      else if isalpha (s.at p) = true then
        match dwLabelPart p s with
        | (s1, some q) => parseDW2Loop fuel q s1
        | (s1, none) => s1
      else bufferError Msg.syntaxError s := by
  simp only [parseDW2Loop]
  generalize strtol (s.line.drop p) = r
  obtain ⟨value, n⟩ := r
  by_cases hd : isdigit (s.at p) = true
  · by_cases he : s.at (p + n) = NUL ∨ s.at (p + n) = ','
    · simp only [hd, he, if_true, and_self]
    · simp only [hd, he, if_true, if_false, and_false]
      all_goals (split <;> (try rfl))
      all_goals (rcases dwLabelPart p s with ⟨s1, _ | q⟩ <;> rfl)
  · simp only [hd, if_false, false_and, Bool.false_eq_true]
    all_goals (split <;> (try rfl))
    all_goals (rcases dwLabelPart p s with ⟨s1, _ | q⟩ <;> rfl)

theorem pushWord_effect (v : Int) (s : Asm) :
    (pushWord v s).frame = s.frame ∧ (pushWord v s).line = s.line ∧
    (pushWord v s).errorCount = s.errorCount ∧
    (pushWord v s).bufferIndex = s.bufferIndex + 1 := ⟨rfl, rfl, rfl, rfl⟩

/-- What the scanner of a `DW` operand changes besides the buffer: errors (at
most one, and then `bufferIndex = 0`), and cells of `line[]`, which it can only
set to NUL. -/
theorem parseDW2Loop_effect (fuel p : Nat) (s : Asm) :
    (parseDW2Loop fuel p s).frame = s.frame ∧
    (parseDW2Loop fuel p s).line.length = s.line.length ∧
    (∀ i, (parseDW2Loop fuel p s).at i = s.at i ∨ (parseDW2Loop fuel p s).at i = NUL) ∧
    ((parseDW2Loop fuel p s).errorCount = s.errorCount ∨
      ((parseDW2Loop fuel p s).errorCount = s.errorCount + 1 ∧
        (parseDW2Loop fuel p s).bufferIndex = 0)) := by
  induction fuel generalizing p s with
  | zero => exact ⟨rfl, rfl, fun i => Or.inl rfl, Or.inr ⟨rfl, rfl⟩⟩
  | succ n ih =>
    rw [parseDW2Loop_succ]
    split
    · split
      · split
        · exact ⟨rfl, rfl, fun i => Or.inl rfl, Or.inl rfl⟩
        · obtain ⟨h1, h2, h3, h4⟩ := ih (p + (strtol (s.line.drop p)).2 + 1)
            (pushWord (strtol (s.line.drop p)).1 s)
          exact ⟨h1, h2, h3, h4⟩
      · exact ⟨rfl, rfl, fun i => Or.inl rfl, Or.inr ⟨rfl, rfl⟩⟩
    · split
      · obtain ⟨e1, e2, e3⟩ := dwLabelPart_effect p s
        generalize dwLabelPart p s = r at *
        obtain ⟨s1, o⟩ := r
        simp only at e1 e2 e3
        have hlen : s1.line.length = s.line.length := by
          rcases e2 with h | h <;> rw [h]
          simp
        have hat : ∀ i, s1.at i = s.at i ∨ s1.at i = NUL := by
          intro i
          rcases e2 with h | h
          · left; simp only [Asm.at, h]
          · by_cases hi : (dwCopyLabel MAX_LABEL_NAME_LENGTH p [] s).2.1 = i
            · right
              simp only [Asm.at, h, ← hi]
              exact getD_set_zero _ _ _
            · left
              simp only [Asm.at, h]
              exact getD_set_ne _ _ _ _ _ hi
        cases o with
        | none =>
          refine ⟨e1, hlen, hat, ?_⟩
          rcases e3 with h | ⟨h1, h2, _⟩
          · exact Or.inl h
          · exact Or.inr ⟨h1, h2⟩
        | some q =>
          obtain ⟨h1, h2, h3, h4⟩ := ih q s1
          have he : s1.errorCount = s.errorCount := by
            rcases e3 with h | ⟨_, _, h⟩
            · exact h
            · simp at h
          refine ⟨h1.trans e1, h2.trans hlen, fun i => ?_, ?_⟩
          · rcases h3 i with h | h
            · rcases hat i with h' | h'
              · exact Or.inl (h.trans h')
              · exact Or.inr (h.trans h')
            · exact Or.inr h
          · rcases h4 with h | ⟨h, h'⟩
            · exact Or.inl (h.trans he)
            · exact Or.inr ⟨by rw [← he]; exact h, h'⟩
      · exact ⟨rfl, rfl, fun i => Or.inl rfl, Or.inr ⟨rfl, rfl⟩⟩
theorem at_set_tail (s : Asm) (N p i : Nat) (c : Char) (hp : s.line.length ≤ N ∨ p < N)
    (hi : N ≤ i) : ({ s with line := s.line.set p c } : Asm).at i = s.at i := by
  rcases hp with h | h
  · rw [at_of_length_le _ i (by simp only [List.length_set]; omega), at_of_length_le s i (by omega)]
  · exact at_set_ne s p i c (by omega)

/-- The label part of `parseDW2` in pass 1 (state `a`) and in another run
(state `b`) that reports no error, on buffers that agree below `N`: the same
count, the same way on, buffers that still agree, cells from `N` on unchanged. -/
theorem dwLabelPart_lock (p N : Nat) (a b : Asm) (hl : agreeBelow N a b)
    (hbi : a.bufferIndex = b.bufferIndex) (hc : confined N a p) (hpa : a.pass = 1)
    (hok : (dwLabelPart p b).1.errorCount = b.errorCount) :
    agreeBelow N (dwLabelPart p a).1 (dwLabelPart p b).1 ∧
    (dwLabelPart p a).1.bufferIndex = (dwLabelPart p b).1.bufferIndex ∧
    (dwLabelPart p a).2 = (dwLabelPart p b).2 ∧
    (dwLabelPart p a).1.errorCount = a.errorCount ∧
    (∀ q, (dwLabelPart p a).2 = some q → confined N (dwLabelPart p a).1 q) ∧
    (∀ i, N ≤ i → (dwLabelPart p a).1.at i = a.at i ∧ (dwLabelPart p b).1.at i = b.at i) := by
  obtain ⟨k1, k2, k3⟩ := dwCopyLabel_lock MAX_LABEL_NAME_LENGTH p N [] a b hl hc.nul
  obtain ⟨_, e2, e3, e4⟩ := dwCopyLabel_effect MAX_LABEL_NAME_LENGTH p [] a
  have hrb := dwResolve_effect (dwCopyLabel MAX_LABEL_NAME_LENGTH p [] b).1
    (dwCopyLabel MAX_LABEL_NAME_LENGTH p [] b).2.2
  unfold dwLabelPart at hok ⊢
  rw [← k1] at hok hrb ⊢
  rw [← k2] at hok ⊢
  generalize (dwCopyLabel MAX_LABEL_NAME_LENGTH p [] a).1 = string at *
  generalize (dwCopyLabel MAX_LABEL_NAME_LENGTH p [] a).2.1 = p' at *
  generalize (dwCopyLabel MAX_LABEL_NAME_LENGTH p [] a).2.2 = a1 at *
  generalize (dwCopyLabel MAX_LABEL_NAME_LENGTH p [] b).2.2 = b1 at *
  -- the place where the copy stopped lies below N
  have hp' : a.line.length ≤ N ∨ p' < N := by
    rcases hc with h | ⟨h1, h2, _⟩
    · exact Or.inl h
    · right
      have := e3 (N - 1) (by omega) h2
      omega
  have hl1 : agreeBelow N a1 b1 := by
    rcases k3 with ⟨h1, h2⟩ | ⟨h1, h2⟩
    · rw [h1, h2]; exact hl
    · rw [h1, h2]; exact hl.set p' NUL
  have hpass : a1.pass = 1 := by
    rcases k3 with ⟨h1, _⟩ | ⟨h1, _⟩ <;> rw [h1] <;> exact hpa
  have hbi1 : a1.bufferIndex = b1.bufferIndex := by
    rcases k3 with ⟨h1, h2⟩ | ⟨h1, h2⟩ <;> rw [h1, h2] <;> exact hbi
  have hea : a1.errorCount = a.errorCount := by
    rcases k3 with ⟨h1, _⟩ | ⟨h1, _⟩ <;> rw [h1]
  have heb : b1.errorCount = b.errorCount := by
    rcases k3 with ⟨_, h2⟩ | ⟨_, h2⟩ <;> rw [h2]
  have hta : ∀ i, N ≤ i → a1.at i = a.at i := by
    intro i hi
    rcases k3 with ⟨h1, _⟩ | ⟨h1, _⟩
    · rw [h1]
    · rw [h1]; exact at_set_tail a N p' i NUL hp' hi
  have htb : ∀ i, N ≤ i → b1.at i = b.at i := by
    intro i hi
    rcases k3 with ⟨_, h2⟩ | ⟨_, h2⟩
    · rw [h2]
    · rw [h2]; exact at_set_tail b N p' i NUL (by rw [← hl.1]; exact hp') hi
  rw [dwResolve_pass1 string a1 hpass]
  generalize dwResolve string b1 = rb at *
  obtain ⟨b2, okb⟩ := rb
  obtain ⟨r1, r2, r3, r4⟩ := hrb
  simp only at r1 r2 r3 r4
  cases okb with
  | false =>
    have := (r4 rfl).1
    simp only at hok
    omega
  | true =>
    obtain ⟨r5, r6⟩ := r3 rfl
    simp only [dwMore_fst] at hok ⊢
    have hl2 : agreeBelow N ({ a1 with bufferIndex := a1.bufferIndex + 1 } : Asm) b2 :=
      hl1.same_line rfl r2
    have hrd : ({ a1 with bufferIndex := a1.bufferIndex + 1 } : Asm).at p' = b2.at p' :=
      hl2.read p' (by
        rcases hp' with h | h
        · right
          show a1.line.length ≤ N
          rcases k3 with ⟨h1, _⟩ | ⟨h1, _⟩ <;> rw [h1]
          · exact h
          · simpa using h
        · exact Or.inl h)
    refine ⟨hl2, by rw [r6, ← hbi1], ?_, hea, ?_, ?_⟩
    · unfold dwMore
      rw [← hrd]
      split <;> rfl
    · intro q hq
      unfold dwMore at hq
      split at hq
      · simp at hq
      · rename_i hne
        simp only [Option.some.injEq] at hq
        subst hq
        have hne' : a1.at p' ≠ NUL := hne
        have ha1 : a1 = a := by
          rcases k3 with ⟨h1, _⟩ | ⟨h1, _⟩
          · exact h1
          · exfalso
            apply hne'
            rw [h1]
            exact at_set_nul a p'
        have hcomma : a.at p' = ',' := by
          rcases e4 with h | h
          · exact absurd h hne'
          · rw [ha1] at h; exact h
        exact (hc.after_comma hp' hcomma).same_cells (by rw [ha1])
    · intro i hi
      refine ⟨hta i hi, ?_⟩
      have : b2.at i = b1.at i := by simp only [Asm.at, r2]
      rw [this]
      exact htb i hi
/-- The scanner of a `DW` operand in pass 1 (state `a`) and in another run
(state `b`) that reports no error, on buffers that agree below `N`, when the
scan is confined: the same count, no error in pass 1 either, buffers that still
agree, and cells from `N` on unchanged. -/
theorem parseDW2Loop_lock (fuel p N : Nat) (a b : Asm) (hl : agreeBelow N a b)
    (hbi : a.bufferIndex = b.bufferIndex) (hc : confined N a p) (hpa : a.pass = 1)
    (hok : (parseDW2Loop fuel p b).errorCount = b.errorCount) :
    agreeBelow N (parseDW2Loop fuel p a) (parseDW2Loop fuel p b) ∧
    (parseDW2Loop fuel p a).bufferIndex = (parseDW2Loop fuel p b).bufferIndex ∧
    (parseDW2Loop fuel p a).errorCount = a.errorCount ∧
    (∀ i, N ≤ i → (parseDW2Loop fuel p a).at i = a.at i ∧ (parseDW2Loop fuel p b).at i = b.at i) := by
  induction fuel generalizing p a b with
  | zero =>
    simp only [parseDW2Loop, bufferError] at hok
    omega
  | succ n ih =>
    have hstr : strtol (a.line.drop p) = strtol (b.line.drop p) := by
      rw [← strtol_cstr (a.line.drop p), ← strtol_cstr (b.line.drop p)]
      have := hl.cstr_at p hc.nul
      simp only [cstrAt] at this
      rw [this]
    have hrp : a.at p = b.at p := hl.read p (by
      rcases hc with h | ⟨h1, _, _⟩
      · exact Or.inr h
      · left; omega)
    have hend := hc.strtol_end
    have hre : a.at (p + (strtol (a.line.drop p)).2) = b.at (p + (strtol (a.line.drop p)).2) :=
      hl.read _ (by
        rcases hend with h | h
        · exact Or.inr h
        · exact Or.inl h)
    rw [parseDW2Loop_succ n p b, ← hstr, ← hrp, ← hre] at hok
    rw [parseDW2Loop_succ n p a, parseDW2Loop_succ n p b, ← hstr, ← hrp, ← hre]
    by_cases hnum : isdigit (a.at p) = true ∧
        (a.at (p + (strtol (a.line.drop p)).2) = NUL ∨
          a.at (p + (strtol (a.line.drop p)).2) = ',')
    · rw [if_pos hnum] at hok
      rw [if_pos hnum, if_pos hnum]
      by_cases hv : (strtol (a.line.drop p)).1 < 65536
      · rw [if_pos hv] at hok
        rw [if_pos hv, if_pos hv]
        have l1 : agreeBelow N (pushWord (strtol (a.line.drop p)).1 a)
            (pushWord (strtol (a.line.drop p)).1 b) := hl.same_line rfl rfl
        have l2 : (pushWord (strtol (a.line.drop p)).1 a).bufferIndex
            = (pushWord (strtol (a.line.drop p)).1 b).bufferIndex := by
          simp only [pushWord, hbi]
        by_cases he : a.at (p + (strtol (a.line.drop p)).2) = NUL
        · rw [if_pos he, if_pos he]
          exact ⟨l1, l2, rfl, fun i _ => ⟨rfl, rfl⟩⟩
        · rw [if_neg he] at hok
          rw [if_neg he, if_neg he]
          have hcomma : a.at (p + (strtol (a.line.drop p)).2) = ',' := by
            rcases hnum.2 with h | h
            · exact absurd h he
            · exact h
          have hc' : confined N (pushWord (strtol (a.line.drop p)).1 a)
              (p + (strtol (a.line.drop p)).2 + 1) :=
            (hc.after_comma hend hcomma).same_cells rfl
          exact ih _ _ _ l1 l2 hc' hpa hok
      · rw [if_neg hv] at hok
        simp only [bufferError] at hok
        omega
    · rw [if_neg hnum] at hok
      rw [if_neg hnum, if_neg hnum]
      by_cases halpha : isalpha (a.at p) = true
      · rw [if_pos halpha] at hok
        rw [if_pos halpha, if_pos halpha]
        have hmono := dwLabelPart_effect p b
        have hlock := dwLabelPart_lock p N a b hl hbi hc hpa
        have hfr := (dwLabelPart_effect p a).1
        generalize dwLabelPart p a = ra at *
        generalize dwLabelPart p b = rb at *
        obtain ⟨sa, oa⟩ := ra
        obtain ⟨sb, ob⟩ := rb
        simp only at hmono hlock hfr hok
        have hpa1 : sa.pass = 1 := by
          have := (frame_fields hfr).2.2.2.2.2.2.2.1
          rw [this]; exact hpa
        cases ob with
        | none =>
          obtain ⟨s1, s2, s3, s4, s5, s6⟩ := hlock hok
          subst s3
          exact ⟨s1, s2, s4, s6⟩
        | some q =>
          have hmono2 := (parseDW2Loop_effect n q sb).2.2.2
          have hsb : sb.errorCount = b.errorCount := by
            rcases hmono.2.2 with h | ⟨_, _, h⟩
            · exact h
            · simp at h
          obtain ⟨s1, s2, s3, s4, s5, s6⟩ := hlock hsb
          subst s3
          have hok' : (parseDW2Loop n q sb).errorCount = sb.errorCount := by
            have hok2 : (parseDW2Loop n q sb).errorCount = b.errorCount := hok
            omega
          obtain ⟨g1, g2, g3, g4⟩ := ih q sa sb s1 s2 (s5 q rfl) hpa1 hok'
          refine ⟨g1, g2, g3.trans s4, fun i hi => ?_⟩
          exact ⟨((g4 i hi).1).trans (s6 i hi).1, ((g4 i hi).2).trans (s6 i hi).2⟩
      · rw [if_neg halpha] at hok
        simp only [bufferError] at hok
        omega
/-! ## What the directives and instructions leave alone -/

theorem fixed_fields {a b : Asm} (h : a.fixed = b.fixed) :
    a.memorySize = b.memorySize ∧ a.labels = b.labels ∧ a.words = b.words ∧
    a.wordCount = b.wordCount ∧ a.pass = b.pass ∧ a.currentLine = b.currentLine ∧
    a.line.length = b.line.length := by
  simpa only [Asm.fixed, Prod.mk.injEq] using h

theorem fixed_of_frame {a b : Asm} (h : a.frame = b.frame) (hl : a.line.length = b.line.length) :
    a.fixed = b.fixed := by
  obtain ⟨h1, _, _, _, h5, h6, h7, h8, _, _, h11⟩ := frame_fields h
  simp only [Asm.fixed, h1, h5, h6, h7, h8, h11, hl]

theorem error_fixed (m : Msg) (s : Asm) : (s.error m).fixed = s.fixed := rfl

theorem parseORG_effect (t : Nat) (s : Asm) :
    (parseORG t s).fixed = s.fixed ∧ (parseORG t s).line = s.line ∧
    s.errorCount ≤ (parseORG t s).errorCount := by
  unfold parseORG
  split
  · exact ⟨rfl, rfl, Nat.le_succ _⟩
  · simp only []
    split
    · exact ⟨rfl, rfl, Nat.le_succ _⟩
    · split
      · exact ⟨rfl, rfl, Nat.le_succ _⟩
      · split
        · exact ⟨rfl, rfl, Nat.le_succ _⟩
        · exact ⟨rfl, rfl, Nat.le_refl _⟩

theorem parseNOP_effect (t : Nat) (s : Asm) :
    (parseNOP t s).fixed = s.fixed ∧ (parseNOP t s).line = s.line ∧
    s.errorCount ≤ (parseNOP t s).errorCount := by
  unfold parseNOP
  split
  · exact ⟨rfl, rfl, Nat.le_succ _⟩
  · exact ⟨rfl, rfl, Nat.le_refl _⟩

theorem parseDUP_effect (t : Nat) (s : Asm) :
    (parseDUP t s).2.fixed = s.fixed ∧ (parseDUP t s).2.line = s.line ∧
    (parseDUP t s).2.currentAddress = s.currentAddress ∧
    ((parseDUP t s).1 = true → (parseDUP t s).2.errorCount = s.errorCount) ∧
    ((parseDUP t s).1 = false → (parseDUP t s).2.errorCount = s.errorCount + 1) := by
  unfold parseDUP
  split
  · exact ⟨rfl, rfl, rfl, fun _ => rfl, fun h => by simp at h⟩
  · split
    · simp only []
      split
      · split
        · exact ⟨rfl, rfl, rfl, fun h => by simp at h, fun _ => rfl⟩
        · exact ⟨rfl, rfl, rfl, fun _ => rfl, fun h => by simp at h⟩
      · exact ⟨rfl, rfl, rfl, fun h => by simp at h, fun _ => rfl⟩
    · exact ⟨rfl, rfl, rfl, fun h => by simp at h, fun _ => rfl⟩

theorem dupLoop_effect (k : Nat) (s : Asm) :
    (dupLoop k s).frame = s.frame ∧ (dupLoop k s).line = s.line ∧
    (dupLoop k s).errorCount = s.errorCount ∧
    (dupLoop k s).bufferIndex = s.bufferIndex + k := by
  induction k generalizing s with
  | zero => exact ⟨rfl, rfl, rfl, rfl⟩
  | succ k ih =>
    simp only [dupLoop]
    split
    · obtain ⟨h1, h2, h3, h4⟩ := ih
        { s with buffer := s.buffer.set s.bufferIndex (s.buffer.getD 0 0),
                 bufferIndex := s.bufferIndex + 1 }
      exact ⟨h1, h2, h3, by rw [h4]; simp only []; omega⟩
    · obtain ⟨h1, h2, h3, h4⟩ := ih { s with bufferIndex := s.bufferIndex + 1 }
      exact ⟨h1, h2, h3, by rw [h4]; simp only []; omega⟩

theorem duplicate_effect (s : Asm) :
    (duplicate s).frame = s.frame ∧ (duplicate s).line = s.line ∧
    (duplicate s).errorCount = s.errorCount ∧
    (duplicate s).bufferIndex = s.bufferIndex + (if s.dup > 0 then s.dup.toNat - 1 else 0) := by
  unfold duplicate
  split
  · exact dupLoop_effect _ _
  · exact ⟨rfl, rfl, rfl, rfl⟩

theorem padBuffer_frame (s : Asm) :
    (padBuffer s).frame = s.frame ∧ (padBuffer s).line = s.line ∧
    (padBuffer s).errorCount = s.errorCount ∧
    (padBuffer s).bufferIndex / 2 = (s.bufferIndex + 1) / 2 := by
  unfold padBuffer
  split
  · exact ⟨rfl, rfl, rfl, rfl⟩
  · refine ⟨rfl, rfl, rfl, ?_⟩
    omega

theorem noMem_fields {a b : Asm} (h : a.noMem = b.noMem) :
    a.fixed = b.fixed ∧ a.line = b.line ∧ a.errorCount = b.errorCount ∧
    a.endAddress = b.endAddress ∧ a.immediates = b.immediates := by
  have h1 := congrArg Asm.memorySize h
  have h2 := congrArg Asm.labels h
  have h3 := congrArg Asm.words h
  have h4 := congrArg Asm.wordCount h
  have h5 := congrArg Asm.pass h
  have h6 := congrArg Asm.currentLine h
  have h7 := congrArg Asm.line h
  have h8 := congrArg Asm.errorCount h
  have h9 := congrArg Asm.endAddress h
  have h10 := congrArg Asm.immediates h
  simp only [Asm.noMem] at h1 h2 h3 h4 h5 h6 h7 h8 h9 h10
  exact ⟨by simp only [Asm.fixed, h1, h2, h3, h4, h5, h6, h7], h7, h8, h9, h10⟩

/-- The end of `parseDB`: the new `currentAddress` and the error depend only on
`bufferIndex`, `currentAddress` and `memorySize`. -/
theorem dbEmit_effect (s : Asm) :
    (dbEmit s).fixed = s.fixed ∧ (dbEmit s).line = s.line ∧
    ((dbEmit s).errorCount = s.errorCount + 1 ∧ (dbEmit s).currentAddress = s.currentAddress ∧
        (s.bufferIndex > DB_DW_BUFFER_SIZE ∨
          s.currentAddress + (s.bufferIndex + 1) / 2 > s.memorySize) ∨
      (dbEmit s).errorCount = s.errorCount ∧
        (dbEmit s).currentAddress = s.currentAddress + (s.bufferIndex + 1) / 2 ∧
        ¬ (s.bufferIndex > DB_DW_BUFFER_SIZE ∨
          s.currentAddress + (s.bufferIndex + 1) / 2 > s.memorySize)) := by
  obtain ⟨p1, p2, p3, p4⟩ := padBuffer_frame s
  obtain ⟨q1, _, q3, _⟩ := frame_fields p1
  unfold dbEmit
  split
  · rename_i h
    exact ⟨rfl, rfl, Or.inl ⟨rfl, rfl, Or.inl h⟩⟩
  · rename_i h
    simp only []
    rw [p4, q1, q3]
    split
    · rename_i h2
      refine ⟨?_, p2, Or.inl ⟨?_, q3, Or.inr h2⟩⟩
      · rw [error_fixed]; exact fixed_of_frame p1 (by rw [p2])
      · simp only [Asm.error, p3]
    · rename_i h2
      obtain ⟨g1, g2, _⟩ := dbStoreLoop_spec ((s.bufferIndex + 1) / 2) 0 (padBuffer s)
      obtain ⟨n1, n2, n3, _⟩ := noMem_fields g2
      refine ⟨n1.trans (fixed_of_frame p1 (by rw [p2])), n2.trans p2, Or.inr ⟨n3.trans p3, ?_, ?_⟩⟩
      · rw [g1, q3]
      · rintro (h3 | h3)
        · exact h h3
        · exact h2 h3

theorem dwEmit_effect (s : Asm) :
    (dwEmit s).fixed = s.fixed ∧ (dwEmit s).line = s.line ∧
    ((dwEmit s).errorCount = s.errorCount + 1 ∧ (dwEmit s).currentAddress = s.currentAddress ∧
        (s.bufferIndex > DB_DW_BUFFER_SIZE ∨ s.currentAddress + s.bufferIndex > s.memorySize) ∨
      (dwEmit s).errorCount = s.errorCount ∧
        (dwEmit s).currentAddress = s.currentAddress + s.bufferIndex ∧
        ¬ (s.bufferIndex > DB_DW_BUFFER_SIZE ∨ s.currentAddress + s.bufferIndex > s.memorySize)) := by
  unfold dwEmit
  split
  · rename_i h
    exact ⟨rfl, rfl, Or.inl ⟨rfl, rfl, Or.inl h⟩⟩
  · rename_i h
    split
    · rename_i h2
      exact ⟨rfl, rfl, Or.inl ⟨rfl, rfl, Or.inr h2⟩⟩
    · rename_i h2
      obtain ⟨g1, g2, _⟩ := dwStoreLoop_spec s.bufferIndex 0 s
      obtain ⟨n1, n2, n3, _⟩ := noMem_fields g2
      refine ⟨n1, n2, Or.inr ⟨n3, g1, ?_⟩⟩
      rintro (h3 | h3)
      · exact h h3
      · exact h2 h3
/-! ## Directives on two linked states -/

theorem linked.word {N : Nat} {a b : Asm} (h : linked N a b) (k : Nat) (hk : k < a.wordCount) :
    a.word k = b.word k := by
  obtain ⟨h1, h2, _, _, h5⟩ := h
  unfold Asm.word
  rw [← h2.2.2 k hk]
  exact h1.cstr_at _ (h5 k hk).nul

theorem linked.same_fields {N : Nat} {a b a1 b1 : Asm} (h : linked N a b)
    (ha : a1.line = a.line) (hb : b1.line = b.line)
    (hfa : a1.fixed = a.fixed) (hfb : b1.fixed = b.fixed)
    (hca : a1.currentAddress = a.currentAddress) (hcb : b1.currentAddress = b.currentAddress) :
    linked N a1 b1 := by
  obtain ⟨h1, h2, h3, h4, h5⟩ := h
  obtain ⟨a1m, _, a1w, a1c, _⟩ := fixed_fields hfa
  obtain ⟨b1m, _, b1w, b1c, _⟩ := fixed_fields hfb
  refine ⟨h1.same_line ha hb, ?_, by rw [hca, hcb, h3], by rw [a1m, b1m, h4], ?_⟩
  · unfold sameWords
    rw [a1w, b1w, a1c, b1c]
    exact h2
  · intro k hk
    rw [a1w]
    rw [a1c] at hk
    exact (h5 k hk).same_cells ha

theorem parseDUP_lock (t N : Nat) (a b : Asm) (h : linked N a b) :
    (parseDUP t a).1 = (parseDUP t b).1 ∧
    ((parseDUP t a).1 = true → (parseDUP t a).2.dup = (parseDUP t b).2.dup) := by
  have hwc : b.wordCount = a.wordCount := h.2.1.2.1.symm
  unfold parseDUP
  rw [hwc]
  by_cases h2 : a.wordCount = t + 2
  · rw [if_pos h2, if_pos h2]
    exact ⟨rfl, fun _ => rfl⟩
  · rw [if_neg h2, if_neg h2]
    by_cases h4 : a.wordCount = t + 4
    · have w2 := h.word (t + 2) (by omega)
      have w3 := h.word (t + 3) (by omega)
      rw [← w2, ← w3]
      by_cases hd : a.word (t + 2) = "DUP".toList
      · rw [if_pos ⟨h4, hd⟩, if_pos ⟨h4, hd⟩]
        generalize strtol (a.word (t + 3)) = r
        obtain ⟨d, n⟩ := r
        simp only []
        split
        · split
          · exact ⟨rfl, fun h => by simp at h⟩
          · exact ⟨rfl, fun _ => rfl⟩
        · exact ⟨rfl, fun h => by simp at h⟩
      · rw [if_neg (fun hh => hd hh.2), if_neg (fun hh => hd hh.2)]
        exact ⟨rfl, fun h => by simp at h⟩
    · rw [if_neg (fun hh => h4 hh.1), if_neg (fun hh => h4 hh.1)]
      exact ⟨rfl, fun h => by simp at h⟩
theorem parseDB2Loop_length (fuel p : Nat) (s : Asm) :
    (parseDB2Loop fuel p s).line.length = s.line.length := by
  induction fuel generalizing p s with
  | zero => rfl
  | succ n ih =>
    rw [parseDB2Loop_succ]
    split
    · split
      · split
        · rw [pushByte_line]
        · rw [ih, pushByte_line]
      · rfl
    · have h := dbStringPart_line p s
      generalize dbStringPart p s = r at *
      obtain ⟨s1, o⟩ := r
      cases o with
      | none => simp only at h ⊢; rw [h]; simp
      | some q => simp only at h ⊢; rw [ih, h]; simp

/-- The scan of `parseDB2` on two linked states. -/
theorem parseDB2_lock (k N : Nat) (a b : Asm) (h : linked N a b) (hk : k < a.wordCount) :
    agreeBelow N (parseDB2 k a) (parseDB2 k b) ∧
    (parseDB2 k a).bufferIndex = (parseDB2 k b).bufferIndex ∧
    (parseDB2 k a).errorCount + b.errorCount = (parseDB2 k b).errorCount + a.errorCount ∧
    (∀ i, N ≤ i → (parseDB2 k a).at i = a.at i ∧ (parseDB2 k b).at i = b.at i) ∧
    (parseDB2 k a).fixed = a.fixed ∧ (parseDB2 k b).fixed = b.fixed := by
  obtain ⟨h1, h2, _, _, h5⟩ := h
  have hca : confined N ({ a with bufferIndex := 0 } : Asm) (a.words.getD k 0) := h5 k hk
  have hl0 : agreeBelow N ({ a with bufferIndex := 0 } : Asm) ({ b with bufferIndex := 0 } : Asm) :=
    h1
  have hcb : confined N ({ b with bufferIndex := 0 } : Asm) (a.words.getD k 0) :=
    hca.of_agree hl0
  have hbb : agreeBelow N ({ b with bufferIndex := 0 } : Asm) ({ b with bufferIndex := 0 } : Asm) :=
    ⟨rfl, fun _ _ => rfl⟩
  obtain ⟨g1, g2, g3, g4⟩ := parseDB2Loop_lock (a.line.length + 1) (a.words.getD k 0) N _ _
    hl0 rfl hca
  obtain ⟨_, _, _, g5⟩ := parseDB2Loop_lock (a.line.length + 1) (a.words.getD k 0) N _ _
    hbb rfl hcb
  have hfa : (parseDB2 k a).fixed = a.fixed :=
    fixed_of_frame (parseDB2_frame k a) (parseDB2Loop_length _ _ _)
  have hfb : (parseDB2 k b).fixed = b.fixed :=
    fixed_of_frame (parseDB2_frame k b) (parseDB2Loop_length _ _ _)
  unfold parseDB2
  rw [← h2.2.2 k hk, ← h1.1]
  exact ⟨g1, g2, g3, fun i hi => ⟨g4 i hi, g5 i hi⟩, hfa, by
    have := hfb
    unfold parseDB2 at this
    rw [← h2.2.2 k hk, ← h1.1] at this
    exact this⟩
theorem dbEmit_mono (s : Asm) : s.errorCount ≤ (dbEmit s).errorCount := by
  rcases (dbEmit_effect s).2.2 with ⟨h, _⟩ | ⟨h, _⟩ <;> omega

theorem dwEmit_mono (s : Asm) : s.errorCount ≤ (dwEmit s).errorCount := by
  rcases (dwEmit_effect s).2.2 with ⟨h, _⟩ | ⟨h, _⟩ <;> omega

/-- `DB` on two linked states, when the second run reports no error. -/
theorem parseDB_lock (t N : Nat) (a b : Asm) (h : linked N a b)
    (hb : (parseDB t b).errorCount = b.errorCount) :
    advanced N a b (parseDB t a) (parseDB t b) := by
  have hwc : b.wordCount = a.wordCount := h.2.1.2.1.symm
  unfold parseDB at hb ⊢
  rw [hwc] at hb ⊢
  by_cases hcount : a.wordCount < t + 2
  · rw [if_pos hcount] at hb
    simp only [Asm.error] at hb
    omega
  · rw [if_neg hcount] at hb
    rw [if_neg hcount, if_neg hcount]
    obtain ⟨d1, d2⟩ := parseDUP_lock t N a b h
    obtain ⟨ea1, ea2, ea3, ea4, ea5⟩ := parseDUP_effect t a
    obtain ⟨eb1, eb2, eb3, eb4, eb5⟩ := parseDUP_effect t b
    generalize parseDUP t a = ra at *
    generalize parseDUP t b = rb at *
    obtain ⟨fa, a1⟩ := ra
    obtain ⟨fb, b1⟩ := rb
    simp only at d1 d2 ea1 ea2 ea3 ea4 ea5 eb1 eb2 eb3 eb4 eb5 hb ⊢
    subst d1
    cases fa with
    | false =>
      simp only at hb
      have := eb5 rfl
      omega
    | true =>
      simp only at hb ⊢
      have hl1 : linked N a1 b1 := h.same_fields ea2 eb2 ea1 eb1 ea3 eb3
      have hk : t + 1 < a1.wordCount := by
        rw [(fixed_fields ea1).2.2.2.1]; omega
      obtain ⟨s1, s2, s3, s4, s5, s6⟩ := parseDB2_lock (t + 1) N a1 b1 hl1 hk
      have hdupa := (frame_fields (parseDB2_frame (t + 1) a1)).2.2.2.1
      have hdupb := (frame_fields (parseDB2_frame (t + 1) b1)).2.2.2.1
      have hcura := (frame_fields (parseDB2_frame (t + 1) a1)).2.2.1
      have hcurb := (frame_fields (parseDB2_frame (t + 1) b1)).2.2.1
      have hmono := parseDB2_error (t + 1) b1
      generalize parseDB2 (t + 1) a1 = a2 at *
      generalize parseDB2 (t + 1) b1 = b2 at *
      have hdup : a2.dup = b2.dup := by rw [hdupa, hdupb]; exact d2 rfl
      have hcur : a2.currentAddress = b2.currentAddress := by
        rw [hcura, hcurb]; exact hl1.2.2.1
      have hmem : a2.memorySize = b2.memorySize := by
        rw [(fixed_fields s5).1, (fixed_fields s6).1]; exact hl1.2.2.2.1
      have htail : ∀ i, N ≤ i → a2.at i = a.at i ∧ b2.at i = b.at i := by
        intro i hi
        obtain ⟨t1, t2⟩ := s4 i hi
        refine ⟨t1.trans ?_, t2.trans ?_⟩
        · simp only [Asm.at, ea2]
        · simp only [Asm.at, eb2]
      rw [← s2, ← hdup] at hb ⊢
      by_cases h0 : a2.bufferIndex = 0
      · rw [if_pos h0] at hb
        rw [if_pos h0, if_pos h0]
        refine ⟨s1, hcur, s5.trans ea1, s6.trans eb1, ?_, htail⟩
        have := ea4 rfl
        have := eb4 rfl
        omega
      · rw [if_neg h0] at hb
        rw [if_neg h0, if_neg h0]
        by_cases hmany : a2.dup > 0 ∧ a2.bufferIndex > 1
        · rw [if_pos hmany] at hb
          simp only [Asm.error] at hb
          rcases hmono with h | ⟨h, _⟩ <;> have := eb4 rfl <;> omega
        · rw [if_neg hmany] at hb
          rw [if_neg hmany, if_neg hmany]
          obtain ⟨ua1, ua2, ua3, ua4⟩ := duplicate_effect a2
          obtain ⟨ub1, ub2, ub3, ub4⟩ := duplicate_effect b2
          have hbi3 : (duplicate a2).bufferIndex = (duplicate b2).bufferIndex := by
            rw [ua4, ub4, s2, hdup]
          have hcur3 : (duplicate a2).currentAddress = (duplicate b2).currentAddress := by
            rw [(frame_fields ua1).2.2.1, (frame_fields ub1).2.2.1]; exact hcur
          have hmem3 : (duplicate a2).memorySize = (duplicate b2).memorySize := by
            rw [(frame_fields ua1).1, (frame_fields ub1).1]; exact hmem
          have hfa3 : (duplicate a2).fixed = a2.fixed := fixed_of_frame ua1 (by rw [ua2])
          have hfb3 : (duplicate b2).fixed = b2.fixed := fixed_of_frame ub1 (by rw [ub2])
          generalize duplicate a2 = a3 at *
          generalize duplicate b2 = b3 at *
          obtain ⟨va1, va2, va3⟩ := dbEmit_effect a3
          obtain ⟨vb1, vb2, vb3⟩ := dbEmit_effect b3
          have hb2 : b2.errorCount = b1.errorCount := by
            have := dbEmit_mono b3
            rcases hmono with h | ⟨h, _⟩
            · exact h
            · have := eb4 rfl
              omega
          have hnoerr : (dbEmit b3).errorCount = b3.errorCount := by
            have := eb4 rfl
            omega
          have hcondb : ¬ (b3.bufferIndex > DB_DW_BUFFER_SIZE ∨
              b3.currentAddress + (b3.bufferIndex + 1) / 2 > b3.memorySize) := by
            rcases vb3 with ⟨h, _⟩ | ⟨_, _, h⟩
            · omega
            · exact h
          have hcurb3 : (dbEmit b3).currentAddress = b3.currentAddress + (b3.bufferIndex + 1) / 2 := by
            rcases vb3 with ⟨h, _⟩ | ⟨_, h, _⟩
            · omega
            · exact h
          rw [← hbi3, ← hcur3, ← hmem3] at hcondb
          rw [← hbi3, ← hcur3] at hcurb3
          obtain ⟨wa1, wa2⟩ : (dbEmit a3).errorCount = a3.errorCount ∧
              (dbEmit a3).currentAddress = a3.currentAddress + (a3.bufferIndex + 1) / 2 := by
            rcases va3 with ⟨_, _, h⟩ | ⟨h1, h2, _⟩
            · exact absurd h hcondb
            · exact ⟨h1, h2⟩
          refine ⟨(s1.same_line ua2 ub2).same_line va2 vb2, by rw [wa2, hcurb3],
            ((va1.trans hfa3).trans s5).trans ea1, ((vb1.trans hfb3).trans s6).trans eb1, ?_,
            fun i hi => ?_⟩
          · have := ea4 rfl
            have := eb4 rfl
            omega
          · obtain ⟨t1, t2⟩ := htail i hi
            refine ⟨Eq.trans ?_ t1, Eq.trans ?_ t2⟩
            · simp only [Asm.at, va2, ua2]
            · simp only [Asm.at, vb2, ub2]
theorem parseDW2_effect (k : Nat) (s : Asm) :
    (parseDW2 k s).frame = s.frame ∧ (parseDW2 k s).fixed = s.fixed ∧
    (∀ i, (parseDW2 k s).at i = s.at i ∨ (parseDW2 k s).at i = NUL) ∧
    ((parseDW2 k s).errorCount = s.errorCount ∨
      ((parseDW2 k s).errorCount = s.errorCount + 1 ∧ (parseDW2 k s).bufferIndex = 0)) := by
  obtain ⟨h1, h2, h3, h4⟩ := parseDW2Loop_effect (s.line.length + 1) (s.words.getD k 0)
    { s with bufferIndex := 0 }
  exact ⟨h1, fixed_of_frame h1 h2, h3, h4⟩

/-- The scan of `parseDW2` in pass 1 and in a run without error, on two linked
states. -/
theorem parseDW2_lock (k N : Nat) (a b : Asm) (h : linked N a b) (hk : k < a.wordCount)
    (hpa : a.pass = 1) (hok : (parseDW2 k b).errorCount = b.errorCount) :
    agreeBelow N (parseDW2 k a) (parseDW2 k b) ∧
    (parseDW2 k a).bufferIndex = (parseDW2 k b).bufferIndex ∧
    (parseDW2 k a).errorCount = a.errorCount ∧
    (∀ i, N ≤ i → (parseDW2 k a).at i = a.at i ∧ (parseDW2 k b).at i = b.at i) := by
  obtain ⟨h1, h2, _, _, h5⟩ := h
  have hca : confined N ({ a with bufferIndex := 0 } : Asm) (a.words.getD k 0) := h5 k hk
  have hl0 : agreeBelow N ({ a with bufferIndex := 0 } : Asm) ({ b with bufferIndex := 0 } : Asm) :=
    h1
  unfold parseDW2 at hok ⊢
  rw [← h2.2.2 k hk, ← h1.1] at hok ⊢
  exact parseDW2Loop_lock (a.line.length + 1) (a.words.getD k 0) N _ _ hl0 rfl hca hpa hok

/-- `DW` in pass 1 and in a run without error, on two linked states. -/
theorem parseDW_lock (t N : Nat) (a b : Asm) (h : linked N a b) (hpa : a.pass = 1)
    (hb : (parseDW t b).errorCount = b.errorCount) :
    advanced N a b (parseDW t a) (parseDW t b) := by
  have hwc : b.wordCount = a.wordCount := h.2.1.2.1.symm
  unfold parseDW at hb ⊢
  rw [hwc] at hb ⊢
  by_cases hcount : a.wordCount < t + 2
  · rw [if_pos hcount] at hb
    simp only [Asm.error] at hb
    omega
  · rw [if_neg hcount] at hb
    rw [if_neg hcount, if_neg hcount]
    obtain ⟨d1, d2⟩ := parseDUP_lock t N a b h
    obtain ⟨ea1, ea2, ea3, ea4, ea5⟩ := parseDUP_effect t a
    obtain ⟨eb1, eb2, eb3, eb4, eb5⟩ := parseDUP_effect t b
    generalize parseDUP t a = ra at *
    generalize parseDUP t b = rb at *
    obtain ⟨fa, a1⟩ := ra
    obtain ⟨fb, b1⟩ := rb
    simp only at d1 d2 ea1 ea2 ea3 ea4 ea5 eb1 eb2 eb3 eb4 eb5 hb ⊢
    subst d1
    cases fa with
    | false =>
      simp only at hb
      have := eb5 rfl
      omega
    | true =>
      simp only at hb ⊢
      have hl1 : linked N a1 b1 := h.same_fields ea2 eb2 ea1 eb1 ea3 eb3
      have hk : t + 1 < a1.wordCount := by
        rw [(fixed_fields ea1).2.2.2.1]; omega
      have hpa1 : a1.pass = 1 := by rw [(fixed_fields ea1).2.2.2.2.1]; exact hpa
      obtain ⟨fa1, s5, _, _⟩ := parseDW2_effect (t + 1) a1
      obtain ⟨fb1, s6, _, hmono⟩ := parseDW2_effect (t + 1) b1
      have hlock := parseDW2_lock (t + 1) N a1 b1 hl1 hk hpa1
      have hdupa := (frame_fields fa1).2.2.2.1
      have hdupb := (frame_fields fb1).2.2.2.1
      have hcura := (frame_fields fa1).2.2.1
      have hcurb := (frame_fields fb1).2.2.1
      generalize parseDW2 (t + 1) a1 = a2 at *
      generalize parseDW2 (t + 1) b1 = b2 at *
      have hdup : a2.dup = b2.dup := by rw [hdupa, hdupb]; exact d2 rfl
      have hcur : a2.currentAddress = b2.currentAddress := by
        rw [hcura, hcurb]; exact hl1.2.2.1
      have hmem : a2.memorySize = b2.memorySize := by
        rw [(fixed_fields s5).1, (fixed_fields s6).1]; exact hl1.2.2.2.1
      -- the scan of the second run reported no error
      have hb2 : b2.errorCount = b1.errorCount := by
        rcases hmono with h | ⟨h, h0⟩
        · exact h
        · rw [if_pos h0] at hb
          have := eb4 rfl
          omega
      obtain ⟨s1, s2, s3, s4⟩ := hlock hb2
      have htail : ∀ i, N ≤ i → a2.at i = a.at i ∧ b2.at i = b.at i := by
        intro i hi
        obtain ⟨t1, t2⟩ := s4 i hi
        refine ⟨t1.trans ?_, t2.trans ?_⟩
        · simp only [Asm.at, ea2]
        · simp only [Asm.at, eb2]
      rw [← s2, ← hdup] at hb ⊢
      by_cases h0 : a2.bufferIndex = 0
      · rw [if_pos h0, if_pos h0]
        refine ⟨s1, hcur, s5.trans ea1, s6.trans eb1, ?_, htail⟩
        have := ea4 rfl
        omega
      · rw [if_neg h0] at hb
        rw [if_neg h0, if_neg h0]
        by_cases hmany : a2.dup > 0 ∧ a2.bufferIndex > 1
        · rw [if_pos hmany] at hb
          simp only [Asm.error] at hb
          have := eb4 rfl
          omega
        · rw [if_neg hmany] at hb
          rw [if_neg hmany, if_neg hmany]
          obtain ⟨ua1, ua2, ua3, ua4⟩ := duplicate_effect a2
          obtain ⟨ub1, ub2, ub3, ub4⟩ := duplicate_effect b2
          have hbi3 : (duplicate a2).bufferIndex = (duplicate b2).bufferIndex := by
            rw [ua4, ub4, s2, hdup]
          have hcur3 : (duplicate a2).currentAddress = (duplicate b2).currentAddress := by
            rw [(frame_fields ua1).2.2.1, (frame_fields ub1).2.2.1]; exact hcur
          have hmem3 : (duplicate a2).memorySize = (duplicate b2).memorySize := by
            rw [(frame_fields ua1).1, (frame_fields ub1).1]; exact hmem
          have hfa3 : (duplicate a2).fixed = a2.fixed := fixed_of_frame ua1 (by rw [ua2])
          have hfb3 : (duplicate b2).fixed = b2.fixed := fixed_of_frame ub1 (by rw [ub2])
          generalize duplicate a2 = a3 at *
          generalize duplicate b2 = b3 at *
          obtain ⟨va1, va2, va3⟩ := dwEmit_effect a3
          obtain ⟨vb1, vb2, vb3⟩ := dwEmit_effect b3
          have hnoerr : (dwEmit b3).errorCount = b3.errorCount := by
            have := eb4 rfl
            omega
          have hcondb : ¬ (b3.bufferIndex > DB_DW_BUFFER_SIZE ∨
              b3.currentAddress + b3.bufferIndex > b3.memorySize) := by
            rcases vb3 with ⟨h, _⟩ | ⟨_, _, h⟩
            · omega
            · exact h
          have hcurb3 : (dwEmit b3).currentAddress = b3.currentAddress + b3.bufferIndex := by
            rcases vb3 with ⟨h, _⟩ | ⟨_, h, _⟩
            · omega
            · exact h
          rw [← hbi3, ← hcur3, ← hmem3] at hcondb
          rw [← hbi3, ← hcur3] at hcurb3
          obtain ⟨wa1, wa2⟩ : (dwEmit a3).errorCount = a3.errorCount ∧
              (dwEmit a3).currentAddress = a3.currentAddress + a3.bufferIndex := by
            rcases va3 with ⟨_, _, h⟩ | ⟨h1, h2, _⟩
            · exact absurd h hcondb
            · exact ⟨h1, h2⟩
          refine ⟨(s1.same_line ua2 ub2).same_line va2 vb2, by rw [wa2, hcurb3],
            ((va1.trans hfa3).trans s5).trans ea1, ((vb1.trans hfb3).trans s6).trans eb1, ?_,
            fun i hi => ?_⟩
          · have := ea4 rfl
            omega
          · obtain ⟨t1, t2⟩ := htail i hi
            refine ⟨Eq.trans ?_ t1, Eq.trans ?_ t2⟩
            · simp only [Asm.at, va2, ua2]
            · simp only [Asm.at, vb2, ub2]
theorem resolveImmediate_effect (v : Int) (s : Asm) :
    (resolveImmediate v s).2.fixed = s.fixed ∧ (resolveImmediate v s).2.line = s.line ∧
    (resolveImmediate v s).2.currentAddress = s.currentAddress ∧
    s.errorCount ≤ (resolveImmediate v s).2.errorCount := by
  unfold resolveImmediate
  split
  · exact ⟨rfl, rfl, rfl, Nat.le_refl _⟩
  · split
    · exact ⟨rfl, rfl, rfl, Nat.le_succ _⟩
    · simp only []
      split <;> exact ⟨rfl, rfl, rfl, Nat.le_refl _⟩

theorem parseOperand_effect (i : Nat) (operand : List Char) (s : Asm) :
    (parseOperand i operand s).2.fixed = s.fixed ∧ (parseOperand i operand s).2.line = s.line ∧
    (parseOperand i operand s).2.currentAddress = s.currentAddress ∧
    s.errorCount ≤ (parseOperand i operand s).2.errorCount := by
  have hlab : (match findLabel s operand with
      | some value => (i ||| value, s)
      | none => (i, s.error Msg.syntaxError)).2.fixed = s.fixed ∧
      (match findLabel s operand with
      | some value => (i ||| value, s)
      | none => (i, s.error Msg.syntaxError)).2.line = s.line ∧
      (match findLabel s operand with
      | some value => (i ||| value, s)
      | none => (i, s.error Msg.syntaxError)).2.currentAddress = s.currentAddress ∧
      s.errorCount ≤ (match findLabel s operand with
      | some value => (i ||| value, s)
      | none => (i, s.error Msg.syntaxError)).2.errorCount := by
    cases findLabel s operand with
    | none => exact ⟨rfl, rfl, rfl, Nat.le_succ _⟩
    | some v => exact ⟨rfl, rfl, rfl, Nat.le_refl _⟩
  have hat : (if operand.getD 0 NUL = '@' then
        match findLabel s (operand.drop 1) with
        | some value => (i ||| (resolveImmediate value s).1, (resolveImmediate value s).2)
        | none => (match findLabel s operand with
            | some value => (i ||| value, s)
            | none => (i, s.error Msg.syntaxError))
      else (match findLabel s operand with
            | some value => (i ||| value, s)
            | none => (i, s.error Msg.syntaxError))).2.fixed = s.fixed ∧
      (if operand.getD 0 NUL = '@' then
        match findLabel s (operand.drop 1) with
        | some value => (i ||| (resolveImmediate value s).1, (resolveImmediate value s).2)
        | none => (match findLabel s operand with
            | some value => (i ||| value, s)
            | none => (i, s.error Msg.syntaxError))
      else (match findLabel s operand with
            | some value => (i ||| value, s)
            | none => (i, s.error Msg.syntaxError))).2.line = s.line ∧
      (if operand.getD 0 NUL = '@' then
        match findLabel s (operand.drop 1) with
        | some value => (i ||| (resolveImmediate value s).1, (resolveImmediate value s).2)
        | none => (match findLabel s operand with
            | some value => (i ||| value, s)
            | none => (i, s.error Msg.syntaxError))
      else (match findLabel s operand with
            | some value => (i ||| value, s)
            | none => (i, s.error Msg.syntaxError))).2.currentAddress = s.currentAddress ∧
      s.errorCount ≤ (if operand.getD 0 NUL = '@' then
        match findLabel s (operand.drop 1) with
        | some value => (i ||| (resolveImmediate value s).1, (resolveImmediate value s).2)
        | none => (match findLabel s operand with
            | some value => (i ||| value, s)
            | none => (i, s.error Msg.syntaxError))
      else (match findLabel s operand with
            | some value => (i ||| value, s)
            | none => (i, s.error Msg.syntaxError))).2.errorCount := by
    split
    · cases findLabel s (operand.drop 1) with
      | none => exact hlab
      | some v => exact resolveImmediate_effect _ s
    · exact hlab
  unfold parseOperand
  simp only []
  split
  · cases getImmediateValue (operand.drop 1) with
    | none => exact hat
    | some v => exact resolveImmediate_effect _ s
  · exact hat

theorem parseInstruction_effect (i n : Nat) (operand : List Char) (s : Asm) :
    (parseInstruction i n operand s).fixed = s.fixed ∧
    (parseInstruction i n operand s).line = s.line ∧
    (parseInstruction i n operand s).currentAddress = s.currentAddress ∧
    s.errorCount ≤ (parseInstruction i n operand s).errorCount := by
  unfold parseInstruction
  split
  · exact ⟨rfl, rfl, rfl, Nat.le_succ _⟩
  · split
    · exact ⟨rfl, rfl, rfl, Nat.le_succ _⟩
    · simp only []
      split
      · exact parseOperand_effect _ operand s
      · exact ⟨rfl, rfl, rfl, Nat.le_refl _⟩
theorem advanced_of_same_line {N : Nat} {a b a1 b1 : Asm} (h : linked N a b)
    (hla : a1.line = a.line) (hlb : b1.line = b.line)
    (hfa : a1.fixed = a.fixed) (hfb : b1.fixed = b.fixed)
    (hc : a1.currentAddress = b1.currentAddress) (he : a1.errorCount = a.errorCount) :
    advanced N a b a1 b1 := by
  refine ⟨h.1.same_line hla hlb, hc, hfa, hfb, he, fun i _ => ⟨?_, ?_⟩⟩
  · simp only [Asm.at, hla]
  · simp only [Asm.at, hlb]

theorem parseORG_lock (t N : Nat) (a b : Asm) (h : linked N a b)
    (hb : (parseORG t b).errorCount = b.errorCount) :
    advanced N a b (parseORG t a) (parseORG t b) := by
  have hwc : b.wordCount = a.wordCount := h.2.1.2.1.symm
  obtain ⟨fa, la, _⟩ := parseORG_effect t a
  obtain ⟨fb, lb, _⟩ := parseORG_effect t b
  apply advanced_of_same_line h la lb fa fb
  all_goals
    unfold parseORG at hb ⊢
    rw [hwc] at hb
    try rw [hwc]
    by_cases hcount : a.wordCount = t + 2
    · have hw := h.word (t + 1) (by omega)
      rw [← hw] at hb
      try rw [← hw]
      rw [← h.2.2.1, ← h.2.2.2.1] at hb
      try rw [← h.2.2.1, ← h.2.2.2.1]
      generalize strtol (a.word (t + 1)) = r at *
      obtain ⟨v, n⟩ := r
      simp only [] at hb ⊢
      split at hb
      · simp only [Asm.error] at hb; omega
      · rename_i h1
        rw [if_neg h1]
        try rw [if_neg h1]
        split at hb
        · simp only [Asm.error] at hb; omega
        · rename_i h2
          rw [if_neg h2]
          try rw [if_neg h2]
          split at hb
          · simp only [Asm.error] at hb; omega
          · rename_i h3
            rw [if_neg h3]
            try rw [if_neg h3]
            split at hb
            · simp only [Asm.error] at hb; omega
            · rename_i h4
              rw [if_neg h4]
              try rw [if_neg h4]
    · rw [if_pos (Or.inl hcount)] at hb
      simp only [Asm.error] at hb
      omega

theorem parseNOP_lock (t N : Nat) (a b : Asm) (h : linked N a b)
    (hb : (parseNOP t b).errorCount = b.errorCount) :
    advanced N a b (parseNOP t a) (parseNOP t b) := by
  have hwc : b.wordCount = a.wordCount := h.2.1.2.1.symm
  obtain ⟨fa, la, _⟩ := parseNOP_effect t a
  obtain ⟨fb, lb, _⟩ := parseNOP_effect t b
  apply advanced_of_same_line h la lb fa fb
  all_goals
    unfold parseNOP at hb ⊢
    rw [hwc] at hb
    try rw [hwc]
    by_cases hcount : t + 1 ≠ a.wordCount
    · rw [if_pos hcount] at hb
      simp only [Asm.error] at hb
      omega
    · rw [if_neg hcount]
      try rw [if_neg hcount]
      first
        | exact congrArg (fun x => x + 1) h.2.2.1
        | rfl
/-- The directive or instruction in word `t`, in pass 1 and in pass 2, on two
linked states: both runs take the same branch, and when pass 2 reports no
error they reach the same `currentAddress`. -/
theorem dispatch_lock (t N : Nat) (a b : Asm) (h : linked N a b) (ht : t < a.wordCount)
    (hpa : a.pass = 1) (hpb : b.pass = 2) :
    ((dispatch t a).isSome = (dispatch t b).isSome) ∧
    ∀ a1 b1, dispatch t a = some a1 → dispatch t b = some b1 →
      b1.errorCount = b.errorCount → advanced N a b a1 b1 := by
  have hw := h.word t ht
  have hwc : b.wordCount = a.wordCount := h.2.1.2.1.symm
  unfold dispatch
  rw [← hw, hpa, hpb, hwc]
  cases hi : getInstruction (a.word t) with
  | some i =>
    simp only [if_true]
    have hne : ¬ ((1 : Nat) = 2) := by decide
    simp only [hne, if_false]
    refine ⟨rfl, ?_⟩
    intro a1 b1 ha hb1 herr
    simp only [Option.some.injEq] at ha hb1
    subst ha
    subst hb1
    obtain ⟨p1, p2, p3, p4⟩ := parseInstruction_effect i (a.wordCount - t - 1) (b.word (t + 1)) b
    refine advanced_of_same_line h ?_ ?_ ?_ ?_ ?_ ?_
    · rfl
    · exact p2
    · rfl
    · exact p1
    · show a.currentAddress + 1
        = (parseInstruction i (a.wordCount - t - 1) (b.word (t + 1)) b).currentAddress + 1
      rw [p3, h.2.2.1]
    · rfl
  | none =>
    simp only []
    by_cases h1 : a.word t = "ORG".toList
    · rw [if_pos h1, if_pos h1]
      refine ⟨rfl, ?_⟩
      intro a1 b1 ha hb1 herr
      simp only [Option.some.injEq] at ha hb1
      subst ha
      subst hb1
      exact parseORG_lock t N a b h herr
    · rw [if_neg h1, if_neg h1]
      by_cases h2 : a.word t = "DB".toList
      · rw [if_pos h2, if_pos h2]
        refine ⟨rfl, ?_⟩
        intro a1 b1 ha hb1 herr
        simp only [Option.some.injEq] at ha hb1
        subst ha
        subst hb1
        exact parseDB_lock t N a b h herr
      · rw [if_neg h2, if_neg h2]
        by_cases h3 : a.word t = "DW".toList
        · rw [if_pos h3, if_pos h3]
          refine ⟨rfl, ?_⟩
          intro a1 b1 ha hb1 herr
          simp only [Option.some.injEq] at ha hb1
          subst ha
          subst hb1
          exact parseDW_lock t N a b h hpa herr
        · rw [if_neg h3, if_neg h3]
          by_cases h4 : a.word t = "NOP".toList
          · rw [if_pos h4, if_pos h4]
            refine ⟨rfl, ?_⟩
            intro a1 b1 ha hb1 herr
            simp only [Option.some.injEq] at ha hb1
            subst ha
            subst hb1
            exact parseNOP_lock t N a b h herr
          · rw [if_neg h4, if_neg h4]
            exact ⟨rfl, fun _ _ ha => by simp at ha⟩
/-! ## Declaring a label -/

theorem addLabel_effect (w : List Char) (s : Asm) :
    ((addLabel w s).1 = true →
      (addLabel w s).2 = { s with labels := s.labels ++ [label_t.mk (cstr w) s.currentAddress] }) ∧
    ((addLabel w s).1 = false →
      (addLabel w s).2.pass = s.pass ∧ (addLabel w s).2.errorCount = s.errorCount ∧
      (addLabel w s).2.labels = s.labels) := by
  unfold addLabel
  split
  · exact ⟨fun h => by simp at h, fun _ => ⟨rfl, rfl, rfl⟩⟩
  · split
    · exact ⟨fun h => by simp at h, fun _ => ⟨rfl, rfl, rfl⟩⟩
    · split
      · exact ⟨fun h => by simp at h, fun _ => ⟨rfl, rfl, rfl⟩⟩
      · split
        · exact ⟨fun h => by simp at h, fun _ => ⟨rfl, rfl, rfl⟩⟩
        · exact ⟨fun _ => rfl, fun h => by simp at h⟩

theorem firstWordLabelLoop_effect (fuel i : Nat) (s : Asm) :
    ((firstWordLabelLoop fuel i s).1 = true →
      ∃ name, (firstWordLabelLoop fuel i s).2
        = { s with labels := s.labels ++ [label_t.mk name s.currentAddress] }) ∧
    ((firstWordLabelLoop fuel i s).1 = false →
      (firstWordLabelLoop fuel i s).2.pass = s.pass ∧
      s.errorCount ≤ (firstWordLabelLoop fuel i s).2.errorCount ∧
      (firstWordLabelLoop fuel i s).2.labels = s.labels) := by
  induction fuel generalizing i with
  | zero => exact ⟨fun h => by simp [firstWordLabelLoop] at h, fun _ => ⟨rfl, Nat.le_refl _, rfl⟩⟩
  | succ n ih =>
    simp only [firstWordLabelLoop]
    split
    · obtain ⟨h1, h2⟩ := addLabel_effect (s.word 0) s
      generalize addLabel (s.word 0) s = r at *
      obtain ⟨ok, s1⟩ := r
      cases ok with
      | true => exact ⟨fun _ => ⟨_, h1 rfl⟩, fun h => by simp at h⟩
      | false =>
        obtain ⟨g1, g2, g3⟩ := h2 rfl
        refine ⟨fun h => by simp at h, fun _ => ⟨g1, ?_, g3⟩⟩
        simp only at g2 ⊢
        omega
    · split
      · exact ⟨fun h => by simp at h, fun _ => ⟨rfl, Nat.le_refl _, rfl⟩⟩
      · exact ih (i + 1)

theorem firstWordLabel_effect (s : Asm) :
    ((firstWordLabel s).1 = true →
      ∃ name, (firstWordLabel s).2
        = { s with labels := s.labels ++ [label_t.mk name s.currentAddress] }) ∧
    ((firstWordLabel s).1 = false →
      (firstWordLabel s).2.pass = s.pass ∧ s.errorCount ≤ (firstWordLabel s).2.errorCount ∧
      (firstWordLabel s).2.labels = s.labels) := by
  unfold firstWordLabel
  split
  · exact firstWordLabelLoop_effect _ _ _
  · exact ⟨fun h => by simp at h, fun _ => ⟨rfl, Nat.le_refl _, rfl⟩⟩
/-! ## A whole line on two linked states -/

theorem advanced.followed {N : Nat} {a b a1 b1 : Asm} (h : advanced N a b a1 b1) :
    followed N a b a1 b1 := by
  obtain ⟨h1, h2, h3, h4, _, h6⟩ := h
  obtain ⟨a1m, a1s, a1w, _, a1p, _, a1l⟩ := fixed_fields h3
  obtain ⟨b1m, _, b1w, _, b1p, _, _⟩ := fixed_fields h4
  exact ⟨h1, h2, a1m, b1m, a1p, b1p, by rw [a1w], by rw [b1w], a1l, h6, Or.inl a1s⟩

theorem linked.declare {N : Nat} {a b : Asm} (h : linked N a b) (ls : List label_t) :
    linked N { a with labels := ls } b := h

theorem afterLabel_lock (N : Nat) (a b : Asm) (h : linked N a b) (hpa : a.pass = 1)
    (hpb : b.pass = 2) (hb : (afterLabel b).errorCount = b.errorCount) :
    advanced N a b (afterLabel a) (afterLabel b) := by
  have hwc : b.wordCount = a.wordCount := h.2.1.2.1.symm
  unfold afterLabel at hb ⊢
  rw [hwc] at hb ⊢
  by_cases h1 : a.wordCount > 1
  · rw [if_pos h1] at hb
    rw [if_pos h1, if_pos h1]
    obtain ⟨d1, d2⟩ := dispatch_lock 1 N a b h h1 hpa hpb
    cases ha' : dispatch 1 a with
    | none =>
      cases hb' : dispatch 1 b with
      | none =>
        rw [hb'] at hb
        simp only [Asm.error] at hb
        omega
      | some b1 => rw [ha', hb'] at d1; simp at d1
    | some a1 =>
      cases hb' : dispatch 1 b with
      | none => rw [ha', hb'] at d1; simp at d1
      | some b1 =>
        rw [hb'] at hb
        exact d2 a1 b1 ha' hb' hb
  · rw [if_neg h1, if_neg h1]
    exact advanced_of_same_line h rfl rfl rfl rfl h.2.2.1 rfl

theorem assembleLine_two (b : Asm) (hpb : b.pass = 2) (hb : dispatch 0 b = none) :
    assembleLine b
      = if (findLabel b (b.word 0)).isSome then afterLabel b else b.error Msg.syntaxError := by
  have hne : ¬ (b.pass = 1) := by rw [hpb]; decide
  unfold assembleLine
  rw [hb]
  simp only []
  rw [if_neg hne, if_pos hpb]

theorem assembleLine_one (a : Asm) (hpa : a.pass = 1) (ha : dispatch 0 a = none) :
    ((firstWordLabel a).1 = true → assembleLine a = afterLabel (firstWordLabel a).2) ∧
    ((firstWordLabel a).1 = false → (firstWordLabel a).2.pass = 1 →
      assembleLine a = (firstWordLabel a).2.error Msg.syntaxError) := by
  unfold assembleLine
  rw [ha]
  simp only []
  rw [if_pos hpa]
  rcases firstWordLabel a with ⟨ok, s1⟩
  constructor
  · intro h
    simp only at h
    subst h
    rfl
  · intro h hp
    simp only at h hp
    subst h
    have hne : ¬ (s1.pass = 2) := by rw [hp]; decide
    simp only []
    rw [if_neg hne]

/-- A line in pass 1 and in pass 2, on two linked states, when neither pass
reports an error on it: the two runs reach the same `currentAddress`. -/
theorem assembleLine_lock (N : Nat) (a b : Asm) (h : linked N a b) (hwc : 0 < a.wordCount)
    (hpa : a.pass = 1) (hpb : b.pass = 2)
    (ha : (assembleLine a).errorCount = a.errorCount)
    (hb : (assembleLine b).errorCount = b.errorCount) :
    followed N a b (assembleLine a) (assembleLine b) := by
  obtain ⟨d1, d2⟩ := dispatch_lock 0 N a b h hwc hpa hpb
  cases ha' : dispatch 0 a with
  | some a1 =>
    cases hb' : dispatch 0 b with
    | none => rw [ha', hb'] at d1; simp at d1
    | some b1 =>
      have ea : assembleLine a = a1 := by unfold assembleLine; rw [ha']
      have eb : assembleLine b = b1 := by unfold assembleLine; rw [hb']
      rw [ea, eb]
      rw [eb] at hb
      exact (d2 a1 b1 ha' hb' hb).followed
  | none =>
    cases hb' : dispatch 0 b with
    | some b1 => rw [ha', hb'] at d1; simp at d1
    | none =>
      rw [assembleLine_two b hpb hb'] at hb ⊢
      obtain ⟨e1, e2⟩ := assembleLine_one a hpa ha'
      obtain ⟨f1, f2⟩ := firstWordLabel_effect a
      cases hok : (firstWordLabel a).1 with
      | false =>
        obtain ⟨g1, g2, _⟩ := f2 hok
        rw [e2 hok (by rw [g1, hpa])] at ha
        simp only [Asm.error] at ha
        omega
      | true =>
        obtain ⟨name, hn⟩ := f1 hok
        rw [e1 hok, hn] at ha ⊢
        by_cases hfound : (findLabel b (b.word 0)).isSome = true
        · rw [if_pos hfound] at hb
          rw [if_pos hfound]
          have hl := h.declare (a.labels ++ [label_t.mk name a.currentAddress])
          obtain ⟨h1, h2, h3, h4, _, h6⟩ := afterLabel_lock N _ b hl hpa hpb hb
          obtain ⟨a1m, a1s, a1w, _, a1p, _, a1l⟩ := fixed_fields h3
          obtain ⟨b1m, _, b1w, _, b1p, _, _⟩ := fixed_fields h4
          exact ⟨h1, h2, a1m, b1m, a1p, b1p, by rw [a1w], by rw [b1w], a1l, h6,
            Or.inr ⟨name, a1s⟩⟩
        · rw [if_neg hfound] at hb
          simp only [Asm.error] at hb
          omega
/-! ## One pass alone -/

theorem kept.id_step (M : Nat) (s : Asm) : kept M s s :=
  ⟨rfl, rfl, rfl, rfl, Nat.le_refl _, fun _ h => h⟩

theorem kept.then_kept {M : Nat} {s s1 s2 : Asm} (h1 : kept M s s1) (h2 : kept M s1 s2) :
    kept M s s2 := by
  obtain ⟨a1, a2, a3, a4, a5, a6⟩ := h1
  obtain ⟨b1, b2, b3, b4, b5, b6⟩ := h2
  refine ⟨b1.trans a1, b2.trans a2, b3.trans a3, b4.trans a4, Nat.le_trans a5 b5, ?_⟩
  intro he hn
  exact b6 (by omega) (a6 (by omega) hn)

theorem kept.of_line {M : Nat} {s s1 : Asm} (hf : s1.fixed = s.fixed) (hl : s1.line = s.line)
    (he : s.errorCount ≤ s1.errorCount) : kept M s s1 := by
  obtain ⟨f1, _, f3, _, f5, _, f7⟩ := fixed_fields hf
  refine ⟨f1, f5, by rw [f3], f7, he, fun _ hn i hi => ?_⟩
  have := hn i hi
  simp only [Asm.at, hl] at this ⊢
  exact this

theorem kept.on_error (M : Nat) (m : Msg) (s : Asm) : kept M s (s.error m) :=
  kept.of_line rfl rfl (by simp only [Asm.error]; omega)

theorem parseDB2_kept (k M : Nat) (s : Asm) : kept M s (parseDB2 k s) := by
  obtain ⟨f1, _, _, _, _, f6, _, f8, _⟩ := frame_fields (parseDB2_frame k s)
  have hlen : (parseDB2 k s).line.length = s.line.length := by
    unfold parseDB2; rw [parseDB2Loop_length]
  refine ⟨f1, f8, by rw [f6], hlen, ?_, ?_⟩
  · rcases parseDB2_error k s with h | ⟨h, _⟩ <;> omega
  · intro he hn
    unfold parseDB2 at he ⊢
    exact parseDB2Loop_nulFrom _ _ M _ hn he

theorem parseDW2_kept (k M : Nat) (s : Asm) : kept M s (parseDW2 k s) := by
  obtain ⟨_, f2, f3, f4⟩ := parseDW2_effect k s
  obtain ⟨g1, _, g3, _, g5, _, g7⟩ := fixed_fields f2
  refine ⟨g1, g5, by rw [g3], g7, ?_, ?_⟩
  · rcases f4 with h | ⟨h, _⟩ <;> omega
  · intro _ hn i hi
    rcases f3 i with h | h
    · rw [h]; exact hn i hi
    · exact h

theorem parseDB_kept (t M : Nat) (s : Asm) : kept M s (parseDB t s) := by
  unfold parseDB
  by_cases hcount : s.wordCount < t + 2
  · rw [if_pos hcount]; exact kept.on_error M _ s
  · rw [if_neg hcount]
    obtain ⟨e1, e2, _, e4, e5⟩ := parseDUP_effect t s
    generalize parseDUP t s = r at *
    obtain ⟨f, s1⟩ := r
    simp only at e1 e2 e4 e5 ⊢
    cases f with
    | false =>
      simp only
      exact kept.of_line e1 e2 (by have := e5 rfl; omega)
    | true =>
      simp only
      have k1 : kept M s s1 := kept.of_line e1 e2 (by have := e4 rfl; omega)
      have k2 := parseDB2_kept (t + 1) M s1
      generalize parseDB2 (t + 1) s1 = s2 at *
      by_cases h0 : s2.bufferIndex = 0
      · rw [if_pos h0]; exact k1.then_kept k2
      · rw [if_neg h0]
        by_cases hmany : s2.dup > 0 ∧ s2.bufferIndex > 1
        · rw [if_pos hmany]; exact (k1.then_kept k2).then_kept (kept.on_error M _ s2)
        · rw [if_neg hmany]
          obtain ⟨d1, d2, d3, _⟩ := duplicate_effect s2
          obtain ⟨m1, m2, _⟩ := dbEmit_effect (duplicate s2)
          have k3 : kept M s2 (duplicate s2) :=
            kept.of_line (fixed_of_frame d1 (by rw [d2])) d2 (by omega)
          have k4 : kept M (duplicate s2) (dbEmit (duplicate s2)) :=
            kept.of_line m1 m2 (dbEmit_mono _)
          exact ((k1.then_kept k2).then_kept k3).then_kept k4

theorem parseDW_kept (t M : Nat) (s : Asm) : kept M s (parseDW t s) := by
  unfold parseDW
  by_cases hcount : s.wordCount < t + 2
  · rw [if_pos hcount]; exact kept.on_error M _ s
  · rw [if_neg hcount]
    obtain ⟨e1, e2, _, e4, e5⟩ := parseDUP_effect t s
    generalize parseDUP t s = r at *
    obtain ⟨f, s1⟩ := r
    simp only at e1 e2 e4 e5 ⊢
    cases f with
    | false =>
      simp only
      exact kept.of_line e1 e2 (by have := e5 rfl; omega)
    | true =>
      simp only
      have k1 : kept M s s1 := kept.of_line e1 e2 (by have := e4 rfl; omega)
      have k2 := parseDW2_kept (t + 1) M s1
      generalize parseDW2 (t + 1) s1 = s2 at *
      by_cases h0 : s2.bufferIndex = 0
      · rw [if_pos h0]; exact k1.then_kept k2
      · rw [if_neg h0]
        by_cases hmany : s2.dup > 0 ∧ s2.bufferIndex > 1
        · rw [if_pos hmany]; exact (k1.then_kept k2).then_kept (kept.on_error M _ s2)
        · rw [if_neg hmany]
          obtain ⟨d1, d2, d3, _⟩ := duplicate_effect s2
          obtain ⟨m1, m2, _⟩ := dwEmit_effect (duplicate s2)
          have k3 : kept M s2 (duplicate s2) :=
            kept.of_line (fixed_of_frame d1 (by rw [d2])) d2 (by omega)
          have k4 : kept M (duplicate s2) (dwEmit (duplicate s2)) :=
            kept.of_line m1 m2 (dwEmit_mono _)
          exact ((k1.then_kept k2).then_kept k3).then_kept k4
theorem dispatch_kept (t M : Nat) (s s1 : Asm) (h : dispatch t s = some s1) : kept M s s1 := by
  unfold dispatch at h
  cases hi : getInstruction (s.word t) with
  | some k =>
    rw [hi] at h
    simp only [Option.some.injEq] at h
    subst h
    by_cases hp : s.pass = 2
    · simp only [hp, if_true]
      obtain ⟨e1, e2, _, e4⟩ :=
        parseInstruction_effect k (s.wordCount - t - 1) (s.word (t + 1)) s
      exact kept.of_line e1 e2 e4
    · simp only [hp, if_false]
      exact kept.of_line rfl rfl (Nat.le_refl _)
  | none =>
    rw [hi] at h
    simp only at h
    by_cases h1 : s.word t = "ORG".toList
    · rw [if_pos h1] at h
      simp only [Option.some.injEq] at h
      subst h
      obtain ⟨e1, e2, e3⟩ := parseORG_effect t s
      exact kept.of_line e1 e2 e3
    · rw [if_neg h1] at h
      by_cases h2 : s.word t = "DB".toList
      · rw [if_pos h2] at h
        simp only [Option.some.injEq] at h
        subst h
        exact parseDB_kept t M s
      · rw [if_neg h2] at h
        by_cases h3 : s.word t = "DW".toList
        · rw [if_pos h3] at h
          simp only [Option.some.injEq] at h
          subst h
          exact parseDW_kept t M s
        · rw [if_neg h3] at h
          by_cases h4 : s.word t = "NOP".toList
          · rw [if_pos h4] at h
            simp only [Option.some.injEq] at h
            subst h
            obtain ⟨e1, e2, e3⟩ := parseNOP_effect t s
            exact kept.of_line e1 e2 e3
          · rw [if_neg h4] at h
            exact absurd h (by simp)

theorem afterLabel_kept (M : Nat) (s : Asm) : kept M s (afterLabel s) := by
  unfold afterLabel
  by_cases h1 : s.wordCount > 1
  · rw [if_pos h1]
    cases hd : dispatch 1 s with
    | none => exact kept.on_error M _ s
    | some s1 => exact dispatch_kept 1 M s s1 hd
  · rw [if_neg h1]; exact kept.id_step M s

theorem kept.of_rfl {M : Nat} {s s1 : Asm} (h1 : s1.memorySize = s.memorySize)
    (h2 : s1.pass = s.pass) (h3 : s1.words = s.words) (h4 : s1.line = s.line)
    (h5 : s.errorCount ≤ s1.errorCount) : kept M s s1 := by
  refine ⟨h1, h2, by rw [h3], by rw [h4], h5, fun _ hn i hi => ?_⟩
  have := hn i hi
  simp only [Asm.at, h4] at this ⊢
  exact this

theorem addLabel_kept (M : Nat) (w : List Char) (s : Asm) : kept M s (addLabel w s).2 := by
  unfold addLabel
  split
  · exact kept.of_rfl rfl rfl rfl rfl (Nat.le_refl _)
  · split
    · exact kept.of_rfl rfl rfl rfl rfl (Nat.le_refl _)
    · split
      · exact kept.of_rfl rfl rfl rfl rfl (Nat.le_refl _)
      · split
        · exact kept.of_rfl rfl rfl rfl rfl (Nat.le_refl _)
        · exact kept.of_rfl rfl rfl rfl rfl (Nat.le_refl _)

theorem firstWordLabelLoop_kept (fuel i M : Nat) (s : Asm) :
    kept M s (firstWordLabelLoop fuel i s).2 := by
  induction fuel generalizing i with
  | zero => exact kept.id_step M s
  | succ n ih =>
    simp only [firstWordLabelLoop]
    by_cases hc : s.at (s.words.getD 0 0 + i) = NUL
    · rw [if_pos hc]
      have k1 := addLabel_kept M (s.word 0) s
      generalize addLabel (s.word 0) s = r at k1
      obtain ⟨ok, s1⟩ := r
      cases ok with
      | true => exact k1
      | false =>
        exact k1.then_kept (kept.of_rfl rfl rfl rfl rfl (by simp only; omega))
    · rw [if_neg hc]
      by_cases hb : ¬ isalnum (s.at (s.words.getD 0 0 + i)) = true ∧
          s.at (s.words.getD 0 0 + i) ≠ '_'
      · rw [if_pos hb]; exact kept.id_step M s
      · rw [if_neg hb]; exact ih (i + 1)

theorem firstWordLabel_kept (M : Nat) (s : Asm) : kept M s (firstWordLabel s).2 := by
  unfold firstWordLabel
  split
  · exact firstWordLabelLoop_kept _ _ M s
  · exact kept.id_step M s

theorem assembleLine_kept (M : Nat) (s : Asm) : kept M s (assembleLine s) := by
  unfold assembleLine
  cases hd : dispatch 0 s with
  | some s1 => exact dispatch_kept 0 M s s1 hd
  | none =>
    simp only []
    have hpass2 : ∀ s1 : Asm, kept M s1
        (if s1.pass = 2 then
          if (findLabel s1 (s1.word 0)).isSome then afterLabel s1 else s1.error Msg.syntaxError
        else s1.error Msg.syntaxError) := by
      intro s1
      by_cases hp : s1.pass = 2
      · rw [if_pos hp]
        by_cases hf : (findLabel s1 (s1.word 0)).isSome = true
        · rw [if_pos hf]; exact afterLabel_kept M s1
        · rw [if_neg hf]; exact kept.on_error M _ s1
      · rw [if_neg hp]; exact kept.on_error M _ s1
    by_cases hp : s.pass = 1
    · rw [if_pos hp]
      have k1 := firstWordLabel_kept M s
      generalize firstWordLabel s = r at k1
      obtain ⟨ok, s1⟩ := r
      cases ok with
      | true => exact k1.then_kept (afterLabel_kept M s1)
      | false => exact k1.then_kept (hpass2 s1)
    · rw [if_neg hp]; exact hpass2 s
/-! ## Reading a line -/

theorem strlen_le (s : Asm) (z : Nat) (h : s.at z = NUL) : strlen s.line ≤ z := by
  have := cstrAt_length_le s 0 z (Nat.zero_le _) h
  simpa only [cstrAt, List.drop_zero, Nat.sub_zero] using this

theorem fgetsInto_at (c : List Char) (s : Asm) (hL : c.length < s.line.length) :
    (fgetsInto c s).line.length = s.line.length ∧
    (fgetsInto c s).at c.length = NUL ∧
    (∀ i, i < c.length → (fgetsInto c s).at i = c.getD i NUL) ∧
    (∀ i, c.length < i → (fgetsInto c s).at i = s.at i) := by
  refine ⟨?_, ?_, ?_, ?_⟩
  · simp only [fgetsInto, List.length_append, List.length_cons, List.length_drop]
    omega
  · simp only [fgetsInto, Asm.at, List.getD_eq_getElem?_getD]
    rw [List.getElem?_append_right (Nat.le_refl _)]
    simp
  · intro i hi
    simp only [fgetsInto, Asm.at, List.getD_eq_getElem?_getD]
    rw [List.getElem?_append_left hi]
  · intro i hi
    simp only [fgetsInto, Asm.at, List.getD_eq_getElem?_getD]
    rw [List.getElem?_append_right (Nat.le_of_lt hi)]
    obtain ⟨d, rfl⟩ : ∃ d, i = c.length + 1 + d := ⟨i - c.length - 1, by omega⟩
    have : c.length + 1 + d - c.length = d + 1 := by omega
    rw [this, List.getElem?_cons_succ, List.getElem?_drop]

theorem fgetsInto_nulFrom (c : List Char) (s : Asm) (M : Nat) (hL : c.length < s.line.length)
    (h : nulFrom M s) : nulFrom (max M (c.length + 1)) (fgetsInto c s) := by
  intro i hi
  rw [(fgetsInto_at c s hL).2.2.2 i (by omega)]
  exact h i (by omega)

theorem splitLine_kept (M : Nat) (s : Asm) : kept M s (splitLine s) := by
  obtain ⟨h1, h2, h3, h4, h5⟩ := splitLine_effect s
  have hm : (splitLine s).memorySize = s.memorySize := by
    have := congrArg (fun x : Asm => x.memorySize) h1
    exact this
  have hp : (splitLine s).pass = s.pass := by
    have := congrArg (fun x : Asm => x.pass) h1
    exact this
  refine ⟨hm, hp, h3, h2, h4, fun _ hn i hi => ?_⟩
  rcases h5 i with h | ⟨_, _, h⟩
  · rw [h]; exact hn i hi
  · exact h

theorem processLine_kept (M : Nat) (s : Asm) (c : List Char) (hL : c.length < s.line.length) :
    (processLine s c).memorySize = s.memorySize ∧ (processLine s c).pass = s.pass ∧
    (processLine s c).words.length = s.words.length ∧
    (processLine s c).line.length = s.line.length ∧
    s.errorCount ≤ (processLine s c).errorCount ∧
    ((processLine s c).errorCount = s.errorCount → nulFrom M s →
      nulFrom (max M (c.length + 1)) (processLine s c)) := by
  have k1 := splitLine_kept (max M (c.length + 1)) (fgetsInto c s)
  have k2 : kept (max M (c.length + 1)) (splitLine (fgetsInto c s))
      (if (splitLine (fgetsInto c s)).wordCount > 0 then assembleLine (splitLine (fgetsInto c s))
        else splitLine (fgetsInto c s)) := by
    split
    · exact assembleLine_kept _ _
    · exact kept.id_step _ _
  obtain ⟨g1, g2, g3, g4, g5, g6⟩ := k1.then_kept k2
  have hlen := (fgetsInto_at c s hL).1
  refine ⟨g1, g2, g3, g4.trans hlen, g5, fun he hn => ?_⟩
  exact g6 he (fgetsInto_nulFrom c s M hL hn)
theorem splitEnd_words (q : Bool) (s : Asm) (i j : Nat) (hij : i ≤ j)
    (hw : ∀ k, k < s.wordCount → s.words.getD k 0 < i) :
    ∀ k, k < (splitEnd q s).wordCount → (splitEnd q s).words.getD k 0 < j := by
  intro k hk
  unfold splitEnd at hk ⊢
  cases q with
  | true => exact absurd hk (Nat.not_lt_zero k)
  | false => exact Nat.lt_of_lt_of_le (hw k hk) hij

/-- Every word that `splitLine` finds starts inside the string it scans. -/
theorem splitLoop_words (fuel i : Nat) (nw q : Bool) (s : Asm)
    (hlen : MAX_WORDS_ON_LINE ≤ s.words.length)
    (hw : ∀ k, k < s.wordCount → s.words.getD k 0 < i) :
    ∀ k, k < (splitLoop fuel i nw q s).wordCount →
      (splitLoop fuel i nw q s).words.getD k 0 < i + fuel := by
  induction fuel generalizing i nw q s with
  | zero => simp only [splitLoop]; exact splitEnd_words q s i _ (Nat.le_refl _) hw
  | succ n ih =>
    simp only [splitLoop]
    generalize (if s.at i = QUOTE then !q else q) = q' at *
    split
    · exact splitEnd_words q s i _ (Nat.le_add_right _ _) hw
    · split
      · split
        · intro k hk
          exact absurd hk (Nat.not_lt_zero k)
        · rename_i hmax
          simp only [gt_iff_lt, not_lt] at hmax
          have := ih (i + 1) false q'
            { s with words := s.words.set s.wordCount i, wordCount := s.wordCount + 1 }
            (by simp only [List.length_set]; exact hlen)
            (by
              intro k hk
              simp only at hk ⊢
              by_cases hkc : s.wordCount = k
              · subst hkc
                rw [getD_set_self _ _ _ _ (by omega)]
                omega
              · rw [getD_set_ne _ _ _ _ _ hkc]
                have := hw k (by omega)
                omega)
          intro k hk
          have := this k hk
          omega
      · split
        · have := ih (i + 1) true q' { s with line := s.line.set i NUL } hlen
            (fun k hk => Nat.lt_succ_of_lt (hw k hk))
          intro k hk
          have := this k hk
          omega
        · have := ih (i + 1) nw q' s hlen (fun k hk => Nat.lt_succ_of_lt (hw k hk))
          intro k hk
          have := this k hk
          omega

theorem splitLine_words (s : Asm) (hlen : MAX_WORDS_ON_LINE ≤ s.words.length) :
    ∀ k, k < (splitLine s).wordCount → (splitLine s).words.getD k 0 < strlen s.line := by
  intro k hk
  have := splitLoop_words (strlen s.line) 0 true false { s with wordCount := 0 } hlen
    (fun k hk => absurd hk (Nat.not_lt_zero k)) k hk
  simpa only [Nat.zero_add] using this
/-! ## A line of the file in both passes -/

/-- After `fgets` and `splitLine` on the same text, the states of the two
passes are linked: below `N = length + 1` for text that ends with a newline, on
the whole buffer when the buffers agree behind the text. -/
theorem fgets_split_lock (N : Nat) (a b : Asm) (c : List Char)
    (hL : c.length < a.line.length) (hll : a.line.length = b.line.length)
    (hwl : a.words.length = b.words.length) (hmax : MAX_WORDS_ON_LINE ≤ a.words.length)
    (hcur : a.currentAddress = b.currentAddress) (hmem : a.memorySize = b.memorySize)
    (hmode : (N = c.length + 1 ∧ 0 < c.length ∧ c.getD (c.length - 1) NUL = NEWLINE) ∨
      (a.line.length ≤ N ∧ ∀ i, c.length < i → a.at i = b.at i)) :
    linked N (splitLine (fgetsInto c a)) (splitLine (fgetsInto c b)) ∧
    (∀ i, N ≤ i → (splitLine (fgetsInto c a)).at i = a.at i ∧
      (splitLine (fgetsInto c b)).at i = b.at i) := by
  obtain ⟨fa1, fa2, fa3, fa4⟩ := fgetsInto_at c a hL
  obtain ⟨fb1, fb2, fb3, fb4⟩ := fgetsInto_at c b (by rw [← hll]; exact hL)
  have hagree : agreeBelow N (fgetsInto c a) (fgetsInto c b) := by
    refine ⟨by rw [fa1, fb1, hll], fun i hi => ?_⟩
    rcases Nat.lt_trichotomy i c.length with h | h | h
    · rw [fa3 i h, fb3 i h]
    · rw [h, fa2, fb2]
    · rw [fa4 i h, fb4 i h]
      rcases hmode with ⟨h1, _⟩ | ⟨_, h2⟩
      · omega
      · exact h2 i h
  have hz : (∃ z, z < N ∧ (fgetsInto c a).at z = NUL) ∨ (fgetsInto c a).line.length ≤ N := by
    rcases hmode with ⟨h1, _⟩ | ⟨h1, _⟩
    · exact Or.inl ⟨c.length, by omega, fa2⟩
    · exact Or.inr (by rw [fa1]; exact h1)
  obtain ⟨s1, s2, _⟩ := splitLine_lock N (fgetsInto c a) (fgetsInto c b) hagree hwl hz
  obtain ⟨ea1, ea2, ea3, _, ea5⟩ := splitLine_effect (fgetsInto c a)
  obtain ⟨eb1, eb2, eb3, _, eb5⟩ := splitLine_effect (fgetsInto c b)
  have hwords := splitLine_words (fgetsInto c a) hmax
  have hsa := strlen_le (fgetsInto c a) c.length fa2
  have hsb := strlen_le (fgetsInto c b) c.length fb2
  have hca : (splitLine (fgetsInto c a)).currentAddress = a.currentAddress := by
    have := congrArg Asm.currentAddress ea1
    exact this
  have hcb : (splitLine (fgetsInto c b)).currentAddress = b.currentAddress := by
    have := congrArg Asm.currentAddress eb1
    exact this
  have hma : (splitLine (fgetsInto c a)).memorySize = a.memorySize := by
    have := congrArg Asm.memorySize ea1
    exact this
  have hmb : (splitLine (fgetsInto c b)).memorySize = b.memorySize := by
    have := congrArg Asm.memorySize eb1
    exact this
  generalize splitLine (fgetsInto c a) = a2 at *
  generalize splitLine (fgetsInto c b) = b2 at *
  refine ⟨⟨s1, s2, by rw [hca, hcb, hcur], by rw [hma, hmb, hmem], fun k hk => ?_⟩,
    fun i hi => ?_⟩
  · rcases hmode with ⟨h1, h2, h3⟩ | ⟨h1, _⟩
    · right
      have := hwords k hk
      refine ⟨by omega, ?_, ?_⟩
      · have e : N - 1 = c.length := by omega
        rw [e]
        rcases ea5 c.length with h | ⟨_, _, h⟩
        · rw [h]; exact fa2
        · exact h
      · have e : N - 2 = c.length - 1 := by omega
        rw [e]
        rcases ea5 (c.length - 1) with h | ⟨_, _, h⟩
        · right
          rw [h, fa3 _ (by omega)]
          exact h3
        · exact Or.inl h
    · left
      rw [ea2, fa1]
      exact h1
  · rcases hmode with ⟨h1, _⟩ | ⟨h1, _⟩
    · constructor
      · rcases ea5 i with h | ⟨h, _⟩
        · rw [h]; exact fa4 i (by omega)
        · omega
      · rcases eb5 i with h | ⟨h, _⟩
        · rw [h]; exact fb4 i (by omega)
        · omega
    · rw [at_of_length_le a2 i (by rw [ea2, fa1]; omega), at_of_length_le a i (by omega),
        at_of_length_le b2 i (by rw [eb2, fb1, ← hll]; omega),
        at_of_length_le b i (by rw [← hll]; omega)]
      exact ⟨rfl, rfl⟩
/-- A line of the file in pass 1 and in pass 2, when neither pass reports an
error on it: the two passes reach the same `currentAddress`. -/
theorem processLine_lock (N : Nat) (a b : Asm) (c : List Char)
    (hL : c.length < a.line.length) (hll : a.line.length = b.line.length)
    (hwl : a.words.length = b.words.length) (hmax : MAX_WORDS_ON_LINE ≤ a.words.length)
    (hcur : a.currentAddress = b.currentAddress) (hmem : a.memorySize = b.memorySize)
    (hpa : a.pass = 1) (hpb : b.pass = 2)
    (hmode : (N = c.length + 1 ∧ 0 < c.length ∧ c.getD (c.length - 1) NUL = NEWLINE) ∨
      (a.line.length ≤ N ∧ ∀ i, c.length < i → a.at i = b.at i))
    (ha : (processLine a c).errorCount = a.errorCount)
    (hb : (processLine b c).errorCount = b.errorCount) :
    followed N a b (processLine a c) (processLine b c) := by
  obtain ⟨hlink, htail⟩ := fgets_split_lock N a b c hL hll hwl hmax hcur hmem hmode
  have ka := splitLine_kept 0 (fgetsInto c a)
  have kb := splitLine_kept 0 (fgetsInto c b)
  have fa := (fgetsInto_at c a hL).1
  have fb := (fgetsInto_at c b (by rw [← hll]; exact hL)).1
  have hlab : (splitLine (fgetsInto c a)).labels = a.labels := by
    have := congrArg Asm.labels (splitLine_effect (fgetsInto c a)).1
    exact this
  have hadr : (splitLine (fgetsInto c a)).currentAddress = a.currentAddress := by
    have := congrArg Asm.currentAddress (splitLine_effect (fgetsInto c a)).1
    exact this
  have ma := assembleLine_kept 0 (splitLine (fgetsInto c a))
  have mb := assembleLine_kept 0 (splitLine (fgetsInto c b))
  have ha1 : (if (splitLine (fgetsInto c a)).wordCount > 0
      then assembleLine (splitLine (fgetsInto c a))
      else splitLine (fgetsInto c a)).errorCount = a.errorCount := ha
  have hb1 : (if (splitLine (fgetsInto c b)).wordCount > 0
      then assembleLine (splitLine (fgetsInto c b))
      else splitLine (fgetsInto c b)).errorCount = b.errorCount := hb
  suffices key : followed N a b
      (if (splitLine (fgetsInto c a)).wordCount > 0
        then assembleLine (splitLine (fgetsInto c a)) else splitLine (fgetsInto c a))
      (if (splitLine (fgetsInto c b)).wordCount > 0
        then assembleLine (splitLine (fgetsInto c b)) else splitLine (fgetsInto c b)) from key
  clear ha hb
  generalize splitLine (fgetsInto c a) = a2 at *
  generalize splitLine (fgetsInto c b) = b2 at *
  obtain ⟨ka1, ka2, ka3, ka4, ka5, _⟩ := ka
  obtain ⟨kb1, kb2, kb3, kb4, kb5, _⟩ := kb
  have hwc : b2.wordCount = a2.wordCount := hlink.2.1.2.1.symm
  rw [hwc] at hb1 ⊢
  by_cases h0 : a2.wordCount > 0
  · rw [if_pos h0] at ha1 hb1
    rw [if_pos h0, if_pos h0]
    obtain ⟨ma1, ma2, ma3, ma4, ma5, _⟩ := ma
    obtain ⟨mb1, mb2, mb3, mb4, mb5, _⟩ := mb
    have ha2 : a2.errorCount = a.errorCount := by
      have : a.errorCount ≤ a2.errorCount := ka5
      omega
    have hb2 : b2.errorCount = b.errorCount := by
      have : b.errorCount ≤ b2.errorCount := kb5
      omega
    obtain ⟨g1, g2, g3, g4, g5, g6, g7, g8, g9, g10, g11⟩ :=
      assembleLine_lock N a2 b2 hlink h0 (ka2.trans hpa) (kb2.trans hpb)
        (by omega) (by omega)
    rw [hlab, hadr] at g11
    refine ⟨g1, g2, g3.trans ka1, g4.trans kb1, g5.trans ka2, g6.trans kb2,
      g7.trans ka3, g8.trans kb3, (g9.trans ka4).trans fa, fun i hi => ?_, g11⟩
    exact ⟨((g10 i hi).1).trans (htail i hi).1, ((g10 i hi).2).trans (htail i hi).2⟩
  · rw [if_neg h0, if_neg h0]
    exact ⟨hlink.1, hlink.2.2.1, ka1, kb1, ka2, kb2, ka3, kb3, ka4.trans fa, htail,
      Or.inl hlab⟩
/-! ## The whole file -/

theorem fgetsAll_chunked (src cur : List Char) (h : cur.length < MAX_LINE_LENGTH) :
    chunked (fgetsAll src cur) := by
  induction src generalizing cur with
  | nil =>
    simp only [fgetsAll]
    split
    · trivial
    · exact ⟨by simp only [List.length_reverse]; omega, Or.inl rfl, trivial⟩
  | cons c cs ih =>
    simp only [fgetsAll]
    split
    · rename_i hc
      refine ⟨by simp only [List.length_reverse, List.length_cons]; omega, ?_,
        ih [] (by decide)⟩
      right
      rcases hc with hc | hc
      · right
        refine ⟨by simp, ?_⟩
        simp only [List.length_reverse, List.length_cons, Nat.add_sub_cancel,
          List.reverse_cons, List.getD_eq_getElem?_getD]
        rw [List.getElem?_append_right (by simp)]
        simp [hc]
      · left
        simp only [List.length_reverse, List.length_cons]
        exact hc
    · rename_i hc
      simp only [not_or] at hc
      exact ih (c :: cur) (by simp only [List.length_cons]; omega)

theorem chunked_length {chunks : List (List Char)} (h : chunked chunks) :
    ∀ c ∈ chunks, c.length ≤ MAX_LINE_LENGTH := by
  induction chunks with
  | nil => intro c hc; simp at hc
  | cons d rest ih =>
    intro c hc
    rcases List.mem_cons.mp hc with rfl | hc
    · exact h.1
    · exact ih h.2.2 c hc

theorem runPass_cons (s : Asm) (c : List Char) (rest : List (List Char)) :
    runPass s (c :: rest) = runPass (processLine s c) rest := rfl

theorem runPass_kept (chunks : List (List Char)) (M : Nat) (s : Asm)
    (hL : ∀ c ∈ chunks, c.length < s.line.length) :
    (runPass s chunks).memorySize = s.memorySize ∧ (runPass s chunks).pass = s.pass ∧
    (runPass s chunks).words.length = s.words.length ∧
    (runPass s chunks).line.length = s.line.length ∧
    s.errorCount ≤ (runPass s chunks).errorCount ∧
    ((runPass s chunks).errorCount = s.errorCount → nulFrom M s →
      nulFrom (max M (reach chunks)) (runPass s chunks)) := by
  induction chunks generalizing M s with
  | nil =>
    refine ⟨rfl, rfl, rfl, rfl, Nat.le_refl _, fun _ hn i hi => hn i ?_⟩
    simp only [reach] at hi
    omega
  | cons c rest ih =>
    rw [runPass_cons]
    obtain ⟨p1, p2, p3, p4, p5, p6⟩ :=
      processLine_kept M s c (hL c (List.mem_cons_self _ _))
    obtain ⟨r1, r2, r3, r4, r5, r6⟩ := ih (max M (c.length + 1)) (processLine s c)
      (fun d hd => by rw [p4]; exact hL d (List.mem_cons_of_mem _ hd))
    refine ⟨r1.trans p1, r2.trans p2, r3.trans p3, r4.trans p4, Nat.le_trans p5 r5, ?_⟩
    intro he hn
    have := r6 (by omega) (p6 (by omega) hn)
    intro i hi
    apply this i
    simp only [reach] at hi
    omega
/-- The two passes over the same lines, from states with the same
`currentAddress`, when neither reports an error: before every line the two
have the same `currentAddress`, and a line adds at most one label in pass 1,
whose value is the `currentAddress` of pass 2 before that line. -/
theorem runPass_lock (rest : List (List Char)) (M : Nat) (a b : Asm)
    (hch : chunked rest) (hlen : a.line.length = MAX_LINE_LENGTH + 1)
    (hll : a.line.length = b.line.length)
    (hwl : a.words.length = b.words.length) (hmax : MAX_WORDS_ON_LINE ≤ a.words.length)
    (hcur : a.currentAddress = b.currentAddress) (hmem : a.memorySize = b.memorySize)
    (hpa : a.pass = 1) (hpb : b.pass = 2)
    (hag : ∀ i, i < M ∨ reach rest ≤ i → a.at i = b.at i)
    (ha : (runPass a rest).errorCount = a.errorCount)
    (hb : (runPass b rest).errorCount = b.errorCount) :
    ∀ k, k ≤ rest.length →
      (runPass a (rest.take k)).currentAddress = (runPass b (rest.take k)).currentAddress ∧
      (k < rest.length →
        (runPass a (rest.take (k + 1))).labels = (runPass a (rest.take k)).labels ∨
        ∃ name, (runPass a (rest.take (k + 1))).labels
          = (runPass a (rest.take k)).labels
            ++ [label_t.mk name (runPass b (rest.take k)).currentAddress]) := by
  induction rest generalizing M a b with
  | nil =>
    intro k hk
    refine ⟨?_, fun h => absurd h (by simp)⟩
    simpa only [List.take_nil] using hcur
  | cons c rest ih =>
    obtain ⟨hc1, hc2, hc3⟩ := hch
    have hcl : c.length < a.line.length := by rw [hlen]; omega
    have hrl := chunked_length hc3
    rw [runPass_cons] at ha hb
    obtain ⟨pa1, pa2, pa3, pa4, pa5, _⟩ := processLine_kept 0 a c hcl
    obtain ⟨pb1, pb2, pb3, pb4, pb5, _⟩ := processLine_kept 0 b c (by rw [← hll]; exact hcl)
    obtain ⟨_, _, _, _, ra5, _⟩ := runPass_kept rest 0 (processLine a c)
      (fun d hd => by rw [pa4, hlen]; exact Nat.lt_succ_of_le (hrl d hd))
    obtain ⟨_, _, _, _, rb5, _⟩ := runPass_kept rest 0 (processLine b c)
      (fun d hd => by rw [pb4, ← hll, hlen]; exact Nat.lt_succ_of_le (hrl d hd))
    have hmode : ∃ N, c.length + 1 ≤ N ∧
        ((N = c.length + 1 ∧ 0 < c.length ∧ c.getD (c.length - 1) NUL = NEWLINE) ∨
          (a.line.length ≤ N ∧ ∀ i, c.length < i → a.at i = b.at i)) := by
      rcases hc2 with h | h | h
      · refine ⟨a.line.length, by omega, Or.inr ⟨Nat.le_refl _, fun i hi => hag i (Or.inr ?_)⟩⟩
        subst h
        simp only [reach]
        omega
      · refine ⟨a.line.length, by omega, Or.inr ⟨Nat.le_refl _, fun i hi => ?_⟩⟩
        rw [at_of_length_le a i (by omega), at_of_length_le b i (by omega)]
      · exact ⟨c.length + 1, Nat.le_refl _, Or.inl ⟨rfl, h⟩⟩
    obtain ⟨N, hN, hm⟩ := hmode
    obtain ⟨g1, g2, g3, g4, g5, g6, g7, g8, g9, g10, g11⟩ :=
      processLine_lock N a b c hcl hll hwl hmax hcur hmem hpa hpb hm (by omega) (by omega)
    have hrec := ih (max M N) (processLine a c) (processLine b c) hc3
      (g9.trans hlen) g1.1 (by rw [g7, g8, hwl]) (by rw [g7]; exact hmax) g2
      (by rw [g3, g4, hmem]) (g5.trans hpa) (g6.trans hpb)
      (by
        intro i hi
        by_cases hiN : i < N
        · exact g1.2 i hiN
        · rw [(g10 i (by omega)).1, (g10 i (by omega)).2]
          apply hag
          simp only [reach]
          omega)
      (by omega) (by omega)
    intro k hk
    cases k with
    | zero =>
      refine ⟨hcur, fun _ => ?_⟩
      rw [hcur] at g11
      exact g11
    | succ k =>
      simp only [List.take_succ_cons, runPass_cons, List.length_cons] at hk ⊢
      obtain ⟨r1, r2⟩ := hrec k (by omega)
      exact ⟨r1, fun h => r2 (by omega)⟩
/-! ## Pass-congruence -/

/-- The function `assemble`, when pass 1 ends without error, is pass 2 followed
by the check that the program fits. -/
theorem assemble_passes (src : List Char) (memorySize : Nat)
    (h : (pass1End src memorySize).errorCount = 0) :
    assemble src (Asm.initial memorySize) = finish (pass2End src memorySize) := by
  unfold pass1End linesOf at h
  simp only [assemble, pass2End, pass1End, linesOf, h, if_true]

theorem pass1At_length (src : List Char) (memorySize : Nat) :
    pass1At src memorySize (linesOf src).length = pass1End src memorySize := by
  simp only [pass1At, pass1End, List.take_length]

/-- Pass 1 and pass 2 of an assembly without error, line by line. -/
theorem passes_lock (src : List Char) (memorySize : Nat)
    (h1 : (pass1End src memorySize).errorCount = 0)
    (h2 : (pass2End src memorySize).errorCount = 0) :
    ∀ k, k ≤ (linesOf src).length →
      (pass1At src memorySize k).currentAddress = (pass2At src memorySize k).currentAddress ∧
      (k < (linesOf src).length →
        (pass1At src memorySize (k + 1)).labels = (pass1At src memorySize k).labels ∨
        ∃ name, (pass1At src memorySize (k + 1)).labels
          = (pass1At src memorySize k).labels
            ++ [label_t.mk name (pass2At src memorySize k).currentAddress]) := by
  have hch : chunked (linesOf src) := fgetsAll_chunked src [] (by decide)
  have hinit : nulFrom 0 (pass1Start (Asm.initial memorySize)) := by
    intro i _
    simp only [Asm.at, pass1Start, Asm.initial, List.getD_eq_getElem?_getD]
    by_cases hi : i < MAX_LINE_LENGTH + 1
    · rw [List.getElem?_replicate_of_lt hi]; rfl
    · rw [List.getElem?_eq_none (by simp only [List.length_replicate]; omega)]; rfl
  have hlen : (pass1Start (Asm.initial memorySize)).line.length = MAX_LINE_LENGTH + 1 := by
    simp only [pass1Start, Asm.initial, List.length_replicate]
  obtain ⟨r1, r2, r3, r4, r5, r6⟩ := runPass_kept (linesOf src) 0
    (pass1Start (Asm.initial memorySize))
    (fun c hc => by rw [hlen]; exact Nat.lt_succ_of_le (chunked_length hch c hc))
  have hnul := r6 h1 hinit
  unfold pass1End at h1
  unfold pass2End pass1End at h2
  unfold pass1At pass2At pass1End
  have hmax : MAX_WORDS_ON_LINE ≤ (pass1Start (Asm.initial memorySize)).words.length := by
    simp only [pass1Start, Asm.initial, List.length_replicate]
    exact Nat.le_refl _
  generalize hF : runPass (pass1Start (Asm.initial memorySize)) (linesOf src) = F at *
  refine runPass_lock (linesOf src) 0 (pass1Start (Asm.initial memorySize)) (pass2Start F)
    hch hlen r4.symm r3.symm hmax rfl r1.symm rfl rfl ?_ (by rw [hF]; exact h1)
    (by rw [h2]; exact h1.symm)
  intro i hi
  rw [hinit i (Nat.zero_le _)]
  exact (hnul i (by omega)).symm
/-! ## The pool of immediates -/

theorem wroteBelow.nothing (s : Asm) : wroteBelow s s :=
  ⟨rfl, rfl, rfl, rfl, Nat.le_refl _, fun _ _ => rfl⟩

theorem wroteBelow.then_wrote {s s1 s2 : Asm} (h1 : wroteBelow s s1) (h2 : wroteBelow s1 s2) :
    wroteBelow s s2 := by
  obtain ⟨a1, a2, a3, a4, a5, a6⟩ := h1
  obtain ⟨b1, b2, b3, b4, b5, b6⟩ := h2
  refine ⟨b1.trans a1, b2.trans a2, b3.trans a3, b4.trans a4, Nat.le_trans a5 b5, ?_⟩
  intro a ha
  rw [b6 a ha, a6 a (by omega)]

theorem wroteBelow.of_frame {s s1 : Asm} (h : s1.frame = s.frame) : wroteBelow s s1 := by
  obtain ⟨f1, f2, f3, _, _, _, _, _, f9, f10, _⟩ := frame_fields h
  exact ⟨by rw [f2], f1, f10, f9, by omega, fun a _ => by rw [f2]⟩

theorem wroteBelow.by_error (m : Msg) (s : Asm) : wroteBelow s (s.error m) :=
  ⟨rfl, rfl, rfl, rfl, Nat.le_refl _, fun _ _ => rfl⟩

theorem wroteBelow.stepped {s s1 : Asm} (E : Nat) (h : wroteBelow s s1)
    (hp : s1.pass = s.pass) : stepped E s s1 := by
  obtain ⟨a1, a2, a3, a4, a5, a6⟩ := h
  refine ⟨a5, hp, ?_, fun _ => a3⟩
  rintro ⟨p1, p2, p3, p4, p5⟩ hE
  refine ⟨a1.trans p1, by rw [a2]; exact p2, ?_, ?_, by rw [a3]; exact p5⟩
  · simp only [Asm.numImmediates] at p3 ⊢
    rw [a4, a3]; exact p3
  · intro i imm hi
    rw [a3] at hi
    obtain ⟨q1, q2⟩ := p4 i imm hi
    refine ⟨q1, fun hlt => ?_⟩
    rw [a6 (E + i) (by omega)]
    exact q2 (by rw [← a2]; exact hlt)

theorem stepped.idle (E : Nat) (s : Asm) : stepped E s s :=
  ⟨Nat.le_refl _, rfl, fun h _ => h, fun _ => rfl⟩

theorem stepped.then_stepped {E : Nat} {s s1 s2 : Asm} (h1 : stepped E s s1) (h2 : stepped E s1 s2) :
    stepped E s s2 := by
  obtain ⟨a1, a2, a3, a4⟩ := h1
  obtain ⟨b1, b2, b3, b4⟩ := h2
  refine ⟨Nat.le_trans a1 b1, b2.trans a2, fun hp hE => b3 (a3 hp (by omega)) hE, ?_⟩
  intro hp
  rw [b4 (a2.trans hp), a4 hp]

theorem parseORG_wrote (t : Nat) (s : Asm) : wroteBelow s (parseORG t s) := by
  unfold parseORG
  split
  · exact wroteBelow.by_error _ s
  · simp only []
    split
    · exact wroteBelow.by_error _ s
    · split
      · exact wroteBelow.by_error _ s
      · split
        · exact wroteBelow.by_error _ s
        · rename_i h1 h2
          refine ⟨rfl, rfl, rfl, rfl, ?_, fun _ _ => rfl⟩
          simp only [not_lt] at h1
          simp only
          omega

theorem parseNOP_wrote (t : Nat) (s : Asm) : wroteBelow s (parseNOP t s) := by
  unfold parseNOP
  split
  · exact wroteBelow.by_error _ s
  · refine ⟨by simp [Asm.store], rfl, rfl, rfl, by simp only; omega, fun a ha => ?_⟩
    simp only [Asm.store] at ha ⊢
    exact getD_set_ne _ _ _ _ _ (by omega)

theorem parseDUP_wrote (t : Nat) (s : Asm) : wroteBelow s (parseDUP t s).2 := by
  unfold parseDUP
  split
  · exact ⟨rfl, rfl, rfl, rfl, Nat.le_refl _, fun _ _ => rfl⟩
  · split
    · simp only []
      split
      · split
        · exact ⟨rfl, rfl, rfl, rfl, Nat.le_refl _, fun _ _ => rfl⟩
        · exact ⟨rfl, rfl, rfl, rfl, Nat.le_refl _, fun _ _ => rfl⟩
      · exact ⟨rfl, rfl, rfl, rfl, Nat.le_refl _, fun _ _ => rfl⟩
    · exact ⟨rfl, rfl, rfl, rfl, Nat.le_refl _, fun _ _ => rfl⟩
theorem dbEmit_wrote (s : Asm) : wroteBelow s (dbEmit s) := by
  unfold dbEmit
  split
  · exact wroteBelow.by_error _ s
  · simp only []
    have hp : wroteBelow s (padBuffer s) := by
      unfold padBuffer; split
      · exact ⟨rfl, rfl, rfl, rfl, Nat.le_refl _, fun _ _ => rfl⟩
      · exact wroteBelow.nothing s
    split
    · exact hp.then_wrote (wroteBelow.by_error _ _)
    · obtain ⟨g1, g2, g3, g4, _⟩ := dbStoreLoop_spec ((padBuffer s).bufferIndex / 2) 0 (padBuffer s)
      obtain ⟨n1, _, _, n4, n5⟩ := noMem_fields g2
      refine hp.then_wrote ⟨g3, (fixed_fields n1).1, n5, n4, by omega, fun a ha => ?_⟩
      exact g4 a (Or.inr (by omega))

theorem dwEmit_wrote (s : Asm) : wroteBelow s (dwEmit s) := by
  unfold dwEmit
  split
  · exact wroteBelow.by_error _ s
  · split
    · exact wroteBelow.by_error _ s
    · obtain ⟨g1, g2, g3, g4, _⟩ := dwStoreLoop_spec s.bufferIndex 0 s
      obtain ⟨n1, _, _, n4, n5⟩ := noMem_fields g2
      refine ⟨g3, (fixed_fields n1).1, n5, n4, by omega, fun a ha => ?_⟩
      exact g4 a (Or.inr (by omega))

theorem parseDB_wrote (t : Nat) (s : Asm) : wroteBelow s (parseDB t s) := by
  unfold parseDB
  by_cases hcount : s.wordCount < t + 2
  · rw [if_pos hcount]; exact wroteBelow.by_error _ s
  · rw [if_neg hcount]
    have k1 := parseDUP_wrote t s
    generalize parseDUP t s = r at *
    obtain ⟨f, s1⟩ := r
    cases f with
    | false => exact k1
    | true =>
      simp only at k1 ⊢
      have k2 : wroteBelow s1 (parseDB2 (t + 1) s1) :=
        wroteBelow.of_frame (parseDB2_frame (t + 1) s1)
      generalize parseDB2 (t + 1) s1 = s2 at *
      by_cases h0 : s2.bufferIndex = 0
      · rw [if_pos h0]; exact k1.then_wrote k2
      · rw [if_neg h0]
        by_cases hmany : s2.dup > 0 ∧ s2.bufferIndex > 1
        · rw [if_pos hmany]; exact (k1.then_wrote k2).then_wrote (wroteBelow.by_error _ s2)
        · rw [if_neg hmany]
          have k3 : wroteBelow s2 (duplicate s2) :=
            wroteBelow.of_frame (duplicate_effect s2).1
          exact ((k1.then_wrote k2).then_wrote k3).then_wrote (dbEmit_wrote _)

theorem parseDW_wrote (t : Nat) (s : Asm) : wroteBelow s (parseDW t s) := by
  unfold parseDW
  by_cases hcount : s.wordCount < t + 2
  · rw [if_pos hcount]; exact wroteBelow.by_error _ s
  · rw [if_neg hcount]
    have k1 := parseDUP_wrote t s
    generalize parseDUP t s = r at *
    obtain ⟨f, s1⟩ := r
    cases f with
    | false => exact k1
    | true =>
      simp only at k1 ⊢
      have k2 : wroteBelow s1 (parseDW2 (t + 1) s1) :=
        wroteBelow.of_frame (parseDW2_effect (t + 1) s1).1
      generalize parseDW2 (t + 1) s1 = s2 at *
      by_cases h0 : s2.bufferIndex = 0
      · rw [if_pos h0]; exact k1.then_wrote k2
      · rw [if_neg h0]
        by_cases hmany : s2.dup > 0 ∧ s2.bufferIndex > 1
        · rw [if_pos hmany]; exact (k1.then_wrote k2).then_wrote (wroteBelow.by_error _ s2)
        · rw [if_neg hmany]
          have k3 : wroteBelow s2 (duplicate s2) :=
            wroteBelow.of_frame (duplicate_effect s2).1
          exact ((k1.then_wrote k2).then_wrote k3).then_wrote (dwEmit_wrote _)

theorem addLabel_wrote (w : List Char) (s : Asm) : wroteBelow s (addLabel w s).2 := by
  unfold addLabel
  split
  · exact ⟨rfl, rfl, rfl, rfl, Nat.le_refl _, fun _ _ => rfl⟩
  · split
    · exact ⟨rfl, rfl, rfl, rfl, Nat.le_refl _, fun _ _ => rfl⟩
    · split
      · exact ⟨rfl, rfl, rfl, rfl, Nat.le_refl _, fun _ _ => rfl⟩
      · split
        · exact ⟨rfl, rfl, rfl, rfl, Nat.le_refl _, fun _ _ => rfl⟩
        · exact ⟨rfl, rfl, rfl, rfl, Nat.le_refl _, fun _ _ => rfl⟩

theorem firstWordLabelLoop_wrote (fuel i : Nat) (s : Asm) :
    wroteBelow s (firstWordLabelLoop fuel i s).2 := by
  induction fuel generalizing i with
  | zero => exact wroteBelow.nothing s
  | succ n ih =>
    simp only [firstWordLabelLoop]
    by_cases hc : s.at (s.words.getD 0 0 + i) = NUL
    · rw [if_pos hc]
      have k1 := addLabel_wrote (s.word 0) s
      generalize addLabel (s.word 0) s = r at k1
      obtain ⟨ok, s1⟩ := r
      cases ok with
      | true => exact k1
      | false => exact k1.then_wrote ⟨rfl, rfl, rfl, rfl, Nat.le_refl _, fun _ _ => rfl⟩
    · rw [if_neg hc]
      by_cases hb : ¬ isalnum (s.at (s.words.getD 0 0 + i)) = true ∧
          s.at (s.words.getD 0 0 + i) ≠ '_'
      · rw [if_pos hb]; exact wroteBelow.nothing s
      · rw [if_neg hb]; exact ih (i + 1)

theorem firstWordLabel_wrote (s : Asm) : wroteBelow s (firstWordLabel s).2 := by
  unfold firstWordLabel
  split
  · exact firstWordLabelLoop_wrote _ _ s
  · exact wroteBelow.nothing s

theorem splitLine_wrote (s : Asm) : wroteBelow s (splitLine s) := by
  have h := (splitLine_effect s).1
  have h1 : (splitLine s).memoryImage = s.memoryImage := by
    have := congrArg Asm.memoryImage h
    exact this
  have h2 : (splitLine s).memorySize = s.memorySize := by
    have := congrArg Asm.memorySize h
    exact this
  have h3 : (splitLine s).immediates = s.immediates := by
    have := congrArg Asm.immediates h
    exact this
  have h4 : (splitLine s).endAddress = s.endAddress := by
    have := congrArg Asm.endAddress h
    exact this
  have h5 : (splitLine s).currentAddress = s.currentAddress := by
    have := congrArg Asm.currentAddress h
    exact this
  exact ⟨by rw [h1], h2, h3, h4, by omega, fun a _ => by rw [h1]⟩
theorem parseOperand_cases (i : Nat) (operand : List Char) (s : Asm) :
    (parseOperand i operand s).2 = s ∨ (parseOperand i operand s).2 = s.error Msg.syntaxError ∨
    ∃ v, (parseOperand i operand s).2 = (resolveImmediate v s).2 := by
  have hlab : ∀ r : Nat × Asm, r = (match findLabel s operand with
      | some value => (i ||| value, s)
      | none => (i, s.error Msg.syntaxError)) →
      r.2 = s ∨ r.2 = s.error Msg.syntaxError ∨ ∃ v, r.2 = (resolveImmediate v s).2 := by
    intro r hr
    cases h : findLabel s operand with
    | none => rw [h] at hr; subst hr; exact Or.inr (Or.inl rfl)
    | some v => rw [h] at hr; subst hr; exact Or.inl rfl
  have hat : ∀ r : Nat × Asm, r = (if operand.getD 0 NUL = '@' then
        match findLabel s (operand.drop 1) with
        | some value => (i ||| (resolveImmediate value s).1, (resolveImmediate value s).2)
        | none => (match findLabel s operand with
            | some value => (i ||| value, s)
            | none => (i, s.error Msg.syntaxError))
      else (match findLabel s operand with
            | some value => (i ||| value, s)
            | none => (i, s.error Msg.syntaxError))) →
      r.2 = s ∨ r.2 = s.error Msg.syntaxError ∨ ∃ v, r.2 = (resolveImmediate v s).2 := by
    intro r hr
    by_cases hc : operand.getD 0 NUL = '@'
    · rw [if_pos hc] at hr
      cases h : findLabel s (operand.drop 1) with
      | none => rw [h] at hr; exact hlab r hr
      | some v => rw [h] at hr; subst hr; exact Or.inr (Or.inr ⟨_, rfl⟩)
    · rw [if_neg hc] at hr
      exact hlab r hr
  unfold parseOperand
  simp only []
  by_cases hc : operand.getD 0 NUL = '#'
  · rw [if_pos hc]
    cases h : getImmediateValue (operand.drop 1) with
    | none => exact hat _ rfl
    | some v => exact Or.inr (Or.inr ⟨_, rfl⟩)
  · rw [if_neg hc]
    exact hat _ rfl
theorem findImmediate_none {l : List immediate_t} {v : Int} (h : findImmediate l v = none) :
    v ∉ l.map immediate_t.value := by
  induction l with
  | nil => simp
  | cons i is ih =>
    simp only [findImmediate] at h
    by_cases hi : i.value = v
    · simp [hi] at h
    · simp only [hi, if_false] at h
      simp only [List.map_cons, List.mem_cons, not_or]
      exact ⟨fun e => hi e.symm, ih h⟩

theorem pooled.with_error {E : Nat} {s : Asm} (h : pooled E s) (m : Msg) : pooled E (s.error m) := h

/-- A new immediate goes to the first free slot of the pool, and no slot of
the pool is lost. -/
theorem resolveImmediate_pooled (v : Int) (E : Nat) (s : Asm) (h : pooled E s) :
    pooled E (resolveImmediate v s).2 := by
  unfold resolveImmediate
  cases hf : findImmediate s.immediates v with
  | some a => exact h
  | none =>
    simp only []
    by_cases hfull : s.numImmediates ≥ MAX_IMMEDIATES
    · rw [if_pos hfull]; exact h.with_error _
    · rw [if_neg hfull]
      obtain ⟨p1, p2, p3, p4, p5⟩ := h
      have hnd : ((s.immediates ++ [immediate_t.mk v s.endAddress]).map
          immediate_t.value).Nodup := by
        rw [List.map_append, List.nodup_append]
        refine ⟨p5, by simp, ?_⟩
        intro x hx hx2
        simp only [List.map_cons, List.map_nil, List.mem_singleton] at hx2
        subst hx2
        exact findImmediate_none hf hx
      have hend : s.endAddress = E + s.immediates.length := p3
      by_cases hroom : s.endAddress < s.memorySize
      · simp only [hroom, if_true, Asm.store]
        refine ⟨by simp only [List.length_set]; exact p1, p2, ?_, ?_, hnd⟩
        · simp only [Asm.numImmediates, List.length_append, List.length_singleton]
          omega
        · intro i imm hi
          simp only at hi ⊢
          by_cases hlt : i < s.immediates.length
          · rw [List.getElem?_append_left hlt] at hi
            obtain ⟨q1, q2⟩ := p4 i imm hi
            refine ⟨q1, fun hm => ?_⟩
            rw [getD_set_ne _ _ _ _ _ (by omega)]
            exact q2 hm
          · rw [List.getElem?_append_right (by omega)] at hi
            have hi0 : i = s.immediates.length := by
              by_contra hne
              have : i - s.immediates.length ≥ 1 := by omega
              rw [List.getElem?_eq_none (by simpa using this)] at hi
              exact absurd hi (by simp)
            subst hi0
            simp only [Nat.sub_self, List.getElem?_cons_zero, Option.some.injEq] at hi
            subst hi
            refine ⟨hend, fun _ => ?_⟩
            rw [← hend]
            exact getD_set_self _ _ _ _ (by omega)
      · simp only [hroom, if_false]
        refine ⟨p1, p2, ?_, ?_, hnd⟩
        · simp only [Asm.numImmediates, List.length_append, List.length_singleton]
          omega
        · intro i imm hi
          simp only at hi ⊢
          by_cases hlt : i < s.immediates.length
          · rw [List.getElem?_append_left hlt] at hi
            exact p4 i imm hi
          · rw [List.getElem?_append_right (by omega)] at hi
            have hi0 : i = s.immediates.length := by
              by_contra hne
              have : i - s.immediates.length ≥ 1 := by omega
              rw [List.getElem?_eq_none (by simpa using this)] at hi
              exact absurd hi (by simp)
            subst hi0
            simp only [Nat.sub_self, List.getElem?_cons_zero, Option.some.injEq] at hi
            subst hi
            exact ⟨hend, fun hm => absurd (by omega) hroom⟩

theorem parseOperand_pooled (i E : Nat) (operand : List Char) (s : Asm) (h : pooled E s) :
    pooled E (parseOperand i operand s).2 := by
  rcases parseOperand_cases i operand s with e | e | ⟨v, e⟩
  · rw [e]; exact h
  · rw [e]; exact h.with_error _
  · rw [e]; exact resolveImmediate_pooled v E s h
theorem pooled.store {E : Nat} {s : Asm} (h : pooled E s) (a : Nat) (v : Int) (ha : a < E) :
    pooled E (s.store a v) := by
  obtain ⟨p1, p2, p3, p4, p5⟩ := h
  refine ⟨by simp only [Asm.store, List.length_set]; exact p1, p2, p3, ?_, p5⟩
  intro i imm hi
  obtain ⟨q1, q2⟩ := p4 i imm hi
  refine ⟨q1, fun hm => ?_⟩
  simp only [Asm.store]
  rw [getD_set_ne _ _ _ _ _ (by omega)]
  exact q2 hm

theorem parseInstruction_pooled (i n E : Nat) (operand : List Char) (s : Asm)
    (h : pooled E s) (hE : s.currentAddress < E) :
    pooled E (parseInstruction i n operand s) := by
  unfold parseInstruction
  split
  · exact h.with_error _
  · split
    · exact h.with_error _
    · simp only []
      split
      · have hc := (parseOperand_effect (i <<< 12) operand s).2.2.1
        exact (parseOperand_pooled (i <<< 12) E operand s h).store _ _ (by rw [hc]; exact hE)
      · exact h.store _ _ hE

theorem dispatch_stepped (t E : Nat) (s s1 : Asm) (h : dispatch t s = some s1) :
    stepped E s s1 := by
  have hpass := (dispatch_kept t 0 s s1 h).2.1
  unfold dispatch at h
  cases hi : getInstruction (s.word t) with
  | some k =>
    rw [hi] at h
    simp only [Option.some.injEq] at h
    subst h
    by_cases hp : s.pass = 2
    · simp only [hp, if_true] at hpass ⊢
      obtain ⟨_, _, e3, _⟩ :=
        parseInstruction_effect k (s.wordCount - t - 1) (s.word (t + 1)) s
      refine ⟨by simp only [e3]; omega, hpass.trans hp.symm, fun hpool hE => ?_,
        fun h1 => absurd (h1.symm.trans hp) (by decide)⟩
      simp only [e3] at hE
      exact parseInstruction_pooled k _ E _ s hpool (by omega)
    · simp only [hp, if_false]
      exact wroteBelow.stepped E ⟨rfl, rfl, rfl, rfl, Nat.le_succ _, fun _ _ => rfl⟩ rfl
  | none =>
    rw [hi] at h
    simp only at h
    by_cases h1 : s.word t = "ORG".toList
    · rw [if_pos h1] at h
      simp only [Option.some.injEq] at h
      subst h
      exact (parseORG_wrote t s).stepped E hpass
    · rw [if_neg h1] at h
      by_cases h2 : s.word t = "DB".toList
      · rw [if_pos h2] at h
        simp only [Option.some.injEq] at h
        subst h
        exact (parseDB_wrote t s).stepped E hpass
      · rw [if_neg h2] at h
        by_cases h3 : s.word t = "DW".toList
        · rw [if_pos h3] at h
          simp only [Option.some.injEq] at h
          subst h
          exact (parseDW_wrote t s).stepped E hpass
        · rw [if_neg h3] at h
          by_cases h4 : s.word t = "NOP".toList
          · rw [if_pos h4] at h
            simp only [Option.some.injEq] at h
            subst h
            exact (parseNOP_wrote t s).stepped E hpass
          · rw [if_neg h4] at h
            exact absurd h (by simp)

theorem stepped.at_error (E : Nat) (m : Msg) (s : Asm) : stepped E s (s.error m) :=
  (wroteBelow.by_error m s).stepped E rfl

theorem afterLabel_stepped (E : Nat) (s : Asm) : stepped E s (afterLabel s) := by
  unfold afterLabel
  by_cases h1 : s.wordCount > 1
  · rw [if_pos h1]
    cases hd : dispatch 1 s with
    | none => exact stepped.at_error E _ s
    | some s1 => exact dispatch_stepped 1 E s s1 hd
  · rw [if_neg h1]; exact stepped.idle E s

theorem assembleLine_stepped (E : Nat) (s : Asm) : stepped E s (assembleLine s) := by
  unfold assembleLine
  cases hd : dispatch 0 s with
  | some s1 => exact dispatch_stepped 0 E s s1 hd
  | none =>
    simp only []
    have hpass2 : ∀ s1 : Asm, stepped E s1
        (if s1.pass = 2 then
          if (findLabel s1 (s1.word 0)).isSome then afterLabel s1 else s1.error Msg.syntaxError
        else s1.error Msg.syntaxError) := by
      intro s1
      by_cases hp : s1.pass = 2
      · rw [if_pos hp]
        by_cases hf : (findLabel s1 (s1.word 0)).isSome = true
        · rw [if_pos hf]; exact afterLabel_stepped E s1
        · rw [if_neg hf]; exact stepped.at_error E _ s1
      · rw [if_neg hp]; exact stepped.at_error E _ s1
    by_cases hp : s.pass = 1
    · rw [if_pos hp]
      have k1 : stepped E s (firstWordLabel s).2 :=
        (firstWordLabel_wrote s).stepped E (firstWordLabel_kept 0 s).2.1
      generalize firstWordLabel s = r at k1
      obtain ⟨ok, s1⟩ := r
      cases ok with
      | true => exact k1.then_stepped (afterLabel_stepped E s1)
      | false => exact k1.then_stepped (hpass2 s1)
    · rw [if_neg hp]; exact hpass2 s

theorem processLine_stepped (E : Nat) (s : Asm) (c : List Char) :
    stepped E s (processLine s c) := by
  have k0 : stepped E s (fgetsInto c s) :=
    wroteBelow.stepped E ⟨rfl, rfl, rfl, rfl, Nat.le_refl _, fun _ _ => rfl⟩ rfl
  have k1 : stepped E (fgetsInto c s) (splitLine (fgetsInto c s)) :=
    (splitLine_wrote _).stepped E (splitLine_kept 0 _).2.1
  have k2 : stepped E (splitLine (fgetsInto c s))
      (if (splitLine (fgetsInto c s)).wordCount > 0 then assembleLine (splitLine (fgetsInto c s))
        else splitLine (fgetsInto c s)) := by
    split
    · exact assembleLine_stepped E _
    · exact stepped.idle E _
  exact (k0.then_stepped k1).then_stepped k2

theorem runPass_stepped (E : Nat) (chunks : List (List Char)) (s : Asm) :
    stepped E s (runPass s chunks) := by
  induction chunks generalizing s with
  | nil => exact stepped.idle E s
  | cons c rest ih =>
    rw [runPass_cons]
    exact (processLine_stepped E s c).then_stepped (ih (processLine s c))
/-! ## The pool at the end of the assembly -/

theorem finish_ok (s : Asm) (h : (finish s).errorCount = 0) :
    finish s = s ∧ s.errorCount = 0 ∧ s.endAddress ≤ s.memorySize := by
  unfold finish at h ⊢
  by_cases hbig : s.endAddress > s.memorySize
  · rw [if_pos hbig] at h
    simp only at h
    omega
  · rw [if_neg hbig] at h ⊢
    exact ⟨rfl, h, by omega⟩

/-- An assembly that ends without error: neither pass reported an error, the
result is the state at the end of pass 2, and the program fits. -/
theorem assemble_ok (src : List Char) (memorySize : Nat)
    (h : (assemble src (Asm.initial memorySize)).errorCount = 0) :
    (pass1End src memorySize).errorCount = 0 ∧ (pass2End src memorySize).errorCount = 0 ∧
    assemble src (Asm.initial memorySize) = pass2End src memorySize ∧
    (pass2End src memorySize).endAddress ≤ (pass2End src memorySize).memorySize := by
  have h1 : (pass1End src memorySize).errorCount = 0 := by
    by_contra hne
    have he : assemble src (Asm.initial memorySize) = finish (pass1End src memorySize) := by
      unfold pass1End linesOf at hne ⊢
      simp only [assemble, hne, if_false]
    rw [he] at h
    exact hne (finish_ok _ h).2.1
  rw [assemble_passes src memorySize h1] at h ⊢
  obtain ⟨f1, f2, f3⟩ := finish_ok _ h
  exact ⟨h1, f2, f1, f3⟩

theorem pass2At_length (src : List Char) (memorySize : Nat) :
    pass2At src memorySize (linesOf src).length = pass2End src memorySize := by
  simp only [pass2At, pass2End, List.take_length]

/-- The pool of immediates at the end of pass 2 of an assembly without error. -/
theorem pass2End_pooled (src : List Char) (memorySize : Nat)
    (hsize : memorySize ≤ MAX_MEMORY_SIZE)
    (h1 : (pass1End src memorySize).errorCount = 0)
    (h2 : (pass2End src memorySize).errorCount = 0) :
    pooled (pass1End src memorySize).currentAddress (pass2End src memorySize) ∧
    (pass2End src memorySize).memorySize = memorySize := by
  have hcur := (passes_lock src memorySize h1 h2 (linesOf src).length (Nat.le_refl _)).1
  rw [pass1At_length, pass2At_length] at hcur
  have hch : chunked (linesOf src) := fgetsAll_chunked src [] (by decide)
  have hlen : (pass1Start (Asm.initial memorySize)).line.length = MAX_LINE_LENGTH + 1 := by
    simp only [pass1Start, Asm.initial, List.length_replicate]
  obtain ⟨r1, _, _, r4, _, _⟩ := runPass_kept (linesOf src) 0
    (pass1Start (Asm.initial memorySize))
    (fun c hc => by rw [hlen]; exact Nat.lt_succ_of_le (chunked_length hch c hc))
  have himm := (runPass_stepped 0 (linesOf src) (pass1Start (Asm.initial memorySize))).2.2.2 rfl
  have hstep := runPass_stepped (pass1End src memorySize).currentAddress (linesOf src)
    (pass2Start (pass1End src memorySize))
  obtain ⟨q1, _, _, _, _, _⟩ := runPass_kept (linesOf src) 0
    (pass2Start (pass1End src memorySize))
    (fun c hc => by
      show c.length < (pass1End src memorySize).line.length
      unfold pass1End
      rw [r4, hlen]; exact Nat.lt_succ_of_le (chunked_length hch c hc))
  have hm1 : (pass1End src memorySize).memorySize = memorySize := r1
  have hi1 : (pass1End src memorySize).immediates = [] := himm
  have hstart : pooled (pass1End src memorySize).currentAddress
      (pass2Start (pass1End src memorySize)) := by
    refine ⟨by simp only [pass2Start, List.length_replicate], by
      show (pass1End src memorySize).memorySize ≤ MAX_MEMORY_SIZE
      rw [hm1]; exact hsize, ?_, ?_, ?_⟩
    · show (pass1End src memorySize).currentAddress
        = (pass1End src memorySize).currentAddress + (pass1End src memorySize).immediates.length
      rw [hi1]; rfl
    · intro i imm hi
      have hi : (pass1End src memorySize).immediates[i]? = some imm := hi
      rw [hi1] at hi
      exact absurd hi (by simp)
    · show ((pass1End src memorySize).immediates.map immediate_t.value).Nodup
      rw [hi1]; exact List.nodup_nil
  refine ⟨hstep.2.2.1 hstart (by
    show (pass2End src memorySize).currentAddress ≤ _
    omega), ?_⟩
  exact q1.trans hm1
/-- C3.  Pass-congruence.  For every source text and memory size for which
pass 1 and pass 2 both end with `errorCount = 0`: at the start of every line
(and at the end of the file) `currentAddress` has the same value in pass 2 as
in pass 1; and every label of the table that pass 1 built was added by some
line `k`, with a value that is the `currentAddress` of pass 2 at the start of
that line. -/
theorem pass_congruence (src : List Char) (memorySize : Nat)
    (h1 : (pass1End src memorySize).errorCount = 0)
    (h2 : (pass2End src memorySize).errorCount = 0) :
    (∀ k, k ≤ (linesOf src).length →
      (pass1At src memorySize k).currentAddress = (pass2At src memorySize k).currentAddress) ∧
    (∀ lab ∈ (pass1End src memorySize).labels, ∃ k, k < (linesOf src).length ∧
      (pass1At src memorySize (k + 1)).labels = (pass1At src memorySize k).labels ++ [lab] ∧
      lab.value = (pass2At src memorySize k).currentAddress) := by
  have hlock := passes_lock src memorySize h1 h2
  refine ⟨fun k hk => (hlock k hk).1, ?_⟩
  have hall : ∀ j, j ≤ (linesOf src).length → ∀ lab ∈ (pass1At src memorySize j).labels,
      ∃ k, k < j ∧
        (pass1At src memorySize (k + 1)).labels = (pass1At src memorySize k).labels ++ [lab] ∧
        lab.value = (pass2At src memorySize k).currentAddress := by
    intro j
    induction j with
    | zero =>
      intro _ lab hlab
      simp [pass1At, runPass, pass1Start] at hlab
    | succ j ih =>
      intro hj lab hlab
      rcases (hlock j (by omega)).2 (by omega) with h | ⟨name, h⟩
      · rw [h] at hlab
        obtain ⟨k, hk, hk2⟩ := ih (by omega) lab hlab
        exact ⟨k, by omega, hk2⟩
      · rw [h] at hlab
        rcases List.mem_append.mp hlab with hl | hl
        · obtain ⟨k, hk, hk2⟩ := ih (by omega) lab hl
          exact ⟨k, by omega, hk2⟩
        · have hl : lab = label_t.mk name (pass2At src memorySize j).currentAddress := by
            simpa using hl
          subst hl
          exact ⟨j, by omega, h, rfl⟩
  intro lab hlab
  rw [← pass1At_length] at hlab
  obtain ⟨k, hk, hk2⟩ := hall _ (Nat.le_refl _) lab hlab
  exact ⟨k, hk, hk2⟩

set_option maxRecDepth 100000 in
theorem pass_congruence_witness :
    (pass1End scenarioSource 32).errorCount = 0 ∧
    (pass2End scenarioSource 32).errorCount = 0 ∧
    ((∀ k, k ≤ (linesOf scenarioSource).length →
      (pass1At scenarioSource 32 k).currentAddress
        = (pass2At scenarioSource 32 k).currentAddress) ∧
    (∀ lab ∈ (pass1End scenarioSource 32).labels, ∃ k, k < (linesOf scenarioSource).length ∧
      (pass1At scenarioSource 32 (k + 1)).labels
        = (pass1At scenarioSource 32 k).labels ++ [lab] ∧
      lab.value = (pass2At scenarioSource 32 k).currentAddress)) :=
  ⟨by decide!, by decide!, pass_congruence scenarioSource 32 (by decide!) (by decide!)⟩
/-- C5.  The pool of immediates.  For every source text and every memory size
of at most `MAX_MEMORY_SIZE` words for which `assemble` ends with
`errorCount = 0`, with `E` the `currentAddress` at the end of pass 1: the
immediate number `i` of the final state (counted from 0, in the order of
creation) has address `E + i`, that address is at least `E` and below
`memorySize`, the final memory image holds the value of the immediate at that
address, and no two immediates have the same value. -/
theorem immediate_pool (src : List Char) (memorySize : Nat)
    (hsize : memorySize ≤ MAX_MEMORY_SIZE)
    (h : (assemble src (Asm.initial memorySize)).errorCount = 0) :
    (∀ i imm, (assemble src (Asm.initial memorySize)).immediates[i]? = some imm →
      imm.address = (pass1End src memorySize).currentAddress + i ∧
      (pass1End src memorySize).currentAddress ≤ imm.address ∧ imm.address < memorySize ∧
      (assemble src (Asm.initial memorySize)).memoryImage.getD imm.address 0 = imm.value) ∧
    ((assemble src (Asm.initial memorySize)).immediates.map immediate_t.value).Nodup := by
  obtain ⟨h1, h2, he, hfit⟩ := assemble_ok src memorySize h
  obtain ⟨⟨p1, p2, p3, p4, p5⟩, hm⟩ := pass2End_pooled src memorySize hsize h1 h2
  rw [he]
  refine ⟨fun i imm hi => ?_, p5⟩
  obtain ⟨q1, q2⟩ := p4 i imm hi
  have hlt : i < (pass2End src memorySize).immediates.length := by
    by_contra hge
    rw [List.getElem?_eq_none (by omega)] at hi
    exact absurd hi (by simp)
  have hin : (pass1End src memorySize).currentAddress + i < memorySize := by
    simp only [Asm.numImmediates] at p3
    omega
  refine ⟨q1, by omega, by omega, ?_⟩
  rw [q1]
  exact q2 (by rw [hm]; exact hin)

set_option maxRecDepth 100000 in
theorem immediate_pool_witness :
    32 ≤ MAX_MEMORY_SIZE ∧ (assemble scenarioSource (Asm.initial 32)).errorCount = 0 ∧
    ((∀ i imm, (assemble scenarioSource (Asm.initial 32)).immediates[i]? = some imm →
      imm.address = (pass1End scenarioSource 32).currentAddress + i ∧
      (pass1End scenarioSource 32).currentAddress ≤ imm.address ∧ imm.address < 32 ∧
      (assemble scenarioSource (Asm.initial 32)).memoryImage.getD imm.address 0 = imm.value) ∧
    ((assemble scenarioSource (Asm.initial 32)).immediates.map immediate_t.value).Nodup) :=
  ⟨by decide, by decide!, immediate_pool scenarioSource 32 (by decide) (by decide!)⟩
/-! ## Lines that the tokenizer and the label scanner get wrong -/

/-- C11, the failing input.  On the line ` DB "a;b"` the tokenizer stops at the
`;` although it lies between the two quotes, finds the quote still open, and
reports "no closing quote" with a word count of 0: the string is not kept. -/
theorem semicolon_in_quotes_ends_line :
    (splitLine (fgetsInto quotedSemicolonLine (Asm.initial 32))).errorCount = 1 ∧
    (splitLine (fgetsInto quotedSemicolonLine (Asm.initial 32))).wordCount = 0 ∧
    (splitLine (fgetsInto quotedSemicolonLine (Asm.initial 32))).log
      = [Out.err 0 Msg.noClosingQuote] := by
  decide

/-- C12, the failing input.  The line ` ADD Y;note` has two tokens, `ADD` and
`Y`, before its comment and no quote; the tokenizer reports no error and two
words, but the second word is `Y;note` followed by the newline, not `Y`. -/
theorem tokens_keep_glued_comment :
    (splitLine (fgetsInto gluedCommentLine (Asm.initial 32))).errorCount = 0 ∧
    (splitLine (fgetsInto gluedCommentLine (Asm.initial 32))).wordCount = 2 ∧
    (splitLine (fgetsInto gluedCommentLine (Asm.initial 32))).word 0 = "ADD".toList ∧
    (splitLine (fgetsInto gluedCommentLine (Asm.initial 32))).word 1 = "Y;note\n".toList ∧
    (splitLine (fgetsInto gluedCommentLine (Asm.initial 32))).word 1 ≠ "Y".toList := by
  decide

set_option maxRecDepth 100000 in
/-- C15, the failing input.  A name of 64 letters in column 1 is not taken as
a label: the assembly ends with the one error "syntax" and an empty table of
labels, while a name of 63 letters is declared without error; and a name of 65
letters gets the same "syntax" error, not "label too long". -/
theorem name_of_64_letters_rejected :
    (assemble (nameLine 64) (Asm.initial 32)).log = [Out.err 1 Msg.syntaxError] ∧
    (assemble (nameLine 64) (Asm.initial 32)).errorCount = 1 ∧
    (assemble (nameLine 64) (Asm.initial 32)).labels = [] ∧
    (assemble (nameLine 63) (Asm.initial 32)).errorCount = 0 ∧
    (assemble (nameLine 63) (Asm.initial 32)).labels
      = [label_t.mk (List.replicate 63 'A') 0] ∧
    (assemble (nameLine 65) (Asm.initial 32)).log = [Out.err 1 Msg.syntaxError] := by
  decide!

set_option maxRecDepth 100000 in
/-- C18, the failing input.  The statement `DB 1 DUP 300` ends with the one
error "too much data for DB", and `DW 1 DUP 300` with "too much data for DW",
not with "DUP exceeds maximum": the count is checked against `sizeof(buffer)`,
1024, not against the 256 entries of the buffer. -/
theorem dup_300_is_too_much_data :
    (assemble dup300Source (Asm.initial 32)).log = [Out.err 1 Msg.dbTooMuch] ∧
    (assemble dup300Source (Asm.initial 32)).errorCount = 1 ∧
    (assemble dup300WordSource (Asm.initial 32)).log = [Out.err 1 Msg.dwTooMuch] ∧
    (assemble dup300WordSource (Asm.initial 32)).errorCount = 1 ∧
    dupTooLarge 300 = false ∧ SIZEOF_BUFFER = 1024 := by
  decide!

/-- A line of six tokens: the tokenizer reports the one error "too many words"
and a word count of 0. -/
theorem six_tokens_one_error :
    (splitLine (fgetsInto "a b c d e f\n".toList (Asm.initial 32))).errorCount = 1 ∧
    (splitLine (fgetsInto "a b c d e f\n".toList (Asm.initial 32))).wordCount = 0 ∧
    (splitLine (fgetsInto "a b c d e f\n".toList (Asm.initial 32))).log
      = [Out.err 0 Msg.tooManyWords] := by
  decide
/-! ## Mnemonics with the wrong number of operands -/

/-- The check of `parseInstruction` for RETURN: no operand is allowed. -/
theorem parseInstruction_return_operand (n : Nat) (operand : List Char) (s : Asm)
    (hn : n > 0) : parseInstruction 15 n operand s = s.error Msg.operandNotValid := by
  simp [parseInstruction, hn]

/-- The check of `parseInstruction` for the other mnemonics: one operand. -/
theorem parseInstruction_operand_count (k n : Nat) (operand : List Char) (s : Asm)
    (hk : k ≠ 15) (hn : n ≠ 1) : parseInstruction k n operand s = s.error Msg.expectsOperand := by
  simp [parseInstruction, hk, hn]

/-- C16.  Operand counts in pass 2.  Let word `t` of the line be the mnemonic at
position `k` of the list LOAD .. RETURN.  If it is RETURN and words follow it,
the line reports the one error "operand not valid for RETURN instruction"; if
it is another mnemonic and the number of words that follow is not one, the line
reports the one error "instruction expects an operand".  In both cases nothing
else changes but `currentAddress`, which advances by one: the memory image and
the pool of immediates are as before. -/
theorem operand_count_errors (s : Asm) (t k : Nat) (hpass : s.pass = 2) (hk : k < 16)
    (hword : s.word t = instructions.getD k []) (ht : t < s.wordCount) :
    (k = 15 → s.wordCount ≠ t + 1 →
      dispatch t s = some
        { s.error Msg.operandNotValid with currentAddress := s.currentAddress + 1 }) ∧
    (k ≠ 15 → s.wordCount ≠ t + 2 →
      dispatch t s = some
        { s.error Msg.expectsOperand with currentAddress := s.currentAddress + 1 }) := by
  have hd := dispatch_mnemonic s t k hpass hk hword
  refine ⟨?_, ?_⟩
  · intro h15 hc
    subst h15
    rw [hd, parseInstruction_return_operand _ _ s (by omega)]
    rfl
  · intro h15 hc
    rw [hd, parseInstruction_operand_count k _ _ s h15 (by omega)]
    rfl

/-- Witness of C16: the line ` RETURN 5` in pass 2. -/
theorem operand_count_errors_witness :
    dispatch 0 returnOperandLine = some
      { returnOperandLine.error Msg.operandNotValid with
        currentAddress := returnOperandLine.currentAddress + 1 } :=
  (operand_count_errors returnOperandLine 0 15 (by decide) (by decide) (by decide)
    (by decide)).1 rfl (by decide)

/-! ## A mnemonic in column 1 -/

set_option maxRecDepth 100000 in
/-- C14, the failing input.  The source `LOAD DB 1` passes pass 1 without any
message, and the assembly ends with the one error "instruction expects an
operand" of pass 2: no "reserved word" error is reported, although `addLabel`
has that check for the mnemonics.  The reserved word `DUP` in column 1, on the
line `DUP DB 1`, does reach the check: pass 1 reports "reserved word DUP found
in column 1" (and then "syntax"). -/
theorem load_db_is_not_reserved_word :
    (pass1End loadDbSource 32).log = [] ∧
    (assemble loadDbSource (Asm.initial 32)).log = [Out.err 1 Msg.expectsOperand] ∧
    Out.err 1 (Msg.reservedWord "LOAD".toList) ∉ (assemble loadDbSource (Asm.initial 32)).log ∧
    (assemble loadDbSource (Asm.initial 32)).errorCount = 1 ∧
    (assemble loadDbSource (Asm.initial 32)).labels = [] ∧
    (addLabel "LOAD".toList (pass1Start (Asm.initial 32))).2.log
      = [Out.err 1 (Msg.reservedWord "LOAD".toList)] ∧
    (pass1End dupDbSource 32).log
      = [Out.err 1 (Msg.reservedWord "DUP".toList), Out.err 1 Msg.syntaxError] := by
  decide!

/-- The mnemonic `LOAD` as word 0 of a line of three words or more, in pass 2. -/
theorem dispatch_load_many (s : Asm) (hpass : s.pass = 2)
    (hword : s.word 0 = "LOAD".toList) (hcount : 3 ≤ s.wordCount) :
    dispatch 0 s = some
      { s.error Msg.expectsOperand with currentAddress := s.currentAddress + 1 } := by
  rw [dispatch_mnemonic s 0 0 hpass (by decide) hword,
    parseInstruction_operand_count 0 _ _ s (by decide) (by omega)]
  rfl

/-- What the code does with a mnemonic in column 1.  A line whose first word is
`LOAD` and that has at least two more words (as `LOAD DB 1` has) is taken as
the instruction `LOAD` with too many operands: pass 1 only advances
`currentAddress` by one; pass 2 reports the one error "instruction expects an
operand" and advances `currentAddress` by one.  The table of labels and the
memory image are unchanged in both. -/
theorem mnemonic_in_column_one (s : Asm) (hword : s.word 0 = "LOAD".toList)
    (hcount : 3 ≤ s.wordCount) :
    (s.pass = 1 → assembleLine s = { s with currentAddress := s.currentAddress + 1 }) ∧
    (s.pass = 2 → assembleLine s
      = { s.error Msg.expectsOperand with currentAddress := s.currentAddress + 1 }) := by
  have hg : getInstruction (s.word 0) = some 0 := by rw [hword]; decide
  refine ⟨fun hp => ?_, fun hp => ?_⟩
  · have hd : dispatch 0 s = some { s with currentAddress := s.currentAddress + 1 } := by
      unfold dispatch
      rw [hg]
      simp [hp]
    unfold assembleLine
    rw [hd]
  · have hd := (dispatch_load_many s hp hword hcount)
    unfold assembleLine
    rw [hd]

/-- The line `LOAD DB 1` in pass 2. -/
theorem mnemonic_in_column_one_witness :
    assembleLine loadDbLine
      = { loadDbLine.error Msg.expectsOperand with
          currentAddress := loadDbLine.currentAddress + 1 } :=
  (mnemonic_in_column_one loadDbLine (by decide) (by decide)).2 (by decide)
/-! ## The table of labels -/

theorem findLabelIn_append_of_some {l : List label_t} {w : List Char} {v : Nat}
    (h : findLabelIn l w = some v) (l2 : List label_t) :
    findLabelIn (l ++ l2) w = some v := by
  induction l with
  | nil => simp [findLabelIn] at h
  | cons i is ih =>
    simp only [findLabelIn, List.cons_append] at h ⊢
    by_cases hi : i.name = cstr w
    · simpa [hi] using h
    · simp only [hi, if_false] at h ⊢
      exact ih h

theorem findLabelIn_append_of_none {l : List label_t} {w : List Char}
    (h : findLabelIn l w = none) (l2 : List label_t) :
    findLabelIn (l ++ l2) w = findLabelIn l2 w := by
  induction l with
  | nil => rfl
  | cons i is ih =>
    simp only [findLabelIn, List.cons_append] at h ⊢
    by_cases hi : i.name = cstr w
    · simp [hi] at h
    · simp only [hi, if_false] at h ⊢
      exact ih h

/-- What `addLabel` does to the table: nothing when it fails, one entry more,
for a name that was not there, when it succeeds. -/
theorem addLabel_labels (w : List Char) (s : Asm) :
    ((addLabel w s).1 = false ∧ (addLabel w s).2.labels = s.labels) ∨
    ((addLabel w s).1 = true ∧ findLabelIn s.labels w = none ∧
      (addLabel w s).2.labels = s.labels ++ [label_t.mk (cstr w) s.currentAddress]) := by
  unfold addLabel
  split
  · exact Or.inl ⟨rfl, rfl⟩
  · split
    · exact Or.inl ⟨rfl, rfl⟩
    · split
      · exact Or.inl ⟨rfl, rfl⟩
      · rename_i hdef
        split
        · exact Or.inl ⟨rfl, rfl⟩
        · refine Or.inr ⟨rfl, ?_, rfl⟩
          cases hf : findLabelIn s.labels w with
          | none => rfl
          | some v => rw [hf] at hdef; simp at hdef

theorem addLabel_declared (w : List Char) (s : Asm) (h : (findLabel s w).isSome = true) :
    (addLabel w s).1 = false ∧ (addLabel w s).2.labels = s.labels := by
  rcases addLabel_labels w s with h1 | ⟨_, h2, _⟩
  · exact h1
  · unfold findLabel at h
    rw [h2] at h
    simp at h

theorem declare_keeps (d : List Char × Nat) (s : Asm) (u : List Char) (v : Nat)
    (h : findLabel s u = some v) : findLabel (declare d s) u = some v := by
  unfold declare findLabel at *
  rcases addLabel_labels d.1 { s with currentAddress := d.2 } with ⟨_, h1⟩ | ⟨_, _, h1⟩
  · rw [h1]; exact h
  · rw [h1]; exact findLabelIn_append_of_some h _

theorem declareAll_keeps (ds : List (List Char × Nat)) (s : Asm) (u : List Char) (v : Nat)
    (h : findLabel s u = some v) : findLabel (declareAll ds s) u = some v := by
  induction ds generalizing s with
  | nil => exact h
  | cons d ds ih =>
    simp only [declareAll, List.foldl_cons]
    exact ih (declare d s) (declare_keeps d s u v h)

theorem addLabel_finds (w : List Char) (s : Asm) (h : (addLabel w s).1 = true) :
    findLabel (addLabel w s).2 w = some s.currentAddress := by
  rcases addLabel_labels w s with ⟨h1, _⟩ | ⟨_, h2, h3⟩
  · rw [h1] at h; simp at h
  · unfold findLabel
    rw [h3, findLabelIn_append_of_none h2]
    simp [findLabelIn]

/-- C13.  Symbol table round trip.  When `addLabel(w)` succeeds at the address
`currentAddress`: `findLabel(w)` returns that address at once and after any
sequence `ds` of further declarations, at any addresses and of any names, `w`
included; after that sequence a new `addLabel(w)` fails and leaves the table,
names, addresses and count, as it is; and the successful `addLabel(w)` changes
the result of `findLabel` for no name `u` that was declared before. -/
theorem symbol_table_round_trip (w : List Char) (s : Asm) (ds : List (List Char × Nat))
    (h : (addLabel w s).1 = true) :
    findLabel (addLabel w s).2 w = some s.currentAddress ∧
    findLabel (declareAll ds (addLabel w s).2) w = some s.currentAddress ∧
    (addLabel w (declareAll ds (addLabel w s).2)).1 = false ∧
    (addLabel w (declareAll ds (addLabel w s).2)).2.labels
      = (declareAll ds (addLabel w s).2).labels ∧
    (∀ u v, findLabel s u = some v → findLabel (addLabel w s).2 u = some v) := by
  have h1 := addLabel_finds w s h
  have h2 := declareAll_keeps ds _ w _ h1
  obtain ⟨h3, h4⟩ := addLabel_declared w (declareAll ds (addLabel w s).2) (by rw [h2]; rfl)
  refine ⟨h1, h2, h3, h4, fun u v hu => ?_⟩
  rcases addLabel_labels w s with ⟨h5, _⟩ | ⟨_, _, h6⟩
  · rw [h5] at h; simp at h
  · unfold findLabel at hu ⊢
    rw [h6]
    exact findLabelIn_append_of_some hu _

/-- Witness of C13: the label `X` declared at address 7 in the empty table,
then `Y` at 9 and `X` again at 11. -/
theorem symbol_table_round_trip_witness :
    findLabel (addLabel "X".toList { Asm.initial 32 with currentAddress := 7 }).2 "X".toList
      = some 7 ∧
    findLabel (declareAll [("Y".toList, 9), ("X".toList, 11)]
      (addLabel "X".toList { Asm.initial 32 with currentAddress := 7 }).2) "X".toList = some 7 ∧
    (addLabel "X".toList (declareAll [("Y".toList, 9), ("X".toList, 11)]
      (addLabel "X".toList { Asm.initial 32 with currentAddress := 7 }).2)).1 = false ∧
    (addLabel "X".toList (declareAll [("Y".toList, 9), ("X".toList, 11)]
      (addLabel "X".toList { Asm.initial 32 with currentAddress := 7 }).2)).2.labels
      = (declareAll [("Y".toList, 9), ("X".toList, 11)]
          (addLabel "X".toList { Asm.initial 32 with currentAddress := 7 }).2).labels ∧
    (∀ u v, findLabel { Asm.initial 32 with currentAddress := 7 } u = some v →
      findLabel (addLabel "X".toList { Asm.initial 32 with currentAddress := 7 }).2 u = some v) :=
  symbol_table_round_trip "X".toList { Asm.initial 32 with currentAddress := 7 }
    [("Y".toList, 9), ("X".toList, 11)] (by decide)
/-! ## `endAddress` and the number of immediates -/

theorem counted.same (s : Asm) : counted s s := rfl

theorem counted.next {s s1 s2 : Asm} (h1 : counted s s1) (h2 : counted s1 s2) : counted s s2 := by
  unfold counted at *
  omega

theorem wroteBelow.to_counted {s s1 : Asm} (h : wroteBelow s s1) : counted s s1 := by
  obtain ⟨_, _, a3, a4, _, _⟩ := h
  unfold counted Asm.numImmediates
  rw [a3, a4]

theorem resolveImmediate_counted (v : Int) (s : Asm) : counted s (resolveImmediate v s).2 := by
  unfold resolveImmediate
  cases findImmediate s.immediates v with
  | some a => rfl
  | none =>
    simp only []
    split
    · rfl
    · split
      · simp only [counted, Asm.numImmediates, Asm.store, List.length_append,
          List.length_singleton]
        omega
      · simp only [counted, Asm.numImmediates, List.length_append, List.length_singleton]
        omega

theorem parseOperand_counted (i : Nat) (operand : List Char) (s : Asm) :
    counted s (parseOperand i operand s).2 := by
  rcases parseOperand_cases i operand s with e | e | ⟨v, e⟩
  · rw [e]; rfl
  · rw [e]; rfl
  · rw [e]; exact resolveImmediate_counted v s

theorem parseInstruction_counted (i n : Nat) (operand : List Char) (s : Asm) :
    counted s (parseInstruction i n operand s) := by
  unfold parseInstruction
  split
  · rfl
  · split
    · rfl
    · simp only []
      split
      · exact parseOperand_counted (i <<< 12) operand s
      · rfl

theorem dispatch_counted (t : Nat) (s s1 : Asm) (h : dispatch t s = some s1) :
    counted s s1 := by
  unfold dispatch at h
  cases hi : getInstruction (s.word t) with
  | some k =>
    rw [hi] at h
    simp only [Option.some.injEq] at h
    subst h
    by_cases hp : s.pass = 2
    · simp only [hp, if_true]
      exact parseInstruction_counted k (s.wordCount - t - 1) (s.word (t + 1)) s
    · simp only [hp, if_false]
      rfl
  | none =>
    rw [hi] at h
    simp only at h
    by_cases h1 : s.word t = "ORG".toList
    · rw [if_pos h1] at h
      simp only [Option.some.injEq] at h
      subst h
      exact (parseORG_wrote t s).to_counted
    · rw [if_neg h1] at h
      by_cases h2 : s.word t = "DB".toList
      · rw [if_pos h2] at h
        simp only [Option.some.injEq] at h
        subst h
        exact (parseDB_wrote t s).to_counted
      · rw [if_neg h2] at h
        by_cases h3 : s.word t = "DW".toList
        · rw [if_pos h3] at h
          simp only [Option.some.injEq] at h
          subst h
          exact (parseDW_wrote t s).to_counted
        · rw [if_neg h3] at h
          by_cases h4 : s.word t = "NOP".toList
          · rw [if_pos h4] at h
            simp only [Option.some.injEq] at h
            subst h
            exact (parseNOP_wrote t s).to_counted
          · rw [if_neg h4] at h
            exact absurd h (by simp)

theorem afterLabel_counted (s : Asm) : counted s (afterLabel s) := by
  unfold afterLabel
  by_cases h1 : s.wordCount > 1
  · rw [if_pos h1]
    cases hd : dispatch 1 s with
    | none => rfl
    | some s1 => exact dispatch_counted 1 s s1 hd
  · rw [if_neg h1]; rfl

theorem assembleLine_counted (s : Asm) : counted s (assembleLine s) := by
  unfold assembleLine
  cases hd : dispatch 0 s with
  | some s1 => exact dispatch_counted 0 s s1 hd
  | none =>
    simp only []
    have hpass2 : ∀ s1 : Asm, counted s1
        (if s1.pass = 2 then
          if (findLabel s1 (s1.word 0)).isSome then afterLabel s1 else s1.error Msg.syntaxError
        else s1.error Msg.syntaxError) := by
      intro s1
      by_cases hp : s1.pass = 2
      · rw [if_pos hp]
        by_cases hf : (findLabel s1 (s1.word 0)).isSome = true
        · rw [if_pos hf]; exact afterLabel_counted s1
        · rw [if_neg hf]; rfl
      · rw [if_neg hp]; rfl
    by_cases hp : s.pass = 1
    · rw [if_pos hp]
      have k1 : counted s (firstWordLabel s).2 := (firstWordLabel_wrote s).to_counted
      generalize firstWordLabel s = r at k1
      obtain ⟨ok, s1⟩ := r
      cases ok with
      | true => exact k1.next (afterLabel_counted s1)
      | false => exact k1.next (hpass2 s1)
    · rw [if_neg hp]; exact hpass2 s

theorem processLine_counted (s : Asm) (c : List Char) : counted s (processLine s c) := by
  have k0 : counted s (fgetsInto c s) := rfl
  have k1 : counted s (splitLine (fgetsInto c s)) := k0.next (splitLine_wrote _).to_counted
  have k2 : counted (splitLine (fgetsInto c s))
      (if (splitLine (fgetsInto c s)).wordCount > 0 then assembleLine (splitLine (fgetsInto c s))
        else splitLine (fgetsInto c s)) := by
    split
    · exact assembleLine_counted _
    · rfl
  exact k1.next k2

theorem runPass_counted (chunks : List (List Char)) (s : Asm) :
    counted s (runPass s chunks) := by
  induction chunks generalizing s with
  | nil => rfl
  | cons c rest ih =>
    rw [runPass_cons]
    exact (processLine_counted s c).next (ih (processLine s c))
/-! ## The end of `assemble` -/

theorem assemble_finish (src : List Char) (memorySize : Nat) :
    assemble src (Asm.initial memorySize) = finish (passesEnd src memorySize) := by
  unfold passesEnd
  by_cases h : (pass1End src memorySize).errorCount = 0
  · rw [if_pos h]; exact assemble_passes src memorySize h
  · rw [if_neg h]
    unfold pass1End linesOf at h ⊢
    simp only [assemble, h, if_false]

theorem pass1End_fields (src : List Char) (memorySize : Nat) :
    (pass1End src memorySize).memorySize = memorySize ∧
    (pass1End src memorySize).immediates = [] ∧
    (pass1End src memorySize).line.length = MAX_LINE_LENGTH + 1 := by
  have hch : chunked (linesOf src) := fgetsAll_chunked src [] (by decide)
  have hlen : (pass1Start (Asm.initial memorySize)).line.length = MAX_LINE_LENGTH + 1 := by
    simp only [pass1Start, Asm.initial, List.length_replicate]
  obtain ⟨r1, _, _, r4, _, _⟩ := runPass_kept (linesOf src) 0
    (pass1Start (Asm.initial memorySize))
    (fun c hc => by rw [hlen]; exact Nat.lt_succ_of_le (chunked_length hch c hc))
  have himm := (runPass_stepped 0 (linesOf src) (pass1Start (Asm.initial memorySize))).2.2.2 rfl
  exact ⟨r1, himm, r4.trans hlen⟩

theorem pass2End_memorySize (src : List Char) (memorySize : Nat) :
    (pass2End src memorySize).memorySize = memorySize := by
  have hch : chunked (linesOf src) := fgetsAll_chunked src [] (by decide)
  obtain ⟨p1, _, p3⟩ := pass1End_fields src memorySize
  obtain ⟨q1, _, _, _, _, _⟩ := runPass_kept (linesOf src) 0
    (pass2Start (pass1End src memorySize))
    (fun c hc => by
      show c.length < (pass1End src memorySize).line.length
      rw [p3]; exact Nat.lt_succ_of_le (chunked_length hch c hc))
  exact q1.trans p1

theorem passesEnd_memorySize (src : List Char) (memorySize : Nat) :
    (passesEnd src memorySize).memorySize = memorySize := by
  unfold passesEnd
  split
  · exact pass2End_memorySize src memorySize
  · exact (pass1End_fields src memorySize).1

/-- In pass 2 `endAddress` is the code size of pass 1 plus the number of
immediates created so far. -/
theorem pass2End_endAddress (src : List Char) (memorySize : Nat) :
    (pass2End src memorySize).endAddress
      = (pass1End src memorySize).currentAddress + (pass2End src memorySize).numImmediates := by
  have h := runPass_counted (linesOf src) (pass2Start (pass1End src memorySize))
  have hi : (pass2Start (pass1End src memorySize)).numImmediates = 0 := by
    show (pass1End src memorySize).immediates.length = 0
    rw [(pass1End_fields src memorySize).2.1]; rfl
  have he : (pass2Start (pass1End src memorySize)).endAddress
      = (pass1End src memorySize).currentAddress := rfl
  unfold counted at h
  rw [hi, he] at h
  unfold pass2End
  omega

theorem finish_cases (s : Asm) :
    (s.endAddress > s.memorySize ∧ (finish s).errorCount = s.errorCount + 1 ∧
      (finish s).log = s.log ++ [Out.programTooBig] ∧ (finish s).endAddress = s.endAddress ∧
      (finish s).immediates = s.immediates) ∨
    (s.endAddress ≤ s.memorySize ∧ finish s = s) := by
  unfold finish
  by_cases h : s.endAddress > s.memorySize
  · rw [if_pos h]; exact Or.inl ⟨h, rfl, rfl, rfl, rfl⟩
  · rw [if_neg h]; exact Or.inr ⟨by omega, rfl⟩

/-- C19.  The end of `assemble`, for every source text and memory size.  The
value returned says whether the final error count is zero, which is the case
exactly when the passes end with no error and with `endAddress <= memorySize`.
When `endAddress` exceeds `memorySize` after the passes, exactly one error,
"Program too big for memory", is added to those of the passes; otherwise the
check adds nothing.  So a successful assembly has `endAddress <= memorySize`;
and when pass 1 found no error, the final `endAddress` is the code size of
pass 1 plus the number of immediates created. -/
theorem assemble_success (src : List Char) (memorySize : Nat) :
    (assembleResult src (Asm.initial memorySize) = true ↔
      (assemble src (Asm.initial memorySize)).errorCount = 0) ∧
    ((assemble src (Asm.initial memorySize)).errorCount = 0 ↔
      (passesEnd src memorySize).errorCount = 0 ∧
        (passesEnd src memorySize).endAddress ≤ memorySize) ∧
    ((passesEnd src memorySize).endAddress > memorySize →
      (assemble src (Asm.initial memorySize)).errorCount
          = (passesEnd src memorySize).errorCount + 1 ∧
        (assemble src (Asm.initial memorySize)).log
          = (passesEnd src memorySize).log ++ [Out.programTooBig]) ∧
    ((passesEnd src memorySize).endAddress ≤ memorySize →
      assemble src (Asm.initial memorySize) = passesEnd src memorySize) ∧
    (assembleResult src (Asm.initial memorySize) = true →
      (assemble src (Asm.initial memorySize)).endAddress ≤ memorySize) ∧
    ((pass1End src memorySize).errorCount = 0 →
      (assemble src (Asm.initial memorySize)).endAddress
        = (pass1End src memorySize).currentAddress
          + (assemble src (Asm.initial memorySize)).numImmediates) := by
  have hm := passesEnd_memorySize src memorySize
  have hr : assembleResult src (Asm.initial memorySize) = true ↔
      (assemble src (Asm.initial memorySize)).errorCount = 0 := by
    simp only [assembleResult, beq_iff_eq]
  rw [assemble_finish] at hr ⊢
  rcases finish_cases (passesEnd src memorySize) with ⟨f1, f2, f3, f4, f5⟩ | ⟨f1, f2⟩
  · rw [hm] at f1
    refine ⟨hr, ?_, fun _ => ⟨f2, f3⟩, fun h => absurd h (by omega), ?_, ?_⟩
    · rw [f2]
      constructor
      · intro h; omega
      · intro h; omega
    · intro h
      rw [hr, f2] at h
      omega
    · intro h1
      rw [f4]
      simp only [Asm.numImmediates, f5]
      unfold passesEnd
      rw [if_pos h1]
      exact pass2End_endAddress src memorySize
  · rw [hm] at f1
    rw [f2] at hr ⊢
    refine ⟨hr, ⟨fun h => ⟨h, f1⟩, fun h => h.1⟩, fun h => absurd h (by omega), fun _ => rfl,
      fun _ => f1, ?_⟩
    intro h1
    unfold passesEnd
    rw [if_pos h1]
    exact pass2End_endAddress src memorySize

set_option maxRecDepth 100000 in
/-- Witness of C19: the source `twoLoadsSource` has a code size of 2 words and
2 immediates; it fits into 32 words. -/
theorem assemble_success_witness :
    (assemble twoLoadsSource (Asm.initial 32)).endAddress ≤ 32 :=
  (assemble_success twoLoadsSource 32).2.2.2.2.1 (by decide!)

set_option maxRecDepth 100000 in
/-- C20, the counterexample.  In the assembly of `scenarioSource` pass 1 ends
without error, pass 2 starts with `endAddress = 3` and ends with
`endAddress = 5`: the two immediates it creates each advance `endAddress`. -/
theorem endAddress_changes_in_pass2 :
    (pass1End scenarioSource 32).errorCount = 0 ∧
    (pass2Start (pass1End scenarioSource 32)).endAddress = 3 ∧
    (pass2End scenarioSource 32).endAddress = 5 ∧
    (pass2End scenarioSource 32).endAddress
      ≠ (pass2Start (pass1End scenarioSource 32)).endAddress := by
  decide!

/-- C20, as amended.  For every source whose pass 1 ends with zero errors,
`endAddress` at the end of pass 2, which is the final state of `assemble` but
for the check that the program fits, is the value it was given at the end of
pass 1, the `currentAddress` reached there, plus the number of immediates
created in pass 2: only the creation of an immediate changes it. -/
theorem endAddress_grows_with_pool (src : List Char) (memorySize : Nat)
    (h1 : (pass1End src memorySize).errorCount = 0) :
    (pass2Start (pass1End src memorySize)).endAddress = (pass1End src memorySize).currentAddress ∧
    (pass2Start (pass1End src memorySize)).numImmediates = 0 ∧
    (pass2End src memorySize).endAddress
      = (pass2Start (pass1End src memorySize)).endAddress
        + (pass2End src memorySize).numImmediates ∧
    (assemble src (Asm.initial memorySize)).endAddress = (pass2End src memorySize).endAddress := by
  refine ⟨rfl, ?_, pass2End_endAddress src memorySize, ?_⟩
  · show (pass1End src memorySize).immediates.length = 0
    rw [(pass1End_fields src memorySize).2.1]; rfl
  · rw [assemble_passes src memorySize h1]
    rcases finish_cases (pass2End src memorySize) with ⟨_, _, _, f4, _⟩ | ⟨_, f2⟩
    · exact f4
    · rw [f2]

set_option maxRecDepth 100000 in
/-- Witness of C20 as amended: the source `scenarioSource` on 32 words. -/
theorem endAddress_grows_with_pool_witness :
    (pass1End scenarioSource 32).errorCount = 0 ∧
    ((pass2Start (pass1End scenarioSource 32)).endAddress
        = (pass1End scenarioSource 32).currentAddress ∧
      (pass2Start (pass1End scenarioSource 32)).numImmediates = 0 ∧
      (pass2End scenarioSource 32).endAddress
        = (pass2Start (pass1End scenarioSource 32)).endAddress
          + (pass2End scenarioSource 32).numImmediates ∧
      (assemble scenarioSource (Asm.initial 32)).endAddress
        = (pass2End scenarioSource 32).endAddress) :=
  ⟨by decide!, endAddress_grows_with_pool scenarioSource 32 (by decide!)⟩
/-! ## Text in `line[]` -/

theorem at_cstrAt (s : Asm) (p i : Nat) (h : i < (cstrAt s.line p).length) :
    s.at (p + i) = (cstrAt s.line p).getD i NUL := by
  unfold Asm.at cstrAt at *
  rw [← getD_drop, getD_cstr _ _ h]

theorem at_cstrAt_end (s : Asm) (p : Nat) : s.at (p + (cstrAt s.line p).length) = NUL := by
  unfold Asm.at cstrAt
  rw [← getD_drop, getD_cstr_length]

theorem cstr_drop_append (m u v : List Char) (h : cstr m = u ++ v) :
    cstr (m.drop u.length) = v := by
  induction u generalizing m with
  | nil => simpa using h
  | cons a u ih =>
    cases m with
    | nil => simp [cstr] at h
    | cons c m =>
      by_cases hc : c = NUL
      · simp [cstr, hc] at h
      · simp only [cstr, hc, if_false, List.cons_append, List.cons.injEq] at h
        simp only [List.length_cons, List.drop_succ_cons]
        exact ih m h.2

theorem cstrAt_advance (s : Asm) (p : Nat) (u v : List Char) (h : cstrAt s.line p = u ++ v) :
    cstrAt s.line (p + u.length) = v := by
  unfold cstrAt at *
  have := cstr_drop_append _ u v h
  rw [List.drop_drop] at this
  rw [← this]

theorem at_text (s : Asm) (p : Nat) (u v : List Char) (h : cstrAt s.line p = u ++ v)
    (i : Nat) (hi : i < u.length) : s.at (p + i) = u.getD i NUL := by
  rw [at_cstrAt s p i (by rw [h, List.length_append]; omega), h]
  simp only [List.getD_eq_getElem?_getD]
  rw [List.getElem?_append_left hi]

theorem at_text_next (s : Asm) (p : Nat) (u : List Char) (c : Char) (v : List Char)
    (h : cstrAt s.line p = u ++ c :: v) : s.at (p + u.length) = c := by
  rw [at_cstrAt s p u.length (by rw [h, List.length_append, List.length_cons]; omega), h]
  simp only [List.getD_eq_getElem?_getD]
  rw [List.getElem?_append_right (Nat.le_refl _)]
  simp

theorem at_text_end (s : Asm) (p : Nat) (u : List Char) (h : cstrAt s.line p = u) :
    s.at (p + u.length) = NUL := by
  have := at_cstrAt_end s p
  rw [h] at this
  exact this

theorem not_nul_of_cstrAt (s : Asm) (p : Nat) (u : List Char) (h : cstrAt s.line p = u) :
    ∀ c ∈ u, c ≠ NUL := by
  intro c hc hn
  subst hn
  rw [← h] at hc
  exact nul_not_mem_cstr _ hc
/-! ## `strtol` on a literal that a comma follows -/

theorem scanDigits_comma (base : Nat) (rest : List Char) (acc n : Nat) :
    scanDigits base (',' :: rest) acc n = (acc, n) := by
  have : digitVal ',' = none := by decide
  simp only [scanDigits, this]

theorem scanDigits_digit (base : Nat) (c : Char) (cs : List Char) (acc n d : Nat)
    (h : digitVal c = some d) (hlt : d < base) :
    scanDigits base (c :: cs) acc n = scanDigits base cs (acc * base + d) (n + 1) := by
  have e : scanDigits base (c :: cs) acc n = (match digitVal c with
      | some d => if d < base then scanDigits base cs (acc * base + d) (n + 1) else (acc, n)
      | none => (acc, n)) := rfl
  rw [e, h]
  simp only [hlt, if_true]

theorem scanDigits_decimal_comma (w rest : List Char) (h : ∀ c ∈ w, isdigit c = true)
    (acc n : Nat) :
    scanDigits 10 (w ++ ',' :: rest) acc n
      = (w.foldl (fun a c => a * 10 + (c.toNat - 48)) acc, n + w.length) := by
  induction w generalizing acc n with
  | nil => simp [scanDigits_comma]
  | cons c cs ih =>
    have hc := h c (List.mem_cons_self _ _)
    have hd := digitVal_of_isdigit hc
    have hlt : c.toNat - 48 < 10 := by
      simp only [isdigit, Bool.and_eq_true, decide_eq_true_eq] at hc
      omega
    rw [List.cons_append, scanDigits_digit 10 c _ acc n _ hd hlt,
      ih (fun d hd => h d (List.mem_cons_of_mem _ hd))]
    simp only [List.foldl_cons, List.length_cons, Prod.mk.injEq, true_and]
    omega

theorem strtol_decimal_comma (w rest : List Char) (hw : isDecimalLiteral w = true)
    (hr : ∀ c ∈ rest, c ≠ NUL) :
    strtol (w ++ ',' :: rest) = (((min (decimalValue w) LONG_MAX : Nat) : Int), w.length) := by
  simp only [isDecimalLiteral, Bool.and_eq_true, List.all_eq_true, Bool.or_eq_true,
    beq_iff_eq] at hw
  obtain ⟨hd, hz⟩ := hw
  have hcomma : (',' : Char) ≠ NUL := by decide
  have hc : cstr (w ++ ',' :: rest) = w ++ ',' :: rest := by
    apply cstr_of_no_nul
    intro c hc
    rcases List.mem_append.mp hc with h | h
    · exact isdigit_ne_nul (hd c h)
    · rcases List.mem_cons.mp h with h | h
      · rw [h]; exact hcomma
      · exact hr c h
  rcases hz with hz | hz
  · subst hz
    have hs : scanNumber ('0' :: ',' :: rest) = (0, 1) := by
      cases rest with
      | nil => decide
      | cons r rs =>
        have h1 : ¬ ((',' : Char) = 'x' ∨ (',' : Char) = 'X') := by decide
        simp only [scanNumber, h1, false_and, and_false, if_false, if_true]
        have h0 : digitVal '0' = some 0 := by decide
        rw [scanDigits_digit 8 '0' _ 0 0 0 h0 (by decide), scanDigits_comma]
    have hsp : skipSpaces ('0' :: ',' :: rest) 0 = ('0' :: ',' :: rest, 0) :=
      skipSpaces_of_not_space _ _ (by decide) 0
    have hm : ('0' : Char) ≠ '-' := by decide
    have hp : ('0' : Char) ≠ '+' := by decide
    have hc0 : cstr ('0' :: ',' :: rest) = '0' :: ',' :: rest := hc
    simp only [strtol, List.cons_append, List.nil_append, hc0, hsp, hm, hp, if_false, hs]
    decide
  · cases w with
    | nil => simp at hz
    | cons c cs =>
      simp only [List.head?_cons, Option.any_some, bne_iff_ne, ne_eq] at hz
      have hcd := hd c (List.mem_cons_self _ _)
      have hns := isdigit_not_space hcd
      have hm : c ≠ '-' := by
        intro h; subst h; revert hcd; decide
      have hp : c ≠ '+' := by
        intro h; subst h; revert hcd; decide
      have hscan : scanNumber (c :: (cs ++ ',' :: rest))
          = scanDigits 10 (c :: (cs ++ ',' :: rest)) 0 0 := by
        unfold scanNumber
        split <;> simp_all
      have hlen : ¬ ((c :: cs).length = 0) := by simp
      have hc1 : cstr (c :: (cs ++ ',' :: rest)) = c :: (cs ++ ',' :: rest) := hc
      have hsd := scanDigits_decimal_comma (c :: cs) rest hd 0 0
      simp only [List.cons_append] at hsd
      simp only [strtol, List.cons_append, hc1, skipSpaces_of_not_space c _ hns, hm, hp,
        if_false, hscan, hsd, decimalValue, Nat.zero_add, hlen]
      simp
/-! ## The scanner of `DW` on one element -/

theorem parseDW2Loop_lit (fuel p : Nat) (s : Asm) (w tail : List Char)
    (hw : isDecimalLiteral w = true) (hv : decimalValue w < 65536)
    (ht : cstrAt s.line p = w ++ tail) (htail : tail = [] ∨ ∃ more, tail = ',' :: more) :
    parseDW2Loop (fuel + 1) p s =
      if tail = [] then pushWord (decimalValue w) s
      else parseDW2Loop fuel (p + w.length + 1) (pushWord (decimalValue w) s) := by
  obtain ⟨hd, hlen⟩ := decimal_head_isdigit w hw
  have h0 : s.at p = w.getD 0 NUL := by
    have := at_text s p w tail ht 0 hlen
    rwa [Nat.add_zero] at this
  have hmin : min (decimalValue w) LONG_MAX = decimalValue w := by
    simp only [LONG_MAX]; omega
  have hs : strtol (s.line.drop p) = (((decimalValue w : Nat) : Int), w.length) := by
    rw [← strtol_cstr]
    have e : cstr (s.line.drop p) = w ++ tail := ht
    rw [e]
    rcases htail with h | ⟨more, h⟩
    · subst h
      rw [List.append_nil, strtol_decimal w hw, hmin]
    · subst h
      have hno := not_nul_of_cstrAt s p _ ht
      rw [strtol_decimal_comma w more hw
        (fun c hc => hno c (List.mem_append_right _ (List.mem_cons_of_mem _ hc))), hmin]
  rw [parseDW2Loop_succ, hs]
  simp only [h0, hd, true_and, Int.toNat_ofNat]
  rcases htail with h | ⟨more, h⟩
  · subst h
    have he := at_text_end s p w (by rw [ht, List.append_nil])
    rw [if_pos (Or.inl he), if_pos (by exact_mod_cast hv), if_pos he, if_pos rfl]
  · subst h
    have he := at_text_next s p w ',' more ht
    have hne : ¬ (s.at (p + w.length) = NUL) := by rw [he]; decide
    rw [if_pos (Or.inr he), if_pos (by exact_mod_cast hv), if_neg hne, if_neg (by simp)]

theorem dwCopyLabel_short (w : List Char) : ∀ (fuel p : Nat) (str : List Char) (s : Asm),
    (∀ i, i < w.length → s.at (p + i) = w.getD i NUL) → (∀ c ∈ w, c ≠ NUL ∧ c ≠ ',') →
    (s.at (p + w.length) = NUL ∨ s.at (p + w.length) = ',') → w.length < fuel →
    dwCopyLabel fuel p str s = (str ++ w, p + w.length, s) := by
  induction w with
  | nil =>
    intro fuel p str s _ _ hend hf
    obtain ⟨f, rfl⟩ : ∃ f, fuel = f + 1 := ⟨fuel - 1, by simp at hf; omega⟩
    simp only [List.length_nil, Nat.add_zero] at hend
    simp only [dwCopyLabel, hend, if_true, List.append_nil, List.length_nil, Nat.add_zero]
  | cons a w ih =>
    intro fuel p str s hw hc hend hf
    obtain ⟨f, rfl⟩ : ∃ f, fuel = f + 1 := ⟨fuel - 1, by simp at hf; omega⟩
    have h0 : s.at p = a := by
      have := hw 0 (by simp)
      simpa using this
    have ha := hc a (List.mem_cons_self _ _)
    have hno : ¬ (s.at p = NUL ∨ s.at p = ',') := by
      rw [h0]; exact fun h => h.elim ha.1 ha.2
    simp only [dwCopyLabel, hno, if_false]
    rw [ih f (p + 1) (str ++ [s.at p]) s
      (fun i hi => by
        have := hw (i + 1) (by simp; omega)
        simp only [List.getD_eq_getElem?_getD, List.getElem?_cons_succ] at this ⊢
        rw [← this]; congr 1; omega)
      (fun c hcm => hc c (List.mem_cons_of_mem _ hcm))
      (by
        have e : p + 1 + w.length = p + (a :: w).length := by simp; omega
        rw [e]; exact hend)
      (by simp at hf; omega)]
    rw [h0]
    simp only [List.append_assoc, List.singleton_append, List.length_cons, Prod.mk.injEq,
      true_and, and_true]
    omega

theorem dwCopyLabel_long (fuel : Nat) : ∀ (w : List Char) (p : Nat) (str : List Char) (s : Asm),
    (∀ i, i < w.length → s.at (p + i) = w.getD i NUL) → (∀ c ∈ w, c ≠ NUL ∧ c ≠ ',') →
    fuel ≤ w.length →
    dwCopyLabel fuel p str s = ([], p + fuel, { s with line := s.line.set (p + fuel) NUL }) := by
  induction fuel with
  | zero => intro w p str s _ _ _; rfl
  | succ f ih =>
    intro w p str s hw hc hf
    cases w with
    | nil => simp at hf
    | cons a w =>
      have h0 : s.at p = a := by
        have := hw 0 (by simp)
        simpa using this
      have ha := hc a (List.mem_cons_self _ _)
      have hno : ¬ (s.at p = NUL ∨ s.at p = ',') := by
        rw [h0]; exact fun h => h.elim ha.1 ha.2
      simp only [dwCopyLabel, hno, if_false]
      rw [ih w (p + 1) (str ++ [s.at p]) s
        (fun i hi => by
          have := hw (i + 1) (by simp; omega)
          simp only [List.getD_eq_getElem?_getD, List.getElem?_cons_succ] at this ⊢
          rw [← this]; congr 1; omega)
        (fun c hcm => hc c (List.mem_cons_of_mem _ hcm))
        (by simp at hf; omega)]
      have e : p + 1 + f = p + (f + 1) := by omega
      rw [e]

theorem findLabelIn_some_mem {ls : List label_t} {w : List Char} {v : Nat}
    (h : findLabelIn ls w = some v) : ∃ l ∈ ls, l.name = cstr w ∧ l.value = v := by
  induction ls with
  | nil => simp [findLabelIn] at h
  | cons l ls ih =>
    simp only [findLabelIn] at h
    by_cases hl : l.name = cstr w
    · simp only [hl, if_true, Option.some.injEq] at h
      exact ⟨l, List.mem_cons_self _ _, hl, h⟩
    · simp only [hl, if_false] at h
      obtain ⟨m, hm, h1, h2⟩ := ih h
      exact ⟨m, List.mem_cons_of_mem _ hm, h1, h2⟩

theorem findLabelIn_empty (s : Asm) (h : labelsOk s) : findLabelIn s.labels [] = none := by
  cases hf : findLabelIn s.labels [] with
  | none => rfl
  | some v =>
    obtain ⟨l, hl, h1, _⟩ := findLabelIn_some_mem hf
    have := (h l hl).1
    rw [h1] at this
    simp [cstr] at this
theorem ident_chars (w : List Char) (h : (DwItem.ident w).ok = true) :
    isalpha (w.getD 0 NUL) = true ∧ 0 < w.length ∧ (∀ c ∈ w, c ≠ NUL ∧ c ≠ ',') ∧ cstr w = w := by
  simp only [DwItem.ok, Bool.and_eq_true, List.all_eq_true, bne_iff_ne, ne_eq] at h
  obtain ⟨h1, h2⟩ := h
  refine ⟨h1, ?_, h2, cstr_of_no_nul w (fun c hc => (h2 c hc).1)⟩
  cases w with
  | nil => exact absurd h1 (by decide)
  | cons a w => simp

/-- The label part of `parseDW2` in pass 2 on an identifier that is declared:
its address goes to the buffer, and the scan goes on after the comma, if any. -/
theorem dwLabelPart_found (p : Nat) (s : Asm) (w tail : List Char) (v : Nat)
    (hpass : s.pass = 2) (hb : s.bufferIndex < DB_DW_BUFFER_SIZE)
    (hok : (DwItem.ident w).ok = true) (ht : cstrAt s.line p = w ++ tail)
    (htail : tail = [] ∨ ∃ more, tail = ',' :: more) (hlab : labelsOk s)
    (hv : findLabelIn s.labels w = some v) :
    dwLabelPart p s = (pushWord v s, if tail = [] then none else some (p + w.length + 1)) := by
  obtain ⟨_, _, hc, hcs⟩ := ident_chars w hok
  obtain ⟨l, hl, hn, _⟩ := findLabelIn_some_mem hv
  have hshort : w.length < MAX_LABEL_NAME_LENGTH := by
    have := (hlab l hl).2
    rwa [hn, hcs] at this
  have hend : s.at (p + w.length) = NUL ∨ s.at (p + w.length) = ',' := by
    rcases htail with h | ⟨more, h⟩
    · subst h; exact Or.inl (at_text_end s p w (by rw [ht, List.append_nil]))
    · subst h; exact Or.inr (at_text_next s p w ',' more ht)
  have hcopy := dwCopyLabel_short w MAX_LABEL_NAME_LENGTH p [] s
    (fun i hi => at_text s p w tail ht i hi) hc hend hshort
  have hne : ¬ (s.pass = 1) := by rw [hpass]; decide
  have hres : dwResolve w s = (pushWord v s, true) := by
    unfold dwResolve
    rw [if_neg hne, if_pos hb]
    have : findLabel s w = some v := hv
    rw [this]
    simp only [pushWord, hb, if_true]
  unfold dwLabelPart
  rw [hcopy]
  simp only [List.nil_append]
  rw [hres]
  simp only []
  unfold dwMore
  have hat : (pushWord v s).at (p + w.length) = s.at (p + w.length) := rfl
  rw [hat]
  rcases htail with h | ⟨more, h⟩
  · subst h
    have := at_text_end s p w (by rw [ht, List.append_nil])
    rw [if_pos this, if_pos rfl]
  · subst h
    have := at_text_next s p w ',' more ht
    have hne2 : ¬ (s.at (p + w.length) = NUL) := by rw [this]; decide
    rw [if_neg hne2, if_neg (by simp)]

/-- The label part of `parseDW2` in pass 2 on an identifier that is not
declared: the error "failed to resolve label", and the scan ends. -/
theorem dwLabelPart_missing (p : Nat) (s : Asm) (w tail : List Char)
    (hpass : s.pass = 2) (hb : s.bufferIndex < DB_DW_BUFFER_SIZE)
    (hok : (DwItem.ident w).ok = true) (ht : cstrAt s.line p = w ++ tail)
    (htail : tail = [] ∨ ∃ more, tail = ',' :: more) (hlab : labelsOk s)
    (hv : findLabelIn s.labels w = none) :
    (dwLabelPart p s).2 = none ∧ (dwLabelPart p s).1.bufferIndex = 0 ∧
    (dwLabelPart p s).1.errorCount = s.errorCount + 1 ∧
    (dwLabelPart p s).1.log = s.log ++ [Out.err s.currentLine Msg.failedResolve] ∧
    (dwLabelPart p s).1.frame = s.frame := by
  obtain ⟨_, _, hc, hcs⟩ := ident_chars w hok
  have hne : ¬ (s.pass = 1) := by rw [hpass]; decide
  by_cases hshort : w.length < MAX_LABEL_NAME_LENGTH
  · have hend : s.at (p + w.length) = NUL ∨ s.at (p + w.length) = ',' := by
      rcases htail with h | ⟨more, h⟩
      · subst h; exact Or.inl (at_text_end s p w (by rw [ht, List.append_nil]))
      · subst h; exact Or.inr (at_text_next s p w ',' more ht)
    have hcopy := dwCopyLabel_short w MAX_LABEL_NAME_LENGTH p [] s
      (fun i hi => at_text s p w tail ht i hi) hc hend hshort
    have hres : dwResolve w s = (bufferError Msg.failedResolve s, false) := by
      unfold dwResolve
      rw [if_neg hne, if_pos hb]
      have : findLabel s w = none := hv
      rw [this]
    unfold dwLabelPart
    rw [hcopy]
    simp only [List.nil_append]
    rw [hres]
    exact ⟨rfl, rfl, rfl, rfl, rfl⟩
  · have hcopy := dwCopyLabel_long MAX_LABEL_NAME_LENGTH w p [] s
      (fun i hi => at_text s p w tail ht i hi) hc (by omega)
    have hres : dwResolve []
        ({ s with line := s.line.set (p + MAX_LABEL_NAME_LENGTH) NUL } : Asm)
        = (bufferError Msg.failedResolve
            ({ s with line := s.line.set (p + MAX_LABEL_NAME_LENGTH) NUL } : Asm), false) := by
      unfold dwResolve
      rw [if_neg hne, if_pos hb]
      have : findLabel ({ s with line := s.line.set (p + MAX_LABEL_NAME_LENGTH) NUL } : Asm) []
          = none := findLabelIn_empty s hlab
      rw [this]
    unfold dwLabelPart
    rw [hcopy]
    simp only []
    rw [hres]
    exact ⟨rfl, rfl, rfl, rfl, rfl⟩

theorem parseDW2Loop_ident (fuel p : Nat) (s : Asm) (w : List Char)
    (hok : (DwItem.ident w).ok = true) (tail : List Char) (ht : cstrAt s.line p = w ++ tail) :
    parseDW2Loop (fuel + 1) p s =
      match dwLabelPart p s with
      | (s1, some q) => parseDW2Loop fuel q s1
      | (s1, none) => s1 := by
  obtain ⟨ha, hlen, _, _⟩ := ident_chars w hok
  have h0 : s.at p = w.getD 0 NUL := by
    have := at_text s p w tail ht 0 hlen
    rwa [Nat.add_zero] at this
  have hnd : ¬ (isdigit (s.at p) = true) := by
    rw [h0]
    intro hd
    have : ∀ c : Char, isalpha c = true → isdigit c = true → False := by
      intro c h1 h2
      simp only [isalpha, isdigit, Bool.or_eq_true, Bool.and_eq_true, decide_eq_true_eq] at h1 h2
      omega
    exact this _ ha hd
  rw [parseDW2Loop_succ, if_neg (fun h => hnd h.1), if_pos (by rw [h0]; exact ha)]
  all_goals (rcases dwLabelPart p s with ⟨s1, _ | q⟩ <;> rfl)
/-! ## The scanner of `DW` on a list of elements -/

theorem dwText_cons (x : DwItem) (rest : List DwItem) :
    dwText (x :: rest) = x.text ++ (if rest = [] then [] else ',' :: dwText rest) := by
  cases rest with
  | nil => simp [dwText]
  | cons y ys => simp [dwText]

/-- One turn of the loop of `parseDW2` in pass 2 on an element that has a
value: the value goes to the buffer, and the scan goes on with the next
element, if there is one. -/
theorem parseDW2Loop_head (fuel p : Nat) (s : Asm) (x : DwItem) (rest : List DwItem) (v : Nat)
    (hpass : s.pass = 2) (hb : s.bufferIndex < DB_DW_BUFFER_SIZE) (hok : x.ok = true)
    (ht : cstrAt s.line p = dwText (x :: rest)) (hlab : labelsOk s)
    (hv : x.value s.labels = some v) :
    parseDW2Loop (fuel + 1) p s =
      if rest = [] then pushWord v s
      else parseDW2Loop fuel (p + x.text.length + 1) (pushWord v s) := by
  rw [dwText_cons] at ht
  have htail : (if rest = [] then [] else ',' :: dwText rest) = [] ∨
      ∃ more, (if rest = [] then [] else ',' :: dwText rest) = ',' :: more := by
    by_cases hr : rest = []
    · rw [if_pos hr]; exact Or.inl rfl
    · rw [if_neg hr]; exact Or.inr ⟨_, rfl⟩
  have hiff : ((if rest = [] then [] else ',' :: dwText rest) = ([] : List Char)) ↔ rest = [] := by
    by_cases hr : rest = []
    · simp [hr]
    · simp [hr]
  cases x with
  | lit w =>
    simp only [DwItem.ok, Bool.and_eq_true, decide_eq_true_eq] at hok
    simp only [DwItem.value, Option.some.injEq] at hv
    subst hv
    rw [parseDW2Loop_lit fuel p s w _ hok.1 hok.2 ht htail]
    simp only [hiff, DwItem.text]
  | ident w =>
    have hv : findLabelIn s.labels w = some v := hv
    rw [parseDW2Loop_ident fuel p s w hok _ ht,
      dwLabelPart_found p s w _ v hpass hb hok ht htail hlab hv]
    simp only [hiff, DwItem.text]
    by_cases hr : rest = []
    · simp only [hr, if_true]
    · simp only [hr, if_false]

theorem pushWords_cons (v : Nat) (vs : List Nat) (s : Asm) :
    pushWords (v :: vs) s = pushWords vs (pushWord v s) := rfl

theorem parseDW2Loop_items (xs : List DwItem) : ∀ (fuel p : Nat) (s : Asm),
    xs ≠ [] → s.pass = 2 → cstrAt s.line p = dwText xs → (∀ x ∈ xs, x.ok = true) → labelsOk s →
    xs.length ≤ fuel → s.bufferIndex + xs.length ≤ DB_DW_BUFFER_SIZE →
    ((∀ x ∈ xs, (x.value s.labels).isSome = true) →
      parseDW2Loop fuel p s = pushWords (xs.map (fun x => (x.value s.labels).getD 0)) s) ∧
    ((∃ x ∈ xs, x.value s.labels = none) →
      (parseDW2Loop fuel p s).bufferIndex = 0 ∧
      (parseDW2Loop fuel p s).errorCount = s.errorCount + 1 ∧
      (parseDW2Loop fuel p s).log = s.log ++ [Out.err s.currentLine Msg.failedResolve] ∧
      (parseDW2Loop fuel p s).frame = s.frame) := by
  induction xs with
  | nil => intro _ _ _ h; exact absurd rfl h
  | cons x rest ih =>
    intro fuel p s _ hpass ht hok hlab hfuel hroom
    obtain ⟨f, rfl⟩ : ∃ f, fuel = f + 1 := ⟨fuel - 1, by simp at hfuel; omega⟩
    simp only [List.length_cons] at hfuel hroom
    have hb : s.bufferIndex < DB_DW_BUFFER_SIZE := by omega
    have hokx := hok x (List.mem_cons_self _ _)
    cases hv : x.value s.labels with
    | none =>
      cases x with
      | lit w => simp [DwItem.value] at hv
      | ident w =>
        have hv2 : findLabelIn s.labels w = none := hv
        rw [dwText_cons] at ht
        have htail : (if rest = [] then [] else ',' :: dwText rest) = [] ∨
            ∃ more, (if rest = [] then [] else ',' :: dwText rest) = ',' :: more := by
          by_cases hr : rest = []
          · rw [if_pos hr]; exact Or.inl rfl
          · rw [if_neg hr]; exact Or.inr ⟨_, rfl⟩
        obtain ⟨m1, m2, m3, m4, m5⟩ :=
          dwLabelPart_missing p s w _ hpass hb hokx ht htail hlab hv2
        have hstep := parseDW2Loop_ident f p s w hokx _ ht
        have hres : parseDW2Loop (f + 1) p s = (dwLabelPart p s).1 := by
          rw [hstep]
          generalize dwLabelPart p s = r at m1
          obtain ⟨s1, q⟩ := r
          simp only at m1
          subst m1
          rfl
        rw [hres]
        refine ⟨fun hall => ?_, fun _ => ⟨m2, m3, m4, m5⟩⟩
        have := hall _ (List.mem_cons_self _ _)
        rw [hv] at this
        simp at this
    | some v =>
      rw [parseDW2Loop_head f p s x rest v hpass hb hokx ht hlab hv]
      by_cases hr : rest = []
      · subst hr
        rw [if_pos rfl]
        refine ⟨fun _ => ?_, fun ⟨y, hy, hn⟩ => ?_⟩
        · simp only [List.map_cons, List.map_nil, hv, Option.getD_some]
          rfl
        · simp only [List.mem_singleton] at hy
          subst hy
          rw [hv] at hn
          simp at hn
      · rw [if_neg hr]
        have ht2 : cstrAt (pushWord v s).line (p + x.text.length + 1) = dwText rest := by
          rw [dwText_cons, if_neg hr] at ht
          have e : x.text ++ ',' :: dwText rest = (x.text ++ [',']) ++ dwText rest := by simp
          rw [e] at ht
          have := cstrAt_advance s p _ _ ht
          simp only [List.length_append, List.length_singleton] at this
          rw [← Nat.add_assoc] at this
          exact this
        obtain ⟨i1, i2⟩ := ih f (p + x.text.length + 1) (pushWord v s) hr hpass ht2
          (fun y hy => hok y (List.mem_cons_of_mem _ hy)) hlab (by omega)
          (by
            have : (pushWord v s).bufferIndex = s.bufferIndex + 1 := rfl
            rw [this]; omega)
        refine ⟨fun hall => ?_, fun ⟨y, hy, hn⟩ => ?_⟩
        · rw [i1 (fun y hy => hall y (List.mem_cons_of_mem _ hy))]
          simp only [List.map_cons, hv, Option.getD_some]
          rfl
        · rcases List.mem_cons.mp hy with h | h
          · subst h
            rw [hv] at hn
            simp at hn
          · exact i2 ⟨y, h, hn⟩
/-! ## `DW` on a list of elements -/

theorem pushWords_spec (vs : List Nat) : ∀ (s : Asm), s.buffer.length = DB_DW_BUFFER_SIZE →
    s.bufferIndex + vs.length ≤ DB_DW_BUFFER_SIZE →
    (pushWords vs s).bufferIndex = s.bufferIndex + vs.length ∧
    (pushWords vs s).frame = s.frame ∧ (pushWords vs s).errorCount = s.errorCount ∧
    (pushWords vs s).log = s.log ∧
    (∀ i, i < s.bufferIndex → (pushWords vs s).buffer.getD i 0 = s.buffer.getD i 0) ∧
    (∀ j, j < vs.length → (pushWords vs s).buffer.getD (s.bufferIndex + j) 0 = vs.getD j 0) := by
  induction vs with
  | nil =>
    intro s _ _
    exact ⟨rfl, rfl, rfl, rfl, fun _ _ => rfl, fun j hj => absurd hj (Nat.not_lt_zero j)⟩
  | cons v vs ih =>
    intro s hlen hroom
    simp only [List.length_cons] at hroom
    have hb : s.bufferIndex < DB_DW_BUFFER_SIZE := by omega
    have hbuf : (pushWord v s).buffer = s.buffer.set s.bufferIndex v := by
      simp only [pushWord, hb, if_true]
    have hidx : (pushWord v s).bufferIndex = s.bufferIndex + 1 := rfl
    obtain ⟨h1, h2, h3, h4, h5, h6⟩ := ih (pushWord v s)
      (by rw [hbuf, List.length_set]; exact hlen) (by rw [hidx]; omega)
    rw [pushWords_cons]
    refine ⟨by rw [h1, hidx, List.length_cons]; omega, h2, h3, h4, ?_, ?_⟩
    · intro i hi
      rw [h5 i (by rw [hidx]; omega), hbuf, getD_set_ne _ _ _ _ _ (by omega)]
    · intro j hj
      cases j with
      | zero =>
        rw [Nat.add_zero, h5 _ (by rw [hidx]; omega), hbuf,
          getD_set_self _ _ _ _ (by rw [hlen]; exact hb)]
        rfl
      | succ j =>
        have := h6 j (by simp only [List.length_cons] at hj; omega)
        rw [hidx] at this
        have e : s.bufferIndex + (j + 1) = s.bufferIndex + 1 + j := by omega
        rw [e, this]
        simp

theorem cstr_length_le (l : List Char) : (cstr l).length ≤ l.length := by
  induction l with
  | nil => simp [cstr]
  | cons c cs ih =>
    by_cases h : c = NUL
    · simp [cstr, h]
    · simp only [cstr, h, if_false, List.length_cons]
      omega

theorem item_text_pos (x : DwItem) (h : x.ok = true) : 0 < x.text.length := by
  cases x with
  | lit w =>
    simp only [DwItem.ok, Bool.and_eq_true] at h
    exact (decimal_head_isdigit w h.1).2
  | ident w => exact (ident_chars w h).2.1

theorem length_le_dwText (xs : List DwItem) (h : ∀ x ∈ xs, x.ok = true) :
    xs.length ≤ (dwText xs).length := by
  induction xs with
  | nil => simp
  | cons x rest ih =>
    have hx := item_text_pos x (h x (List.mem_cons_self _ _))
    have hr := ih (fun y hy => h y (List.mem_cons_of_mem _ hy))
    rw [dwText_cons]
    by_cases hn : rest = []
    · subst hn
      simp only [List.length_cons, List.length_nil, if_true, List.append_nil]
      omega
    · rw [if_neg hn]
      simp only [List.length_cons, List.length_append]
      omega
/-- The scanner `parseDW2` in pass 2 on an operand that is a list of
well-formed elements. -/
theorem parseDW2_items (k : Nat) (s : Asm) (items : List DwItem)
    (hpass : s.pass = 2) (hword : s.word k = dwText items) (hne : items ≠ [])
    (hn : items.length ≤ DB_DW_BUFFER_SIZE) (hok : ∀ x ∈ items, x.ok = true)
    (hlab : labelsOk s) :
    ((∀ x ∈ items, (x.value s.labels).isSome = true) →
      parseDW2 k s = pushWords (items.map (fun x => (x.value s.labels).getD 0))
        { s with bufferIndex := 0 }) ∧
    ((∃ x ∈ items, x.value s.labels = none) →
      (parseDW2 k s).bufferIndex = 0 ∧
      (parseDW2 k s).errorCount = s.errorCount + 1 ∧
      (parseDW2 k s).log = s.log ++ [Out.err s.currentLine Msg.failedResolve] ∧
      (parseDW2 k s).frame = s.frame) := by
  have hfuel : items.length ≤ s.line.length + 1 := by
    have h1 := length_le_dwText items hok
    have h2 : (dwText items).length ≤ s.line.length := by
      rw [← hword]
      unfold Asm.word cstrAt
      refine Nat.le_trans (cstr_length_le _) ?_
      simp only [List.length_drop]
      omega
    omega
  unfold parseDW2
  exact parseDW2Loop_items items (s.line.length + 1) (s.words.getD k 0)
    { s with bufferIndex := 0 } hne hpass hword hok hlab hfuel
    (by simp only [Nat.zero_add]; exact hn)

/-- C17.  `DW` in pass 2 on a list of elements, without DUP.  Let the operand of
`DW` be the elements `items`, from 1 to 256 of them, with commas between them,
each a decimal literal below 65536 or an identifier (a letter, then any
characters but a comma), in a state whose table of labels holds names of 1 to
63 characters, and let `currentAddress + n <= memorySize` for the number `n` of
elements.  If every identifier is a declared label, `DW` reports no error,
stores at `currentAddress + j` the value of the element number `j`, the value
of the literal or the address of the label, for every `j < n`, leaves the rest
of the image as it is, and advances `currentAddress` by `n`.  If some identifier
is not declared, `DW` reports the one error "failed to resolve label" and
leaves the image and `currentAddress` as they are. -/
theorem dw_list (s : Asm) (t : Nat) (items : List DwItem)
    (hpass : s.pass = 2) (hcount : s.wordCount = t + 2)
    (hword : s.word (t + 1) = dwText items) (hne : items ≠ [])
    (hn : items.length ≤ DB_DW_BUFFER_SIZE) (hok : ∀ x ∈ items, x.ok = true)
    (hlab : labelsOk s) (hbuf : s.buffer.length = DB_DW_BUFFER_SIZE)
    (hfit : s.currentAddress + items.length ≤ s.memorySize)
    (hmem : s.memorySize ≤ s.memoryImage.length) :
    ((∀ x ∈ items, (x.value s.labels).isSome = true) →
      (parseDW t s).currentAddress = s.currentAddress + items.length ∧
      (parseDW t s).errorCount = s.errorCount ∧
      (∀ j x, items[j]? = some x → ∃ v, x.value s.labels = some v ∧
        (parseDW t s).memoryImage.getD (s.currentAddress + j) 0 = ((v : Nat) : Int)) ∧
      (∀ a, a < s.currentAddress ∨ s.currentAddress + items.length ≤ a →
        (parseDW t s).memoryImage.getD a 0 = s.memoryImage.getD a 0)) ∧
    ((∃ x ∈ items, x.value s.labels = none) →
      (parseDW t s).errorCount = s.errorCount + 1 ∧
      (parseDW t s).log = s.log ++ [Out.err s.currentLine Msg.failedResolve] ∧
      (parseDW t s).memoryImage = s.memoryImage ∧
      (parseDW t s).currentAddress = s.currentAddress) := by
  have hpd := parseDUP_plain t s hcount
  obtain ⟨i1, i2⟩ := parseDW2_items (t + 1) (s.setDup 0) items hpass hword hne hn hok hlab
  have hp : parseDW t s =
      (if (parseDW2 (t + 1) (s.setDup 0)).bufferIndex = 0 then parseDW2 (t + 1) (s.setDup 0)
       else if (parseDW2 (t + 1) (s.setDup 0)).dup > 0 ∧
          (parseDW2 (t + 1) (s.setDup 0)).bufferIndex > 1 then
         (parseDW2 (t + 1) (s.setDup 0)).error Msg.dwSingleWord
       else dwEmit (duplicate (parseDW2 (t + 1) (s.setDup 0)))) := by
    unfold parseDW
    rw [if_neg (by omega), hpd]
  rw [hp]
  refine ⟨fun hall => ?_, fun hex => ?_⟩
  · have hS := i1 hall
    obtain ⟨q1, q2, q3, _, _, q6⟩ := pushWords_spec
      (items.map (fun x => (x.value s.labels).getD 0))
      ({ s.setDup 0 with bufferIndex := 0 } : Asm) hbuf
      (by simp only [List.length_map, Nat.zero_add]; exact hn)
    have q1 : (parseDW2 (t + 1) (s.setDup 0)).bufferIndex = items.length := by
      rw [hS]
      refine Eq.trans q1 ?_
      rw [List.length_map]
      exact Nat.zero_add _
    have q2 : (parseDW2 (t + 1) (s.setDup 0)).frame = (s.setDup 0).frame := by
      rw [hS]; exact q2
    have q3 : (parseDW2 (t + 1) (s.setDup 0)).errorCount = s.errorCount := by
      rw [hS]; exact q3
    have q6 : ∀ j, j < items.length →
        (parseDW2 (t + 1) (s.setDup 0)).buffer.getD j 0
          = (items.map (fun x => (x.value s.labels).getD 0)).getD j 0 := by
      intro j hj
      have := q6 j (by rw [List.length_map]; exact hj)
      have e : ({ s.setDup 0 with bufferIndex := 0 } : Asm).bufferIndex + j = j := Nat.zero_add j
      rw [e] at this
      rw [hS]
      exact this
    clear hS
    obtain ⟨f1, f2, f3, f4, _⟩ := frame_fields q2
    generalize parseDW2 (t + 1) (s.setDup 0) = S at *
    have hpos : 0 < items.length := by
      cases items with
      | nil => exact absurd rfl hne
      | cons x xs => simp
    have hdup : S.dup = 0 := f4
    have hdupl : duplicate S = S := by
      unfold duplicate
      rw [hdup]
      simp
    have hb0 : ¬ (S.bufferIndex = 0) := by omega
    have hd0 : ¬ (S.dup > 0 ∧ S.bufferIndex > 1) := by rw [hdup]; simp
    rw [if_neg hb0, if_neg hd0, hdupl]
    have fm : S.memorySize = s.memorySize := f1
    have fi : S.memoryImage = s.memoryImage := f2
    have fc : S.currentAddress = s.currentAddress := f3
    obtain ⟨g1, g2, g3, g4⟩ := dwEmit_spec S items.length q1
      (by simp only [DB_DW_BUFFER_SIZE] at hn; exact hn)
      (by rw [fc, fm]; exact hfit) (by rw [fm, fi]; exact hmem)
    rw [fc] at g1 g3 g4
    rw [fi] at g4
    refine ⟨g1, by rw [g2, q3], ?_, g4⟩
    intro j x hj
    have hjlt : j < items.length := by
      by_contra hge
      rw [List.getElem?_eq_none (by omega)] at hj
      exact absurd hj (by simp)
    have hx : x ∈ items := List.getElem?_mem hj
    have hsome := hall x hx
    obtain ⟨v, hv⟩ := Option.isSome_iff_exists.mp hsome
    refine ⟨v, hv, ?_⟩
    rw [g3 j hjlt, q6 j hjlt]
    simp only [List.getD_eq_getElem?_getD, List.getElem?_map, hj, Option.map_some',
      Option.getD_some, hv]
  · obtain ⟨e1, e2, e3, e4⟩ := i2 hex
    obtain ⟨f1, f2, f3, _⟩ := frame_fields e4
    rw [if_pos e1]
    exact ⟨e2, e3, f2, f3⟩

set_option maxRecDepth 100000 in
/-- Witness of C17, all labels declared: the line ` DW 5,A,300,B` with `A` at
7 and `B` at 9 stores 5, 7, 300 and 9 from address 3 on. -/
theorem dw_list_witness :
    (parseDW 0 dwListLine).currentAddress = dwListLine.currentAddress + dwListItems.length ∧
    (parseDW 0 dwListLine).errorCount = dwListLine.errorCount ∧
    (∀ j x, dwListItems[j]? = some x → ∃ v, x.value dwListLine.labels = some v ∧
      (parseDW 0 dwListLine).memoryImage.getD (dwListLine.currentAddress + j) 0
        = ((v : Nat) : Int)) ∧
    (∀ a, a < dwListLine.currentAddress ∨ dwListLine.currentAddress + dwListItems.length ≤ a →
      (parseDW 0 dwListLine).memoryImage.getD a 0 = dwListLine.memoryImage.getD a 0) :=
  (dw_list dwListLine 0 dwListItems (by decide) (by decide) (by decide!) (by decide)
    (by decide) (by decide!) (by decide!) (by decide!) (by decide!) (by decide!)).1 (by decide!)
/-! ## The names in the table of labels -/

theorem parseDB_labels (t : Nat) (s : Asm) : (parseDB t s).labels = s.labels := by
  unfold parseDB
  by_cases hcount : s.wordCount < t + 2
  · rw [if_pos hcount]; rfl
  · rw [if_neg hcount]
    have k1 := (fixed_fields (parseDUP_effect t s).1).2.1
    generalize parseDUP t s = r at *
    obtain ⟨f, s1⟩ := r
    cases f with
    | false => exact k1
    | true =>
      simp only at k1 ⊢
      have k2 : (parseDB2 (t + 1) s1).labels = s1.labels :=
        (frame_fields (parseDB2_frame (t + 1) s1)).2.2.2.2.2.2.1
      generalize parseDB2 (t + 1) s1 = s2 at *
      by_cases h0 : s2.bufferIndex = 0
      · rw [if_pos h0]; exact k2.trans k1
      · rw [if_neg h0]
        by_cases hmany : s2.dup > 0 ∧ s2.bufferIndex > 1
        · rw [if_pos hmany]; exact k2.trans k1
        · rw [if_neg hmany]
          have k3 : (duplicate s2).labels = s2.labels :=
            (frame_fields (duplicate_effect s2).1).2.2.2.2.2.2.1
          have k4 := (fixed_fields (dbEmit_effect (duplicate s2)).1).2.1
          exact ((k4.trans k3).trans k2).trans k1

theorem parseDW_labels (t : Nat) (s : Asm) : (parseDW t s).labels = s.labels := by
  unfold parseDW
  by_cases hcount : s.wordCount < t + 2
  · rw [if_pos hcount]; rfl
  · rw [if_neg hcount]
    have k1 := (fixed_fields (parseDUP_effect t s).1).2.1
    generalize parseDUP t s = r at *
    obtain ⟨f, s1⟩ := r
    cases f with
    | false => exact k1
    | true =>
      simp only at k1 ⊢
      have k2 : (parseDW2 (t + 1) s1).labels = s1.labels :=
        (fixed_fields (parseDW2_effect (t + 1) s1).2.1).2.1
      generalize parseDW2 (t + 1) s1 = s2 at *
      by_cases h0 : s2.bufferIndex = 0
      · rw [if_pos h0]; exact k2.trans k1
      · rw [if_neg h0]
        by_cases hmany : s2.dup > 0 ∧ s2.bufferIndex > 1
        · rw [if_pos hmany]; exact k2.trans k1
        · rw [if_neg hmany]
          have k3 : (duplicate s2).labels = s2.labels :=
            (frame_fields (duplicate_effect s2).1).2.2.2.2.2.2.1
          have k4 := (fixed_fields (dwEmit_effect (duplicate s2)).1).2.1
          exact ((k4.trans k3).trans k2).trans k1

theorem dispatch_labels (t : Nat) (s s1 : Asm) (h : dispatch t s = some s1) :
    s1.labels = s.labels := by
  unfold dispatch at h
  cases hi : getInstruction (s.word t) with
  | some k =>
    rw [hi] at h
    simp only [Option.some.injEq] at h
    subst h
    by_cases hp : s.pass = 2
    · simp only [hp, if_true]
      exact (fixed_fields
        (parseInstruction_effect k (s.wordCount - t - 1) (s.word (t + 1)) s).1).2.1
    · simp only [hp, if_false]
  | none =>
    rw [hi] at h
    simp only at h
    by_cases h1 : s.word t = "ORG".toList
    · rw [if_pos h1] at h
      simp only [Option.some.injEq] at h
      subst h
      exact (fixed_fields (parseORG_effect t s).1).2.1
    · rw [if_neg h1] at h
      by_cases h2 : s.word t = "DB".toList
      · rw [if_pos h2] at h
        simp only [Option.some.injEq] at h
        subst h
        exact parseDB_labels t s
      · rw [if_neg h2] at h
        by_cases h3 : s.word t = "DW".toList
        · rw [if_pos h3] at h
          simp only [Option.some.injEq] at h
          subst h
          exact parseDW_labels t s
        · rw [if_neg h3] at h
          by_cases h4 : s.word t = "NOP".toList
          · rw [if_pos h4] at h
            simp only [Option.some.injEq] at h
            subst h
            exact (fixed_fields (parseNOP_effect t s).1).2.1
          · rw [if_neg h4] at h
            exact absurd h (by simp)

theorem afterLabel_labels (s : Asm) : (afterLabel s).labels = s.labels := by
  unfold afterLabel
  by_cases h1 : s.wordCount > 1
  · rw [if_pos h1]
    cases hd : dispatch 1 s with
    | none => rfl
    | some s1 => exact dispatch_labels 1 s s1 hd
  · rw [if_neg h1]
theorem cstrAt_pos (s : Asm) (p : Nat) (h : s.at p ≠ NUL) : 0 < (cstrAt s.line p).length := by
  by_contra hz
  have h0 : (cstrAt s.line p).length = 0 := by omega
  have := at_cstrAt_end s p
  rw [h0, Nat.add_zero] at this
  exact h this

/-- The name that `firstWordLabel` declares, if it declares one, is the first
word, and its end was found within the first 64 characters. -/
theorem firstWordLabelLoop_labels (fuel i : Nat) (s : Asm) :
    (firstWordLabelLoop fuel i s).2.labels = s.labels ∨
    (∃ j, j < i + fuel ∧ s.at (s.words.getD 0 0 + j) = NUL ∧
      (firstWordLabelLoop fuel i s).2.labels
        = s.labels ++ [label_t.mk (cstr (s.word 0)) s.currentAddress]) := by
  induction fuel generalizing i with
  | zero => exact Or.inl rfl
  | succ n ih =>
    simp only [firstWordLabelLoop]
    by_cases hc : s.at (s.words.getD 0 0 + i) = NUL
    · rw [if_pos hc]
      rcases addLabel_labels (s.word 0) s with ⟨h1, h2⟩ | ⟨h1, _, h3⟩
      · left
        generalize addLabel (s.word 0) s = r at h1 h2
        obtain ⟨ok, s1⟩ := r
        simp only at h1 h2
        subst h1
        exact h2
      · right
        refine ⟨i, by omega, hc, ?_⟩
        generalize addLabel (s.word 0) s = r at h1 h3
        obtain ⟨ok, s1⟩ := r
        simp only at h1 h3
        subst h1
        exact h3
    · rw [if_neg hc]
      by_cases hb : ¬ isalnum (s.at (s.words.getD 0 0 + i)) = true ∧
          s.at (s.words.getD 0 0 + i) ≠ '_'
      · rw [if_pos hb]; exact Or.inl rfl
      · rw [if_neg hb]
        rcases ih (i + 1) with h | ⟨j, hj, h1, h2⟩
        · exact Or.inl h
        · exact Or.inr ⟨j, by omega, h1, h2⟩

theorem firstWordLabel_labelsOk (s : Asm) (h : labelsOk s)
    (hw : s.at (s.words.getD 0 0) ≠ NUL) : labelsOk (firstWordLabel s).2 := by
  unfold firstWordLabel
  split
  · rcases firstWordLabelLoop_labels MAX_LABEL_NAME_LENGTH 0 s with h1 | ⟨j, hj, h1, h2⟩
    · intro l hl
      rw [h1] at hl
      exact h l hl
    · intro l hl
      rw [h2] at hl
      rcases List.mem_append.mp hl with hl | hl
      · exact h l hl
      · simp only [List.mem_singleton] at hl
        subst hl
        simp only [Asm.word, cstrAt, cstr_idem]
        have hlen := cstrAt_length_le s (s.words.getD 0 0) (s.words.getD 0 0 + j)
          (Nat.le_add_right _ _) h1
        have hpos := cstrAt_pos s (s.words.getD 0 0) hw
        simp only [cstrAt] at hlen hpos
        constructor
        · exact hpos
        · omega
  · exact h

theorem assembleLine_labelsOk (s : Asm) (h : labelsOk s)
    (hw : s.at (s.words.getD 0 0) ≠ NUL) : labelsOk (assembleLine s) := by
  have hsame : ∀ a b : Asm, b.labels = a.labels → labelsOk a → labelsOk b := by
    intro a b e ha l hl
    rw [e] at hl
    exact ha l hl
  unfold assembleLine
  cases hd : dispatch 0 s with
  | some s1 => exact hsame s s1 (dispatch_labels 0 s s1 hd) h
  | none =>
    simp only []
    have hpass2 : ∀ s1 : Asm, labelsOk s1 → labelsOk
        (if s1.pass = 2 then
          if (findLabel s1 (s1.word 0)).isSome then afterLabel s1 else s1.error Msg.syntaxError
        else s1.error Msg.syntaxError) := by
      intro s1 h1
      by_cases hp : s1.pass = 2
      · rw [if_pos hp]
        by_cases hf : (findLabel s1 (s1.word 0)).isSome = true
        · rw [if_pos hf]; exact hsame s1 _ (afterLabel_labels s1) h1
        · rw [if_neg hf]; exact h1
      · rw [if_neg hp]; exact h1
    by_cases hp : s.pass = 1
    · rw [if_pos hp]
      have k1 := firstWordLabel_labelsOk s h hw
      generalize firstWordLabel s = r at k1
      obtain ⟨ok, s1⟩ := r
      cases ok with
      | true => exact hsame s1 _ (afterLabel_labels s1) k1
      | false => exact hpass2 s1 k1
    · rw [if_neg hp]; exact hpass2 s h
theorem splitEnd_starts (q : Bool) (s : Asm)
    (hw : ∀ k, k < s.wordCount →
      isspace (s.at (s.words.getD k 0)) = false ∧ s.at (s.words.getD k 0) ≠ NUL) :
    ∀ k, k < (splitEnd q s).wordCount →
      isspace ((splitEnd q s).at ((splitEnd q s).words.getD k 0)) = false ∧
      (splitEnd q s).at ((splitEnd q s).words.getD k 0) ≠ NUL := by
  intro k hk
  unfold splitEnd at hk ⊢
  cases q with
  | true => exact absurd hk (Nat.not_lt_zero k)
  | false => exact hw k hk

/-- Every word that `splitLine` finds starts at a character that is neither a
blank nor the NUL. -/
theorem splitLoop_starts (fuel i : Nat) (nw q : Bool) (s : Asm)
    (hlen : MAX_WORDS_ON_LINE ≤ s.words.length)
    (hw : ∀ k, k < s.wordCount →
      isspace (s.at (s.words.getD k 0)) = false ∧ s.at (s.words.getD k 0) ≠ NUL) :
    ∀ k, k < (splitLoop fuel i nw q s).wordCount →
      isspace ((splitLoop fuel i nw q s).at ((splitLoop fuel i nw q s).words.getD k 0)) = false ∧
      (splitLoop fuel i nw q s).at ((splitLoop fuel i nw q s).words.getD k 0) ≠ NUL := by
  induction fuel generalizing i nw q s with
  | zero => simp only [splitLoop]; exact splitEnd_starts q s hw
  | succ n ih =>
    simp only [splitLoop]
    generalize (if s.at i = QUOTE then !q else q) = q' at *
    by_cases hstop : s.at i = NUL ∨ s.at i = ';'
    · rw [if_pos hstop]; exact splitEnd_starts q s hw
    · rw [if_neg hstop]
      by_cases hnew : nw = true ∧ ¬ isspace (s.at i) = true
      · rw [if_pos hnew]
        by_cases hmax : s.wordCount + 1 > MAX_WORDS_ON_LINE
        · simp only [hmax, if_true]
          intro k hk
          exact absurd hk (Nat.not_lt_zero k)
        · simp only [hmax, if_false]
          apply ih (i + 1) false q'
            { s with words := s.words.set s.wordCount i, wordCount := s.wordCount + 1 }
            (by simp only [List.length_set]; exact hlen)
          intro k hk
          simp only at hk
          show isspace (s.at ((s.words.set s.wordCount i).getD k 0)) = false ∧
            s.at ((s.words.set s.wordCount i).getD k 0) ≠ NUL
          by_cases hkc : s.wordCount = k
          · subst hkc
            rw [getD_set_self _ _ _ _ (by omega)]
            refine ⟨?_, fun h => hstop (Or.inl h)⟩
            cases hsp : isspace (s.at i) with
            | false => rfl
            | true => exact absurd hsp hnew.2
          · rw [getD_set_ne _ _ _ _ _ hkc]
            exact hw k (by omega)
      · rw [if_neg hnew]
        by_cases hsp : ¬ nw = true ∧ isspace (s.at i) = true ∧ ¬ q' = true
        · rw [if_pos hsp]
          apply ih (i + 1) true q' { s with line := s.line.set i NUL } hlen
          intro k hk
          have hk' : k < s.wordCount := hk
          obtain ⟨h1, h2⟩ := hw k hk'
          have hne : i ≠ s.words.getD k 0 := by
            intro e
            rw [← e] at h1
            rw [h1] at hsp
            exact absurd hsp.2.1 (by simp)
          show isspace (({ s with line := s.line.set i NUL } : Asm).at (s.words.getD k 0)) = false ∧
            ({ s with line := s.line.set i NUL } : Asm).at (s.words.getD k 0) ≠ NUL
          rw [at_set_ne s i _ NUL hne]
          exact ⟨h1, h2⟩
        · rw [if_neg hsp]
          exact ih (i + 1) nw q' s hlen hw

theorem splitLine_starts (s : Asm) (hlen : MAX_WORDS_ON_LINE ≤ s.words.length) :
    ∀ k, k < (splitLine s).wordCount →
      (splitLine s).at ((splitLine s).words.getD k 0) ≠ NUL := by
  intro k hk
  exact (splitLoop_starts (strlen s.line) 0 true false { s with wordCount := 0 } hlen
    (fun k hk => absurd hk (Nat.not_lt_zero k)) k hk).2
theorem processLine_labelsOk (s : Asm) (c : List Char) (h : labelsOk s)
    (hlen : MAX_WORDS_ON_LINE ≤ s.words.length) :
    labelsOk (processLine s c) ∧ MAX_WORDS_ON_LINE ≤ (processLine s c).words.length := by
  have hl : (splitLine (fgetsInto c s)).labels = s.labels := by
    have := congrArg Asm.labels (splitLine_effect (fgetsInto c s)).1
    exact this
  have hwl : (splitLine (fgetsInto c s)).words.length = s.words.length :=
    (splitLine_effect (fgetsInto c s)).2.2.1
  have hst := splitLine_starts (fgetsInto c s) hlen
  have h2 : labelsOk (splitLine (fgetsInto c s)) := by
    intro l hm
    rw [hl] at hm
    exact h l hm
  have ka := (assembleLine_kept 0 (splitLine (fgetsInto c s))).2.2.1
  suffices key : labelsOk (if (splitLine (fgetsInto c s)).wordCount > 0
      then assembleLine (splitLine (fgetsInto c s)) else splitLine (fgetsInto c s)) ∧
      MAX_WORDS_ON_LINE ≤ (if (splitLine (fgetsInto c s)).wordCount > 0
      then assembleLine (splitLine (fgetsInto c s)) else splitLine (fgetsInto c s)).words.length
    from key
  generalize splitLine (fgetsInto c s) = s2 at *
  by_cases h0 : s2.wordCount > 0
  · rw [if_pos h0]
    exact ⟨assembleLine_labelsOk s2 h2 (hst 0 h0), by rw [ka, hwl]; exact hlen⟩
  · rw [if_neg h0]
    exact ⟨h2, by rw [hwl]; exact hlen⟩

theorem runPass_labelsOk (chunks : List (List Char)) (s : Asm) (h : labelsOk s)
    (hlen : MAX_WORDS_ON_LINE ≤ s.words.length) :
    labelsOk (runPass s chunks) ∧ MAX_WORDS_ON_LINE ≤ (runPass s chunks).words.length := by
  induction chunks generalizing s with
  | nil => exact ⟨h, hlen⟩
  | cons c rest ih =>
    rw [runPass_cons]
    obtain ⟨h1, h2⟩ := processLine_labelsOk s c h hlen
    exact ih (processLine s c) h1 h2

/-- In every state that the two passes of `assemble` go through, the names of
the table of labels have from 1 to 63 characters. -/
theorem labelsOk_reachable (src : List Char) (memorySize k : Nat) :
    labelsOk (pass1At src memorySize k) ∧ labelsOk (pass2At src memorySize k) := by
  have h0 : labelsOk (pass1Start (Asm.initial memorySize)) := by
    intro l hl
    simp [pass1Start] at hl
  have hw0 : MAX_WORDS_ON_LINE ≤ (pass1Start (Asm.initial memorySize)).words.length := by
    simp only [pass1Start, Asm.initial, List.length_replicate]
    exact Nat.le_refl _
  obtain ⟨e1, e2⟩ := runPass_labelsOk (linesOf src) _ h0 hw0
  refine ⟨(runPass_labelsOk _ _ h0 hw0).1, ?_⟩
  exact (runPass_labelsOk ((linesOf src).take k) (pass2Start (pass1End src memorySize)) e1 e2).1
/-! ## The check of the memory size in `main` -/

theorem lor_one_ne_zero (x : Int) : Int.lor x 1 ≠ 0 := by
  intro h
  have := Int.testBit_lor x 1 0
  rw [h] at this
  have h1 : (1 : Int).testBit 0 = true := by decide
  rw [h1, Bool.or_true] at this
  exact absurd this (by decide)

theorem land_one (n : Nat) : Int.land (n : Int) 1 = ((n % 2 : Nat) : Int) := by
  show ((n &&& 1 : Nat) : Int) = _
  rw [Nat.and_one_is_mod]

theorem lor_zero_right (n : Nat) : Int.lor (n : Int) 0 = n := by
  show ((n ||| 0 : Nat) : Int) = _
  rw [Nat.or_zero]

/-- What the test of `main` on the memory size accepts: every even value from
32 to 4096 that `strtol` read to the end of the argument. -/
theorem memSizeRefused_iff (e : Char) (m : Int) :
    memSizeRefused e m = false ↔ e = NUL ∧ m % 2 = 0 ∧ 32 ≤ m ∧ m ≤ 4096 := by
  unfold memSizeRefused
  simp only [Bool.or_eq_false_iff, bne_eq_false_iff_eq, decide_eq_false_iff_not, not_lt,
    ne_eq, decide_not, Bool.not_eq_false', decide_eq_true_eq, not_not, gt_iff_lt]
  by_cases h32 : m < 32
  · have ht : truth (decide (m < 32)) = 1 := by simp [truth, h32]
    rw [ht]
    constructor
    · rintro ⟨⟨_, h⟩, _⟩
      exact absurd h (lor_one_ne_zero _)
    · rintro ⟨_, _, h, _⟩
      omega
  · have ht : truth (decide (m < 32)) = 0 := by simp [truth, h32]
    have ht1 : truth (!decide (m - 1 = 0)) = 1 := by
      have : m - 1 ≠ 0 := by omega
      simp [truth, this]
    rw [ht, ht1]
    obtain ⟨n, rfl⟩ := Int.eq_ofNat_of_zero_le (show 0 ≤ m by omega)
    rw [land_one, lor_zero_right]
    constructor
    · rintro ⟨⟨h1, h2⟩, h3⟩
      refine ⟨h1, ?_, by omega, h3⟩
      omega
    · rintro ⟨h1, h2, h3, h4⟩
      refine ⟨⟨h1, ?_⟩, h4⟩
      omega

theorem not_power_of_two_34 : ¬ isPowerOfTwo 34 := by
  rintro ⟨n, hn⟩
  by_cases h : n ≤ 5
  · interval_cases n <;> omega
  · have h6 : (2 : Int) ^ 6 ≤ 2 ^ n := pow_le_pow_right₀ (by norm_num) (by omega)
    norm_num at h6
    omega

/-- C23, the failing input.  The test of `main` accepts the memory size 34,
which is not a power of two (it accepts every even value from 32 to 4096, by
`memSizeRefused_iff`); the sizes 33 and 4098 it refuses. -/
theorem memory_size_34_accepted :
    memSizeRefused NUL 34 = false ∧ ¬ isPowerOfTwo 34 ∧
    memSizeRefused NUL 33 = true ∧ memSizeRefused NUL 4098 = true ∧
    memSizeRefused NUL 2048 = false := by
  refine ⟨by decide, not_power_of_two_34, by decide, by decide, by decide⟩

/-! ## A value out of range, and a line with two errors -/

set_option maxRecDepth 100000 in
/-- C22, the failing input.  The program ` LOAD #70000` is assembled without
error for a memory of 32 words, and the word of the memory image at address 1,
the one of the pool of immediates, is 70000, which is above 65535; with
` LOAD #-1` that word is -1. -/
theorem immediate_70000_in_image :
    (assemble bigImmediateSource (Asm.initial 32)).errorCount = 0 ∧
    (assemble bigImmediateSource (Asm.initial 32)).immediates = [immediate_t.mk 70000 1] ∧
    (assemble bigImmediateSource (Asm.initial 32)).memoryImage.getD 1 0 = 70000 ∧
    (assemble negativeImmediateSource (Asm.initial 32)).errorCount = 0 ∧
    (assemble negativeImmediateSource (Asm.initial 32)).memoryImage.getD 1 0 = -1 := by
  decide!

set_option maxRecDepth 100000 in
/-- C24, the failing input.  In pass 1 of the program of the two lines `A` and
`A`, the second line, which declares the label `A` again, raises the count of
errors from 0 to 2: one error for the label and one error "syntax". -/
theorem second_declaration_two_errors :
    (pass1At twiceDeclaredSource 32 1).errorCount = 0 ∧
    (linesOf twiceDeclaredSource).drop 1 = ["A\n".toList] ∧
    (processLine (pass1At twiceDeclaredSource 32 1) "A\n".toList).errorCount = 2 ∧
    (processLine (pass1At twiceDeclaredSource 32 1) "A\n".toList).log
      = [Out.err 2 (Msg.labelDefined "A".toList), Out.err 2 Msg.syntaxError] ∧
    (assemble twiceDeclaredSource (Asm.initial 32)).errorCount = 2 := by
  decide!
/-! ## `DB` operands that are accepted -/

set_option maxRecDepth 100000 in
/-- C26, the failing input.  The statement `DB xhi",5,y"` is assembled without
error for a memory of 32 words: its first element `xhi"` neither is a number
nor begins with a double quote, yet the two words 0x6869 (the characters `h`
and `i`) and 0x0500 are written to the memory image and `currentAddress` ends
at 2. -/
theorem unquoted_db_element_accepted :
    (assemble unquotedDbSource (Asm.initial 32)).errorCount = 0 ∧
    (assemble unquotedDbSource (Asm.initial 32)).log = [] ∧
    (assemble unquotedDbSource (Asm.initial 32)).currentAddress = 2 ∧
    (assemble unquotedDbSource (Asm.initial 32)).memoryImage.take 2 = [0x6869, 0x0500] := by
  decide!

set_option maxRecDepth 100000 in
/-- C28, the failing input.  The statement `DB ""` has the operand word `""`;
in pass 1 it leaves the count of errors, the messages, `currentAddress` and
the memory image as they were, and the whole assembly ends without error and
with `currentAddress` 0. -/
theorem empty_string_db_dropped :
    (splitLine (fgetsInto emptyStringDbSource (pass1Start (Asm.initial 32)))).wordCount = 2 ∧
    (processLine (pass1Start (Asm.initial 32)) emptyStringDbSource).errorCount = 0 ∧
    (processLine (pass1Start (Asm.initial 32)) emptyStringDbSource).log = [] ∧
    (processLine (pass1Start (Asm.initial 32)) emptyStringDbSource).currentAddress = 0 ∧
    (processLine (pass1Start (Asm.initial 32)) emptyStringDbSource).memoryImage
      = (pass1Start (Asm.initial 32)).memoryImage ∧
    (assemble emptyStringDbSource (Asm.initial 32)).errorCount = 0 ∧
    (assemble emptyStringDbSource (Asm.initial 32)).currentAddress = 0 := by
  decide!

/-! ## The addresses of the labels -/

set_option maxRecDepth 100000 in
/-- C21, the counterexample.  Pass 1 of the program ` RETURN` / `END` ends
with no error and with `currentAddress` 1, and the label `END` of its table of
labels has the address 1, which is not below 1. -/
theorem label_at_end_address :
    (pass1End labelAtEndSource 32).errorCount = 0 ∧
    (pass1End labelAtEndSource 32).currentAddress = 1 ∧
    (pass1End labelAtEndSource 32).labels = [label_t.mk "END".toList 1] ∧
    ¬ (∀ l ∈ (pass1End labelAtEndSource 32).labels,
        l.value < (pass1End labelAtEndSource 32).currentAddress) := by
  decide!
theorem labelsBelow.later {a b : Asm} (h : labelsBelow a) (hl : b.labels = a.labels)
    (hc : a.currentAddress ≤ b.currentAddress) : labelsBelow b := by
  intro l hm
  rw [hl] at hm
  exact Nat.le_trans (h l hm) hc

theorem assembleLine_labelsBelow (s : Asm) (h : labelsBelow s) : labelsBelow (assembleLine s) := by
  unfold assembleLine
  cases hd : dispatch 0 s with
  | some s1 => exact h.later (dispatch_labels 0 s s1 hd) (dispatch_stepped 0 0 s s1 hd).1
  | none =>
    simp only []
    have hpass2 : ∀ s1 : Asm, labelsBelow s1 → labelsBelow
        (if s1.pass = 2 then
          if (findLabel s1 (s1.word 0)).isSome then afterLabel s1 else s1.error Msg.syntaxError
        else s1.error Msg.syntaxError) := by
      intro s1 h1
      by_cases hp : s1.pass = 2
      · rw [if_pos hp]
        by_cases hf : (findLabel s1 (s1.word 0)).isSome = true
        · rw [if_pos hf]
          exact h1.later (afterLabel_labels s1) (afterLabel_stepped 0 s1).1
        · rw [if_neg hf]; exact h1
      · rw [if_neg hp]; exact h1
    by_cases hp : s.pass = 1
    · rw [if_pos hp]
      have k1 := firstWordLabel_effect s
      have k2 := (firstWordLabel_wrote s).2.2.2.2.1
      generalize firstWordLabel s = r at k1 k2
      obtain ⟨ok, s1⟩ := r
      cases ok with
      | true =>
        obtain ⟨name, e⟩ := k1.1 rfl
        simp only at e
        have hb : labelsBelow s1 := by
          rw [e]
          intro l hm
          rcases List.mem_append.mp hm with hm | hm
          · exact h l hm
          · simp only [List.mem_singleton] at hm
            subst hm
            exact Nat.le_refl _
        exact hb.later (afterLabel_labels s1) (afterLabel_stepped 0 s1).1
      | false =>
        exact hpass2 s1 (h.later (k1.2 rfl).2.2 k2)
    · rw [if_neg hp]; exact hpass2 s h

theorem processLine_labelsBelow (s : Asm) (c : List Char) (h : labelsBelow s) :
    labelsBelow (processLine s c) := by
  have hl : (splitLine (fgetsInto c s)).labels = s.labels := by
    have := congrArg Asm.labels (splitLine_effect (fgetsInto c s)).1
    exact this
  have hc : s.currentAddress ≤ (splitLine (fgetsInto c s)).currentAddress :=
    (splitLine_wrote (fgetsInto c s)).2.2.2.2.1
  have h2 : labelsBelow (splitLine (fgetsInto c s)) := h.later hl hc
  suffices key : labelsBelow (if (splitLine (fgetsInto c s)).wordCount > 0
      then assembleLine (splitLine (fgetsInto c s)) else splitLine (fgetsInto c s))
    from key
  generalize splitLine (fgetsInto c s) = s2 at *
  by_cases h0 : s2.wordCount > 0
  · rw [if_pos h0]; exact assembleLine_labelsBelow s2 h2
  · rw [if_neg h0]; exact h2

theorem runPass_labelsBelow (chunks : List (List Char)) (s : Asm) (h : labelsBelow s) :
    labelsBelow (runPass s chunks) := by
  induction chunks generalizing s with
  | nil => exact h
  | cons c rest ih =>
    rw [runPass_cons]
    exact ih (processLine s c) (processLine_labelsBelow s c h)

/-- A line declares at most one label, at the `currentAddress` that the line
starts with. -/
theorem assembleLine_declares (s : Asm) :
    (assembleLine s).labels = s.labels ∨
    ∃ name, (assembleLine s).labels = s.labels ++ [label_t.mk name s.currentAddress] := by
  unfold assembleLine
  cases hd : dispatch 0 s with
  | some s1 => exact Or.inl (dispatch_labels 0 s s1 hd)
  | none =>
    simp only []
    have hpass2 : ∀ s1 : Asm,
        (if s1.pass = 2 then
          if (findLabel s1 (s1.word 0)).isSome then afterLabel s1 else s1.error Msg.syntaxError
        else s1.error Msg.syntaxError).labels = s1.labels := by
      intro s1
      by_cases hp : s1.pass = 2
      · rw [if_pos hp]
        by_cases hf : (findLabel s1 (s1.word 0)).isSome = true
        · rw [if_pos hf]; exact afterLabel_labels s1
        · rw [if_neg hf]; rfl
      · rw [if_neg hp]; rfl
    by_cases hp : s.pass = 1
    · rw [if_pos hp]
      have k1 := firstWordLabel_effect s
      generalize firstWordLabel s = r at k1
      obtain ⟨ok, s1⟩ := r
      cases ok with
      | true =>
        obtain ⟨name, e⟩ := k1.1 rfl
        simp only at e
        right
        refine ⟨name, ?_⟩
        show (afterLabel s1).labels = _
        rw [afterLabel_labels, e]
      | false =>
        left
        show (if s1.pass = 2 then
          if (findLabel s1 (s1.word 0)).isSome then afterLabel s1 else s1.error Msg.syntaxError
        else s1.error Msg.syntaxError).labels = s.labels
        rw [hpass2 s1]
        exact (k1.2 rfl).2.2
    · rw [if_neg hp]; exact Or.inl (hpass2 s)

theorem processLine_declares (s : Asm) (c : List Char) :
    (processLine s c).labels = s.labels ∨
    ∃ name, (processLine s c).labels = s.labels ++ [label_t.mk name s.currentAddress] := by
  have hl : (splitLine (fgetsInto c s)).labels = s.labels := by
    have := congrArg Asm.labels (splitLine_effect (fgetsInto c s)).1
    exact this
  have hc : (splitLine (fgetsInto c s)).currentAddress = s.currentAddress := by
    have := congrArg Asm.currentAddress (splitLine_effect (fgetsInto c s)).1
    exact this
  suffices key : (if (splitLine (fgetsInto c s)).wordCount > 0
      then assembleLine (splitLine (fgetsInto c s)) else splitLine (fgetsInto c s)).labels
        = s.labels ∨
      ∃ name, (if (splitLine (fgetsInto c s)).wordCount > 0
        then assembleLine (splitLine (fgetsInto c s)) else splitLine (fgetsInto c s)).labels
          = s.labels ++ [label_t.mk name s.currentAddress] from key
  by_cases h0 : (splitLine (fgetsInto c s)).wordCount > 0
  · rw [if_pos h0]
    rcases assembleLine_declares (splitLine (fgetsInto c s)) with h | ⟨name, h⟩
    · exact Or.inl (h.trans hl)
    · exact Or.inr ⟨name, by rw [h, hl, hc]⟩
  · rw [if_neg h0]; exact Or.inl hl

/-- Every label of the table at the end of a pass was in the table at its
start or was appended by one of its lines, with the `currentAddress` that the
line started with as its address. -/
theorem runPass_declared (chunks : List (List Char)) : ∀ (s : Asm),
    ∀ l ∈ (runPass s chunks).labels, l ∈ s.labels ∨
      ∃ k, k < chunks.length ∧
        (runPass s (chunks.take (k + 1))).labels = (runPass s (chunks.take k)).labels ++ [l] ∧
        l.value = (runPass s (chunks.take k)).currentAddress := by
  induction chunks with
  | nil => intro s l hl; exact Or.inl hl
  | cons c rest ih =>
    intro s l hl
    rw [runPass_cons] at hl
    rcases ih (processLine s c) l hl with h | ⟨k, hk, h1, h2⟩
    · rcases processLine_declares s c with e | ⟨name, e⟩
      · rw [e] at h; exact Or.inl h
      · rw [e] at h
        rcases List.mem_append.mp h with h | h
        · exact Or.inl h
        · simp only [List.mem_singleton] at h
          subst h
          right
          refine ⟨0, by simp, ?_, rfl⟩
          simp only [List.take_succ_cons, List.take_zero, runPass_cons]
          exact e
    · right
      refine ⟨k + 1, by simp only [List.length_cons]; omega, ?_, ?_⟩
      · simp only [List.take_succ_cons, runPass_cons]
        exact h1
      · simp only [List.take_succ_cons, runPass_cons]
        exact h2

theorem runPass_split (chunks : List (List Char)) (s : Asm) (j : Nat) :
    runPass s chunks = runPass (runPass s (chunks.take j)) (chunks.drop j) := by
  unfold runPass
  rw [← List.foldl_append, List.take_append_drop]

theorem runPass_take_le (chunks : List (List Char)) (s : Asm) (j : Nat) :
    (runPass s (chunks.take j)).currentAddress ≤ (runPass s chunks).currentAddress := by
  rw [runPass_split chunks s j]
  exact (runPass_stepped 0 _ _).1

theorem runPass_take_mono (chunks : List (List Char)) (s : Asm) (k j : Nat) (hkj : k ≤ j) :
    (runPass s (chunks.take k)).currentAddress ≤ (runPass s (chunks.take j)).currentAddress := by
  have := runPass_take_le (chunks.take j) s k
  rw [List.take_take, Nat.min_eq_left hkj] at this
  exact this

/-- C21, amended.  For every source text and memory size whose pass 1 ends
with no error, every label of the table of labels was declared by a line `k`
and has the address that `currentAddress` had at the start of that line.  This
address is below `endAddress`, the `currentAddress` at the end of pass 1 (the
value that pass 2 starts `endAddress` with), unless `currentAddress` stays the
same from the start of line `k` to the end of the pass, that is, unless nothing
is emitted on the line of the label or after it: then the address is
`endAddress` itself. -/
theorem labels_below_end_address (src : List Char) (memorySize : Nat)
    (h : (pass1End src memorySize).errorCount = 0) :
    (pass2Start (pass1End src memorySize)).endAddress
      = (pass1End src memorySize).currentAddress ∧
    ∀ l ∈ (pass1End src memorySize).labels,
      ∃ k, k < (linesOf src).length ∧
        (pass1At src memorySize (k + 1)).labels = (pass1At src memorySize k).labels ++ [l] ∧
        l.value = (pass1At src memorySize k).currentAddress ∧
        (l.value < (pass1End src memorySize).currentAddress ∨
          (l.value = (pass1End src memorySize).currentAddress ∧
            ∀ j, k ≤ j → j ≤ (linesOf src).length →
              (pass1At src memorySize j).currentAddress
                = (pass1End src memorySize).currentAddress)) := by
  refine ⟨rfl, fun l hl => ?_⟩
  rcases runPass_declared (linesOf src) (pass1Start (Asm.initial memorySize)) l hl with
    h0 | ⟨k, hk, h1, h2⟩
  · simp [pass1Start] at h0
  · have h2 : l.value = (pass1At src memorySize k).currentAddress := h2
    refine ⟨k, hk, h1, h2, ?_⟩
    have hle : (pass1At src memorySize k).currentAddress
        ≤ (pass1End src memorySize).currentAddress :=
      runPass_take_le (linesOf src) _ k
    by_cases hlt : l.value < (pass1End src memorySize).currentAddress
    · exact Or.inl hlt
    · right
      have he : l.value = (pass1End src memorySize).currentAddress := by
        rw [h2] at hlt ⊢
        omega
      refine ⟨he, fun j hkj hjn => ?_⟩
      have m1 : (pass1At src memorySize k).currentAddress
          ≤ (pass1At src memorySize j).currentAddress :=
        runPass_take_mono (linesOf src) _ k j hkj
      have m2 : (pass1At src memorySize j).currentAddress
          ≤ (pass1End src memorySize).currentAddress :=
        runPass_take_le (linesOf src) _ j
      rw [h2] at he
      omega

set_option maxRecDepth 100000 in
/-- Witness of C21 as amended: the program ` RETURN` / `END`, whose pass 1 ends
with no error. -/
theorem labels_below_end_address_witness :
    (pass1End labelAtEndSource 32).errorCount = 0 ∧
    ∀ l ∈ (pass1End labelAtEndSource 32).labels,
      ∃ k, k < (linesOf labelAtEndSource).length ∧
        (pass1At labelAtEndSource 32 (k + 1)).labels
          = (pass1At labelAtEndSource 32 k).labels ++ [l] ∧
        l.value = (pass1At labelAtEndSource 32 k).currentAddress ∧
        (l.value < (pass1End labelAtEndSource 32).currentAddress ∨
          (l.value = (pass1End labelAtEndSource 32).currentAddress ∧
            ∀ j, k ≤ j → j ≤ (linesOf labelAtEndSource).length →
              (pass1At labelAtEndSource 32 j).currentAddress
                = (pass1End labelAtEndSource 32).currentAddress)) :=
  ⟨by decide!, (labels_below_end_address labelAtEndSource 32 (by decide!)).2⟩
/-! ## `strtol` on a number that a comma follows -/

theorem scanDigits_sep (base : Nat) (a t : List Char) (acc n : Nat) :
    scanDigits base (a ++ ',' :: t) acc n = scanDigits base a acc n := by
  induction a generalizing acc n with
  | nil =>
    rw [List.nil_append, scanDigits_comma]
    rfl
  | cons c cs ih =>
    have e1 : scanDigits base (c :: (cs ++ ',' :: t)) acc n = (match digitVal c with
        | some d => if d < base then scanDigits base (cs ++ ',' :: t) (acc * base + d) (n + 1)
            else (acc, n)
        | none => (acc, n)) := rfl
    have e2 : scanDigits base (c :: cs) acc n = (match digitVal c with
        | some d => if d < base then scanDigits base cs (acc * base + d) (n + 1) else (acc, n)
        | none => (acc, n)) := rfl
    rw [List.cons_append, e1, e2]
    cases digitVal c with
    | none => rfl
    | some d =>
      simp only []
      by_cases hlt : d < base
      · rw [if_pos hlt, if_pos hlt, ih]
      · rw [if_neg hlt, if_neg hlt]

theorem scanNumber_sep (w t : List Char) (hw : w ≠ []) :
    scanNumber (w ++ ',' :: t) = scanNumber w := by
  have hx : ¬ ((',' : Char) = 'x' ∨ (',' : Char) = 'X') := by decide
  have hh : isHexDigit ',' = false := by decide
  match w, hw with
  | [c0], _ =>
    cases t with
    | nil =>
      simp only [scanNumber, List.cons_append, List.nil_append]
      by_cases h0 : c0 = '0'
      · rw [if_pos h0, if_pos h0]
        exact scanDigits_sep 8 [c0] [] 0 0
      · rw [if_neg h0, if_neg h0]
        exact scanDigits_sep 10 [c0] [] 0 0
    | cons r rs =>
      simp only [scanNumber, List.cons_append, List.nil_append, hx, false_and, and_false, if_false]
      by_cases h0 : c0 = '0'
      · rw [if_pos h0, if_pos h0]
        exact scanDigits_sep 8 [c0] (r :: rs) 0 0
      · rw [if_neg h0, if_neg h0]
        exact scanDigits_sep 10 [c0] (r :: rs) 0 0
  | [c0, cx], _ =>
    simp only [scanNumber, List.cons_append, List.nil_append, hh, Bool.false_eq_true, and_false,
      if_false]
    by_cases h0 : c0 = '0'
    · rw [if_pos h0, if_pos h0]
      exact scanDigits_sep 8 [c0, cx] t 0 0
    · rw [if_neg h0, if_neg h0]
      exact scanDigits_sep 10 [c0, cx] t 0 0
  | c0 :: cx :: ch :: r, _ =>
    simp only [scanNumber, List.cons_append]
    by_cases hhex : c0 = '0' ∧ (cx = 'x' ∨ cx = 'X') ∧ isHexDigit ch = true
    · rw [if_pos hhex, if_pos hhex]
      exact scanDigits_sep 16 (ch :: r) t 0 2
    · rw [if_neg hhex, if_neg hhex]
      by_cases h0 : c0 = '0'
      · rw [if_pos h0, if_pos h0]
        exact scanDigits_sep 8 (c0 :: cx :: ch :: r) t 0 0
      · rw [if_neg h0, if_neg h0]
        exact scanDigits_sep 10 (c0 :: cx :: ch :: r) t 0 0

theorem cstr_append_sep (w t : List Char) (hn : ∀ c ∈ w, c ≠ NUL) :
    cstr (w ++ ',' :: t) = w ++ ',' :: cstr t := by
  induction w with
  | nil =>
    have hc : (',' : Char) ≠ NUL := by decide
    simp [cstr, hc]
  | cons c cs ih =>
    have hc : c ≠ NUL := hn c (List.mem_cons_self _ _)
    have e : cstr (c :: (cs ++ ',' :: t)) = c :: cstr (cs ++ ',' :: t) := by
      simp only [cstr, hc, if_false]
    rw [List.cons_append, e, ih (fun d hd => hn d (List.mem_cons_of_mem _ hd)), List.cons_append]

/-- A number that starts with a digit is read by `strtol` in the same way when
a comma follows it. -/
theorem strtol_sep (w t : List Char) (hd : isdigit (w.getD 0 NUL) = true)
    (hn : ∀ c ∈ w, c ≠ NUL) : strtol (w ++ ',' :: t) = strtol w := by
  cases w with
  | nil => exact absurd hd (by decide)
  | cons c cs =>
    have hcd : isdigit c = true := hd
    have hns := isdigit_not_space hcd
    have hm : c ≠ '-' := by
      intro h; subst h; revert hcd; decide
    have hp : c ≠ '+' := by
      intro h; subst h; revert hcd; decide
    have h1 := cstr_append_sep (c :: cs) t hn
    have h2 := cstr_of_no_nul (c :: cs) hn
    have h3 := scanNumber_sep (c :: cs) (cstr t) (by simp)
    simp only [List.cons_append] at h1 h3
    simp only [strtol, List.cons_append, h1, h2, skipSpaces_of_not_space c _ hns, hm, hp,
      if_false, h3]
/-! ## The scanner of `DB` on valid elements -/

theorem pushByte_log (v : Int) (s : Asm) : (pushByte v s).log = s.log := by
  unfold pushByte; split <;> rfl

theorem dbCopyString_log (fuel ptr : Nat) (s : Asm) : (dbCopyString fuel ptr s).2.log = s.log := by
  induction fuel generalizing ptr s with
  | zero => rfl
  | succ n ih =>
    simp only [dbCopyString]
    split
    · rfl
    · rw [ih, pushByte_log]

theorem cstrAt_length_room (s : Asm) (p : Nat) : p + (cstrAt s.line p).length ≤ s.line.length ∨
    (cstrAt s.line p).length = 0 := by
  have h := cstr_length_le (s.line.drop p)
  simp only [List.length_drop] at h
  unfold cstrAt
  omega

theorem set_same (l : List Char) (p : Nat) (c : Char) (h : l.getD p NUL = c) :
    l.set p c = l := by
  induction l generalizing p with
  | nil => rfl
  | cons a as ih =>
    cases p with
    | zero =>
      simp only [List.getD_cons_zero] at h
      rw [List.set_cons_zero, h]
    | succ p =>
      simp only [List.getD_cons_succ] at h
      rw [List.set_cons_succ, ih p h]

/-- The copy loop of `parseDB2` on the characters of a string: it stops at the
closing quote. -/
theorem dbCopyString_text (cs : List Char) : ∀ (fuel ptr : Nat) (s : Asm) (tail : List Char),
    cs.length < fuel → (∀ c ∈ cs, c ≠ QUOTE) →
    cstrAt s.line (ptr + 1) = cs ++ QUOTE :: tail →
    (dbCopyString fuel ptr s).1 = ptr + 1 + cs.length := by
  induction cs with
  | nil =>
    intro fuel ptr s tail hf _ ht
    obtain ⟨f, rfl⟩ : ∃ f, fuel = f + 1 := ⟨fuel - 1, by simp at hf; omega⟩
    have h0 := at_text_next s (ptr + 1) [] QUOTE tail ht
    simp only [List.length_nil, Nat.add_zero] at h0
    simp only [dbCopyString, h0, or_true, if_true, List.length_nil, Nat.add_zero]
  | cons c cs ih =>
    intro fuel ptr s tail hf hq ht
    obtain ⟨f, rfl⟩ : ∃ f, fuel = f + 1 := ⟨fuel - 1, by simp at hf; omega⟩
    simp only [List.length_cons] at hf
    have hno := not_nul_of_cstrAt s (ptr + 1) _ ht
    have hc0 : c ≠ NUL := hno c (by simp)
    have hc1 : c ≠ QUOTE := hq c (List.mem_cons_self _ _)
    have h0 : s.at (ptr + 1) = c := by
      have := at_text_next s (ptr + 1) [] c (cs ++ QUOTE :: tail) ht
      simpa using this
    have ht2 : cstrAt (pushByte (charCode c) s).line (ptr + 1 + 1) = cs ++ QUOTE :: tail := by
      rw [pushByte_line]
      have := cstrAt_advance s (ptr + 1) [c] (cs ++ QUOTE :: tail) ht
      simpa using this
    have := ih f (ptr + 1) (pushByte (charCode c) s) tail (by omega)
      (fun d hd => hq d (List.mem_cons_of_mem _ hd)) ht2
    simp only [dbCopyString, h0, hc0, hc1, or_self, if_false]
    rw [this, List.length_cons]
    omega

/-- The string part of `parseDB2` on a string in double quotes that a comma
follows: the scan goes on behind the comma, with nothing but the buffer
changed. -/
theorem dbStringPart_quoted (p : Nat) (s : Asm) (cs more : List Char)
    (hcs : ∀ c ∈ cs, c ≠ QUOTE)
    (ht : cstrAt s.line p = QUOTE :: (cs ++ QUOTE :: ',' :: more)) :
    (dbStringPart p s).2 = some (p + cs.length + 3) ∧
    (dbStringPart p s).1.line = s.line ∧
    (dbStringPart p s).1.errorCount = s.errorCount ∧
    (dbStringPart p s).1.log = s.log ∧
    (dbStringPart p s).1.frame = s.frame := by
  have h0 : s.at p = QUOTE := by
    have := at_text_next s p [] QUOTE _ ht
    simpa using this
  have hset : s.line.set p QUOTE = s.line := set_same s.line p QUOTE h0
  have ht1 : cstrAt s.line (p + 1) = cs ++ QUOTE :: ',' :: more := by
    have := cstrAt_advance s p [QUOTE] _ ht
    simpa using this
  have hroom : cs.length < s.line.length := by
    rcases cstrAt_length_room s (p + 1) with h | h
    · rw [ht1, List.length_append, List.length_cons] at h; omega
    · rw [ht1, List.length_append, List.length_cons] at h; omega
  have hpos := dbCopyString_text cs s.line.length p s (',' :: more) hroom hcs ht1
  obtain ⟨ff, fe, fl⟩ := dbCopyString_frame s.line.length p s
  have flog := dbCopyString_log s.line.length p s
  have e1 : (dbCopyString s.line.length p s).2.at (p + 1 + cs.length) = QUOTE := by
    simp only [Asm.at, fl]
    exact at_text_next s (p + 1) cs QUOTE _ ht1
  have e2 : (dbCopyString s.line.length p s).2.at (p + 1 + cs.length + 1) = ',' := by
    simp only [Asm.at, fl]
    have e : cs ++ QUOTE :: ',' :: more = (cs ++ [QUOTE]) ++ ',' :: more := by simp
    rw [e] at ht1
    have := at_text_next s (p + 1) (cs ++ [QUOTE]) ',' more ht1
    simp only [List.length_append, List.length_singleton, ← Nat.add_assoc] at this
    exact this
  have hs : ({ s with line := s.line } : Asm) = s := rfl
  rw [dbStringPart_eq, hset, hs, hpos, if_pos e1, if_pos e2]
  exact ⟨by simp only [Option.some.injEq]; omega, fl, fe, flog, ff⟩
/-! ## A `DB` element out of range -/

theorem numeral_parts (w : List Char) (h : isNumeral w = true) :
    isdigit (w.getD 0 NUL) = true ∧ (∀ c ∈ w, c ≠ NUL) ∧ (strtol w).2 = w.length ∧
      0 < w.length := by
  simp only [isNumeral, Bool.and_eq_true, List.all_eq_true, bne_iff_ne, ne_eq,
    beq_iff_eq] at h
  obtain ⟨⟨h1, h2⟩, h3⟩ := h
  refine ⟨h1, h2, h3, ?_⟩
  cases w with
  | nil => exact absurd h1 (by decide)
  | cons c cs => simp

/-- What the loop of `parseDB2` reads at a numeric literal that the end of the
operand or a comma follows. -/
theorem at_numeral (s : Asm) (p : Nat) (w tail : List Char) (hw : isNumeral w = true)
    (ht : cstrAt s.line p = w ++ tail) (htail : tail = [] ∨ ∃ more, tail = ',' :: more) :
    isdigit (s.at p) = true ∧ strtol (s.line.drop p) = (numeralValue w, w.length) ∧
    (s.at (p + w.length) = NUL ↔ tail = []) ∧
    (s.at (p + w.length) = NUL ∨ s.at (p + w.length) = ',') := by
  obtain ⟨hd, hn, hfull, hlen⟩ := numeral_parts w hw
  have h0 : s.at p = w.getD 0 NUL := by
    have := at_text s p w tail ht 0 hlen
    rwa [Nat.add_zero] at this
  have hpair : strtol w = (numeralValue w, w.length) := by
    rw [← hfull]
    rfl
  have hs : strtol (s.line.drop p) = (numeralValue w, w.length) := by
    rw [← strtol_cstr]
    have e : cstr (s.line.drop p) = w ++ tail := ht
    rw [e]
    rcases htail with h | ⟨more, h⟩
    · subst h
      rw [List.append_nil, hpair]
    · subst h
      rw [strtol_sep w more hd hn, hpair]
  refine ⟨by rw [h0]; exact hd, hs, ?_, ?_⟩
  · rcases htail with h | ⟨more, h⟩
    · subst h
      have he := at_text_end s p w (by rw [ht, List.append_nil])
      exact ⟨fun _ => rfl, fun _ => he⟩
    · subst h
      have he := at_text_next s p w ',' more ht
      rw [he]
      exact ⟨fun h => absurd h (by decide), fun h => absurd h (by simp)⟩
  · rcases htail with h | ⟨more, h⟩
    · subst h
      exact Or.inl (at_text_end s p w (by rw [ht, List.append_nil]))
    · subst h
      exact Or.inr (at_text_next s p w ',' more ht)

/-- The scan of `parseDB2` over valid elements up to a numeric literal of
value 256 or more that the end of the operand or a comma follows: it ends with
the error "DB value exceeds 255" and an empty buffer. -/
theorem parseDB2Loop_exceeds (w after : List Char) (hw : isNumeral w = true)
    (hv : 256 ≤ numeralValue w) (hafter : after = [] ∨ ∃ more, after = ',' :: more)
    (before : List DbItem) : ∀ (fuel p : Nat) (s : Asm),
    before.length < fuel → (∀ x ∈ before, x.ok = true) →
    cstrAt s.line p = dbLead before ++ (w ++ after) →
    (parseDB2Loop fuel p s).errorCount = s.errorCount + 1 ∧
    (parseDB2Loop fuel p s).log = s.log ++ [Out.err s.currentLine Msg.dbValueExceeds] ∧
    (parseDB2Loop fuel p s).bufferIndex = 0 ∧
    (parseDB2Loop fuel p s).frame = s.frame := by
  induction before with
  | nil =>
    intro fuel p s hf _ ht
    obtain ⟨f, rfl⟩ : ∃ f, fuel = f + 1 := ⟨fuel - 1, by omega⟩
    simp only [dbLead, List.nil_append] at ht
    obtain ⟨a1, a2, _, a4⟩ := at_numeral s p w after hw ht hafter
    have hnot : ¬ (numeralValue w < 256) := by omega
    rw [parseDB2Loop_succ, a2]
    simp only []
    rw [if_pos ⟨a1, a4⟩, if_neg hnot]
    exact ⟨rfl, rfl, rfl, rfl⟩
  | cons x rest ih =>
    intro fuel p s hf hok ht
    obtain ⟨f, rfl⟩ : ∃ f, fuel = f + 1 := ⟨fuel - 1, by omega⟩
    simp only [List.length_cons] at hf
    have hokx := hok x (List.mem_cons_self _ _)
    have hokr : ∀ y ∈ rest, y.ok = true := fun y hy => hok y (List.mem_cons_of_mem _ hy)
    cases x with
    | num v =>
      simp only [DbItem.ok, Bool.and_eq_true, decide_eq_true_eq] at hokx
      have ht1 : cstrAt s.line p = v ++ ',' :: (dbLead rest ++ (w ++ after)) := by
        rw [ht]; simp [dbLead, DbItem.text]
      obtain ⟨a1, a2, a3, a4⟩ := at_numeral s p v _ hokx.1 ht1 (Or.inr ⟨_, rfl⟩)
      have hne : ¬ (s.at (p + v.length) = NUL) := fun h => by
        have := a3.mp h
        simp at this
      rw [parseDB2Loop_succ, a2]
      simp only []
      rw [if_pos ⟨a1, a4⟩, if_pos hokx.2, if_neg hne]
      have ht2 : cstrAt (pushByte (numeralValue v) s).line (p + v.length + 1)
          = dbLead rest ++ (w ++ after) := by
        rw [pushByte_line]
        have e : v ++ ',' :: (dbLead rest ++ (w ++ after))
            = (v ++ [',']) ++ (dbLead rest ++ (w ++ after)) := by simp
        rw [e] at ht1
        have := cstrAt_advance s p _ _ ht1
        simp only [List.length_append, List.length_singleton] at this
        rw [← Nat.add_assoc] at this
        exact this
      obtain ⟨i1, i2, i3, i4⟩ := ih f (p + v.length + 1) (pushByte (numeralValue v) s)
        (by omega) hokr ht2
      have hfr := pushByte_frame (numeralValue v) s
      have hcl := (frame_fields hfr).2.2.2.2.2.2.2.2.2.2
      rw [pushByte_errorCount] at i1
      rw [pushByte_log, hcl] at i2
      exact ⟨i1, i2, i3, i4.trans hfr⟩
    | str cs =>
      simp only [DbItem.ok, List.all_eq_true, Bool.and_eq_true, bne_iff_ne, ne_eq] at hokx
      have ht1 : cstrAt s.line p = QUOTE :: (cs ++ QUOTE :: ',' :: (dbLead rest ++ (w ++ after))) := by
        rw [ht]; simp [dbLead, DbItem.text]
      have h0 : s.at p = QUOTE := by
        have := at_text_next s p [] QUOTE _ ht1
        simpa using this
      have hnd : ¬ (isdigit (s.at p) = true ∧
          (s.at (p + (strtol (s.line.drop p)).2) = NUL ∨
            s.at (p + (strtol (s.line.drop p)).2) = ',')) := by
        rw [h0]
        intro h
        exact absurd h.1 (by decide)
      obtain ⟨q1, q2, q3, q4, q5⟩ := dbStringPart_quoted p s cs _ (fun c hc => (hokx c hc).2) ht1
      rw [parseDB2Loop_succ, if_neg hnd]
      generalize dbStringPart p s = r at q1 q2 q3 q4 q5
      obtain ⟨s1, o⟩ := r
      simp only at q1 q2 q3 q4 q5
      subst q1
      simp only []
      have ht2 : cstrAt s1.line (p + cs.length + 3) = dbLead rest ++ (w ++ after) := by
        rw [q2]
        have e : QUOTE :: (cs ++ QUOTE :: ',' :: (dbLead rest ++ (w ++ after)))
            = (QUOTE :: (cs ++ [QUOTE, ','])) ++ (dbLead rest ++ (w ++ after)) := by simp
        rw [e] at ht1
        have := cstrAt_advance s p _ _ ht1
        simp only [List.length_append, List.length_cons, List.length_nil] at this
        rw [show p + (cs.length + (0 + 1 + 1) + 1) = p + cs.length + 3 by omega] at this
        exact this
      obtain ⟨i1, i2, i3, i4⟩ := ih f (p + cs.length + 3) s1 (by omega) hokr ht2
      have hcl := (frame_fields q5).2.2.2.2.2.2.2.2.2.2
      rw [q3] at i1
      rw [q4, hcl] at i2
      exact ⟨i1, i2, i3, i4.trans q5⟩
theorem length_le_dbLead (before : List DbItem) : before.length ≤ (dbLead before).length := by
  induction before with
  | nil => exact Nat.le_refl _
  | cons x rest ih =>
    simp only [dbLead, List.length_cons, List.length_append]
    omega

theorem parseDUP_accepts (t : Nat) (s : Asm) (h : (parseDUP t s).1 = true) :
    (∃ d, parseDUP t s = (true, s.setDup d)) ∧ t + 2 ≤ s.wordCount := by
  unfold parseDUP at h ⊢
  by_cases h2 : s.wordCount = t + 2
  · rw [if_pos h2]
    exact ⟨⟨0, rfl⟩, by omega⟩
  · rw [if_neg h2] at h ⊢
    by_cases h4 : s.wordCount = t + 4 ∧ s.word (t + 2) = "DUP".toList
    · rw [if_pos h4] at h ⊢
      refine ⟨?_, by omega⟩
      generalize strtol (s.word (t + 3)) = r at h ⊢
      obtain ⟨d, n⟩ := r
      simp only at h ⊢
      by_cases he : (s.word (t + 3)).getD n NUL = NUL
      · rw [if_pos he] at h ⊢
        by_cases hl : dupTooLarge d = true
        · rw [if_pos hl] at h
          exact absurd h (by simp)
        · rw [if_neg hl]
          exact ⟨d, rfl⟩
      · rw [if_neg he] at h
        exact absurd h (by simp)
    · rw [if_neg h4] at h
      exact absurd h (by simp)

/-- C25.  A `DB` statement, in any state and in either pass, whose operand
(the word after `DB`) is a list of valid elements, each followed by a comma
(numeric literals of value below 256 and strings in double quotes), then a
numeric literal `w` of value 256 or more, then the end of the operand or a
comma and whatever follows; the words behind the operand are none, or a `DUP`
part that `parseDUP` accepts.  The statement ends with the one error "DB value
exceeds 255": the count of errors is one higher, the memory image and
`currentAddress` are as before. -/
theorem db_value_exceeds (s : Asm) (t : Nat) (before : List DbItem) (w after : List Char)
    (hdup : (parseDUP t s).1 = true)
    (hok : ∀ x ∈ before, x.ok = true) (hw : isNumeral w = true) (hv : 256 ≤ numeralValue w)
    (hafter : after = [] ∨ ∃ more, after = ',' :: more)
    (hword : s.word (t + 1) = dbLead before ++ (w ++ after)) :
    (parseDB t s).errorCount = s.errorCount + 1 ∧
    (parseDB t s).log = s.log ++ [Out.err s.currentLine Msg.dbValueExceeds] ∧
    (parseDB t s).memoryImage = s.memoryImage ∧
    (parseDB t s).currentAddress = s.currentAddress := by
  obtain ⟨⟨d, hd⟩, hcount⟩ := parseDUP_accepts t s hdup
  have hfuel : before.length < s.line.length + 1 := by
    have h1 := length_le_dbLead before
    have h2 : (dbLead before).length ≤ (s.word (t + 1)).length := by
      rw [hword, List.length_append]; omega
    rcases cstrAt_length_room s (s.words.getD (t + 1) 0) with h | h
    · have : (s.word (t + 1)).length = (cstrAt s.line (s.words.getD (t + 1) 0)).length := rfl
      omega
    · have : (s.word (t + 1)).length = (cstrAt s.line (s.words.getD (t + 1) 0)).length := rfl
      omega
  have key := parseDB2Loop_exceeds w after hw hv hafter before (s.line.length + 1)
    (s.words.getD (t + 1) 0) { s.setDup d with bufferIndex := 0 } hfuel hok hword
  have hS : parseDB2 (t + 1) (s.setDup d) = parseDB2Loop (s.line.length + 1)
      (s.words.getD (t + 1) 0) { s.setDup d with bufferIndex := 0 } := rfl
  rw [← hS] at key
  obtain ⟨k1, k2, k3, k4⟩ := key
  have hf := frame_fields k4
  have hres : parseDB t s = parseDB2 (t + 1) (s.setDup d) := by
    unfold parseDB
    rw [if_neg (by omega), hd]
    simp only []
    rw [if_pos k3]
  rw [hres]
  exact ⟨k1, k2, hf.2.1, hf.2.2.1⟩

set_option maxRecDepth 100000 in
/-- Witness of C25: in the line ` DB 1,"ab",0x100,7` the elements `1` and
`"ab"` are valid and the literal `0x100` has the value 256. -/
theorem db_value_exceeds_witness :
    (parseDB 0 dbRangeLine).errorCount = dbRangeLine.errorCount + 1 ∧
    (parseDB 0 dbRangeLine).log
      = dbRangeLine.log ++ [Out.err dbRangeLine.currentLine Msg.dbValueExceeds] ∧
    (parseDB 0 dbRangeLine).memoryImage = dbRangeLine.memoryImage ∧
    (parseDB 0 dbRangeLine).currentAddress = dbRangeLine.currentAddress :=
  db_value_exceeds dbRangeLine 0 [DbItem.num "1".toList, DbItem.str "ab".toList]
    "0x100".toList ",7".toList (by decide!) (by decide!) (by decide!) (by decide!)
    (Or.inr ⟨"7".toList, rfl⟩) (by decide!)
/-! ## Where the passes store -/

theorem storeLoopStores_lt (n : Nat) : ∀ (a x : Nat), x ∈ storeLoopStores n a → x < a + n := by
  induction n with
  | zero => intro a x hx; simp [storeLoopStores] at hx
  | succ n ih =>
    intro a x hx
    simp only [storeLoopStores, List.mem_cons] at hx
    rcases hx with h | h
    · omega
    · have := ih (a + 1) x h
      omega

theorem dbEmitStores_lt (s : Asm) : ∀ x ∈ dbEmitStores s, x < (dbEmit s).currentAddress := by
  intro x hx
  unfold dbEmitStores at hx
  unfold dbEmit
  by_cases h1 : s.bufferIndex > DB_DW_BUFFER_SIZE
  · rw [if_pos h1] at hx; simp at hx
  · rw [if_neg h1] at hx ⊢
    simp only [] at hx ⊢
    by_cases h2 : (padBuffer s).currentAddress + (padBuffer s).bufferIndex / 2
        > (padBuffer s).memorySize
    · rw [if_pos h2] at hx; simp at hx
    · rw [if_neg h2] at hx ⊢
      rw [(dbStoreLoop_spec _ 0 (padBuffer s)).1]
      exact storeLoopStores_lt _ _ x hx

theorem dwEmitStores_lt (s : Asm) : ∀ x ∈ dwEmitStores s, x < (dwEmit s).currentAddress := by
  intro x hx
  unfold dwEmitStores at hx
  unfold dwEmit
  by_cases h1 : s.bufferIndex > DB_DW_BUFFER_SIZE
  · rw [if_pos h1] at hx; simp at hx
  · rw [if_neg h1] at hx ⊢
    by_cases h2 : s.currentAddress + s.bufferIndex > s.memorySize
    · rw [if_pos h2] at hx; simp at hx
    · rw [if_neg h2] at hx ⊢
      rw [(dwStoreLoop_spec _ 0 s).1]
      exact storeLoopStores_lt _ _ x hx

theorem parseDBStores_lt (t : Nat) (s : Asm) :
    ∀ x ∈ parseDBStores t s, x < (parseDB t s).currentAddress := by
  intro x hx
  unfold parseDBStores at hx
  unfold parseDB
  by_cases hcount : s.wordCount < t + 2
  · rw [if_pos hcount] at hx; simp at hx
  · rw [if_neg hcount] at hx ⊢
    generalize parseDUP t s = r at hx ⊢
    obtain ⟨f, s1⟩ := r
    cases f with
    | false => simp at hx
    | true =>
      simp only [] at hx ⊢
      generalize parseDB2 (t + 1) s1 = s2 at hx ⊢
      by_cases h0 : s2.bufferIndex = 0
      · rw [if_pos h0] at hx; simp at hx
      · rw [if_neg h0] at hx ⊢
        by_cases hmany : s2.dup > 0 ∧ s2.bufferIndex > 1
        · rw [if_pos hmany] at hx; simp at hx
        · rw [if_neg hmany] at hx ⊢
          exact dbEmitStores_lt _ x hx

theorem parseDWStores_lt (t : Nat) (s : Asm) :
    ∀ x ∈ parseDWStores t s, x < (parseDW t s).currentAddress := by
  intro x hx
  unfold parseDWStores at hx
  unfold parseDW
  by_cases hcount : s.wordCount < t + 2
  · rw [if_pos hcount] at hx; simp at hx
  · rw [if_neg hcount] at hx ⊢
    generalize parseDUP t s = r at hx ⊢
    obtain ⟨f, s1⟩ := r
    cases f with
    | false => simp at hx
    | true =>
      simp only [] at hx ⊢
      generalize parseDW2 (t + 1) s1 = s2 at hx ⊢
      by_cases h0 : s2.bufferIndex = 0
      · rw [if_pos h0] at hx; simp at hx
      · rw [if_neg h0] at hx ⊢
        by_cases hmany : s2.dup > 0 ∧ s2.bufferIndex > 1
        · rw [if_pos hmany] at hx; simp at hx
        · rw [if_neg hmany] at hx ⊢
          exact dwEmitStores_lt _ x hx

theorem parseNOPStores_lt (t : Nat) (s : Asm) :
    ∀ x ∈ parseNOPStores t s, x < (parseNOP t s).currentAddress := by
  intro x hx
  unfold parseNOPStores at hx
  unfold parseNOP
  by_cases h : t + 1 ≠ s.wordCount
  · rw [if_pos h] at hx; simp at hx
  · rw [if_neg h] at hx ⊢
    simp only [List.mem_singleton] at hx
    subst hx
    exact Nat.lt_succ_self _

theorem resolveImmediateStores_lt (v : Int) (s : Asm) :
    ∀ x ∈ resolveImmediateStores v s, x < s.memorySize := by
  intro x hx
  unfold resolveImmediateStores at hx
  cases hf : findImmediate s.immediates v with
  | some a => rw [hf] at hx; simp at hx
  | none =>
    rw [hf] at hx
    simp only [] at hx
    by_cases h1 : s.numImmediates ≥ MAX_IMMEDIATES
    · rw [if_pos h1] at hx; simp at hx
    · rw [if_neg h1] at hx
      by_cases h2 : s.endAddress < s.memorySize
      · rw [if_pos h2] at hx
        simp only [List.mem_singleton] at hx
        subst hx
        exact h2
      · rw [if_neg h2] at hx; simp at hx

theorem parseOperandStores_lt (operand : List Char) (s : Asm) :
    ∀ x ∈ parseOperandStores operand s, x < s.memorySize := by
  intro x hx
  unfold parseOperandStores at hx
  simp only [] at hx
  have hat : x ∈ (if operand.getD 0 NUL = '@' then
      match findLabel s (operand.drop 1) with
      | some value => resolveImmediateStores value s
      | none => []
    else []) → x < s.memorySize := by
    intro h
    by_cases ha : operand.getD 0 NUL = '@'
    · rw [if_pos ha] at h
      cases hl : findLabel s (operand.drop 1) with
      | none => rw [hl] at h; simp at h
      | some value => rw [hl] at h; exact resolveImmediateStores_lt _ s x h
    · rw [if_neg ha] at h; simp at h
  by_cases hh : operand.getD 0 NUL = '#'
  · rw [if_pos hh] at hx
    cases hg : getImmediateValue (operand.drop 1) with
    | none => rw [hg] at hx; exact hat hx
    | some value => rw [hg] at hx; exact resolveImmediateStores_lt _ s x hx
  · rw [if_neg hh] at hx
    exact hat hx
theorem parseInstructionStores_lt (k n : Nat) (operand : List Char) (s : Asm) :
    ∀ x ∈ parseInstructionStores k n operand s, x < s.memorySize ∨ x < s.currentAddress + 1 := by
  intro x hx
  unfold parseInstructionStores at hx
  by_cases h1 : k = 15 ∧ n > 0
  · rw [if_pos h1] at hx; simp at hx
  · rw [if_neg h1] at hx
    by_cases h2 : k ≠ 15 ∧ n ≠ 1
    · rw [if_pos h2] at hx; simp at hx
    · rw [if_neg h2] at hx
      rcases List.mem_append.mp hx with h | h
      · by_cases hn : n ≠ 0
        · rw [if_pos hn] at h
          exact Or.inl (parseOperandStores_lt operand s x h)
        · rw [if_neg hn] at h; simp at h
      · simp only [List.mem_singleton] at h
        right
        by_cases hn : n ≠ 0
        · rw [if_pos hn] at h
          rw [h, (parseOperand_effect (k <<< 12) operand s).2.2.1]
          exact Nat.lt_succ_self _
        · rw [if_neg hn] at h
          rw [h]
          exact Nat.lt_succ_self _

theorem dispatchStores_none (t : Nat) (s : Asm) (h : dispatch t s = none) :
    dispatchStores t s = [] := by
  unfold dispatch at h
  unfold dispatchStores
  cases hi : getInstruction (s.word t) with
  | some k => rw [hi] at h; simp at h
  | none =>
    rw [hi] at h
    simp only [] at h ⊢
    by_cases h1 : s.word t = "ORG".toList
    · rw [if_pos h1]
    · rw [if_neg h1] at h ⊢
      by_cases h2 : s.word t = "DB".toList
      · rw [if_pos h2] at h; simp at h
      · rw [if_neg h2] at h ⊢
        by_cases h3 : s.word t = "DW".toList
        · rw [if_pos h3] at h; simp at h
        · rw [if_neg h3] at h ⊢
          by_cases h4 : s.word t = "NOP".toList
          · rw [if_pos h4] at h; simp at h
          · rw [if_neg h4]

theorem dispatchStores_lt (t : Nat) (s s1 : Asm) (h : dispatch t s = some s1) :
    ∀ x ∈ dispatchStores t s, x < s.memorySize ∨ x < s1.currentAddress := by
  intro x hx
  unfold dispatch at h
  unfold dispatchStores at hx
  cases hi : getInstruction (s.word t) with
  | some k =>
    rw [hi] at h hx
    simp only [Option.some.injEq] at h hx
    subst h
    by_cases hp : s.pass = 2
    · rw [if_pos hp] at hx
      simp only [hp, if_true]
      rw [(parseInstruction_effect k (s.wordCount - t - 1) (s.word (t + 1)) s).2.2.1]
      exact parseInstructionStores_lt _ _ _ s x hx
    · rw [if_neg hp] at hx; simp at hx
  | none =>
    rw [hi] at h hx
    simp only [] at h hx
    by_cases h1 : s.word t = "ORG".toList
    · rw [if_pos h1] at hx; simp at hx
    · rw [if_neg h1] at h hx
      by_cases h2 : s.word t = "DB".toList
      · rw [if_pos h2] at h hx
        simp only [Option.some.injEq] at h
        subst h
        exact Or.inr (parseDBStores_lt t s x hx)
      · rw [if_neg h2] at h hx
        by_cases h3 : s.word t = "DW".toList
        · rw [if_pos h3] at h hx
          simp only [Option.some.injEq] at h
          subst h
          exact Or.inr (parseDWStores_lt t s x hx)
        · rw [if_neg h3] at h hx
          by_cases h4 : s.word t = "NOP".toList
          · rw [if_pos h4] at h hx
            simp only [Option.some.injEq] at h
            subst h
            exact Or.inr (parseNOPStores_lt t s x hx)
          · rw [if_neg h4] at hx; simp at hx

theorem afterLabelStores_lt (s : Asm) :
    ∀ x ∈ afterLabelStores s, x < s.memorySize ∨ x < (afterLabel s).currentAddress := by
  intro x hx
  unfold afterLabelStores at hx
  unfold afterLabel
  by_cases h1 : s.wordCount > 1
  · rw [if_pos h1] at hx ⊢
    cases hd : dispatch 1 s with
    | none => rw [dispatchStores_none 1 s hd] at hx; simp at hx
    | some s1 => exact dispatchStores_lt 1 s s1 hd x hx
  · rw [if_neg h1] at hx; simp at hx

theorem assembleLineStores_lt (s : Asm) :
    ∀ x ∈ assembleLineStores s, x < s.memorySize ∨ x < (assembleLine s).currentAddress := by
  intro x hx
  unfold assembleLineStores at hx
  unfold assembleLine
  cases hd : dispatch 0 s with
  | some s1 =>
    rw [hd] at hx
    exact dispatchStores_lt 0 s s1 hd x hx
  | none =>
    rw [hd] at hx
    simp only [] at hx ⊢
    have hpass2 : ∀ s1 : Asm, x ∈ (if s1.pass = 2 then
          if (findLabel s1 (s1.word 0)).isSome then afterLabelStores s1 else []
        else []) →
        x < s1.memorySize ∨ x < (if s1.pass = 2 then
          if (findLabel s1 (s1.word 0)).isSome then afterLabel s1 else s1.error Msg.syntaxError
        else s1.error Msg.syntaxError).currentAddress := by
      intro s1 h
      by_cases hp : s1.pass = 2
      · rw [if_pos hp] at h ⊢
        by_cases hf : (findLabel s1 (s1.word 0)).isSome = true
        · rw [if_pos hf] at h ⊢
          exact afterLabelStores_lt s1 x h
        · rw [if_neg hf] at h; simp at h
      · rw [if_neg hp] at h; simp at h
    by_cases hp : s.pass = 1
    · rw [if_pos hp] at hx ⊢
      have km := (firstWordLabel_kept 0 s).1
      generalize firstWordLabel s = r at hx km ⊢
      obtain ⟨ok, s1⟩ := r
      simp only at km
      cases ok with
      | true =>
        simp only [] at hx ⊢
        rw [← km]
        exact afterLabelStores_lt s1 x hx
      | false =>
        simp only [] at hx ⊢
        rw [← km]
        exact hpass2 s1 hx
    · rw [if_neg hp] at hx ⊢
      exact hpass2 s hx

theorem processLine_memorySize (s : Asm) (c : List Char) :
    (processLine s c).memorySize = s.memorySize := by
  have k1 := (splitLine_kept 0 (fgetsInto c s)).1
  have k2 := (assembleLine_kept 0 (splitLine (fgetsInto c s))).1
  suffices key : (if (splitLine (fgetsInto c s)).wordCount > 0
      then assembleLine (splitLine (fgetsInto c s)) else splitLine (fgetsInto c s)).memorySize
      = s.memorySize from key
  split
  · exact k2.trans k1
  · exact k1

theorem processLineStores_lt (s : Asm) (c : List Char) :
    ∀ x ∈ processLineStores s c, x < s.memorySize ∨ x < (processLine s c).currentAddress := by
  intro x hx
  unfold processLineStores at hx
  have k1 : (splitLine (fgetsInto c s)).memorySize = s.memorySize :=
    (splitLine_kept 0 (fgetsInto c s)).1
  suffices key : x < s.memorySize ∨ x < (if (splitLine (fgetsInto c s)).wordCount > 0
      then assembleLine (splitLine (fgetsInto c s)) else splitLine (fgetsInto c s)).currentAddress
    from key
  by_cases h0 : (splitLine (fgetsInto c s)).wordCount > 0
  · rw [if_pos h0] at hx ⊢
    rw [← k1]
    exact assembleLineStores_lt _ x hx
  · rw [if_neg h0] at hx; simp at hx

theorem runPass_memorySize (chunks : List (List Char)) (s : Asm) :
    (runPass s chunks).memorySize = s.memorySize := by
  induction chunks generalizing s with
  | nil => rfl
  | cons c rest ih =>
    rw [runPass_cons, ih, processLine_memorySize]

theorem runPassStores_lt (chunks : List (List Char)) (s : Asm) :
    ∀ x ∈ runPassStores s chunks,
      x < s.memorySize ∨ x < (runPass s chunks).currentAddress := by
  induction chunks generalizing s with
  | nil => intro x hx; simp [runPassStores] at hx
  | cons c rest ih =>
    intro x hx
    rw [runPass_cons]
    simp only [runPassStores] at hx
    rcases List.mem_append.mp hx with h | h
    · rcases processLineStores_lt s c x h with h1 | h1
      · exact Or.inl h1
      · exact Or.inr (Nat.lt_of_lt_of_le h1 (runPass_stepped 0 rest (processLine s c)).1)
    · have := ih (processLine s c) x h
      rw [processLine_memorySize] at this
      exact this
/-! ## The stores are all the changes of the memory image -/

theorem storeLoopStores_mem (n : Nat) : ∀ (a x : Nat), a ≤ x → x < a + n →
    x ∈ storeLoopStores n a := by
  induction n with
  | zero => intro a x h1 h2; omega
  | succ n ih =>
    intro a x h1 h2
    simp only [storeLoopStores, List.mem_cons]
    by_cases h : x = a
    · exact Or.inl h
    · exact Or.inr (ih (a + 1) x (by omega) (by omega))

theorem addLabel_image (w : List Char) (s : Asm) :
    (addLabel w s).2.memoryImage = s.memoryImage := by
  unfold addLabel
  split
  · rfl
  · split
    · rfl
    · split
      · rfl
      · split <;> rfl

theorem firstWordLabelLoop_image (fuel i : Nat) (s : Asm) :
    (firstWordLabelLoop fuel i s).2.memoryImage = s.memoryImage := by
  induction fuel generalizing i with
  | zero => rfl
  | succ n ih =>
    simp only [firstWordLabelLoop]
    by_cases hc : s.at (s.words.getD 0 0 + i) = NUL
    · rw [if_pos hc]
      have k1 := addLabel_image (s.word 0) s
      generalize addLabel (s.word 0) s = r at k1
      obtain ⟨ok, s1⟩ := r
      cases ok with
      | true => exact k1
      | false => exact k1
    · rw [if_neg hc]
      split
      · rfl
      · exact ih (i + 1)

theorem firstWordLabel_image (s : Asm) : (firstWordLabel s).2.memoryImage = s.memoryImage := by
  unfold firstWordLabel
  split
  · exact firstWordLabelLoop_image _ _ s
  · rfl

theorem parseORG_image (t : Nat) (s : Asm) : (parseORG t s).memoryImage = s.memoryImage := by
  unfold parseORG
  split
  · rfl
  · simp only []
    split
    · rfl
    · split
      · rfl
      · split <;> rfl

theorem parseDUP_image (t : Nat) (s : Asm) : (parseDUP t s).2.memoryImage = s.memoryImage := by
  unfold parseDUP
  split
  · rfl
  · split
    · simp only []
      split
      · split <;> rfl
      · rfl
    · rfl

theorem dbEmit_unstored (s : Asm) (a : Nat) (h : a ∉ dbEmitStores s) :
    (dbEmit s).memoryImage.getD a 0 = s.memoryImage.getD a 0 := by
  unfold dbEmitStores at h
  unfold dbEmit
  have hp : (padBuffer s).memoryImage = s.memoryImage :=
    (frame_fields (padBuffer_frame s).1).2.1
  by_cases h1 : s.bufferIndex > DB_DW_BUFFER_SIZE
  · rw [if_pos h1]; rfl
  · rw [if_neg h1] at h ⊢
    simp only [] at h ⊢
    by_cases h2 : (padBuffer s).currentAddress + (padBuffer s).bufferIndex / 2
        > (padBuffer s).memorySize
    · rw [if_pos h2]
      show (padBuffer s).memoryImage.getD a 0 = _
      rw [hp]
    · rw [if_neg h2] at h ⊢
      rw [(dbStoreLoop_spec _ 0 (padBuffer s)).2.2.2.1 a, hp]
      by_contra hcon
      exact h (storeLoopStores_mem _ _ a (by omega) (by omega))

theorem dwEmit_unstored (s : Asm) (a : Nat) (h : a ∉ dwEmitStores s) :
    (dwEmit s).memoryImage.getD a 0 = s.memoryImage.getD a 0 := by
  unfold dwEmitStores at h
  unfold dwEmit
  by_cases h1 : s.bufferIndex > DB_DW_BUFFER_SIZE
  · rw [if_pos h1]; rfl
  · rw [if_neg h1] at h ⊢
    by_cases h2 : s.currentAddress + s.bufferIndex > s.memorySize
    · rw [if_pos h2]; rfl
    · rw [if_neg h2] at h ⊢
      rw [(dwStoreLoop_spec _ 0 s).2.2.2.1 a]
      by_contra hcon
      exact h (storeLoopStores_mem _ _ a (by omega) (by omega))

theorem parseDB_unstored (t : Nat) (s : Asm) (a : Nat) (h : a ∉ parseDBStores t s) :
    (parseDB t s).memoryImage.getD a 0 = s.memoryImage.getD a 0 := by
  unfold parseDBStores at h
  unfold parseDB
  by_cases hcount : s.wordCount < t + 2
  · rw [if_pos hcount]; rfl
  · rw [if_neg hcount] at h ⊢
    have k1 := parseDUP_image t s
    generalize parseDUP t s = r at h k1 ⊢
    obtain ⟨f, s1⟩ := r
    simp only at k1
    cases f with
    | false => simp only []; rw [k1]
    | true =>
      simp only [] at h ⊢
      have k2 : (parseDB2 (t + 1) s1).memoryImage = s1.memoryImage :=
        (frame_fields (parseDB2_frame (t + 1) s1)).2.1
      generalize parseDB2 (t + 1) s1 = s2 at h k2 ⊢
      by_cases h0 : s2.bufferIndex = 0
      · rw [if_pos h0, k2, k1]
      · rw [if_neg h0] at h ⊢
        by_cases hmany : s2.dup > 0 ∧ s2.bufferIndex > 1
        · rw [if_pos hmany]
          show s2.memoryImage.getD a 0 = _
          rw [k2, k1]
        · rw [if_neg hmany] at h ⊢
          have k3 : (duplicate s2).memoryImage = s2.memoryImage :=
            (frame_fields (duplicate_effect s2).1).2.1
          rw [dbEmit_unstored _ a h, k3, k2, k1]

theorem parseDW_unstored (t : Nat) (s : Asm) (a : Nat) (h : a ∉ parseDWStores t s) :
    (parseDW t s).memoryImage.getD a 0 = s.memoryImage.getD a 0 := by
  unfold parseDWStores at h
  unfold parseDW
  by_cases hcount : s.wordCount < t + 2
  · rw [if_pos hcount]; rfl
  · rw [if_neg hcount] at h ⊢
    have k1 := parseDUP_image t s
    generalize parseDUP t s = r at h k1 ⊢
    obtain ⟨f, s1⟩ := r
    simp only at k1
    cases f with
    | false => simp only []; rw [k1]
    | true =>
      simp only [] at h ⊢
      have k2 : (parseDW2 (t + 1) s1).memoryImage = s1.memoryImage :=
        (frame_fields (parseDW2_effect (t + 1) s1).1).2.1
      generalize parseDW2 (t + 1) s1 = s2 at h k2 ⊢
      by_cases h0 : s2.bufferIndex = 0
      · rw [if_pos h0, k2, k1]
      · rw [if_neg h0] at h ⊢
        by_cases hmany : s2.dup > 0 ∧ s2.bufferIndex > 1
        · rw [if_pos hmany]
          show s2.memoryImage.getD a 0 = _
          rw [k2, k1]
        · rw [if_neg hmany] at h ⊢
          have k3 : (duplicate s2).memoryImage = s2.memoryImage :=
            (frame_fields (duplicate_effect s2).1).2.1
          rw [dwEmit_unstored _ a h, k3, k2, k1]

theorem parseNOP_unstored (t : Nat) (s : Asm) (a : Nat) (h : a ∉ parseNOPStores t s) :
    (parseNOP t s).memoryImage.getD a 0 = s.memoryImage.getD a 0 := by
  unfold parseNOPStores at h
  unfold parseNOP
  by_cases hc : t + 1 ≠ s.wordCount
  · rw [if_pos hc]; rfl
  · rw [if_neg hc] at h ⊢
    simp only [List.mem_singleton] at h
    exact getD_set_ne _ _ _ _ _ (fun e => h e.symm)

theorem resolveImmediate_unstored (v : Int) (s : Asm) (a : Nat)
    (h : a ∉ resolveImmediateStores v s) :
    (resolveImmediate v s).2.memoryImage.getD a 0 = s.memoryImage.getD a 0 := by
  unfold resolveImmediateStores at h
  unfold resolveImmediate
  cases hf : findImmediate s.immediates v with
  | some x => rfl
  | none =>
    rw [hf] at h
    simp only [] at h ⊢
    by_cases h1 : s.numImmediates ≥ MAX_IMMEDIATES
    · rw [if_pos h1]; rfl
    · rw [if_neg h1] at h ⊢
      by_cases h2 : s.endAddress < s.memorySize
      · rw [if_pos h2] at h
        simp only [List.mem_singleton] at h
        simp only [h2, if_true, Asm.store]
        exact getD_set_ne _ _ _ _ _ (fun e => h e.symm)
      · simp only [h2, if_false]

theorem parseOperand_unstored (i : Nat) (operand : List Char) (s : Asm) (a : Nat)
    (h : a ∉ parseOperandStores operand s) :
    (parseOperand i operand s).2.memoryImage.getD a 0 = s.memoryImage.getD a 0 := by
  unfold parseOperandStores at h
  unfold parseOperand
  simp only [] at h ⊢
  have hlab : (match findLabel s operand with
      | some value => (i ||| value, s)
      | none => (i, s.error Msg.syntaxError)).2.memoryImage.getD a 0 = s.memoryImage.getD a 0 := by
    cases findLabel s operand with
    | none => rfl
    | some value => rfl
  have hat : a ∉ (if operand.getD 0 NUL = '@' then
      match findLabel s (operand.drop 1) with
      | some value => resolveImmediateStores value s
      | none => []
    else []) →
    (if operand.getD 0 NUL = '@' then
        match findLabel s (operand.drop 1) with
        | some value => (i ||| (resolveImmediate value s).1, (resolveImmediate value s).2)
        | none => (match findLabel s operand with
            | some value => (i ||| value, s)
            | none => (i, s.error Msg.syntaxError))
      else (match findLabel s operand with
            | some value => (i ||| value, s)
            | none => (i, s.error Msg.syntaxError))).2.memoryImage.getD a 0
      = s.memoryImage.getD a 0 := by
    intro h'
    by_cases ha : operand.getD 0 NUL = '@'
    · rw [if_pos ha] at h' ⊢
      cases hl : findLabel s (operand.drop 1) with
      | none => exact hlab
      | some value =>
        rw [hl] at h'
        exact resolveImmediate_unstored _ s a h'
    · rw [if_neg ha]; exact hlab
  by_cases hh : operand.getD 0 NUL = '#'
  · rw [if_pos hh] at h ⊢
    cases hg : getImmediateValue (operand.drop 1) with
    | none => rw [hg] at h; exact hat h
    | some value =>
      rw [hg] at h
      exact resolveImmediate_unstored _ s a h
  · rw [if_neg hh] at h ⊢
    exact hat h

theorem parseInstruction_unstored (k n : Nat) (operand : List Char) (s : Asm) (a : Nat)
    (h : a ∉ parseInstructionStores k n operand s) :
    (parseInstruction k n operand s).memoryImage.getD a 0 = s.memoryImage.getD a 0 := by
  unfold parseInstructionStores at h
  unfold parseInstruction
  by_cases h1 : k = 15 ∧ n > 0
  · rw [if_pos h1]; rfl
  · rw [if_neg h1] at h ⊢
    by_cases h2 : k ≠ 15 ∧ n ≠ 1
    · rw [if_pos h2]; rfl
    · rw [if_neg h2] at h ⊢
      simp only [List.mem_append, List.mem_singleton, not_or] at h
      obtain ⟨ha, hb⟩ := h
      simp only []
      by_cases hn : n ≠ 0
      · rw [if_pos hn] at ha hb ⊢
        simp only [Asm.store]
        rw [getD_set_ne _ _ _ _ _ (fun e => hb e.symm)]
        exact parseOperand_unstored _ operand s a ha
      · rw [if_neg hn] at hb ⊢
        simp only [Asm.store]
        exact getD_set_ne _ _ _ _ _ (fun e => hb e.symm)

theorem dispatch_unstored (t : Nat) (s s1 : Asm) (hd : dispatch t s = some s1) (a : Nat)
    (h : a ∉ dispatchStores t s) : s1.memoryImage.getD a 0 = s.memoryImage.getD a 0 := by
  unfold dispatch at hd
  unfold dispatchStores at h
  cases hi : getInstruction (s.word t) with
  | some k =>
    rw [hi] at hd h
    simp only [Option.some.injEq] at hd h
    subst hd
    by_cases hp : s.pass = 2
    · rw [if_pos hp] at h
      simp only [hp, if_true]
      exact parseInstruction_unstored _ _ _ s a h
    · simp only [hp, if_false]
  | none =>
    rw [hi] at hd h
    simp only [] at hd h
    by_cases h1 : s.word t = "ORG".toList
    · rw [if_pos h1] at hd
      simp only [Option.some.injEq] at hd
      subst hd
      rw [parseORG_image]
    · rw [if_neg h1] at hd h
      by_cases h2 : s.word t = "DB".toList
      · rw [if_pos h2] at hd h
        simp only [Option.some.injEq] at hd
        subst hd
        exact parseDB_unstored t s a h
      · rw [if_neg h2] at hd h
        by_cases h3 : s.word t = "DW".toList
        · rw [if_pos h3] at hd h
          simp only [Option.some.injEq] at hd
          subst hd
          exact parseDW_unstored t s a h
        · rw [if_neg h3] at hd h
          by_cases h4 : s.word t = "NOP".toList
          · rw [if_pos h4] at hd h
            simp only [Option.some.injEq] at hd
            subst hd
            exact parseNOP_unstored t s a h
          · rw [if_neg h4] at hd
            exact absurd hd (by simp)

theorem afterLabel_unstored (s : Asm) (a : Nat) (h : a ∉ afterLabelStores s) :
    (afterLabel s).memoryImage.getD a 0 = s.memoryImage.getD a 0 := by
  unfold afterLabelStores at h
  unfold afterLabel
  by_cases h1 : s.wordCount > 1
  · rw [if_pos h1] at h ⊢
    cases hd : dispatch 1 s with
    | none => rfl
    | some s1 => exact dispatch_unstored 1 s s1 hd a h
  · rw [if_neg h1]

theorem assembleLine_unstored (s : Asm) (a : Nat) (h : a ∉ assembleLineStores s) :
    (assembleLine s).memoryImage.getD a 0 = s.memoryImage.getD a 0 := by
  unfold assembleLineStores at h
  unfold assembleLine
  cases hd : dispatch 0 s with
  | some s1 =>
    rw [hd] at h
    exact dispatch_unstored 0 s s1 hd a h
  | none =>
    rw [hd] at h
    simp only [] at h ⊢
    have hpass2 : ∀ s1 : Asm, a ∉ (if s1.pass = 2 then
          if (findLabel s1 (s1.word 0)).isSome then afterLabelStores s1 else []
        else []) →
        (if s1.pass = 2 then
          if (findLabel s1 (s1.word 0)).isSome then afterLabel s1 else s1.error Msg.syntaxError
        else s1.error Msg.syntaxError).memoryImage.getD a 0 = s1.memoryImage.getD a 0 := by
      intro s1 h'
      by_cases hp : s1.pass = 2
      · rw [if_pos hp] at h' ⊢
        by_cases hf : (findLabel s1 (s1.word 0)).isSome = true
        · rw [if_pos hf] at h' ⊢
          exact afterLabel_unstored s1 a h'
        · rw [if_neg hf]; rfl
      · rw [if_neg hp]; rfl
    by_cases hp : s.pass = 1
    · rw [if_pos hp] at h ⊢
      have km := firstWordLabel_image s
      generalize firstWordLabel s = r at h km ⊢
      obtain ⟨ok, s1⟩ := r
      simp only at km
      cases ok with
      | true =>
        simp only [] at h ⊢
        rw [afterLabel_unstored s1 a h, km]
      | false =>
        simp only [] at h ⊢
        rw [hpass2 s1 h, km]
    · rw [if_neg hp] at h ⊢
      exact hpass2 s h

theorem processLine_unstored (s : Asm) (c : List Char) (a : Nat)
    (h : a ∉ processLineStores s c) :
    (processLine s c).memoryImage.getD a 0 = s.memoryImage.getD a 0 := by
  unfold processLineStores at h
  have k1 : (splitLine (fgetsInto c s)).memoryImage = s.memoryImage := by
    have := congrArg Asm.memoryImage (splitLine_effect (fgetsInto c s)).1
    exact this
  suffices key : (if (splitLine (fgetsInto c s)).wordCount > 0
      then assembleLine (splitLine (fgetsInto c s))
      else splitLine (fgetsInto c s)).memoryImage.getD a 0 = s.memoryImage.getD a 0 from key
  by_cases h0 : (splitLine (fgetsInto c s)).wordCount > 0
  · rw [if_pos h0] at h ⊢
    rw [assembleLine_unstored _ a h, k1]
  · rw [if_neg h0, k1]

/-- The stores of `runPassStores` are all the changes that a pass makes to the
memory image: a word whose index is not among them is left as it was. -/
theorem runPass_unstored (chunks : List (List Char)) (s : Asm) (a : Nat)
    (h : a ∉ runPassStores s chunks) :
    (runPass s chunks).memoryImage.getD a 0 = s.memoryImage.getD a 0 := by
  induction chunks generalizing s with
  | nil => rfl
  | cons c rest ih =>
    simp only [runPassStores, List.mem_append, not_or] at h
    rw [runPass_cons, ih (processLine s c) h.2, processLine_unstored s c a h.1]

/-! ## Every store of a run without error is inside the memory -/

/-- C27.  For every source text and every memory size up to 4096 for which
`assemble` ends with no error, every store to the memory image that the two
passes execute (the instruction words, the words of `NOP`, the data of `DB`
and `DW`, the immediates of the pool) has an index from 0 to
`memorySize - 1`.  The stores are those of `assembleStores`, which are all the
changes that a pass makes to the image (`runPass_unstored`); the `memset` that
clears the array between the passes is not among them. -/
theorem stores_within_memory (src : List Char) (memorySize : Nat)
    (hsize : memorySize ≤ MAX_MEMORY_SIZE)
    (h : (assemble src (Asm.initial memorySize)).errorCount = 0) :
    ∀ a ∈ assembleStores src (Asm.initial memorySize), 0 ≤ a ∧ a < memorySize := by
  obtain ⟨h1, h2, _, hfit⟩ := assemble_ok src memorySize h
  rw [pass2End_memorySize] at hfit
  have hend := pass2End_endAddress src memorySize
  have hE : (pass1End src memorySize).currentAddress ≤ memorySize := by omega
  have hcur := (passes_lock src memorySize h1 h2 (linesOf src).length (Nat.le_refl _)).1
  rw [pass1At_length, pass2At_length] at hcur
  have e : assembleStores src (Asm.initial memorySize)
      = runPassStores (pass1Start (Asm.initial memorySize)) (linesOf src) ++
        runPassStores (pass2Start (pass1End src memorySize)) (linesOf src) := by
    unfold pass1End linesOf at h1 ⊢
    simp only [assembleStores, h1, if_true]
  intro a ha
  refine ⟨Nat.zero_le _, ?_⟩
  rw [e] at ha
  rcases List.mem_append.mp ha with hm | hm
  · rcases runPassStores_lt (linesOf src) _ a hm with k | k
    · exact k
    · exact Nat.lt_of_lt_of_le k hE
  · rcases runPassStores_lt (linesOf src) _ a hm with k | k
    · have hms : (pass2Start (pass1End src memorySize)).memorySize = memorySize :=
        (pass1End_fields src memorySize).1
      rw [hms] at k
      exact k
    · have k2 : a < (pass2End src memorySize).currentAddress := k
      rw [← hcur] at k2
      exact Nat.lt_of_lt_of_le k2 hE

set_option maxRecDepth 100000 in
/-- Witness of C27: the program of `mixedSource` is assembled without error
for a memory of 32 words; its passes store at the indexes 0 to 4 in pass 1 and
at 0 to 8 in pass 2. -/
theorem stores_within_memory_witness :
    (assemble mixedSource (Asm.initial 32)).errorCount = 0 ∧
    assembleStores mixedSource (Asm.initial 32) = [0, 1, 2, 3, 4, 0, 1, 2, 3, 4, 7, 5, 8, 6] ∧
    ∀ a ∈ assembleStores mixedSource (Asm.initial 32), 0 ≤ a ∧ a < 32 :=
  ⟨by decide!, by decide!, stores_within_memory mixedSource 32 (by decide) (by decide!)⟩
/-! ## The word of an immediate is written at most once -/

theorem resolveAll_cons (v : Int) (vs : List Int) (s : Asm) :
    resolveAll (v :: vs) s = resolveAll vs (resolveImmediate v s).2 := rfl

theorem resolveImmediate_endAddress_le (v : Int) (s : Asm) :
    s.endAddress ≤ (resolveImmediate v s).2.endAddress := by
  unfold resolveImmediate
  split
  · exact Nat.le_refl _
  · split
    · exact Nat.le_refl _
    · simp only []
      split <;> exact Nat.le_succ _

theorem resolveImmediateStores_eq (v : Int) (s : Asm) :
    ∀ x ∈ resolveImmediateStores v s, x = s.endAddress := by
  intro x hx
  unfold resolveImmediateStores at hx
  cases hf : findImmediate s.immediates v with
  | some a => rw [hf] at hx; simp at hx
  | none =>
    rw [hf] at hx
    simp only [] at hx
    by_cases h1 : s.numImmediates ≥ MAX_IMMEDIATES
    · rw [if_pos h1] at hx; simp at hx
    · rw [if_neg h1] at hx
      by_cases h2 : s.endAddress < s.memorySize
      · rw [if_pos h2] at hx
        simpa using hx
      · rw [if_neg h2] at hx; simp at hx

theorem resolveImmediateStores_found {s : Asm} {v : Int} {a : Nat}
    (h : findImmediate s.immediates v = some a) : resolveImmediateStores v s = [] := by
  simp [resolveImmediateStores, h]

/-- Every store of a sequence of calls of `resolveImmediate` is at the
`endAddress` of the start of the sequence or above it. -/
theorem resolveAllStores_ge (vs : List Int) : ∀ (s : Asm),
    ∀ x ∈ resolveAllStores vs s, s.endAddress ≤ x := by
  induction vs with
  | nil => intro s x hx; simp [resolveAllStores] at hx
  | cons v vs ih =>
    intro s x hx
    simp only [resolveAllStores, List.mem_append] at hx
    rcases hx with h | h
    · rw [resolveImmediateStores_eq v s x h]
    · exact Nat.le_trans (resolveImmediate_endAddress_le v s) (ih _ x h)

theorem resolveAll_unstored (vs : List Int) : ∀ (s : Asm) (a : Nat),
    a ∉ resolveAllStores vs s →
    (resolveAll vs s).memoryImage.getD a 0 = s.memoryImage.getD a 0 := by
  induction vs with
  | nil => intro s a _; rfl
  | cons v vs ih =>
    intro s a h
    simp only [resolveAllStores, List.mem_append, not_or] at h
    rw [resolveAll_cons, ih _ a h.2, resolveImmediate_unstored v s a h.1]

/-- The call of `resolveImmediate(v)` that creates the immediate. -/
theorem resolveImmediate_creates (s : Asm) (v : Int)
    (hnew : findImmediate s.immediates v = none) (hroom : s.numImmediates < MAX_IMMEDIATES) :
    (resolveImmediate v s).1 = s.endAddress ∧
    (resolveImmediate v s).2.endAddress = s.endAddress + 1 ∧
    resolveImmediateStores v s = (if s.endAddress < s.memorySize then [s.endAddress] else []) ∧
    (s.endAddress < s.memorySize → s.endAddress < s.memoryImage.length →
      (resolveImmediate v s).2.memoryImage.getD s.endAddress 0 = v) ∧
    (¬ s.endAddress < s.memorySize →
      (resolveImmediate v s).2.memoryImage = s.memoryImage) := by
  have hr : ¬ s.numImmediates ≥ MAX_IMMEDIATES := by omega
  unfold resolveImmediate resolveImmediateStores
  rw [hnew]
  simp only [hr, if_false]
  by_cases h2 : s.endAddress < s.memorySize
  · simp only [h2, if_true, Asm.store, true_and]
    exact ⟨fun _ hlen => getD_set_self _ _ _ _ hlen, fun h => absurd trivial h⟩
  · simp only [h2, if_false, true_and]
    exact ⟨fun h => absurd h (by simp), fun _ => trivial⟩

set_option maxRecDepth 100000 in
/-- C4, the counterexample.  In a 32-word memory with `endAddress = 32` and an
empty pool (which is below its capacity), `resolveImmediate(5)` returns the
address 32 and stores nothing; after `resolveImmediate(7)` a second
`resolveImmediate(5)` returns 32 again and changes nothing.  The three calls
have no store at all, so the slot 32 is never written, and the memory image is
as it was. -/
theorem immediate_slot_never_written :
    fullMemoryPool.numImmediates < MAX_IMMEDIATES ∧
    (resolveImmediate 5 fullMemoryPool).1 = 32 ∧
    resolveImmediate 5 (resolveAll [7] (resolveImmediate 5 fullMemoryPool).2)
      = (32, resolveAll [7] (resolveImmediate 5 fullMemoryPool).2) ∧
    resolveImmediateStores 5 fullMemoryPool
      ++ resolveAllStores [7] (resolveImmediate 5 fullMemoryPool).2
      ++ resolveImmediateStores 5 (resolveAll [7] (resolveImmediate 5 fullMemoryPool).2) = [] ∧
    (resolveAll [7] (resolveImmediate 5 fullMemoryPool).2).memoryImage
      = fullMemoryPool.memoryImage := by
  decide!

/-- C4, amended.  Immediate dedup, for every pool state, value `v` and further
values `ws`: when `resolveImmediate(v)` has returned an address A (`v` was in
the pool already, or the pool was below its capacity), then after the calls
`resolveImmediate(w)` for the values `ws` a call `resolveImmediate(v)` returns
the same A, changes nothing (pool, `endAddress`, error count, memory image) and
stores nothing.  The calls in between store only at addresses from the
`endAddress` of their start on, so they leave the slot A alone whenever A lies
below that `endAddress`, as it does for a new immediate.  When the first call
creates the immediate, A is the old `endAddress`, and the call stores `v` at A
if A < memorySize and stores nothing otherwise: among all the stores of the
first call, the calls in between and the later call, the slot A occurs exactly
once when A < memorySize, and never when A >= memorySize. -/
theorem immediate_written_once (s : Asm) (v : Int) (ws : List Int)
    (h : (findImmediate s.immediates v).isSome = true ∨ s.numImmediates < MAX_IMMEDIATES) :
    resolveImmediate v (resolveAll ws (resolveImmediate v s).2) =
      ((resolveImmediate v s).1, resolveAll ws (resolveImmediate v s).2) ∧
    resolveImmediateStores v (resolveAll ws (resolveImmediate v s).2) = [] ∧
    ((resolveImmediate v s).1 < (resolveImmediate v s).2.endAddress →
      (resolveImmediate v s).1 ∉ resolveAllStores ws (resolveImmediate v s).2 ∧
      (resolveAll ws (resolveImmediate v s).2).memoryImage.getD (resolveImmediate v s).1 0
        = (resolveImmediate v s).2.memoryImage.getD (resolveImmediate v s).1 0) ∧
    (findImmediate s.immediates v = none →
      (resolveImmediate v s).1 = s.endAddress ∧
      (resolveImmediate v s).2.endAddress = s.endAddress + 1 ∧
      resolveImmediateStores v s = (if s.endAddress < s.memorySize then [s.endAddress] else []) ∧
      (s.endAddress < s.memorySize → s.endAddress < s.memoryImage.length →
        (resolveImmediate v s).2.memoryImage.getD s.endAddress 0 = v ∧
        (resolveAll ws (resolveImmediate v s).2).memoryImage.getD s.endAddress 0 = v) ∧
      (resolveImmediateStores v s ++ resolveAllStores ws (resolveImmediate v s).2 ++
          resolveImmediateStores v (resolveAll ws (resolveImmediate v s).2)).count s.endAddress
        = (if s.endAddress < s.memorySize then 1 else 0)) := by
  have hfound := resolveAll_keeps ws (resolveImmediate_found_after s v h)
  have hlater := resolveImmediateStores_found hfound
  have hfree : (resolveImmediate v s).1 < (resolveImmediate v s).2.endAddress →
      (resolveImmediate v s).1 ∉ resolveAllStores ws (resolveImmediate v s).2 := by
    intro hlt hmem
    have := resolveAllStores_ge ws _ _ hmem
    omega
  refine ⟨immediate_dedup s v ws h, hlater, fun hlt => ⟨hfree hlt, ?_⟩, fun hnew => ?_⟩
  · exact resolveAll_unstored ws _ _ (hfree hlt)
  · have hroom : s.numImmediates < MAX_IMMEDIATES := by
      rcases h with h | h
      · rw [hnew] at h; simp at h
      · exact h
    obtain ⟨c1, c2, c3, c4, _⟩ := resolveImmediate_creates s v hnew hroom
    have hnot : s.endAddress ∉ resolveAllStores ws (resolveImmediate v s).2 := by
      have := hfree (by rw [c1, c2]; exact Nat.lt_succ_self _)
      rw [c1] at this
      exact this
    refine ⟨c1, c2, c3, fun h1 h2 => ⟨c4 h1 h2, ?_⟩, ?_⟩
    · rw [resolveAll_unstored ws _ _ hnot]
      exact c4 h1 h2
    · rw [hlater, List.append_nil, List.count_append, List.count_eq_zero_of_not_mem hnot, c3]
      by_cases h2 : s.endAddress < s.memorySize
      · simp [h2]
      · simp [h2]

/-- Witness of C4 as amended: in the empty pool of a 32-word image with
`endAddress = 3`, the value 5 is resolved, then 7, 5 and 9, then 5 again; the
slot 3 is stored to once. -/
theorem immediate_written_once_witness :
    resolveImmediate 5 (resolveAll [7, 5, 9]
        (resolveImmediate 5 { Asm.initial 32 with endAddress := 3 }).2) =
      ((resolveImmediate 5 { Asm.initial 32 with endAddress := 3 }).1,
        resolveAll [7, 5, 9] (resolveImmediate 5 { Asm.initial 32 with endAddress := 3 }).2) ∧
    (resolveImmediateStores 5 { Asm.initial 32 with endAddress := 3 } ++
        resolveAllStores [7, 5, 9]
          (resolveImmediate 5 { Asm.initial 32 with endAddress := 3 }).2 ++
        resolveImmediateStores 5 (resolveAll [7, 5, 9]
          (resolveImmediate 5 { Asm.initial 32 with endAddress := 3 }).2)).count 3 = 1 :=
  ⟨(immediate_written_once { Asm.initial 32 with endAddress := 3 } 5 [7, 5, 9] (by decide)).1,
   ((immediate_written_once { Asm.initial 32 with endAddress := 3 } 5 [7, 5, 9]
      (by decide)).2.2.2 (by decide)).2.2.2.2⟩

end Pasm
